import Mathlib

/-!
Doubly linked list ADT with registered iterators

A shallow embedding of `doubly_linked_list_adt.c`.

* Node memory is an explicit heap `Mem`: a node address is an index into
  `Mem.cells`, `malloc` takes the next unused index (addresses are never
  handed out twice, so a pointer to a freed node stays recognisable) and
  `free` empties the cell.  Reading or writing through `NULL` or through a
  freed address is undefined behaviour in C and is the result `Res.fault`.
* The `struct DoublyLinkedList_ADT` a handle points to is passed in and out of
  every operation (`list_t.ptr L`); `list_t.NULL` is the null handle and
  `list_t.dangling` a handle whose struct was freed.
* `iteratorsArray`/`iteratorsCount` are one Lean list (the count is its
  length).
* `void*` elements are `Option α` (`none` is `NULL`); the callbacks
  `duplicate`, `is_equal`, `issmaller` are pure functions, `free_data` is
  recorded in `Mem.released`.
* `int` values are `Int`. The ID counter `id_counter` is incremented the way a 32-bit
  `int` is: past `INT_MAX` it continues at `INT_MIN` (`wrapInt`). The counters `size`
  and `iteratorsCount`, bounded by the number of live allocations, are assumed to stay
  in range.
* Loops and the recursive ID search take a step budget `fuel`; `Res.timeout`
  means the budget ran out.
* The reader-writer lock is not modelled (sequential executions only).
-/

namespace DLL

/-! ## Results of running C code -/

/-- Outcome of a run: a value, undefined behaviour, or budget exhausted. -/
inductive Res (β : Type) where
  | ok (val : β)
  | fault
  | timeout
  deriving DecidableEq, Repr

/-- Sequencing of runs. -/
def Res.bind {β γ : Type} : Res β → (β → Res γ) → Res γ
  | .ok b, f => f b
  | .fault, _ => .fault
  | .timeout, _ => .timeout

instance : Monad Res where
  pure := Res.ok
  bind := Res.bind

/-! ## Data model -/

/-- The largest value of an `int` (32 bits). -/
def INT_MAX : Int := 2147483647

/-- The value a 32-bit `int` holds after an arithmetic result `x`: two's complement
wrap-around, as the compiled `id_counter++` shows it. -/
def wrapInt (x : Int) : Int := (x + 2147483648) % 4294967296 - 2147483648

/-- Node pointer: `none` is `NULL`, `some a` the address `a`. -/
abbrev dllnodeptr := Option Nat

/-- The C `struct DoublyLinkedListNode`. -/
structure DoublyLinkedListNode (α : Type) where
  previous : dllnodeptr
  next : dllnodeptr
  data : Option α
  deriving DecidableEq, Repr

/-- The C `struct DoublyLinkedListIterator`. -/
structure dlliterator where
  node : dllnodeptr
  id : Int
  deriving DecidableEq, Repr

/-- The C `struct DoublyLinkedList_ADT` (without the lock). -/
structure DoublyLinkedList_ADT where
  head : dllnodeptr
  tail : dllnodeptr
  size : Int
  iteratorsArray : List dlliterator
  id_counter : Int
  deriving DecidableEq, Repr

/-- The field `iteratorsCount`: number of entries of `iteratorsArray`. -/
def DoublyLinkedList_ADT.iteratorsCount (L : DoublyLinkedList_ADT) : Int :=
  L.iteratorsArray.length

/-- The entry `iteratorsArray[idx]`; an index outside the table is a fault. -/
def DoublyLinkedList_ADT.iterAt (L : DoublyLinkedList_ADT) (idx : Int) : Res dlliterator :=
  if idx < 0 then .fault
  else match L.iteratorsArray[idx.toNat]? with
    | some it => .ok it
    | none => .fault

/-- The assignment `iteratorsArray[idx].node = p`. -/
def DoublyLinkedList_ADT.setIterNode (L : DoublyLinkedList_ADT) (idx : Int) (p : dllnodeptr) :
    Res DoublyLinkedList_ADT :=
  if idx < 0 then .fault
  else match L.iteratorsArray[idx.toNat]? with
    | some it => .ok { L with iteratorsArray := L.iteratorsArray.set idx.toNat { it with node := p } }
    | none => .fault

/-- A list handle `list_t`. -/
inductive list_t where
  | NULL
  | ptr (L : DoublyLinkedList_ADT)
  | dangling
  deriving DecidableEq, Repr

/-- The test `list == NULL`. -/
def list_t.isNULL : list_t → Bool
  | .NULL => true
  | _ => false

/-- Dereference of a list handle. -/
def list_t.deref : list_t → Res DoublyLinkedList_ADT
  | .ptr L => .ok L
  | _ => .fault

/-- Node memory plus the log of `free_data` calls. -/
structure Mem (α : Type) where
  cells : List (Option (DoublyLinkedListNode α))
  released : List (Option α)
  deriving DecidableEq, Repr

/-- Memory without any node. -/
def Mem.empty {α : Type} : Mem α := ⟨[], []⟩

/-- The live node at address `a`, if any. -/
def Mem.node {α : Type} (m : Mem α) (a : Nat) : Option (DoublyLinkedListNode α) :=
  match m.cells[a]? with
  | some (some n) => some n
  | _ => none

/-- Read through a node pointer. -/
def Mem.load {α : Type} (m : Mem α) (p : dllnodeptr) : Res (DoublyLinkedListNode α) :=
  match p with
  | none => .fault
  | some a => match m.node a with
    | some n => .ok n
    | none => .fault

/-- Overwrite the cell at address `a`. -/
def Mem.store {α : Type} (m : Mem α) (a : Nat) (n : DoublyLinkedListNode α) : Mem α :=
  { m with cells := m.cells.set a (some n) }

/-- The address the next successful `malloc` of a node returns. -/
def Mem.fresh {α : Type} (m : Mem α) : Nat := m.cells.length

/-- Memory after a successful `malloc` of a node (fields not yet assigned). -/
def Mem.alloc {α : Type} (m : Mem α) : Mem α :=
  { m with cells := m.cells ++ [some ⟨none, none, none⟩] }

/-- Memory with the cell at address `a` emptied. -/
def Mem.clear {α : Type} (m : Mem α) (a : Nat) : Mem α :=
  { m with cells := m.cells.set a none }

/-- The call `free(p)` on a node pointer. -/
def Mem.free {α : Type} (m : Mem α) (p : dllnodeptr) : Res (Mem α) :=
  match p with
  | none => .ok m
  | some a => match m.node a with
    | some _ => .ok (m.clear a)
    | none => .fault

/-- The call `(*free_data)(d)`. -/
def Mem.release {α : Type} (m : Mem α) (d : Option α) : Mem α :=
  { m with released := m.released ++ [d] }

/-- The assignment `p->previous = v`. -/
def Mem.setPrevious {α : Type} (m : Mem α) (p v : dllnodeptr) : Res (Mem α) :=
  match p with
  | none => .fault
  | some a => match m.node a with
    | some n => .ok (m.store a { n with previous := v })
    | none => .fault

/-- The assignment `p->next = v`. -/
def Mem.setNext {α : Type} (m : Mem α) (p v : dllnodeptr) : Res (Mem α) :=
  match p with
  | none => .fault
  | some a => match m.node a with
    | some n => .ok (m.store a { n with next := v })
    | none => .fault

/-- The assignment `p->data = d`. -/
def Mem.setData {α : Type} (m : Mem α) (p : dllnodeptr) (d : Option α) : Res (Mem α) :=
  match p with
  | none => .fault
  | some a => match m.node a with
    | some n => .ok (m.store a { n with data := d })
    | none => .fault

/-! ## Construction, size -/

/-- Embedding of `dll_init`: the return code and the handle written to `*listptr_addr`. -/
def dll_init (malloc_ok rwl_init_ok : Bool) : Int × list_t :=
  if malloc_ok = false then (-1, .NULL)
  else if rwl_init_ok = false then (-1, .dangling)
  else (0, .ptr { head := none, tail := none, size := 0, iteratorsArray := [], id_counter := 0 })

/-- Embedding of `dll_size`. -/
def dll_size (list : list_t) : Res Int :=
  list.deref >>= fun L => .ok L.size

/-- Embedding of `dll_isempty`. -/
def dll_isempty (list : list_t) : Res Int :=
  if list.isNULL then .ok (-1)
  else dll_size list >>= fun s => if s = 0 then .ok 1 else .ok 0

/-! ## Insertion -/

/-- Embedding of `dll_insert_at_back`. -/
def dll_insert_at_back {α : Type} (m : Mem α) (list : list_t) (data : Option α)
    (duplicate : Option α → Option α) (malloc_ok : Bool) : Res (Int × Mem α × list_t) :=
  if list.isNULL then .ok (-1, m, list)
  else if data.isNone then .ok (-1, m, list)
  else list.deref >>= fun L =>
    if L.size = 0 then
      if malloc_ok = false then .ok (-1, m, list)
      else
        let elem : dllnodeptr := some m.fresh
        let m := m.alloc
        let L := { L with head := elem }
        let L := { L with tail := elem }
        let L := { L with size := L.size + 1 }
        m.setNext elem none >>= fun m =>
        m.setPrevious elem none >>= fun m =>
        m.setData elem (duplicate data) >>= fun m =>
        .ok (0, m, .ptr L)
    else
      if malloc_ok = false then .ok (-1, m, list)
      else
        let elem : dllnodeptr := some m.fresh
        let m := m.alloc
        m.setNext L.tail elem >>= fun m =>
        m.setPrevious elem L.tail >>= fun m =>
        let L := { L with tail := elem }
        let L := { L with size := L.size + 1 }
        m.setNext elem none >>= fun m =>
        m.setData elem (duplicate data) >>= fun m =>
        .ok (0, m, .ptr L)

/-- Embedding of `dll_insert_at_front`. -/
def dll_insert_at_front {α : Type} (m : Mem α) (list : list_t) (data : Option α)
    (duplicate : Option α → Option α) (malloc_ok : Bool) : Res (Int × Mem α × list_t) :=
  if list.isNULL then .ok (-1, m, list)
  else if data.isNone then .ok (-1, m, list)
  else list.deref >>= fun L =>
    if L.size = 0 then
      if malloc_ok = false then .ok (-1, m, list)
      else
        let elem : dllnodeptr := some m.fresh
        let m := m.alloc
        let L := { L with head := elem }
        let L := { L with tail := elem }
        let L := { L with size := L.size + 1 }
        m.setNext elem none >>= fun m =>
        m.setPrevious elem none >>= fun m =>
        m.setData elem (duplicate data) >>= fun m =>
        .ok (0, m, .ptr L)
    else
      if malloc_ok = false then .ok (-1, m, list)
      else
        let elem : dllnodeptr := some m.fresh
        let m := m.alloc
        m.setPrevious L.head elem >>= fun m =>
        m.setNext elem L.head >>= fun m =>
        let L := { L with head := elem }
        m.setPrevious elem none >>= fun m =>
        let L := { L with size := L.size + 1 }
        m.setData elem (duplicate data) >>= fun m =>
        .ok (0, m, .ptr L)

/-- The search loop of `dll_insert_sorted`, started at `current`; the node it stops at. -/
def insert_sorted_scan {α : Type} (m : Mem α) (L : DoublyLinkedList_ADT) (data : Option α)
    (issmaller : Option α → Option α → Int) : Nat → dllnodeptr → Res dllnodeptr
  | 0, _ => .timeout
  | fuel + 1, current =>
    m.load current >>= fun c =>
    if issmaller data c.data ≠ 0 then .ok current
    else if current = L.tail then .ok current
    else insert_sorted_scan m L data issmaller fuel c.next

/-- Embedding of `dll_insert_sorted`. -/
def dll_insert_sorted {α : Type} (fuel : Nat) (m : Mem α) (list : list_t) (data : Option α)
    (issmaller : Option α → Option α → Int) (duplicate : Option α → Option α)
    (malloc_ok : Bool) : Res (Int × Mem α × list_t) :=
  if list.isNULL then .ok (-1, m, list)
  else if data.isNone then .ok (-1, m, list)
  else dll_isempty list >>= fun e =>
    if e ≠ 0 then
      list.deref >>= fun L =>
      if malloc_ok = false then .ok (-1, m, list)
      else
        let elem : dllnodeptr := some m.fresh
        let m := m.alloc
        let L := { L with head := elem }
        let L := { L with tail := elem }
        let L := { L with size := L.size + 1 }
        m.setNext elem none >>= fun m =>
        m.setPrevious elem none >>= fun m =>
        m.setData elem (duplicate data) >>= fun m =>
        .ok (0, m, .ptr L)
    else
      list.deref >>= fun L =>
      m.load L.tail >>= fun t =>
      if issmaller t.data data ≠ 0 then
        if malloc_ok = false then .ok (-1, m, list)
        else
          let elem : dllnodeptr := some m.fresh
          let m := m.alloc
          m.setNext L.tail elem >>= fun m =>
          m.setPrevious elem L.tail >>= fun m =>
          m.setNext elem none >>= fun m =>
          let L := { L with tail := elem }
          let L := { L with size := L.size + 1 }
          m.setData elem (duplicate data) >>= fun m =>
          .ok (0, m, .ptr L)
      else
        insert_sorted_scan m L data issmaller fuel L.head >>= fun current =>
        if current = L.head then
          if malloc_ok = false then .ok (-1, m, list)
          else
            let elem : dllnodeptr := some m.fresh
            let m := m.alloc
            m.setNext elem L.head >>= fun m =>
            m.setPrevious elem none >>= fun m =>
            m.load elem >>= fun e =>
            m.setPrevious e.next elem >>= fun m =>
            let L := { L with head := elem }
            let L := { L with size := L.size + 1 }
            m.setData elem (duplicate data) >>= fun m =>
            .ok (0, m, .ptr L)
        else
          if malloc_ok = false then .ok (-1, m, list)
          else
            let elem : dllnodeptr := some m.fresh
            let m := m.alloc
            m.load current >>= fun c =>
            m.setNext c.previous elem >>= fun m =>
            m.load current >>= fun c =>
            m.setPrevious elem c.previous >>= fun m =>
            m.setPrevious current elem >>= fun m =>
            m.setNext elem current >>= fun m =>
            let L := { L with size := L.size + 1 }
            m.setData elem (duplicate data) >>= fun m =>
            .ok (0, m, .ptr L)

/-- The `do ... while(1)` loop of `dll_insert_before`, started at `current`. -/
def insert_before_loop {α : Type} (L : DoublyLinkedList_ADT) (data : Option α)
    (duplicate : Option α → Option α) (key : Option α) (is_equal : Option α → Option α → Int)
    (malloc_ok : Bool) : Nat → Mem α → dllnodeptr → Res (Int × Mem α × list_t)
  | 0, _, _ => .timeout
  | fuel + 1, m, current =>
    m.load current >>= fun c =>
    if is_equal key c.data ≠ 0 then
      if malloc_ok = false then .ok (-1, m, .ptr L)
      else
        let elem : dllnodeptr := some m.fresh
        let m := m.alloc
        m.load current >>= fun c =>
        m.setPrevious elem c.previous >>= fun m =>
        m.setNext elem current >>= fun m =>
        (if current ≠ L.head then
          m.load current >>= fun c =>
          m.setNext c.previous elem >>= fun m => .ok (m, L)
        else
          let L := { L with head := elem }
          m.setPrevious elem none >>= fun m => .ok (m, L)) >>= fun (m, L) =>
        m.setPrevious current elem >>= fun m =>
        m.setData elem (duplicate data) >>= fun m =>
        let L := { L with size := L.size + 1 }
        .ok (0, m, .ptr L)
    else if current = L.tail then .ok (-1, m, .ptr L)
    else insert_before_loop L data duplicate key is_equal malloc_ok fuel m c.next

/-- Embedding of `dll_insert_before`. -/
def dll_insert_before {α : Type} (fuel : Nat) (m : Mem α) (list : list_t) (data : Option α)
    (duplicate : Option α → Option α) (key : Option α) (is_equal : Option α → Option α → Int)
    (malloc_ok : Bool) : Res (Int × Mem α × list_t) :=
  if list.isNULL then .ok (-1, m, list)
  else if data.isNone then .ok (-1, m, list)
  else if key.isNone then .ok (-1, m, list)
  else list.deref >>= fun L =>
    insert_before_loop L data duplicate key is_equal malloc_ok fuel m L.head

/-- The `do ... while(1)` loop of `dll_insert_after`, started at `current`. -/
def insert_after_loop {α : Type} (L : DoublyLinkedList_ADT) (data : Option α)
    (duplicate : Option α → Option α) (key : Option α) (is_equal : Option α → Option α → Int)
    (malloc_ok : Bool) : Nat → Mem α → dllnodeptr → Res (Int × Mem α × list_t)
  | 0, _, _ => .timeout
  | fuel + 1, m, current =>
    m.load current >>= fun c =>
    if is_equal key c.data ≠ 0 then
      if malloc_ok = false then .ok (-1, m, .ptr L)
      else
        let elem : dllnodeptr := some m.fresh
        let m := m.alloc
        m.load current >>= fun c =>
        m.setNext elem c.next >>= fun m =>
        m.setPrevious elem current >>= fun m =>
        (if current ≠ L.tail then
          m.load current >>= fun c =>
          m.setPrevious c.next elem >>= fun m => .ok (m, L)
        else
          let L := { L with tail := elem }
          m.setNext elem none >>= fun m => .ok (m, L)) >>= fun (m, L) =>
        m.setNext current elem >>= fun m =>
        m.setData elem (duplicate data) >>= fun m =>
        let L := { L with size := L.size + 1 }
        .ok (0, m, .ptr L)
    else if current = L.tail then .ok (-1, m, .ptr L)
    else insert_after_loop L data duplicate key is_equal malloc_ok fuel m c.next

/-- Embedding of `dll_insert_after`. -/
def dll_insert_after {α : Type} (fuel : Nat) (m : Mem α) (list : list_t) (data : Option α)
    (duplicate : Option α → Option α) (key : Option α) (is_equal : Option α → Option α → Int)
    (malloc_ok : Bool) : Res (Int × Mem α × list_t) :=
  if list.isNULL then .ok (-1, m, list)
  else if data.isNone then .ok (-1, m, list)
  else if key.isNone then .ok (-1, m, list)
  else list.deref >>= fun L =>
    insert_after_loop L data duplicate key is_equal malloc_ok fuel m L.head

/-! ## Iterator registry -/

/-- Embedding of `dll_iteratorDeleteAll`. -/
def dll_iteratorDeleteAll (list : list_t) : Res (Int × list_t) :=
  if list.isNULL then .ok (-1, list)
  else list.deref >>= fun L =>
    if L.iteratorsCount > 0 then .ok (0, .ptr { L with iteratorsArray := [] })
    else .ok (0, list)

/-- Embedding of `dll_iteratorUpdate`: the state of the list afterwards. -/
def dll_iteratorUpdate (list : list_t) (old new : dllnodeptr) : Res list_t :=
  dll_isempty list >>= fun e =>
  if e ≠ 0 then dll_iteratorDeleteAll list >>= fun r => .ok r.2
  else list.deref >>= fun L =>
    .ok (.ptr { L with iteratorsArray :=
      L.iteratorsArray.map (fun it => if it.node = old then { it with node := new } else it) })

/-- Embedding of `dll_iteratorBinarySearch`; `fuel` bounds the number of calls. -/
def dll_iteratorBinarySearch (L : DoublyLinkedList_ADT) (key : Int) :
    Nat → Int → Int → Res Int
  | 0, _, _ => .timeout
  | fuel + 1, start, end_ =>
    let middle_idx := Int.tdiv (end_ - start) 2 + start
    L.iterAt middle_idx >>= fun it =>
    let current_id := it.id
    if current_id = key then .ok middle_idx
    else if start = end_ then .ok (-1)
    else if key < current_id ∧ middle_idx > 0 then
      dll_iteratorBinarySearch L key fuel 0 (middle_idx - 1)
    else if key > current_id ∧ middle_idx < L.iteratorsCount then
      dll_iteratorBinarySearch L key fuel (middle_idx + 1) (L.iteratorsCount - 1)
    else .ok (-1)

/-- Embedding of `dll_iteratorGetIdxWithID`. -/
def dll_iteratorGetIdxWithID (fuel : Nat) (L : DoublyLinkedList_ADT) (iterID : Int) : Res Int :=
  if L.iteratorsCount > 0 then
    dll_iteratorBinarySearch L iterID fuel 0 (L.iteratorsCount - 1)
  else .ok (-1)

/-- Embedding of `dll_iteratorBegin`. -/
def dll_iteratorBegin (fuel : Nat) (list : list_t) (iterID : Int) : Res (Int × list_t) :=
  if list.isNULL then .ok (-1, list)
  else dll_isempty list >>= fun e =>
    if e ≠ 0 then dll_iteratorDeleteAll list >>= fun r => .ok (1, r.2)
    else list.deref >>= fun L =>
      dll_iteratorGetIdxWithID fuel L iterID >>= fun idx =>
      if idx = -1 then .ok (-1, list)
      else L.setIterNode idx L.head >>= fun L => .ok (0, .ptr L)

/-- Embedding of `dll_iteratorEnd`. -/
def dll_iteratorEnd (fuel : Nat) (list : list_t) (iterID : Int) : Res (Int × list_t) :=
  if list.isNULL then .ok (-1, list)
  else dll_isempty list >>= fun e =>
    if e ≠ 0 then dll_iteratorDeleteAll list >>= fun r => .ok (1, r.2)
    else list.deref >>= fun L =>
      dll_iteratorGetIdxWithID fuel L iterID >>= fun idx =>
      if idx = -1 then .ok (-1, list)
      else L.setIterNode idx L.tail >>= fun L => .ok (0, .ptr L)

/-- Embedding of `dll_iteratorRequest`; the `node` field of the new table slot is
unassigned until `dll_iteratorBegin` sets it and is taken as `NULL`. -/
def dll_iteratorRequest (fuel : Nat) (list : list_t) (realloc_ok : Bool) : Res (Int × list_t) :=
  if list.isNULL then .ok (-1, list)
  else dll_isempty list >>= fun e =>
    if e ≠ 0 then dll_iteratorDeleteAll list >>= fun r => .ok (1, r.2)
    else list.deref >>= fun L =>
      if realloc_ok = false then .ok (-1, list)
      else
        let L := { L with iteratorsArray := L.iteratorsArray ++ [{ node := none, id := L.id_counter }] }
        dll_iteratorBegin fuel (.ptr L) L.id_counter >>= fun r =>
        if r.1 < 0 then .ok (-1, r.2)
        else r.2.deref >>= fun L =>
          .ok (L.id_counter, .ptr { L with id_counter := wrapInt (L.id_counter + 1) })

/-- Embedding of `dll_iteratorGetObj`. -/
def dll_iteratorGetObj {α : Type} (fuel : Nat) (m : Mem α) (list : list_t) (iterID : Int) :
    Res (Option α × list_t) :=
  if list.isNULL then .ok (none, list)
  else dll_isempty list >>= fun e =>
    if e ≠ 0 then dll_iteratorDeleteAll list >>= fun r => .ok (none, r.2)
    else list.deref >>= fun L =>
      dll_iteratorGetIdxWithID fuel L iterID >>= fun idx =>
      if idx = -1 then .ok (none, list)
      else L.iterAt idx >>= fun it =>
        m.load it.node >>= fun n => .ok (n.data, list)

/-- Embedding of `dll_iteratorNext`. -/
def dll_iteratorNext {α : Type} (fuel : Nat) (m : Mem α) (list : list_t) (iterID : Int) :
    Res (Int × list_t) :=
  if list.isNULL then .ok (-1, list)
  else dll_isempty list >>= fun e =>
    if e ≠ 0 then dll_iteratorDeleteAll list >>= fun r => .ok (1, r.2)
    else list.deref >>= fun L =>
      dll_iteratorGetIdxWithID fuel L iterID >>= fun idx =>
      if idx = -1 then .ok (-1, list)
      else L.iterAt idx >>= fun it =>
        if it.node = L.tail then .ok (2, list)
        else m.load it.node >>= fun n =>
          L.setIterNode idx n.next >>= fun L => .ok (0, .ptr L)

/-- Embedding of `dll_iteratorPrev`. -/
def dll_iteratorPrev {α : Type} (fuel : Nat) (m : Mem α) (list : list_t) (iterID : Int) :
    Res (Int × list_t) :=
  if list.isNULL then .ok (-1, list)
  else dll_isempty list >>= fun e =>
    if e ≠ 0 then dll_iteratorDeleteAll list >>= fun r => .ok (1, r.2)
    else list.deref >>= fun L =>
      dll_iteratorGetIdxWithID fuel L iterID >>= fun idx =>
      if idx = -1 then .ok (-1, list)
      else L.iterAt idx >>= fun it =>
        if it.node = L.head then .ok (2, list)
        else m.load it.node >>= fun n =>
          L.setIterNode idx n.previous >>= fun L => .ok (0, .ptr L)

/-- Embedding of `dll_iteratorCopy`: the return code, the list, and `*dest` afterwards. -/
def dll_iteratorCopy (fuel : Nat) (list : list_t) (src dest : Int) (realloc_ok : Bool) :
    Res (Int × list_t × Int) :=
  if list.isNULL then .ok (-1, list, dest)
  else dll_isempty list >>= fun e =>
    if e ≠ 0 then dll_iteratorDeleteAll list >>= fun r => .ok (1, r.2, dest)
    else list.deref >>= fun L =>
      dll_iteratorGetIdxWithID fuel L src >>= fun srcIdx =>
      if srcIdx = -1 then .ok (2, list, dest)
      else if dest = -1 then
        dll_iteratorRequest fuel list realloc_ok >>= fun rq =>
        let dest := rq.1
        if dest = -1 then .ok (-1, rq.2, dest)
        else rq.2.deref >>= fun L =>
          dll_iteratorGetIdxWithID fuel L dest >>= fun destIdx =>
          L.iterAt srcIdx >>= fun s =>
          L.setIterNode destIdx s.node >>= fun L => .ok (0, .ptr L, dest)
      else
        dll_iteratorGetIdxWithID fuel L dest >>= fun destIdx =>
        if destIdx = -1 then .ok (-1, list, dest)
        else L.iterAt srcIdx >>= fun s =>
          L.setIterNode destIdx s.node >>= fun L => .ok (0, .ptr L, dest)

/-- The call `memmove(&block[dst], &block[src], n * sizeof(dlliterator))` on the allocated
table `block`; a range that leaves the block is a fault. -/
def memmove_entries (block : List dlliterator) (dst src n : Nat) : Res (List dlliterator) :=
  if src + n ≤ block.length ∧ dst + n ≤ block.length then
    .ok (block.take dst ++ (block.drop src).take n ++ block.drop (dst + n))
  else .fault

/-- Embedding of `dll_iteratorDelete`; `realloc_ok = false` is `realloc` returning `NULL`. -/
def dll_iteratorDelete (fuel : Nat) (list : list_t) (iterID : Int) (realloc_ok : Bool) :
    Res (Int × list_t) :=
  if list.isNULL then .ok (-1, list)
  else dll_isempty list >>= fun e =>
    if e ≠ 0 then dll_iteratorDeleteAll list >>= fun r => .ok (-1, r.2)
    else list.deref >>= fun L =>
      dll_iteratorGetIdxWithID fuel L iterID >>= fun idx =>
      if idx = -1 then .ok (-1, list)
      else
        let iteratorsCount := L.iteratorsCount - 1
        L.iterAt idx >>= fun it =>
        let backup : dlliterator := { id := idx, node := it.node }
        memmove_entries L.iteratorsArray idx.toNat (idx.toNat + 1)
            (iteratorsCount - idx).toNat >>= fun block =>
        if realloc_ok = false ∧ iteratorsCount ≠ 0 then
          memmove_entries block (idx.toNat + 1) idx.toNat
              (iteratorsCount - idx).toNat >>= fun block =>
          let block := block.set idx.toNat backup
          .ok (-1, .ptr { L with iteratorsArray := block })
        else .ok (0, .ptr { L with iteratorsArray := block.take iteratorsCount.toNat })

/-! ## Deletion and concatenation -/

/-- The search loop of `dll_delete`, started at `current`: the matching node, or `NULL`. -/
def delete_scan {α : Type} (m : Mem α) (L : DoublyLinkedList_ADT) (key : Option α)
    (is_equal : Option α → Option α → Int) : Nat → dllnodeptr → Res dllnodeptr
  | 0, _ => .timeout
  | fuel + 1, current =>
    m.load current >>= fun c =>
    if is_equal key c.data ≠ 0 then .ok current
    else if current = L.tail then .ok none
    else delete_scan m L key is_equal fuel c.next

/-- Embedding of `dll_delete`. -/
def dll_delete {α : Type} (fuel : Nat) (m : Mem α) (list : list_t) (key : Option α)
    (is_equal : Option α → Option α → Int) : Res (Int × Mem α × list_t) :=
  if list.isNULL then .ok (-1, m, list)
  else if key.isNone then .ok (-1, m, list)
  else dll_isempty list >>= fun e =>
    if e ≠ 0 then .ok (1, m, list)
    else list.deref >>= fun L =>
      delete_scan m L key is_equal fuel L.head >>= fun current =>
      if current = none then .ok (1, m, list)
      else if current = L.head then
        if current ≠ L.tail then
          let L := { L with size := L.size - 1 }
          m.load current >>= fun c =>
          dll_iteratorUpdate (.ptr L) current c.next >>= fun list =>
          list.deref >>= fun L =>
          m.setPrevious c.next none >>= fun m =>
          m.load current >>= fun c =>
          let L := { L with head := c.next }
          let m := m.release c.data
          m.free current >>= fun m =>
          .ok (0, m, .ptr L)
        else
          let L := { L with head := none }
          let L := { L with tail := none }
          let L := { L with size := L.size - 1 }
          m.load current >>= fun c =>
          let m := m.release c.data
          m.free current >>= fun m =>
          dll_iteratorUpdate (.ptr L) none none >>= fun list =>
          .ok (0, m, list)
      else if current = L.tail then
        let L := { L with size := L.size - 1 }
        m.load current >>= fun c =>
        dll_iteratorUpdate (.ptr L) current c.previous >>= fun list =>
        list.deref >>= fun L =>
        let L := { L with tail := c.previous }
        m.setNext c.previous none >>= fun m =>
        m.load current >>= fun c =>
        let m := m.release c.data
        m.free current >>= fun m =>
        .ok (0, m, .ptr L)
      else
        let L := { L with size := L.size - 1 }
        m.load current >>= fun c =>
        dll_iteratorUpdate (.ptr L) current c.next >>= fun list =>
        list.deref >>= fun L =>
        m.setNext c.previous c.next >>= fun m =>
        m.load current >>= fun c =>
        m.setPrevious c.next c.previous >>= fun m =>
        m.load current >>= fun c =>
        let m := m.release c.data
        m.free current >>= fun m =>
        .ok (0, m, .ptr L)

/-- Embedding of `dll_delete_back`. -/
def dll_delete_back {α : Type} (m : Mem α) (list : list_t) : Res (Mem α × list_t) :=
  list.deref >>= fun L =>
  let L := { L with size := L.size - 1 }
  let deletion := L.tail
  if L.size > 0 then
    m.load deletion >>= fun d =>
    dll_iteratorUpdate (.ptr L) deletion d.previous >>= fun list =>
    list.deref >>= fun L =>
    m.load L.tail >>= fun t =>
    let L := { L with tail := t.previous }
    m.setNext L.tail none >>= fun m =>
    m.load deletion >>= fun d =>
    let m := m.release d.data
    m.setData deletion none >>= fun m =>
    m.setPrevious deletion none >>= fun m =>
    m.free deletion >>= fun m =>
    .ok (m, .ptr L)
  else
    dll_iteratorDeleteAll (.ptr L) >>= fun r =>
    r.2.deref >>= fun L =>
    let L := { L with head := none }
    let L := { L with tail := none }
    m.load deletion >>= fun d =>
    let m := m.release d.data
    m.setData deletion none >>= fun m =>
    m.setNext deletion none >>= fun m =>
    m.free deletion >>= fun m =>
    .ok (m, .ptr L)

/-- Embedding of `dll_delete_front`. -/
def dll_delete_front {α : Type} (m : Mem α) (list : list_t) : Res (Mem α × list_t) :=
  list.deref >>= fun L =>
  let L := { L with size := L.size - 1 }
  let deletion := L.head
  if L.size > 0 then
    m.load deletion >>= fun d =>
    dll_iteratorUpdate (.ptr L) deletion d.next >>= fun list =>
    list.deref >>= fun L =>
    m.load L.head >>= fun h =>
    let L := { L with head := h.next }
    m.setPrevious L.head none >>= fun m =>
    m.load deletion >>= fun d =>
    let m := m.release d.data
    m.setData deletion none >>= fun m =>
    m.setNext deletion none >>= fun m =>
    m.free deletion >>= fun m =>
    .ok (m, .ptr L)
  else
    dll_iteratorDeleteAll (.ptr L) >>= fun r =>
    r.2.deref >>= fun L =>
    let L := { L with head := none }
    let L := { L with tail := none }
    m.load deletion >>= fun d =>
    let m := m.release d.data
    m.setData deletion none >>= fun m =>
    m.setNext deletion none >>= fun m =>
    m.free deletion >>= fun m =>
    .ok (m, .ptr L)

/-- Embedding of `dll_append` for two distinct handles: memory, the list `a`, and the
caller's handle `b` afterwards (the assignment `listptrb = NULL` only changes the
parameter, the struct it pointed to is freed). -/
def dll_append {α : Type} (m : Mem α) (alist b : list_t) : Res (Mem α × list_t × list_t) :=
  alist.deref >>= fun A =>
  b.deref >>= fun B =>
  m.setNext A.tail B.head >>= fun m =>
  m.setPrevious B.head A.tail >>= fun m =>
  let A := { A with tail := B.tail }
  let A := { A with size := A.size + B.size }
  .ok (m, .ptr A, .dangling)

/-- Embedding of `dll_iteratorDeleteCurrentNode`. -/
def dll_iteratorDeleteCurrentNode {α : Type} (fuel : Nat) (m : Mem α) (list : list_t)
    (iterID : Int) : Res (Int × Mem α × list_t) :=
  if list.isNULL then .ok (-1, m, list)
  else dll_isempty list >>= fun e =>
    if e ≠ 0 then dll_iteratorDeleteAll list >>= fun r => .ok (1, m, r.2)
    else list.deref >>= fun L =>
      dll_iteratorGetIdxWithID fuel L iterID >>= fun idx =>
      if idx = -1 then .ok (-1, m, list)
      else L.iterAt idx >>= fun it =>
        let current := it.node
        dll_iteratorNext fuel m list iterID >>= fun r =>
        let setIteratorToEnd : Bool := decide (r.1 = 2)
        r.2.deref >>= fun L =>
        if current = L.head then
          if current ≠ L.tail then
            m.load current >>= fun c =>
            m.setPrevious c.next none >>= fun m =>
            m.load current >>= fun c =>
            let L := { L with head := c.next }
            let L := { L with size := L.size - 1 }
            let m := m.release c.data
            m.free current >>= fun m =>
            .ok (0, m, .ptr L)
          else
            let L := { L with head := none }
            let L := { L with tail := none }
            let L := { L with size := L.size - 1 }
            m.load current >>= fun c =>
            let m := m.release c.data
            m.free current >>= fun m =>
            dll_iteratorDeleteAll (.ptr L) >>= fun r =>
            .ok (1, m, r.2)
        else if current = L.tail then
          m.load current >>= fun c =>
          let L := { L with tail := c.previous }
          m.setNext c.previous none >>= fun m =>
          let L := { L with size := L.size - 1 }
          m.load current >>= fun c =>
          let m := m.release c.data
          m.free current >>= fun m =>
          if setIteratorToEnd then
            dll_iteratorEnd fuel (.ptr L) iterID >>= fun r =>
            if r.1 < 0 then .ok (-1, m, r.2)
            else .ok (0, m, r.2)
          else .ok (0, m, .ptr L)
        else
          m.load current >>= fun c =>
          m.setNext c.previous c.next >>= fun m =>
          m.load current >>= fun c =>
          m.setPrevious c.next c.previous >>= fun m =>
          let L := { L with size := L.size - 1 }
          m.load current >>= fun c =>
          let m := m.release c.data
          m.free current >>= fun m =>
          .ok (0, m, .ptr L)

/-! ## Access to the ends, destruction, copy -/

/-- Embedding of `dll_get_front`: the pointer returned and the list afterwards (node
memory is only read). -/
def dll_get_front {α : Type} (m : Mem α) (list : list_t) (duplicate : Option α → Option α)
    (getCopy : Int) : Res (Option α × list_t) :=
  if list.isNULL then .ok (none, list)
  else dll_isempty list >>= fun e =>
    if e ≠ 0 then dll_iteratorDeleteAll list >>= fun r => .ok (none, r.2)
    else list.deref >>= fun L =>
      m.load L.head >>= fun n =>
      if getCopy ≠ 0 then .ok (duplicate n.data, list)
      else .ok (n.data, list)

/-- Embedding of `dll_get_back`. -/
def dll_get_back {α : Type} (m : Mem α) (list : list_t) (duplicate : Option α → Option α)
    (getCopy : Int) : Res (Option α × list_t) :=
  if list.isNULL then .ok (none, list)
  else dll_isempty list >>= fun e =>
    if e ≠ 0 then dll_iteratorDeleteAll list >>= fun r => .ok (none, r.2)
    else list.deref >>= fun L =>
      m.load L.tail >>= fun n =>
      if getCopy ≠ 0 then .ok (duplicate n.data, list)
      else .ok (n.data, list)

/-- The `while (1)` loop of `dll_destroy`, started at `current`. -/
def destroy_loop {α : Type} :
    Nat → Mem α → DoublyLinkedList_ADT → dllnodeptr → Res (Mem α × DoublyLinkedList_ADT)
  | 0, _, _, _ => .timeout
  | fuel + 1, m, L, current =>
    if current = none then .ok (m, L)
    else
      let to_be_deleted := current
      let L := if to_be_deleted = L.head then { L with head := none }
        else if to_be_deleted = L.tail then { L with tail := none }
        else L
      m.load current >>= fun c =>
      let current := c.next
      m.load to_be_deleted >>= fun t =>
      let m := m.release t.data
      m.free to_be_deleted >>= fun m =>
      destroy_loop fuel m L current

/-- Embedding of `dll_destroy`: memory and the handle `*dllptr_addr` afterwards. -/
def dll_destroy {α : Type} (fuel : Nat) (m : Mem α) (list : list_t) : Res (Mem α × list_t) :=
  if list.isNULL then .ok (m, list)
  else dll_isempty list >>= fun e =>
    if e ≠ 0 then dll_iteratorDeleteAll list >>= fun _ => .ok (m, .NULL)
    else list.deref >>= fun L =>
      destroy_loop fuel m L L.head >>= fun r =>
      let L := { r.2 with size := 0 }
      dll_iteratorDeleteAll (.ptr L) >>= fun _ => .ok (r.1, .NULL)

/-- The `while (1)` loop of `dll_copy` with the iterator `srcIter`; `k` counts the
elements copied so far and `malloc_ok k` is the outcome of the node allocation of the
next insertion. The result is the return code, memory, the source and the caller's
destination handle (`dll_destroy(&dest, ...)` nullifies the parameter only). -/
def copy_loop {α : Type} (fuel : Nat) (duplicate : Option α → Option α)
    (malloc_ok : Nat → Bool) (srcIter : Int) :
    Nat → Nat → Mem α → list_t → list_t → Res (Int × Mem α × list_t × list_t)
  | 0, _, _, _, _ => .timeout
  | n + 1, k, m, src, dest =>
    dll_iteratorGetObj fuel m src srcIter >>= fun g =>
    if g.1.isNone then
      dll_destroy fuel m dest >>= fun d => .ok (-1, d.1, g.2, .dangling)
    else
      dll_insert_at_back m dest g.1 duplicate (malloc_ok k) >>= fun r =>
      if r.1 = -1 then
        dll_destroy fuel r.2.1 r.2.2 >>= fun d => .ok (-1, d.1, g.2, .dangling)
      else
        dll_iteratorNext fuel r.2.1 g.2 srcIter >>= fun nx =>
        if nx.1 = 2 then .ok (0, r.2.1, nx.2, r.2.2)
        else if nx.1 = -1 then
          dll_destroy fuel r.2.1 r.2.2 >>= fun d => .ok (-1, d.1, nx.2, .dangling)
        else copy_loop fuel duplicate malloc_ok srcIter n (k + 1) r.2.1 nx.2 r.2.2

/-- Embedding of `dll_copy` for two distinct handles (the loop is only reached with an
empty destination and a non-empty source, which cannot be the same struct). -/
def dll_copy {α : Type} (fuel : Nat) (m : Mem α) (src dest : list_t)
    (duplicate : Option α → Option α) (realloc_ok : Bool) (malloc_ok : Nat → Bool) :
    Res (Int × Mem α × list_t × list_t) :=
  if src.isNULL then .ok (-1, m, src, dest)
  else if dest.isNULL then .ok (-1, m, src, dest)
  else dll_isempty dest >>= fun ed =>
    if ed = 0 then .ok (2, m, src, dest)
    else dll_isempty src >>= fun es =>
      if es ≠ 0 then .ok (1, m, src, dest)
      else dll_iteratorRequest fuel src realloc_ok >>= fun rq =>
        if rq.1 = -1 then .ok (-1, m, rq.2, dest)
        else copy_loop fuel duplicate malloc_ok rq.1 fuel 0 m rq.2 dest

/-! ## Client-side drivers used to state the properties -/

/-- Successive calls `dll_insert_at_back(list, e, duplicate)` for the elements of a
sequence, with the return codes collected. -/
def insert_all_back {α : Type} (duplicate : Option α → Option α) :
    Mem α → list_t → List (Option α) → Res (List Int × Mem α × list_t)
  | m, list, [] => .ok ([], m, list)
  | m, list, e :: es =>
    dll_insert_at_back m list e duplicate true >>= fun r =>
    insert_all_back duplicate r.2.1 r.2.2 es >>= fun rest =>
    .ok (r.1 :: rest.1, rest.2)

/-- Successive calls `dll_insert_at_front(list, e, duplicate)`. -/
def insert_all_front {α : Type} (duplicate : Option α → Option α) :
    Mem α → list_t → List (Option α) → Res (List Int × Mem α × list_t)
  | m, list, [] => .ok ([], m, list)
  | m, list, e :: es =>
    dll_insert_at_front m list e duplicate true >>= fun r =>
    insert_all_front duplicate r.2.1 r.2.2 es >>= fun rest =>
    .ok (r.1 :: rest.1, rest.2)

/-- Successive calls `dll_insert_sorted(list, e, issmaller, duplicate)`. -/
def insert_all_sorted {α : Type} (fuel : Nat) (issmaller : Option α → Option α → Int)
    (duplicate : Option α → Option α) :
    Mem α → list_t → List (Option α) → Res (List Int × Mem α × list_t)
  | m, list, [] => .ok ([], m, list)
  | m, list, e :: es =>
    dll_insert_sorted fuel m list e issmaller duplicate true >>= fun r =>
    insert_all_sorted fuel issmaller duplicate r.2.1 r.2.2 es >>= fun rest =>
    .ok (r.1 :: rest.1, rest.2)

/-- The loop `do { visit dll_iteratorGetObj(id) } while (dll_iteratorNext(id) != 2)`:
the objects visited, in order. -/
def iterate {α : Type} (fuel : Nat) (m : Mem α) (iterID : Int) :
    Nat → list_t → Res (List (Option α) × list_t)
  | 0, _ => .timeout
  | k + 1, list =>
    dll_iteratorGetObj fuel m list iterID >>= fun r =>
    dll_iteratorNext fuel m r.2 iterID >>= fun r2 =>
    if r2.1 = 2 then .ok ([r.1], r2.2)
    else iterate fuel m iterID k r2.2 >>= fun rest => .ok (r.1 :: rest.1, rest.2)

/-- Front-to-back traversal with a freshly requested iterator. -/
def traverse {α : Type} (fuel : Nat) (m : Mem α) (list : list_t) :
    Res (List (Option α) × list_t) :=
  dll_iteratorRequest fuel list true >>= fun r =>
  iterate fuel m r.1 fuel r.2

/-! ## The chain of nodes a list owns -/

/-- Address of the first node of a sequence of (address, element) pairs, else `d`. -/
def firstOr {α : Type} (xs : List (Nat × Option α)) (d : dllnodeptr) : dllnodeptr :=
  match xs with
  | [] => d
  | x :: _ => some x.1

/-- Address of the last node of a sequence of (address, element) pairs, else `d`. -/
def lastOr {α : Type} : List (Nat × Option α) → dllnodeptr → dllnodeptr
  | [], d => d
  | x :: xs, _ => lastOr xs (some x.1)

/-- The nodes at the addresses of `xs` are live, hold the elements of `xs` and are linked
to each other in this order; the first one has `previous == prev`, the last one
`next == nxt`. -/
def dlseg {α : Type} (m : Mem α) : dllnodeptr → List (Nat × Option α) → dllnodeptr → Prop
  | _, [], _ => True
  | prev, x :: xs, nxt =>
    m.node x.1 = some ⟨prev, firstOr xs nxt, x.2⟩ ∧ dlseg m (some x.1) xs nxt

/-- The list struct `L` and memory `m` hold exactly the chain `xs`: `head` and `tail` are
its first and last node (`NULL` when it is empty), the nodes are pairwise distinct and
doubly linked from `head` to `tail` with `NULL` at both ends, and `size` is their number. -/
structure Chain {α : Type} (m : Mem α) (L : DoublyLinkedList_ADT)
    (xs : List (Nat × Option α)) : Prop where
  seg : dlseg m none xs none
  nodup : (xs.map Prod.fst).Nodup
  head_eq : L.head = firstOr xs none
  tail_eq : L.tail = lastOr xs none
  size_eq : L.size = (xs.length : Int)

/-- Following `next` from the first address of `ps` visits the addresses `ps` in this
order, each of them a live node. -/
def nextPath {α : Type} (m : Mem α) : List Nat → Prop
  | [] => True
  | a :: rest =>
    ∃ nd, m.node a = some nd ∧ (∀ b, rest.head? = some b → nd.next = some b) ∧ nextPath m rest

/-- The node at address `a` is reached from `head` of `L` by following `next`. -/
def OnList {α : Type} (m : Mem α) (L : DoublyLinkedList_ADT) (a : Nat) : Prop :=
  ∃ ps, nextPath m ps ∧ L.head = ps.head? ∧ a ∈ ps

/-- Well-formedness of the list `L` in memory `m`, condition by condition: `size == 0`
exactly when `head` and `tail` are both `NULL`; `head->previous` and `tail->next` are
`NULL`; for nodes `a`, `b` of the list, `a->next == b` exactly when `b->previous == a`;
following `next` from `head` reaches `tail` after visiting exactly `size` nodes. -/
structure WellFormed {α : Type} (m : Mem α) (L : DoublyLinkedList_ADT) : Prop where
  empty_iff : L.size = 0 ↔ (L.head = none ∧ L.tail = none)
  head_previous : ∀ h, L.head = some h → ∃ nd, m.node h = some nd ∧ nd.previous = none
  tail_next : ∀ t, L.tail = some t → ∃ nd, m.node t = some nd ∧ nd.next = none
  links : ∀ a b na nb, OnList m L a → OnList m L b → m.node a = some na → m.node b = some nb →
    (na.next = some b ↔ nb.previous = some a)
  walk : ∃ ps, nextPath m ps ∧ L.head = ps.head? ∧ L.tail = ps.getLast?
    ∧ L.size = (ps.length : Int)

/-- The element stored in the node at address `a` (`NULL` when there is no such node). -/
def Mem.dataAt {α : Type} (m : Mem α) (a : Nat) : Option α :=
  match m.node a with
  | some nd => nd.data
  | none => none

/-- The run `r` of an insertion returned 0 and linked one new node, holding `d`, between
the nodes `pre` and the nodes `post` of the chain; the registry, the `free_data` log and
all memory outside the chain are as before. -/
def Inserted {α : Type} (m : Mem α) (L : DoublyLinkedList_ADT) (pre post : List (Nat × Option α))
    (d : Option α) (r : Res (Int × Mem α × list_t)) : Prop :=
  ∃ m' L', r = .ok (0, m', .ptr L') ∧ Chain m' L' (pre ++ (m.fresh, d) :: post)
    ∧ L'.iteratorsArray = L.iteratorsArray ∧ L'.id_counter = L.id_counter
    ∧ m'.released = m.released ∧ m'.fresh = m.fresh + 1
    ∧ ∀ a, a ≠ m.fresh → a ∉ (pre ++ post).map Prod.fst → m'.node a = m.node a

/-- The loop of `dll_iteratorUpdate` on a table: entries on `old` are moved to `new`. -/
def retarget (old new : dllnodeptr) (its : List dlliterator) : List dlliterator :=
  its.map (fun it => if it.node = old then { it with node := new } else it)

/-- Memory `m'` and list `L'` are `m` and `L` with the node `x`, which stood between the
nodes `pre` and `post`, unlinked, its element handed to `free_data` and the node freed;
the ID counter and all memory outside the chain are as before. -/
def Removed {α : Type} (m : Mem α) (L : DoublyLinkedList_ADT) (pre : List (Nat × Option α))
    (x : Nat × Option α) (post : List (Nat × Option α)) (m' : Mem α)
    (L' : DoublyLinkedList_ADT) : Prop :=
  Chain m' L' (pre ++ post) ∧ L'.id_counter = L.id_counter
    ∧ m'.released = m.released ++ [x.2] ∧ m'.fresh = m.fresh ∧ m'.node x.1 = none
    ∧ ∀ a, a ≠ x.1 → a ∉ (pre ++ post).map Prod.fst → m'.node a = m.node a

/-- Every entry of the iterator table of `L` that targets `old` is, in the table of `L'`,
at the same index, under the same ID, an entry that targets `new`. -/
def Retargeted (L L' : DoublyLinkedList_ADT) (old new : dllnodeptr) : Prop :=
  ∀ (i : Nat) (it : dlliterator), L.iteratorsArray[i]? = some it → it.node = old →
    L'.iteratorsArray[i]? = some { it with node := new }

/-- The registry of `L'` after the node `x`, which stood between `pre` and `post`, was
removed from `L`: entries on `x` target the successor of `x` when it has one (`x` was the
head or an interior node), its predecessor when `x` was the tail of a longer list, and
the table is empty when `x` was the only node. -/
def RetargetedAfterRemoval {α : Type} (L L' : DoublyLinkedList_ADT)
    (pre : List (Nat × Option α)) (x : Nat × Option α) (post : List (Nat × Option α)) : Prop :=
  (∀ y rest, post = y :: rest → Retargeted L L' (some x.1) (some y.1))
    ∧ (post = [] → ∀ init p, pre = init ++ [p] → Retargeted L L' (some x.1) (some p.1))
    ∧ (pre = [] → post = [] → L'.iteratorsArray = [])

/-- The call `dll_iteratorNext(list, id)` on `L` returns and leaves the registry entry at
index `j` as it was. -/
def NextLeaves {α : Type} (fuel : Nat) (m : Mem α) (L : DoublyLinkedList_ADT) (id : Int)
    (j : Nat) : Prop :=
  ∃ r L', dll_iteratorNext fuel m (.ptr L) id = .ok (r, .ptr L')
    ∧ L'.iteratorsArray[j]? = L.iteratorsArray[j]?

/-! ## Sequences of calls on one list -/

/-- One call of an operation of the API on the list under study, with its arguments and
with the outcome of the allocation it may attempt. -/
inductive Call (α : Type) where
  | insert_at_back (data : Option α) (malloc_ok : Bool)
  | insert_at_front (data : Option α) (malloc_ok : Bool)
  | insert_sorted (data : Option α) (malloc_ok : Bool)
  | insert_before (data key : Option α) (malloc_ok : Bool)
  | insert_after (data key : Option α) (malloc_ok : Bool)
  | delete (key : Option α)
  | delete_front
  | delete_back
  | iteratorRequest (realloc_ok : Bool)
  | iteratorBegin (iterID : Int)
  | iteratorEnd (iterID : Int)
  | iteratorNext (iterID : Int)
  | iteratorDeleteCurrentNode (iterID : Int)

/-- State of a run: memory, the list handle, and two tallies kept by the caller: the
number of insert calls that returned 0 and the number of delete calls that removed a
node. -/
structure RunState (α : Type) where
  mem : Mem α
  list : list_t
  inserted : Int
  removed : Int
  deriving DecidableEq, Repr

/-- The state right after a successful `dll_init`. -/
def RunState.init {α : Type} : RunState α :=
  ⟨Mem.empty, (dll_init true true).2, 0, 0⟩

/-- The tally of an insert call: it succeeded when it returned 0. -/
def RunState.afterInsert {α : Type} (s : RunState α) (r : Int × Mem α × list_t) : RunState α :=
  ⟨r.2.1, r.2.2, s.inserted + (if r.1 = 0 then 1 else 0), s.removed⟩

/-- One call. `dll_delete` removed a node when it returned 0; `dll_delete_front` and
`dll_delete_back` return nothing and always remove one; `dll_iteratorDeleteCurrentNode`
removed a node when it returned 0, or returned 1 on a list that was not empty before the
call (the list became empty). -/
def Call.step {α : Type} (fuel : Nat) (duplicate : Option α → Option α)
    (is_equal issmaller : Option α → Option α → Int) : Call α → RunState α → Res (RunState α)
  | .insert_at_back d ok, s =>
    dll_insert_at_back s.mem s.list d duplicate ok >>= fun r => .ok (s.afterInsert r)
  | .insert_at_front d ok, s =>
    dll_insert_at_front s.mem s.list d duplicate ok >>= fun r => .ok (s.afterInsert r)
  | .insert_sorted d ok, s =>
    dll_insert_sorted fuel s.mem s.list d issmaller duplicate ok >>= fun r =>
    .ok (s.afterInsert r)
  | .insert_before d k ok, s =>
    dll_insert_before fuel s.mem s.list d duplicate k is_equal ok >>= fun r =>
    .ok (s.afterInsert r)
  | .insert_after d k ok, s =>
    dll_insert_after fuel s.mem s.list d duplicate k is_equal ok >>= fun r =>
    .ok (s.afterInsert r)
  | .delete k, s =>
    dll_delete fuel s.mem s.list k is_equal >>= fun r =>
    .ok ⟨r.2.1, r.2.2, s.inserted, s.removed + (if r.1 = 0 then 1 else 0)⟩
  | .delete_front, s =>
    dll_delete_front s.mem s.list >>= fun r => .ok ⟨r.1, r.2, s.inserted, s.removed + 1⟩
  | .delete_back, s =>
    dll_delete_back s.mem s.list >>= fun r => .ok ⟨r.1, r.2, s.inserted, s.removed + 1⟩
  | .iteratorRequest ok, s =>
    dll_iteratorRequest fuel s.list ok >>= fun r => .ok ⟨s.mem, r.2, s.inserted, s.removed⟩
  | .iteratorBegin id, s =>
    dll_iteratorBegin fuel s.list id >>= fun r => .ok ⟨s.mem, r.2, s.inserted, s.removed⟩
  | .iteratorEnd id, s =>
    dll_iteratorEnd fuel s.list id >>= fun r => .ok ⟨s.mem, r.2, s.inserted, s.removed⟩
  | .iteratorNext id, s =>
    dll_iteratorNext fuel s.mem s.list id >>= fun r => .ok ⟨s.mem, r.2, s.inserted, s.removed⟩
  | .iteratorDeleteCurrentNode id, s =>
    dll_isempty s.list >>= fun e =>
    dll_iteratorDeleteCurrentNode fuel s.mem s.list id >>= fun r =>
    .ok ⟨r.2.1, r.2.2, s.inserted,
      s.removed + (if r.1 = 0 ∨ (r.1 = 1 ∧ e = 0) then 1 else 0)⟩

/-- A sequence of calls, one after the other. -/
def run {α : Type} (fuel : Nat) (duplicate : Option α → Option α)
    (is_equal issmaller : Option α → Option α → Int) :
    List (Call α) → RunState α → Res (RunState α)
  | [], s => .ok s
  | c :: cs, s =>
    c.step fuel duplicate is_equal issmaller s >>= fun s' =>
    run fuel duplicate is_equal issmaller cs s'

/-- The calls of the list engine together with the condition on the list under which
they may be made: the keyed insertions and the boundary deletions need a non-empty
list. (Calls through iterators are not covered by this predicate.) -/
def Call.admissible {α : Type} : Call α → RunState α → Prop
  | .insert_at_back _ _, _ => True
  | .insert_at_front _ _, _ => True
  | .insert_sorted _ _, _ => True
  | .insert_before _ _ _, s => dll_isempty s.list = .ok 0
  | .insert_after _ _ _, s => dll_isempty s.list = .ok 0
  | .delete _, _ => True
  | .delete_front, s => dll_isempty s.list = .ok 0
  | .delete_back, s => dll_isempty s.list = .ok 0
  | _, _ => False

/-- The calls that go through the iterator table. -/
def Call.usesIterator {α : Type} : Call α → Bool
  | .iteratorRequest _ => true
  | .iteratorBegin _ => true
  | .iteratorEnd _ => true
  | .iteratorNext _ => true
  | .iteratorDeleteCurrentNode _ => true
  | _ => false

/-- Every live node of `m` is a node of the chain `xs`. -/
def Owned {α : Type} (m : Mem α) (xs : List (Nat × Option α)) : Prop :=
  ∀ a n, m.node a = some n → a ∈ xs.map Prod.fst

/-- What one returned call did to a list holding the chain `xs`, and to the tallies `i`
and `k`: it left the chain alone (and the tallies), or it linked one new node in (one
more insert counted), or it removed one node (one more delete counted). -/
def Effect {α : Type} (m : Mem α) (L : DoublyLinkedList_ADT) (xs : List (Nat × Option α))
    (i k : Int) (s' : RunState α) : Prop :=
  ∃ L', s'.list = .ptr L' ∧
    ((s'.mem = m ∧ L'.head = L.head ∧ L'.tail = L.tail ∧ L'.size = L.size
        ∧ s'.inserted = i ∧ s'.removed = k)
      ∨ (∃ pre post d, xs = pre ++ post ∧ Inserted m L pre post d (.ok (0, s'.mem, .ptr L'))
        ∧ s'.inserted = i + 1 ∧ s'.removed = k)
      ∨ (∃ pre x post, xs = pre ++ x :: post ∧ Removed m L pre x post s'.mem L'
        ∧ s'.inserted = i ∧ s'.removed = k + 1))

/-- What one returned call of the list engine (an insertion or a deletion) did, registry
included: nothing at all; or it linked one new node in and left the registry alone; or
it removed the node `x` and moved the registry entries on `x` to its successor (to its
predecessor when `x` was the tail), emptying the registry when the list became empty. -/
def EngineEffect {α : Type} (m : Mem α) (L : DoublyLinkedList_ADT) (xs : List (Nat × Option α))
    (i k : Int) (s' : RunState α) : Prop :=
  ∃ L', s'.list = .ptr L' ∧
    ((s'.mem = m ∧ L' = L ∧ s'.inserted = i ∧ s'.removed = k)
      ∨ (∃ pre post d, xs = pre ++ post ∧ Inserted m L pre post d (.ok (0, s'.mem, .ptr L'))
        ∧ s'.inserted = i + 1 ∧ s'.removed = k)
      ∨ (∃ pre x post, xs = pre ++ x :: post ∧ Removed m L pre x post s'.mem L'
        ∧ L'.iteratorsArray = (if (pre ++ post).isEmpty then []
            else retarget (some x.1) (firstOr post (lastOr pre none)) L.iteratorsArray)
        ∧ s'.inserted = i ∧ s'.removed = k + 1))

/-- What holds of a run started at `RunState.init` after at most `n` calls: the handle
points to a list struct that, with memory, holds a chain; every live node belongs to it;
its length is the difference of the two tallies; and the second tally is the number of
`free_data` calls made so far. -/
def RunInv {α : Type} (n : Nat) (s : RunState α) : Prop :=
  ∃ L xs, s.list = .ptr L ∧ Chain s.mem L xs ∧ Owned s.mem xs
    ∧ (xs.length : Int) = s.inserted - s.removed
    ∧ s.removed = (s.mem.released.length : Int) ∧ s.inserted ≤ (n : Int) ∧ 0 ≤ s.removed

/-- The list struct `L'` differs from `L` in the iterator table at most. -/
def SameList (L L' : DoublyLinkedList_ADT) : Prop :=
  L'.head = L.head ∧ L'.tail = L.tail ∧ L'.size = L.size ∧ L'.id_counter = L.id_counter

/-- The registry of `L` is strictly increasing by ID and every ID in it is smaller than
the ID counter. -/
def RegistrySorted (L : DoublyLinkedList_ADT) : Prop :=
  (L.iteratorsArray.map (fun it => it.id)).Pairwise (fun a b => a < b)
    ∧ ∀ it ∈ L.iteratorsArray, it.id < L.id_counter

/-- The list struct `L'` has the ID counter of `L` and a registry with the same IDs in the
same order, or an empty registry. -/
def RegistryKept (L L' : DoublyLinkedList_ADT) : Prop :=
  L'.id_counter = L.id_counter
    ∧ (L'.iteratorsArray.map (fun it => it.id) = L.iteratorsArray.map (fun it => it.id)
      ∨ L'.iteratorsArray = [])

/-! ## Traces of operations with the iterator IDs issued -/

/-- A public operation on the list under study: a call of `Call`, or one of the remaining
operations that take the list (`dll_size`, `dll_isempty`, `dll_print` and `dll_edit_data`
change nothing and are left out). -/
inductive Op (α : Type) where
  | call (c : Call α)
  | iteratorPrev (iterID : Int)
  | iteratorGetObj (iterID : Int)
  | iteratorCopy (src dest : Int) (realloc_ok : Bool)
  | iteratorDelete (iterID : Int) (realloc_ok : Bool)
  | iteratorDeleteAll
  | get_front (getCopy : Int)
  | get_back (getCopy : Int)

/-- State of a trace: the state of the run and the IDs issued so far, oldest first. -/
structure TraceState (α : Type) where
  run : RunState α
  issued : List Int

/-- The ID a call of `dll_iteratorRequest` issued, as its caller can tell: the list was
not empty before the call and the value returned is not the error value -1. -/
def requestIssued (before : list_t) (returned : Int) : Option Int :=
  if dll_isempty before = .ok 0 ∧ returned ≠ -1 then some returned else none

/-- One operation of a trace. IDs are issued by `dll_iteratorRequest`, and by
`dll_iteratorCopy` called with `*dest == -1` when it returns 0 (the ID is then `*dest`). -/
def Op.step {α : Type} (fuel : Nat) (duplicate : Option α → Option α)
    (is_equal issmaller : Option α → Option α → Int) : Op α → TraceState α → Res (TraceState α)
  | .call (.iteratorRequest ok), t =>
    dll_iteratorRequest fuel t.run.list ok >>= fun r =>
    .ok ⟨{ t.run with list := r.2 }, t.issued ++ (requestIssued t.run.list r.1).toList⟩
  | .call c, t =>
    c.step fuel duplicate is_equal issmaller t.run >>= fun s => .ok ⟨s, t.issued⟩
  | .iteratorPrev id, t =>
    dll_iteratorPrev fuel t.run.mem t.run.list id >>= fun r =>
    .ok ⟨{ t.run with list := r.2 }, t.issued⟩
  | .iteratorGetObj id, t =>
    dll_iteratorGetObj fuel t.run.mem t.run.list id >>= fun r =>
    .ok ⟨{ t.run with list := r.2 }, t.issued⟩
  | .iteratorCopy src dest ok, t =>
    dll_iteratorCopy fuel t.run.list src dest ok >>= fun r =>
    .ok ⟨{ t.run with list := r.2.1 },
      t.issued ++ (if dest = -1 ∧ r.1 = 0 then [r.2.2] else [])⟩
  | .iteratorDelete id ok, t =>
    dll_iteratorDelete fuel t.run.list id ok >>= fun r =>
    .ok ⟨{ t.run with list := r.2 }, t.issued⟩
  | .iteratorDeleteAll, t =>
    dll_iteratorDeleteAll t.run.list >>= fun r => .ok ⟨{ t.run with list := r.2 }, t.issued⟩
  | .get_front getCopy, t =>
    dll_get_front t.run.mem t.run.list duplicate getCopy >>= fun r =>
    .ok ⟨{ t.run with list := r.2 }, t.issued⟩
  | .get_back getCopy, t =>
    dll_get_back t.run.mem t.run.list duplicate getCopy >>= fun r =>
    .ok ⟨{ t.run with list := r.2 }, t.issued⟩

/-- A sequence of operations, one after the other. -/
def trace {α : Type} (fuel : Nat) (duplicate : Option α → Option α)
    (is_equal issmaller : Option α → Option α → Int) :
    List (Op α) → TraceState α → Res (TraceState α)
  | [], t => .ok t
  | o :: os, t =>
    o.step fuel duplicate is_equal issmaller t >>= fun t' =>
    trace fuel duplicate is_equal issmaller os t'

/-- The operation is not a `dll_iteratorDelete` whose shrinking `realloc` fails. -/
def Op.shrinkSucceeds {α : Type} : Op α → Bool
  | .iteratorDelete _ ok => ok
  | _ => true

/-- What holds along a trace started at `RunState.init`: the invariant of runs, and, as
long as no more than 2^31 IDs have been issued, the IDs issued so far are 0, 1, 2, ... in
this order and the ID counter holds their number. -/
def TraceInv {α : Type} (n : Nat) (t : TraceState α) : Prop :=
  RunInv n t.run ∧ ∃ L, t.run.list = .ptr L ∧
    (t.issued.length ≤ 2147483648 →
      L.id_counter = wrapInt (t.issued.length : Int)
        ∧ t.issued = (List.range t.issued.length).map Int.ofNat)

/-- The operations `dll_iteratorRequest`, `dll_iteratorDeleteAll`, repeated `k` times. -/
def requestAndDeleteAll {α : Type} : Nat → List (Op α)
  | 0 => []
  | k + 1 => .call (.iteratorRequest true) :: .iteratorDeleteAll :: requestAndDeleteAll k

/-- One insertion, then `k` times a request followed by `dll_iteratorDeleteAll`, then two
more requests. -/
def overflowOps (k : Nat) : List (Op Nat) :=
  .call (.insert_at_back (some 5) true)
    :: (requestAndDeleteAll k ++ [.call (.iteratorRequest true), .call (.iteratorRequest true)])

/-! ## Concrete callbacks and inputs for the examples -/

/-- Equality of `Nat` elements as an `is_equal` callback. -/
def natEqual : Option Nat → Option Nat → Int := fun a b => if a = b then 1 else 0

/-- The order of `Nat` elements as an `issmaller` callback (`NULL` counts as 0). -/
def natSmaller : Option Nat → Option Nat → Int :=
  fun a b => if a.getD 0 < b.getD 0 then 1 else 0

/-- Elements that are a key with a tag, ordered by the key alone. -/
def keySmaller : Option (Nat × Nat) → Option (Nat × Nat) → Int :=
  fun a b => match a, b with
    | some x, some y => if x.1 < y.1 then 1 else 0
    | _, _ => 0

/-- A copying `duplicate` callback. -/
def copyElem {α : Type} : Option α → Option α := fun x => x

/-- A run with every kind of call: the list goes through [5], [3,5], [3,4,5], [3,4,9,5],
a missed key, a failed allocation, [3,9,5], [9,5], [5], [] and ends as [1]. -/
def sampleCalls : List (Call Nat) :=
  [.insert_at_back (some 5) true, .insert_at_front (some 3) true, .iteratorRequest true,
   .insert_sorted (some 4) true, .insert_before (some 9) (some 5) true,
   .insert_after (some 8) (some 7) true, .insert_at_back (some 6) false,
   .delete (some 4), .iteratorDeleteCurrentNode 0, .delete_front, .delete_back,
   .insert_sorted (some 1) true]

/-- The state `sampleCalls` ends in. -/
def sampleFinal : RunState Nat :=
  { mem := { cells := [none, none, none, none, some ⟨none, none, some 1⟩],
             released := [some 4, some 3, some 9, some 5] },
    list := .ptr { head := some 4, tail := some 4, size := 1, iteratorsArray := [],
                   id_counter := 1 },
    inserted := 5, removed := 4 }

/-- One memory holding two lists: nodes 0 and 1 with the elements 10, 20 and node 2 with
the element 30. -/
def pairMem : Mem Nat :=
  { cells := [some ⟨none, some 1, some 10⟩, some ⟨some 0, none, some 20⟩,
              some ⟨none, none, some 30⟩],
    released := [] }

/-- The list 10, 20 in `pairMem`, with one iterator (ID 0) on its head. -/
def pairFirst : DoublyLinkedList_ADT :=
  { head := some 0, tail := some 1, size := 2, iteratorsArray := [⟨some 0, 0⟩],
    id_counter := 1 }

/-- The list 30 in `pairMem`. -/
def pairSecond : DoublyLinkedList_ADT :=
  { head := some 2, tail := some 2, size := 1, iteratorsArray := [], id_counter := 0 }

/-- The list 10, 20 in `pairMem` with two iterators: ID 0 on the head, ID 1 on the tail. -/
def pairWatched : DoublyLinkedList_ADT :=
  { head := some 0, tail := some 1, size := 2, iteratorsArray := [⟨some 0, 0⟩, ⟨some 1, 1⟩],
    id_counter := 2 }

/-- One memory holding the lists 1, 2 (nodes 0, 1) and 3, 4 (nodes 2, 3). -/
def appendMem : Mem Nat :=
  { cells := [some ⟨none, some 1, some 1⟩, some ⟨some 0, none, some 2⟩,
              some ⟨none, some 3, some 3⟩, some ⟨some 2, none, some 4⟩],
    released := [] }

/-- The list 1, 2 in `appendMem`. -/
def appendA : DoublyLinkedList_ADT :=
  { head := some 0, tail := some 1, size := 2, iteratorsArray := [], id_counter := 0 }

/-- The list 3, 4 in `appendMem`. -/
def appendB : DoublyLinkedList_ADT :=
  { head := some 2, tail := some 3, size := 2, iteratorsArray := [], id_counter := 0 }

/-- The list 10, 20 in `pairMem` after five calls of `dll_iteratorRequest`: the iterators
0 to 4, all on the head. -/
def pairFive : DoublyLinkedList_ADT :=
  { head := some 0, tail := some 1, size := 2,
    iteratorsArray := [⟨some 0, 0⟩, ⟨some 0, 1⟩, ⟨some 0, 2⟩, ⟨some 0, 3⟩, ⟨some 0, 4⟩],
    id_counter := 5 }

/-- A trace with requests before and after an iterator deletion, `dll_iteratorDeleteAll`
and an emptying of the list. -/
def sampleOps : List (Op Nat) :=
  [.call (.insert_at_back (some 5) true), .call (.iteratorRequest true),
   .call (.iteratorRequest true), .iteratorDelete 0 true, .iteratorCopy 1 (-1) true,
   .iteratorDeleteAll, .call (.iteratorRequest true), .call (.delete (some 5)),
   .call (.iteratorRequest true), .call (.insert_at_front (some 6) true),
   .call (.iteratorRequest true)]

/-- The list 10, 20 in `pairMem` after three calls of `dll_iteratorRequest` and
`dll_iteratorDelete` of the iterator 0: the iterators 1 and 2, on the head. -/
def pairGap : DoublyLinkedList_ADT :=
  { head := some 0, tail := some 1, size := 2,
    iteratorsArray := [⟨some 0, 1⟩, ⟨some 0, 2⟩], id_counter := 3 }

/-- The list `pairFive` after `dll_iteratorDelete` of the iterator 2: the iterators 0, 1, 3
and 4, on the head. -/
def pairFour : DoublyLinkedList_ADT :=
  { head := some 0, tail := some 1, size := 2,
    iteratorsArray := [⟨some 0, 0⟩, ⟨some 0, 1⟩, ⟨some 0, 3⟩, ⟨some 0, 4⟩],
    id_counter := 5 }

/-- A trace that leaves three iterators registered: the iterators 0, 1, 2 are requested,
0 is deleted, 1 is advanced and copied into the new iterator 3, the head is deleted, the
iterator 4 is requested and the iterator 2 is deleted. -/
def sampleRegistryOps : List (Op Nat) :=
  [.call (.insert_at_back (some 5) true), .call (.insert_at_back (some 6) true),
   .call (.iteratorRequest true), .call (.iteratorRequest true), .call (.iteratorRequest true),
   .iteratorDelete 0 true, .call (.iteratorNext 1), .iteratorCopy 1 (-1) true,
   .call .delete_front, .call (.iteratorRequest true), .iteratorDelete 2 true]

/-- Memory holding the list (1,0), (2,0), (3,0) of keys with tags, as three calls of
`dll_insert_sorted` build it. -/
def tieMem : Mem (Nat × Nat) :=
  ⟨[some ⟨none, some 1, some (1, 0)⟩, some ⟨some 0, some 2, some (2, 0)⟩,
    some ⟨some 1, none, some (3, 0)⟩], []⟩

/-- The list (1,0), (2,0), (3,0) in `tieMem`. -/
def tieList : DoublyLinkedList_ADT :=
  { head := some 0, tail := some 2, size := 3, iteratorsArray := [], id_counter := 0 }

@[simp] theorem Res.ok_bind {β γ : Type} (b : β) (f : β → Res γ) : (Res.ok b >>= f) = f b := rfl
@[simp] theorem Res.fault_bind {β γ : Type} (f : β → Res γ) : ((Res.fault : Res β) >>= f) = Res.fault := rfl
@[simp] theorem Res.timeout_bind {β γ : Type} (f : β → Res γ) : ((Res.timeout : Res β) >>= f) = Res.timeout := rfl

theorem Res.bind_eq_ok {β γ : Type} {x : Res β} {f : β → Res γ} {c : γ} :
    (x >>= f) = Res.ok c ↔ ∃ b, x = Res.ok b ∧ f b = Res.ok c := by
  cases x <;> simp

section MemLemmas
variable {α : Type}

theorem Mem.node_lt {m : Mem α} {a : Nat} {n : DoublyLinkedListNode α} (h : m.node a = some n) :
    a < m.fresh := by
  unfold Mem.node at h
  unfold Mem.fresh
  by_contra hc
  rw [List.getElem?_eq_none (by omega)] at h
  simp at h

theorem Mem.node_fresh (m : Mem α) : m.node m.fresh = none := by
  cases h : m.node m.fresh with
  | none => rfl
  | some n => exact absurd (Mem.node_lt h) (lt_irrefl _)

theorem Mem.node_store (m : Mem α) (a b : Nat) (n : DoublyLinkedListNode α) :
    (m.store a n).node b = if b = a then (if a < m.fresh then some n else none) else m.node b := by
  unfold Mem.node Mem.store Mem.fresh
  simp only [List.getElem?_set]
  by_cases h : a = b
  · subst h
    by_cases hl : a < m.cells.length <;> simp [hl]
  · have h' : ¬ b = a := fun e => h e.symm
    simp [h, h']

theorem Mem.node_store_self {m : Mem α} {a : Nat} {n0 : DoublyLinkedListNode α}
    (h : m.node a = some n0) (n : DoublyLinkedListNode α) : (m.store a n).node a = some n := by
  simp [Mem.node_store, Mem.node_lt h]

theorem Mem.node_store_ne (m : Mem α) {a b : Nat} (h : b ≠ a) (n : DoublyLinkedListNode α) :
    (m.store a n).node b = m.node b := by
  simp [Mem.node_store, h]

@[simp] theorem Mem.fresh_store (m : Mem α) (a : Nat) (n : DoublyLinkedListNode α) :
    (m.store a n).fresh = m.fresh := by
  simp [Mem.store, Mem.fresh]

@[simp] theorem Mem.released_store (m : Mem α) (a : Nat) (n : DoublyLinkedListNode α) :
    (m.store a n).released = m.released := rfl

@[simp] theorem Mem.fresh_alloc (m : Mem α) : m.alloc.fresh = m.fresh + 1 := by
  simp [Mem.alloc, Mem.fresh]

@[simp] theorem Mem.released_alloc (m : Mem α) : m.alloc.released = m.released := rfl

theorem Mem.node_alloc (m : Mem α) (b : Nat) :
    m.alloc.node b = if b = m.fresh then some ⟨none, none, none⟩ else m.node b := by
  unfold Mem.node Mem.alloc Mem.fresh
  by_cases h : b = m.cells.length
  · subst h; simp
  · simp only [h, if_false]
    rcases Nat.lt_or_ge b m.cells.length with hlt | hge
    · rw [List.getElem?_append_left hlt]
    · have : m.cells.length < b := by omega
      rw [List.getElem?_eq_none (by simp; omega), List.getElem?_eq_none (by omega)]

@[simp] theorem Mem.node_release (m : Mem α) (d : Option α) (a : Nat) :
    (m.release d).node a = m.node a := rfl

@[simp] theorem Mem.fresh_release (m : Mem α) (d : Option α) : (m.release d).fresh = m.fresh := rfl

theorem Mem.node_clear (m : Mem α) (a b : Nat) :
    (m.clear a).node b = if b = a then none else m.node b := by
  unfold Mem.node Mem.clear
  simp only [List.getElem?_set]
  by_cases h : a = b
  · subst h
    by_cases hl : a < m.cells.length <;> simp [hl]
  · have h' : ¬ b = a := fun e => h e.symm
    simp [h, h']

@[simp] theorem Mem.fresh_clear (m : Mem α) (a : Nat) : (m.clear a).fresh = m.fresh := by
  simp [Mem.clear, Mem.fresh]

@[simp] theorem Mem.released_clear (m : Mem α) (a : Nat) : (m.clear a).released = m.released := rfl

@[simp] theorem Mem.released_release (m : Mem α) (d : Option α) :
    (m.release d).released = m.released ++ [d] := rfl

end MemLemmas

section ChainLemmas
variable {α : Type}

@[simp] theorem firstOr_nil (d : dllnodeptr) : firstOr ([] : List (Nat × Option α)) d = d := rfl
@[simp] theorem firstOr_cons (x : Nat × Option α) (xs) (d : dllnodeptr) :
    firstOr (x :: xs) d = some x.1 := rfl
@[simp] theorem lastOr_nil (d : dllnodeptr) : lastOr ([] : List (Nat × Option α)) d = d := rfl
@[simp] theorem lastOr_cons (x : Nat × Option α) (xs) (d : dllnodeptr) :
    lastOr (x :: xs) d = lastOr xs (some x.1) := rfl

theorem firstOr_append (xs ys : List (Nat × Option α)) (d : dllnodeptr) :
    firstOr (xs ++ ys) d = firstOr xs (firstOr ys d) := by
  cases xs <;> rfl

theorem lastOr_append (xs ys : List (Nat × Option α)) (d : dllnodeptr) :
    lastOr (xs ++ ys) d = lastOr ys (lastOr xs d) := by
  induction xs generalizing d with
  | nil => rfl
  | cons x xs ih => simp [ih]

theorem lastOr_ne_nil {xs : List (Nat × Option α)} (h : xs ≠ []) (d e : dllnodeptr) :
    lastOr xs d = lastOr xs e := by
  cases xs with
  | nil => exact absurd rfl h
  | cons x xs => rfl

@[simp] theorem dlseg_nil (m : Mem α) (p q : dllnodeptr) : dlseg m p ([] : List (Nat × Option α)) q = True := rfl
theorem dlseg_cons (m : Mem α) (p q : dllnodeptr) (x : Nat × Option α) (xs) :
    dlseg m p (x :: xs) q = (m.node x.1 = some ⟨p, firstOr xs q, x.2⟩ ∧ dlseg m (some x.1) xs q) := rfl

theorem dlseg_append (m : Mem α) (p q : dllnodeptr) (xs ys : List (Nat × Option α)) :
    dlseg m p (xs ++ ys) q ↔ dlseg m p xs (firstOr ys q) ∧ dlseg m (lastOr xs p) ys q := by
  induction xs generalizing p with
  | nil => simp
  | cons x xs ih =>
    simp only [List.cons_append, dlseg_cons, ih, firstOr_append, lastOr_cons]
    tauto

theorem dlseg_congr {m m' : Mem α} {p q : dllnodeptr} {xs : List (Nat × Option α)}
    (h : ∀ x ∈ xs, m'.node x.1 = m.node x.1) (hs : dlseg m p xs q) : dlseg m' p xs q := by
  induction xs generalizing p with
  | nil => trivial
  | cons x xs ih =>
    rw [dlseg_cons] at hs ⊢
    refine ⟨?_, ih (fun y hy => h y (List.mem_cons_of_mem _ hy)) hs.2⟩
    rw [h x (List.mem_cons_self _ _)]; exact hs.1

theorem dlseg_live {m : Mem α} {p q : dllnodeptr} {xs : List (Nat × Option α)}
    (hs : dlseg m p xs q) {x : Nat × Option α} (hx : x ∈ xs) : ∃ n, m.node x.1 = some n ∧ n.data = x.2 := by
  induction xs generalizing p with
  | nil => cases hx
  | cons y ys ih =>
    rw [dlseg_cons] at hs
    rcases List.mem_cons.1 hx with rfl | h
    · exact ⟨_, hs.1, rfl⟩
    · exact ih hs.2 h

theorem dlseg_lt {m : Mem α} {p q : dllnodeptr} {xs : List (Nat × Option α)}
    (hs : dlseg m p xs q) {x : Nat × Option α} (hx : x ∈ xs) : x.1 < m.fresh := by
  obtain ⟨n, hn, _⟩ := dlseg_live hs hx
  exact Mem.node_lt hn

theorem dlseg_store {m : Mem α} {p q : dllnodeptr} {xs : List (Nat × Option α)} {a : Nat}
    (n : DoublyLinkedListNode α) (ha : a ∉ xs.map Prod.fst) :
    dlseg (m.store a n) p xs q ↔ dlseg m p xs q := by
  have key : ∀ x ∈ xs, (m.store a n).node x.1 = m.node x.1 := by
    intro x hx
    apply Mem.node_store_ne
    intro h
    exact ha (List.mem_map.2 ⟨x, hx, h⟩)
  exact ⟨dlseg_congr (fun x hx => (key x hx).symm), dlseg_congr key⟩

theorem dlseg_alloc {m : Mem α} {p q : dllnodeptr} {xs : List (Nat × Option α)}
    (hs : dlseg m p xs q) : dlseg m.alloc p xs q := by
  refine dlseg_congr ?_ hs
  intro x hx
  have := dlseg_lt hs hx
  simp [Mem.node_alloc, Nat.ne_of_lt this]

theorem dlseg_release {m : Mem α} {p q : dllnodeptr} {xs : List (Nat × Option α)} (d : Option α) :
    dlseg (m.release d) p xs q ↔ dlseg m p xs q :=
  ⟨dlseg_congr (fun _ _ => rfl), dlseg_congr (fun _ _ => rfl)⟩

theorem dlseg_clear {m : Mem α} {p q : dllnodeptr} {xs : List (Nat × Option α)} {a : Nat}
    (ha : a ∉ xs.map Prod.fst) : dlseg (m.clear a) p xs q ↔ dlseg m p xs q := by
  have key : ∀ x ∈ xs, (m.clear a).node x.1 = m.node x.1 := by
    intro x hx
    have : x.1 ≠ a := fun h => ha (List.mem_map.2 ⟨x, hx, h⟩)
    simp [Mem.node_clear, this]
  exact ⟨dlseg_congr (fun x hx => (key x hx).symm), dlseg_congr key⟩

end ChainLemmas

section OpSpecs
variable {α : Type}

theorem Chain.mem_lt {m : Mem α} {L : DoublyLinkedList_ADT} {xs : List (Nat × Option α)}
    (hc : Chain m L xs) {a : Nat} (ha : a ∈ xs.map Prod.fst) : a < m.fresh := by
  obtain ⟨x, hx, rfl⟩ := List.mem_map.1 ha
  exact dlseg_lt hc.seg hx

theorem Chain.fresh_not_mem {m : Mem α} {L : DoublyLinkedList_ADT} {xs : List (Nat × Option α)}
    (hc : Chain m L xs) : m.fresh ∉ xs.map Prod.fst :=
  fun h => lt_irrefl _ (hc.mem_lt h)

theorem Chain.size_eq_zero_iff {m : Mem α} {L : DoublyLinkedList_ADT} {xs : List (Nat × Option α)}
    (hc : Chain m L xs) : L.size = 0 ↔ xs = [] := by
  rw [hc.size_eq]; simp

theorem eq_nil_or_snoc {β : Type} (xs : List β) : xs = [] ∨ ∃ ys t, xs = ys ++ [t] := by
  rcases List.eq_nil_or_concat xs with h | ⟨ys, t, h⟩
  · exact Or.inl h
  · exact Or.inr ⟨ys, t, by simpa using h⟩

theorem nodup_ne {l1 l2 l3 : List (Nat × Option α)} {a b : Nat × Option α}
    (h : ((l1 ++ a :: (l2 ++ b :: l3)).map Prod.fst).Nodup) : a.1 ≠ b.1 := by
  rw [List.map_append, List.nodup_append] at h
  have h2 := h.2.1
  rw [List.map_cons, List.nodup_cons] at h2
  intro e
  apply h2.1
  rw [e]
  simp

theorem lastOr_mem {xs : List (Nat × Option α)} (h : xs ≠ []) (d : dllnodeptr) :
    ∃ x ∈ xs, lastOr xs d = some x.1 := by
  induction xs generalizing d with
  | nil => exact absurd rfl h
  | cons y ys ih =>
    cases ys with
    | nil => exact ⟨y, by simp, rfl⟩
    | cons z zs =>
      obtain ⟨x, hx, hl⟩ := ih (by simp) (some y.1)
      exact ⟨x, List.mem_cons_of_mem _ hx, hl⟩

theorem Chain.node_at {m : Mem α} {L : DoublyLinkedList_ADT} {pre post : List (Nat × Option α)}
    {x : Nat × Option α} (hc : Chain m L (pre ++ x :: post)) :
    m.node x.1 = some ⟨lastOr pre none, firstOr post none, x.2⟩ := by
  have h := hc.seg
  rw [dlseg_append, dlseg_cons] at h
  exact h.2.1

theorem Chain.tail_ne {m : Mem α} {L : DoublyLinkedList_ADT} {pre post : List (Nat × Option α)}
    {x : Nat × Option α} (hc : Chain m L (pre ++ x :: post)) (hp : post ≠ []) :
    ¬ (some x.1 = L.tail) := by
  rw [hc.tail_eq, lastOr_append, lastOr_cons]
  obtain ⟨y, hy, hl⟩ := lastOr_mem hp (some x.1)
  rw [hl]
  have hnd := hc.nodup
  simp [List.nodup_append] at hnd
  intro h
  injection h with h
  exact hnd.2.1.1 y.2 (by rw [h]; exact hy)

theorem Chain.tail_last {m : Mem α} {L : DoublyLinkedList_ADT} {pre : List (Nat × Option α)}
    {x : Nat × Option α} (hc : Chain m L (pre ++ [x])) : L.tail = some x.1 := by
  rw [hc.tail_eq, lastOr_append]; rfl

theorem Chain.head_ne {m : Mem α} {L : DoublyLinkedList_ADT} {pre post : List (Nat × Option α)}
    {x : Nat × Option α} (hc : Chain m L (pre ++ x :: post)) (hp : pre ≠ []) :
    ¬ (some x.1 = L.head) := by
  rw [hc.head_eq]
  cases pre with
  | nil => exact absurd rfl hp
  | cons y ys =>
    have hnd := hc.nodup
    simp [List.nodup_append] at hnd
    simp
    intro h
    exact hnd.1.2.1 h.symm

theorem Chain.head_first {m : Mem α} {L : DoublyLinkedList_ADT} {post : List (Nat × Option α)}
    {x : Nat × Option α} (hc : Chain m L (x :: post)) : L.head = some x.1 := by
  rw [hc.head_eq]; rfl

theorem insert_at_back_chain {m : Mem α} {L : DoublyLinkedList_ADT} {xs : List (Nat × Option α)}
    (hc : Chain m L xs) (e : α) (dup : Option α → Option α) :
    Inserted m L xs [] (dup (some e)) (dll_insert_at_back m (.ptr L) (some e) dup true) := by
  have hfresh := hc.fresh_not_mem
  have hsz := hc.size_eq
  unfold Inserted
  rcases eq_nil_or_snoc xs with rfl | ⟨ys, t, rfl⟩
  · have hs : L.size = 0 := by simpa using hc.size_eq
    simp [dll_insert_at_back, list_t.isNULL, list_t.deref, hs, Mem.setNext, Mem.setPrevious,
      Mem.setData, Mem.node_store, Mem.node_alloc]
    refine ⟨_, _, ⟨rfl, rfl⟩, ⟨?_, ?_, ?_, ?_, ?_⟩, rfl, rfl, ?_, ?_, ?_⟩
    · simp [dlseg_cons, Mem.node_store, Mem.node_alloc]
    · simp
    · simp
    · simp
    · simp
    · simp
    · simp
    · intro a ha; simp [Mem.node_store, Mem.node_alloc, ha]
  · have hs : L.size ≠ 0 := by simp at hsz; omega
    have ht := hc.tail_eq
    have hseg := hc.seg
    have hnd := hc.nodup
    have hhd := hc.head_eq
    simp [lastOr_append] at ht
    simp [dlseg_append, dlseg_cons] at hseg
    simp [List.nodup_append] at hnd hfresh
    simp [firstOr_append] at hhd
    obtain ⟨hys, htn⟩ := hseg
    have htlt := Mem.node_lt htn
    have htlt' : t.1 < m.fresh + 1 := by omega
    have htne : t.1 ≠ m.fresh := fun h => hfresh.2 h.symm
    simp [dll_insert_at_back, list_t.isNULL, list_t.deref, hs, ht, Mem.setNext, Mem.setPrevious,
      Mem.setData, Mem.node_store, Mem.node_alloc, htn, htne, htne.symm, htlt, firstOr_append]
    refine ⟨_, _, ⟨rfl, rfl⟩, ⟨?_, ?_, ?_, ?_, ?_⟩, rfl, rfl, ?_, ?_, ?_⟩
    · simp [dlseg_append, dlseg_cons, dlseg_store, dlseg_alloc, Mem.node_store, Mem.node_alloc,
        hys, hnd, hfresh, htne, htlt, htlt']
    · simp [List.nodup_append, hnd, hfresh, htne]
    · simp [firstOr_append, hhd]
    · simp [lastOr_append]
    · simp at hsz ⊢; omega
    · simp
    · simp
    · intro a h1 h2 h3
      simp [Mem.node_store, Mem.node_alloc, h1, h2, h3]

theorem insert_at_front_chain {m : Mem α} {L : DoublyLinkedList_ADT} {xs : List (Nat × Option α)}
    (hc : Chain m L xs) (e : α) (dup : Option α → Option α) :
    Inserted m L [] xs (dup (some e)) (dll_insert_at_front m (.ptr L) (some e) dup true) := by
  have hfresh := hc.fresh_not_mem
  have hsz := hc.size_eq
  unfold Inserted
  rcases xs with _ | ⟨h, ys⟩
  · have hs : L.size = 0 := by simpa using hc.size_eq
    simp [dll_insert_at_front, list_t.isNULL, list_t.deref, hs, Mem.setNext, Mem.setPrevious,
      Mem.setData, Mem.node_store, Mem.node_alloc]
    refine ⟨_, _, ⟨rfl, rfl⟩, ⟨?_, ?_, ?_, ?_, ?_⟩, rfl, rfl, ?_, ?_, ?_⟩
    · simp [dlseg_cons, Mem.node_store, Mem.node_alloc]
    · simp
    · simp
    · simp
    · simp
    · simp
    · simp
    · intro a ha; simp [Mem.node_store, Mem.node_alloc, ha]
  · have hs : L.size ≠ 0 := by simp at hsz; omega
    have ht := hc.tail_eq
    have hseg := hc.seg
    have hnd := hc.nodup
    have hhd := hc.head_eq
    simp at ht hhd
    simp [dlseg_cons] at hseg
    simp at hnd hfresh
    obtain ⟨hhn, hys⟩ := hseg
    have hhlt := Mem.node_lt hhn
    have hhlt' : h.1 < m.fresh + 1 := by omega
    have hhne : h.1 ≠ m.fresh := fun e => hfresh.1 e.symm
    simp [dll_insert_at_front, list_t.isNULL, list_t.deref, hs, hhd, Mem.setNext, Mem.setPrevious,
      Mem.setData, Mem.node_store, Mem.node_alloc, hhn, hhne, hhne.symm, hhlt]
    refine ⟨_, _, ⟨rfl, rfl⟩, ⟨?_, ?_, ?_, ?_, ?_⟩, rfl, rfl, ?_, ?_, ?_⟩
    · simp [dlseg_cons, dlseg_store, dlseg_alloc, Mem.node_store, Mem.node_alloc,
        hys, hnd, hfresh, hhne, hhlt, hhlt']
    · simp [hnd, hfresh]
    · simp
    · simp [ht]
    · simp at hsz ⊢; omega
    · simp
    · simp
    · intro a h1 h2 h3
      simp [Mem.node_store, Mem.node_alloc, h1, h2, h3]

theorem insert_sorted_scan_spec {m : Mem α} {L : DoublyLinkedList_ADT} (data : Option α)
    (issmaller : Option α → Option α → Int) (c : Nat × Option α) (post : List (Nat × Option α))
    (hstop : issmaller data c.2 ≠ 0 ∨ post = []) :
    ∀ (pre done : List (Nat × Option α)) (fuel : Nat), Chain m L (done ++ (pre ++ c :: post)) →
      (∀ y ∈ pre, issmaller data y.2 = 0) → pre.length < fuel →
      insert_sorted_scan m L data issmaller fuel (firstOr (pre ++ [c]) none) = .ok (some c.1) := by
  intro pre
  induction pre with
  | nil =>
    intro done fuel hc _ hf
    obtain ⟨k, rfl⟩ : ∃ k, fuel = k + 1 := ⟨fuel - 1, by simp at hf; omega⟩
    have hn := hc.node_at
    simp [insert_sorted_scan, Mem.load, hn]
    intro h0
    rcases hstop with h | h
    · exact absurd h0 h
    · subst h
      have := Chain.tail_last (by simpa using hc : Chain m L (done ++ [c]))
      exact fun hne => absurd this.symm hne
  | cons y pre ih =>
    intro done fuel hc hpre hf
    obtain ⟨k, rfl⟩ : ∃ k, fuel = k + 1 := ⟨fuel - 1, by simp at hf; omega⟩
    have hn := hc.node_at
    have hy : issmaller data y.2 = 0 := hpre y (by simp)
    have htl := hc.tail_ne (by simp)
    have hc' : Chain m L ((done ++ [y]) ++ (pre ++ c :: post)) := by simpa using hc
    have := ih (done ++ [y]) k hc' (fun z hz => hpre z (by simp [hz])) (by simp at hf; omega)
    simp [insert_sorted_scan, Mem.load, hn, hy, htl, firstOr_append] at this ⊢
    exact this

end OpSpecs

section OpSpecs2
variable {α : Type}

theorem insert_sorted_empty {m : Mem α} {L : DoublyLinkedList_ADT}
    (hc : Chain m L []) (fuel : Nat) (e : α) (issmaller : Option α → Option α → Int)
    (dup : Option α → Option α) :
    Inserted m L [] [] (dup (some e))
      (dll_insert_sorted fuel m (.ptr L) (some e) issmaller dup true) := by
  have hs : L.size = 0 := by simpa using hc.size_eq
  unfold Inserted
  simp [dll_insert_sorted, dll_isempty, dll_size, list_t.isNULL, list_t.deref, hs, Mem.setNext,
    Mem.setPrevious, Mem.setData, Mem.node_store, Mem.node_alloc]
  refine ⟨_, _, ⟨rfl, rfl⟩, ⟨?_, ?_, ?_, ?_, ?_⟩, rfl, rfl, ?_, ?_, ?_⟩
  · simp [dlseg_cons, Mem.node_store, Mem.node_alloc]
  · simp
  · simp
  · simp
  · simp
  · simp
  · simp
  · intro a ha; simp [Mem.node_store, Mem.node_alloc, ha]

theorem insert_sorted_fast {m : Mem α} {L : DoublyLinkedList_ADT} {ys : List (Nat × Option α)}
    {t : Nat × Option α} (hc : Chain m L (ys ++ [t])) (fuel : Nat) (e : α)
    (issmaller : Option α → Option α → Int) (dup : Option α → Option α)
    (hfast : issmaller t.2 (some e) ≠ 0) :
    Inserted m L (ys ++ [t]) [] (dup (some e))
      (dll_insert_sorted fuel m (.ptr L) (some e) issmaller dup true) := by
  have hfresh := hc.fresh_not_mem
  have hsz := hc.size_eq
  have hs : L.size ≠ 0 := by simp at hsz; omega
  have ht := hc.tail_eq
  have hseg := hc.seg
  have hnd := hc.nodup
  have hhd := hc.head_eq
  simp [lastOr_append] at ht
  simp [dlseg_append, dlseg_cons] at hseg
  simp [List.nodup_append] at hnd hfresh
  simp [firstOr_append] at hhd
  obtain ⟨hys, htn⟩ := hseg
  have htlt := Mem.node_lt htn
  have htlt' : t.1 < m.fresh + 1 := by omega
  have htne : t.1 ≠ m.fresh := fun h => hfresh.2 h.symm
  unfold Inserted
  simp [dll_insert_sorted, dll_isempty, dll_size, list_t.isNULL, list_t.deref, hs, ht, Mem.load,
    Mem.setNext, Mem.setPrevious, hfast,
    Mem.setData, Mem.node_store, Mem.node_alloc, htn, htne, htne.symm, htlt, firstOr_append]
  refine ⟨_, _, ⟨rfl, rfl⟩, ⟨?_, ?_, ?_, ?_, ?_⟩, rfl, rfl, ?_, ?_, ?_⟩
  · simp [dlseg_append, dlseg_cons, dlseg_store, dlseg_alloc, Mem.node_store, Mem.node_alloc,
      hys, hnd, hfresh, htne, htlt, htlt']
  · simp [List.nodup_append, hnd, hfresh, htne]
  · simp [firstOr_append, hhd]
  · simp [lastOr_append]
  · simp at hsz ⊢; omega
  · simp
  · simp
  · intro a h1 h2 h3
    simp [Mem.node_store, Mem.node_alloc, h1, h2, h3]

theorem insert_sorted_slow {m : Mem α} {L : DoublyLinkedList_ADT}
    {pre post ys : List (Nat × Option α)} {c t : Nat × Option α}
    (hc : Chain m L (pre ++ c :: post)) (hlast : pre ++ c :: post = ys ++ [t])
    (fuel : Nat) (e : α)
    (issmaller : Option α → Option α → Int) (dup : Option α → Option α)
    (hfast : issmaller t.2 (some e) = 0)
    (hpre : ∀ y ∈ pre, issmaller (some e) y.2 = 0)
    (hstop : issmaller (some e) c.2 ≠ 0 ∨ post = [])
    (hfuel : pre.length < fuel) :
    Inserted m L pre (c :: post) (dup (some e))
      (dll_insert_sorted fuel m (.ptr L) (some e) issmaller dup true) := by
  have hfresh := hc.fresh_not_mem
  have hsz := hc.size_eq
  have hs : L.size ≠ 0 := by simp at hsz; omega
  have htl : L.tail = some t.1 := Chain.tail_last (hlast ▸ hc)
  have htn : m.node t.1 = _ := Chain.node_at (hlast ▸ hc : Chain m L (ys ++ t :: []))
  have hscan := insert_sorted_scan_spec (some e) issmaller c post hstop pre [] fuel
    (by simpa using hc) hpre hfuel
  have hcn := hc.node_at
  have hclt := Mem.node_lt hcn
  have hclt' : c.1 < m.fresh + 1 := by omega
  have hseg := hc.seg
  have hnd := hc.nodup
  have hhd := hc.head_eq
  have htl2 := hc.tail_eq
  unfold Inserted
  rcases eq_nil_or_snoc pre with rfl | ⟨ps, p, rfl⟩
  · -- the new node becomes the head
    simp at hscan hhd hnd hfresh htl2
    simp [dlseg_cons] at hseg
    have hcne : c.1 ≠ m.fresh := fun h => hfresh.1 h.symm
    simp [dll_insert_sorted, dll_isempty, dll_size, list_t.isNULL, list_t.deref, hs, htl, Mem.load,
      Mem.setNext, Mem.setPrevious, hfast, hscan, hhd, hcn, hcne, hcne.symm, hclt,
      Mem.setData, Mem.node_store, Mem.node_alloc, htn]
    refine ⟨_, _, ⟨rfl, rfl⟩, ⟨?_, ?_, ?_, ?_, ?_⟩, rfl, rfl, ?_, ?_, ?_⟩
    · simp [dlseg_cons, dlseg_store, dlseg_alloc, Mem.node_store, Mem.node_alloc,
        hseg, hnd, hfresh, hcne, hclt, hclt']
    · simp [hnd, hfresh]
    · simp
    · simp [← htl2, htl]
    · simp at hsz ⊢; omega
    · simp
    · simp
    · intro a h1 h2 h3
      simp [Mem.node_store, Mem.node_alloc, h1, h2, h3]
  · -- the new node goes between `p` and `c`
    have hc2 : Chain m L (ps ++ p :: c :: post) := by simpa using hc
    have hpn : m.node p.1 = _ := Chain.node_at hc2
    have hplt := Mem.node_lt hpn
    have hplt' : p.1 < m.fresh + 1 := by omega
    have hhne := hc.head_ne (by simp)
    have hscan2 : insert_sorted_scan m L (some e) issmaller fuel L.head = .ok (some c.1) := by
      rw [hhd]; simpa [firstOr_append] using hscan
    simp [List.nodup_append] at hnd hfresh
    simp [dlseg_append, dlseg_cons, lastOr_append] at hseg hcn hpn
    have hcne : c.1 ≠ m.fresh := fun h => hc2.fresh_not_mem (by rw [← h]; simp)
    have hpne : p.1 ≠ m.fresh := fun h => hc2.fresh_not_mem (by rw [← h]; simp)
    have hpc : p.1 ≠ c.1 := by
      intro h; simp_all
    simp [dll_insert_sorted, dll_isempty, dll_size, list_t.isNULL, list_t.deref, hs, htl, Mem.load,
      Mem.setNext, Mem.setPrevious, hfast, hscan2, hhne, hcn, hcne, hcne.symm, hclt, hpn, hplt, hpne,
      hpne.symm, hpc, hpc.symm, hclt', hplt',
      Mem.setData, Mem.node_store, Mem.node_alloc, htn]
    refine ⟨_, _, ⟨rfl, rfl⟩, ⟨?_, ?_, ?_, ?_, ?_⟩, rfl, rfl, ?_, ?_, ?_⟩
    · simp [dlseg_append, dlseg_cons, dlseg_store, dlseg_alloc, Mem.node_store, Mem.node_alloc,
        hseg, hnd, hfresh, hcne, hclt, hclt', hpne, hplt, hplt', hpc, hpc.symm, lastOr_append]
    · have := hc2.fresh_not_mem
      simp [List.nodup_append] at this ⊢
      simp [hnd, hfresh, hcne, hpne, hpc]
    · simp [firstOr_append, hhd]
    · simp only []
      rw [← htl, htl2]; simp [lastOr_append]
    · simp at hsz ⊢; omega
    · simp
    · simp
    · intro a h1 h2 h3 h4 h5
      simp [Mem.node_store, Mem.node_alloc, h1, h2, h3, h4, h5]

end OpSpecs2

section OpSpecs3
variable {α : Type}

theorem insert_before_found {m : Mem α} {L : DoublyLinkedList_ADT}
    {pre post : List (Nat × Option α)} {c : Nat × Option α}
    (hc : Chain m L (pre ++ c :: post)) (data key : Option α) (dup : Option α → Option α)
    (is_equal : Option α → Option α → Int) (hm : is_equal key c.2 ≠ 0) (k : Nat) :
    Inserted m L pre (c :: post) (dup data)
      (insert_before_loop L data dup key is_equal true (k + 1) m (some c.1)) := by
  have hsz := hc.size_eq
  have hcn := hc.node_at
  have hclt := Mem.node_lt hcn
  have hclt' : c.1 < m.fresh + 1 := by omega
  have hseg := hc.seg
  have hnd := hc.nodup
  have hhd := hc.head_eq
  have htl := hc.tail_eq
  have hfresh := hc.fresh_not_mem
  have hcne : c.1 ≠ m.fresh := fun h => hc.fresh_not_mem (by rw [← h]; simp)
  unfold Inserted
  rcases eq_nil_or_snoc pre with rfl | ⟨ps, p, rfl⟩
  · simp at hhd hnd hfresh htl hcn
    simp [dlseg_cons] at hseg
    simp [insert_before_loop, Mem.load, Mem.setNext, Mem.setPrevious, hm, hhd, hcn, hcne, hcne.symm,
      hclt, Mem.setData, Mem.node_store, Mem.node_alloc]
    refine ⟨_, _, ⟨rfl, rfl⟩, ⟨?_, ?_, ?_, ?_, ?_⟩, rfl, rfl, ?_, ?_, ?_⟩
    · simp [dlseg_cons, dlseg_store, dlseg_alloc, Mem.node_store, Mem.node_alloc,
        hseg, hnd, hfresh, hcne, hclt, hclt']
    · simp [hnd, hfresh]
    · simp
    · simp [htl]
    · simp at hsz ⊢; omega
    · simp
    · simp
    · intro a h1 h2 h3
      simp [Mem.node_store, Mem.node_alloc, h1, h2, h3]
  · have hc2 : Chain m L (ps ++ p :: c :: post) := by simpa using hc
    have hpn : m.node p.1 = _ := Chain.node_at hc2
    have hplt := Mem.node_lt hpn
    have hplt' : p.1 < m.fresh + 1 := by omega
    have hhne := hc.head_ne (by simp)
    simp [List.nodup_append] at hnd hfresh
    simp [dlseg_append, dlseg_cons, lastOr_append] at hseg hcn hpn
    have hpne : p.1 ≠ m.fresh := fun h => hc2.fresh_not_mem (by rw [← h]; simp)
    have hpc : p.1 ≠ c.1 := by
      intro h; simp_all
    simp [insert_before_loop, Mem.load, Mem.setNext, Mem.setPrevious, hm, hhne, hcn, hcne, hcne.symm,
      hclt, hpn, hplt, hpne, hpne.symm, hpc, hpc.symm, hclt', hplt',
      Mem.setData, Mem.node_store, Mem.node_alloc]
    refine ⟨_, _, ⟨rfl, rfl⟩, ⟨?_, ?_, ?_, ?_, ?_⟩, rfl, rfl, ?_, ?_, ?_⟩
    · simp [dlseg_append, dlseg_cons, dlseg_store, dlseg_alloc, Mem.node_store, Mem.node_alloc,
        hseg, hnd, hfresh, hcne, hclt, hclt', hpne, hplt, hplt', hpc, hpc.symm, lastOr_append]
    · have := hc2.fresh_not_mem
      simp [List.nodup_append] at this ⊢
      simp [hnd, hfresh, hcne, hpne, hpc]
    · simp [firstOr_append, hhd]
    · simp only []
      rw [htl]; simp [lastOr_append]
    · simp at hsz ⊢; omega
    · simp
    · simp
    · intro a h1 h2 h3 h4 h5
      simp [Mem.node_store, Mem.node_alloc, h1, h2, h3, h4, h5]

theorem insert_before_walk {m : Mem α} {L : DoublyLinkedList_ADT}
    (data key : Option α) (dup : Option α → Option α)
    (is_equal : Option α → Option α → Int) (c : Nat × Option α) (post : List (Nat × Option α))
    (hm : is_equal key c.2 ≠ 0) :
    ∀ (pre done : List (Nat × Option α)) (fuel : Nat), Chain m L (done ++ (pre ++ c :: post)) →
      (∀ y ∈ pre, is_equal key y.2 = 0) → pre.length < fuel →
      Inserted m L (done ++ pre) (c :: post) (dup data)
        (insert_before_loop L data dup key is_equal true fuel m (firstOr (pre ++ [c]) none)) := by
  intro pre
  induction pre with
  | nil =>
    intro done fuel hc _ hf
    obtain ⟨k, rfl⟩ : ∃ k, fuel = k + 1 := ⟨fuel - 1, by simp at hf; omega⟩
    simpa using insert_before_found (by simpa using hc) data key dup is_equal hm k
  | cons y pre ih =>
    intro done fuel hc hpre hf
    obtain ⟨k, rfl⟩ : ∃ k, fuel = k + 1 := ⟨fuel - 1, by simp at hf; omega⟩
    have hn := hc.node_at
    have hy : is_equal key y.2 = 0 := hpre y (by simp)
    have htl := hc.tail_ne (by simp)
    have hc' : Chain m L ((done ++ [y]) ++ (pre ++ c :: post)) := by simpa using hc
    have := ih (done ++ [y]) k hc' (fun z hz => hpre z (by simp [hz])) (by simp at hf; omega)
    simp [insert_before_loop, Mem.load, hn, hy, htl, firstOr_append] at this ⊢
    exact this

theorem insert_before_chain {m : Mem α} {L : DoublyLinkedList_ADT}
    {pre post : List (Nat × Option α)} {c : Nat × Option α}
    (hc : Chain m L (pre ++ c :: post)) (e k : α) (dup : Option α → Option α)
    (is_equal : Option α → Option α → Int) (hpre : ∀ y ∈ pre, is_equal (some k) y.2 = 0)
    (hm : is_equal (some k) c.2 ≠ 0) (fuel : Nat) (hfuel : pre.length < fuel) :
    Inserted m L pre (c :: post) (dup (some e))
      (dll_insert_before fuel m (.ptr L) (some e) dup (some k) is_equal true) := by
  have := insert_before_walk (some e) (some k) dup is_equal c post hm pre [] fuel
    (by simpa using hc) hpre hfuel
  simp [dll_insert_before, list_t.isNULL, list_t.deref, hc.head_eq, firstOr_append] at this ⊢
  exact this

theorem insert_before_miss_walk {m : Mem α} {L : DoublyLinkedList_ADT}
    (data key : Option α) (dup : Option α → Option α)
    (is_equal : Option α → Option α → Int) (ok : Bool) :
    ∀ (rest done : List (Nat × Option α)) (fuel : Nat), rest ≠ [] → Chain m L (done ++ rest) →
      (∀ y ∈ rest, is_equal key y.2 = 0) → rest.length ≤ fuel →
      insert_before_loop L data dup key is_equal ok fuel m (firstOr rest none)
        = .ok (-1, m, .ptr L) := by
  intro rest
  induction rest with
  | nil => intro _ _ h; exact absurd rfl h
  | cons y rest ih =>
    intro done fuel _ hc hall hf
    obtain ⟨k, rfl⟩ : ∃ k, fuel = k + 1 := ⟨fuel - 1, by simp at hf; omega⟩
    have hn := hc.node_at
    have hy : is_equal key y.2 = 0 := hall y (by simp)
    rcases rest with _ | ⟨z, rest⟩
    · have htl := Chain.tail_last hc
      simp [insert_before_loop, Mem.load, hn, hy, htl]
    · have htl := hc.tail_ne (by simp)
      have hc' : Chain m L ((done ++ [y]) ++ (z :: rest)) := by simpa using hc
      have := ih (done ++ [y]) k (by simp) hc' (fun w hw => hall w (by simp [hw]))
        (by simp at hf ⊢; omega)
      simp [insert_before_loop, Mem.load, hn, hy, htl] at this ⊢
      exact this

theorem insert_before_miss {m : Mem α} {L : DoublyLinkedList_ADT} {xs : List (Nat × Option α)}
    (hc : Chain m L xs) (hne : xs ≠ []) (e k : α) (dup : Option α → Option α)
    (is_equal : Option α → Option α → Int) (hall : ∀ y ∈ xs, is_equal (some k) y.2 = 0)
    (ok : Bool) (fuel : Nat) (hfuel : xs.length ≤ fuel) :
    dll_insert_before fuel m (.ptr L) (some e) dup (some k) is_equal ok = .ok (-1, m, .ptr L) := by
  have := insert_before_miss_walk (some e) (some k) dup is_equal ok xs [] fuel hne
    (by simpa using hc) hall hfuel
  simp [dll_insert_before, list_t.isNULL, list_t.deref, hc.head_eq] at this ⊢
  exact this

theorem insert_after_found {m : Mem α} {L : DoublyLinkedList_ADT}
    {pre post : List (Nat × Option α)} {c : Nat × Option α}
    (hc : Chain m L (pre ++ c :: post)) (data key : Option α) (dup : Option α → Option α)
    (is_equal : Option α → Option α → Int) (hm : is_equal key c.2 ≠ 0) (k : Nat) :
    Inserted m L (pre ++ [c]) post (dup data)
      (insert_after_loop L data dup key is_equal true (k + 1) m (some c.1)) := by
  have hsz := hc.size_eq
  have hcn := hc.node_at
  have hclt := Mem.node_lt hcn
  have hclt' : c.1 < m.fresh + 1 := by omega
  have hseg := hc.seg
  have hnd := hc.nodup
  have hhd := hc.head_eq
  have htl := hc.tail_eq
  have hfresh := hc.fresh_not_mem
  have hcne : c.1 ≠ m.fresh := fun h => hc.fresh_not_mem (by rw [← h]; simp)
  unfold Inserted
  rcases post with _ | ⟨q, qs⟩
  · have htl2 := Chain.tail_last hc
    simp [List.nodup_append] at hnd hfresh hcn
    simp [dlseg_append, dlseg_cons] at hseg
    simp [insert_after_loop, Mem.load, Mem.setNext, Mem.setPrevious, hm, htl2, hcn, hcne, hcne.symm,
      hclt, Mem.setData, Mem.node_store, Mem.node_alloc]
    refine ⟨_, _, ⟨rfl, rfl⟩, ⟨?_, ?_, ?_, ?_, ?_⟩, rfl, rfl, ?_, ?_, ?_⟩
    · simp [dlseg_append, dlseg_cons, dlseg_store, dlseg_alloc, Mem.node_store, Mem.node_alloc,
        hseg, hnd, hfresh, hcne, hclt, hclt']
    · simp [List.nodup_append, hnd, hfresh, hcne]
    · simp [firstOr_append, hhd]
    · simp [lastOr_append]
    · simp at hsz ⊢; omega
    · simp
    · simp
    · intro a h1 h2 h3
      simp [Mem.node_store, Mem.node_alloc, h1, h2, h3]
  · have hc2 : Chain m L ((pre ++ [c]) ++ q :: qs) := by simpa using hc
    have hqn : m.node q.1 = _ := Chain.node_at hc2
    have hqlt := Mem.node_lt hqn
    have hqlt' : q.1 < m.fresh + 1 := by omega
    have htne := hc.tail_ne (by simp)
    simp [List.nodup_append] at hnd hfresh
    simp [dlseg_append, dlseg_cons, lastOr_append] at hseg hcn hqn
    have hqne : q.1 ≠ m.fresh := fun h => hc2.fresh_not_mem (by rw [← h]; simp)
    have hqc : q.1 ≠ c.1 := by
      intro h; simp_all
    simp [insert_after_loop, Mem.load, Mem.setNext, Mem.setPrevious, hm, htne, hcn, hcne, hcne.symm,
      hclt, hqn, hqlt, hqne, hqne.symm, hqc, hqc.symm, hclt', hqlt',
      Mem.setData, Mem.node_store, Mem.node_alloc]
    refine ⟨_, _, ⟨rfl, rfl⟩, ⟨?_, ?_, ?_, ?_, ?_⟩, rfl, rfl, ?_, ?_, ?_⟩
    · simp [dlseg_append, dlseg_cons, dlseg_store, dlseg_alloc, Mem.node_store, Mem.node_alloc,
        hseg, hnd, hfresh, hcne, hclt, hclt', hqne, hqlt, hqlt', hqc, hqc.symm, lastOr_append]
    · have := hc2.fresh_not_mem
      simp [List.nodup_append] at this ⊢
      simp [hnd, hfresh, hcne, hqne, hqc]
    · simp [firstOr_append, hhd]
    · simp only []
      rw [htl]; simp [lastOr_append]
    · simp at hsz ⊢; omega
    · simp
    · simp
    · intro a h1 h2 h3 h4 h5
      simp [Mem.node_store, Mem.node_alloc, h1, h2, h3, h4, h5]

theorem insert_after_walk {m : Mem α} {L : DoublyLinkedList_ADT}
    (data key : Option α) (dup : Option α → Option α)
    (is_equal : Option α → Option α → Int) (c : Nat × Option α) (post : List (Nat × Option α))
    (hm : is_equal key c.2 ≠ 0) :
    ∀ (pre done : List (Nat × Option α)) (fuel : Nat), Chain m L (done ++ (pre ++ c :: post)) →
      (∀ y ∈ pre, is_equal key y.2 = 0) → pre.length < fuel →
      Inserted m L (done ++ pre ++ [c]) post (dup data)
        (insert_after_loop L data dup key is_equal true fuel m (firstOr (pre ++ [c]) none)) := by
  intro pre
  induction pre with
  | nil =>
    intro done fuel hc _ hf
    obtain ⟨k, rfl⟩ : ∃ k, fuel = k + 1 := ⟨fuel - 1, by simp at hf; omega⟩
    simpa using insert_after_found (by simpa using hc) data key dup is_equal hm k
  | cons y pre ih =>
    intro done fuel hc hpre hf
    obtain ⟨k, rfl⟩ : ∃ k, fuel = k + 1 := ⟨fuel - 1, by simp at hf; omega⟩
    have hn := hc.node_at
    have hy : is_equal key y.2 = 0 := hpre y (by simp)
    have htl := hc.tail_ne (by simp)
    have hc' : Chain m L ((done ++ [y]) ++ (pre ++ c :: post)) := by simpa using hc
    have := ih (done ++ [y]) k hc' (fun z hz => hpre z (by simp [hz])) (by simp at hf; omega)
    simp [insert_after_loop, Mem.load, hn, hy, htl, firstOr_append] at this ⊢
    exact this

theorem insert_after_chain {m : Mem α} {L : DoublyLinkedList_ADT}
    {pre post : List (Nat × Option α)} {c : Nat × Option α}
    (hc : Chain m L (pre ++ c :: post)) (e k : α) (dup : Option α → Option α)
    (is_equal : Option α → Option α → Int) (hpre : ∀ y ∈ pre, is_equal (some k) y.2 = 0)
    (hm : is_equal (some k) c.2 ≠ 0) (fuel : Nat) (hfuel : pre.length < fuel) :
    Inserted m L (pre ++ [c]) post (dup (some e))
      (dll_insert_after fuel m (.ptr L) (some e) dup (some k) is_equal true) := by
  have := insert_after_walk (some e) (some k) dup is_equal c post hm pre [] fuel
    (by simpa using hc) hpre hfuel
  simp [dll_insert_after, list_t.isNULL, list_t.deref, hc.head_eq, firstOr_append] at this ⊢
  exact this

theorem insert_after_miss_walk {m : Mem α} {L : DoublyLinkedList_ADT}
    (data key : Option α) (dup : Option α → Option α)
    (is_equal : Option α → Option α → Int) (ok : Bool) :
    ∀ (rest done : List (Nat × Option α)) (fuel : Nat), rest ≠ [] → Chain m L (done ++ rest) →
      (∀ y ∈ rest, is_equal key y.2 = 0) → rest.length ≤ fuel →
      insert_after_loop L data dup key is_equal ok fuel m (firstOr rest none)
        = .ok (-1, m, .ptr L) := by
  intro rest
  induction rest with
  | nil => intro _ _ h; exact absurd rfl h
  | cons y rest ih =>
    intro done fuel _ hc hall hf
    obtain ⟨k, rfl⟩ : ∃ k, fuel = k + 1 := ⟨fuel - 1, by simp at hf; omega⟩
    have hn := hc.node_at
    have hy : is_equal key y.2 = 0 := hall y (by simp)
    rcases rest with _ | ⟨z, rest⟩
    · have htl := Chain.tail_last hc
      simp [insert_after_loop, Mem.load, hn, hy, htl]
    · have htl := hc.tail_ne (by simp)
      have hc' : Chain m L ((done ++ [y]) ++ (z :: rest)) := by simpa using hc
      have := ih (done ++ [y]) k (by simp) hc' (fun w hw => hall w (by simp [hw]))
        (by simp at hf ⊢; omega)
      simp [insert_after_loop, Mem.load, hn, hy, htl] at this ⊢
      exact this

theorem insert_after_miss {m : Mem α} {L : DoublyLinkedList_ADT} {xs : List (Nat × Option α)}
    (hc : Chain m L xs) (hne : xs ≠ []) (e k : α) (dup : Option α → Option α)
    (is_equal : Option α → Option α → Int) (hall : ∀ y ∈ xs, is_equal (some k) y.2 = 0)
    (ok : Bool) (fuel : Nat) (hfuel : xs.length ≤ fuel) :
    dll_insert_after fuel m (.ptr L) (some e) dup (some k) is_equal ok = .ok (-1, m, .ptr L) := by
  have := insert_after_miss_walk (some e) (some k) dup is_equal ok xs [] fuel hne
    (by simpa using hc) hall hfuel
  simp [dll_insert_after, list_t.isNULL, list_t.deref, hc.head_eq] at this ⊢
  exact this

end OpSpecs3

section DeleteSpecs
variable {α : Type}

theorem iteratorDeleteAll_ptr (L : DoublyLinkedList_ADT) :
    dll_iteratorDeleteAll (.ptr L) = .ok (0, .ptr { L with iteratorsArray := [] }) := by
  unfold dll_iteratorDeleteAll DoublyLinkedList_ADT.iteratorsCount
  cases h : L.iteratorsArray with
  | nil =>
    simp [list_t.isNULL, list_t.deref, h]
    cases L; simp_all
  | cons a as => simp [list_t.isNULL, list_t.deref, h]

theorem isempty_ptr (L : DoublyLinkedList_ADT) :
    dll_isempty (.ptr L) = .ok (if L.size = 0 then 1 else 0) := by
  unfold dll_isempty dll_size
  by_cases h : L.size = 0 <;> simp [list_t.isNULL, list_t.deref, h]

theorem iteratorUpdate_nonempty {L : DoublyLinkedList_ADT} (h : L.size ≠ 0)
    (old new : dllnodeptr) :
    dll_iteratorUpdate (.ptr L) old new
      = .ok (.ptr { L with iteratorsArray := retarget old new L.iteratorsArray }) := by
  simp [dll_iteratorUpdate, isempty_ptr, h, list_t.deref, retarget]

theorem iteratorUpdate_empty {L : DoublyLinkedList_ADT} (h : L.size = 0)
    (old new : dllnodeptr) :
    dll_iteratorUpdate (.ptr L) old new = .ok (.ptr { L with iteratorsArray := [] }) := by
  simp [dll_iteratorUpdate, isempty_ptr, h, iteratorDeleteAll_ptr]

theorem delete_scan_found {m : Mem α} {L : DoublyLinkedList_ADT} (key : Option α)
    (is_equal : Option α → Option α → Int) (c : Nat × Option α) (post : List (Nat × Option α))
    (hm : is_equal key c.2 ≠ 0) :
    ∀ (pre done : List (Nat × Option α)) (fuel : Nat), Chain m L (done ++ (pre ++ c :: post)) →
      (∀ y ∈ pre, is_equal key y.2 = 0) → pre.length < fuel →
      delete_scan m L key is_equal fuel (firstOr (pre ++ [c]) none) = .ok (some c.1) := by
  intro pre
  induction pre with
  | nil =>
    intro done fuel hc _ hf
    obtain ⟨k, rfl⟩ : ∃ k, fuel = k + 1 := ⟨fuel - 1, by simp at hf; omega⟩
    have hn := hc.node_at
    simp [delete_scan, Mem.load, hn, hm]
  | cons y pre ih =>
    intro done fuel hc hpre hf
    obtain ⟨k, rfl⟩ : ∃ k, fuel = k + 1 := ⟨fuel - 1, by simp at hf; omega⟩
    have hn := hc.node_at
    have hy : is_equal key y.2 = 0 := hpre y (by simp)
    have htl := hc.tail_ne (by simp)
    have hc' : Chain m L ((done ++ [y]) ++ (pre ++ c :: post)) := by simpa using hc
    have := ih (done ++ [y]) k hc' (fun z hz => hpre z (by simp [hz])) (by simp at hf; omega)
    simp [delete_scan, Mem.load, hn, hy, htl, firstOr_append] at this ⊢
    exact this

theorem delete_scan_miss {m : Mem α} {L : DoublyLinkedList_ADT} (key : Option α)
    (is_equal : Option α → Option α → Int) :
    ∀ (rest done : List (Nat × Option α)) (fuel : Nat), rest ≠ [] → Chain m L (done ++ rest) →
      (∀ y ∈ rest, is_equal key y.2 = 0) → rest.length ≤ fuel →
      delete_scan m L key is_equal fuel (firstOr rest none) = .ok none := by
  intro rest
  induction rest with
  | nil => intro _ _ h; exact absurd rfl h
  | cons y rest ih =>
    intro done fuel _ hc hall hf
    obtain ⟨k, rfl⟩ : ∃ k, fuel = k + 1 := ⟨fuel - 1, by simp at hf; omega⟩
    have hn := hc.node_at
    have hy : is_equal key y.2 = 0 := hall y (by simp)
    rcases rest with _ | ⟨z, rest⟩
    · have htl := Chain.tail_last hc
      simp [delete_scan, Mem.load, hn, hy, htl]
    · have htl := hc.tail_ne (by simp)
      have hc' : Chain m L ((done ++ [y]) ++ (z :: rest)) := by simpa using hc
      have := ih (done ++ [y]) k (by simp) hc' (fun w hw => hall w (by simp [hw]))
        (by simp at hf ⊢; omega)
      simp [delete_scan, Mem.load, hn, hy, htl] at this ⊢
      exact this

theorem delete_miss {m : Mem α} {L : DoublyLinkedList_ADT} {xs : List (Nat × Option α)}
    (hc : Chain m L xs) (k : α) (is_equal : Option α → Option α → Int)
    (hall : ∀ y ∈ xs, is_equal (some k) y.2 = 0) (fuel : Nat) (hfuel : xs.length ≤ fuel) :
    dll_delete fuel m (.ptr L) (some k) is_equal = .ok (1, m, .ptr L) := by
  by_cases hne : xs = []
  · subst hne
    have hs : L.size = 0 := by simpa using hc.size_eq
    simp [dll_delete, dll_isempty, dll_size, list_t.isNULL, list_t.deref, hs]
  · have hs : L.size ≠ 0 := by rw [hc.size_eq]; simpa using hne
    have := delete_scan_miss (some k) is_equal xs [] fuel hne (by simpa using hc) hall hfuel
    simp [dll_delete, dll_isempty, dll_size, list_t.isNULL, list_t.deref, hs, hc.head_eq, this]

set_option maxHeartbeats 1000000 in
theorem delete_chain {m : Mem α} {L : DoublyLinkedList_ADT}
    {pre post : List (Nat × Option α)} {x : Nat × Option α}
    (hc : Chain m L (pre ++ x :: post)) (k : α) (is_equal : Option α → Option α → Int)
    (hpre : ∀ y ∈ pre, is_equal (some k) y.2 = 0) (hm : is_equal (some k) x.2 ≠ 0)
    (fuel : Nat) (hfuel : pre.length < fuel) :
    ∃ m' L', dll_delete fuel m (.ptr L) (some k) is_equal = .ok (0, m', .ptr L')
      ∧ Removed m L pre x post m' L'
      ∧ L'.iteratorsArray = if (pre ++ post).isEmpty then []
          else retarget (some x.1) (firstOr post (lastOr pre none)) L.iteratorsArray := by
  have hsz := hc.size_eq
  have hs : L.size ≠ 0 := by simp at hsz; omega
  have hxn := hc.node_at
  have hxlt := Mem.node_lt hxn
  have hseg := hc.seg
  have hnd := hc.nodup
  have hhd := hc.head_eq
  have htl := hc.tail_eq
  have hscan := delete_scan_found (some k) is_equal x post hm pre [] fuel (by simpa using hc)
    hpre hfuel
  have hscan2 : delete_scan m L (some k) is_equal fuel L.head = .ok (some x.1) := by
    rw [hhd]; simpa [firstOr_append] using hscan
  unfold Removed
  rcases eq_nil_or_snoc pre with rfl | ⟨ps, p, rfl⟩
  · rcases post with _ | ⟨q, qs⟩
    · -- the only node
      simp at hhd htl hxn hsz
      rw [hhd] at hscan2
      have hs0 : L.size - 1 = 0 := by omega
      simp [dll_delete, isempty_ptr, hs, list_t.isNULL, list_t.deref, hscan2, hhd, htl, Mem.load,
        hxn, Mem.free, Mem.node_store, iteratorUpdate_empty, hs0]
      refine ⟨_, _, ⟨rfl, rfl⟩, ⟨⟨?_, ?_, ?_, ?_, ?_⟩, rfl, ?_, ?_, ?_, ?_⟩, rfl⟩
      · simp
      · simp
      · simp
      · simp
      · simp
      · simp
      · simp
      · simp [Mem.node_clear]
      · intro a h1; simp [Mem.node_clear, h1]
    · -- the head of a longer list
      have hc2 : Chain m L ([x] ++ q :: qs) := by simpa using hc
      have hqn : m.node q.1 = _ := Chain.node_at hc2
      have hqlt := Mem.node_lt hqn
      have htne := Chain.tail_ne (by simpa using hc : Chain m L ([] ++ x :: q :: qs)) (by simp)
      simp at hhd htl hxn hsz hnd hqn
      rw [hhd] at hscan2
      simp [dlseg_cons] at hseg
      have hqx : q.1 ≠ x.1 := fun h => hnd.1.1 h.symm
      have hs1 : L.size - 1 ≠ 0 := by omega
      simp [dll_delete, isempty_ptr, hs, list_t.isNULL, list_t.deref, hscan2, hhd, htne, Mem.load,
        hxn, hqn, hqx, hqx.symm, hqlt, hxlt, Mem.free, Mem.setPrevious, Mem.node_store,
        iteratorUpdate_nonempty, hs1]
      refine ⟨_, _, ⟨rfl, rfl⟩, ⟨⟨?_, ?_, ?_, ?_, ?_⟩, rfl, ?_, ?_, ?_, ?_⟩, rfl⟩
      · simp [dlseg_cons, dlseg_clear, dlseg_store, dlseg_release, Mem.node_clear, Mem.node_store,
          hseg, hnd, hqx, hqlt]
      · simp [hnd]
      · simp
      · simp [htl]
      · simp; omega
      · simp
      · simp
      · simp [Mem.node_clear]
      · intro a h1 h2 h3; simp [Mem.node_clear, Mem.node_store, h1, h2]
  · have hc2 : Chain m L (ps ++ p :: x :: post) := by simpa using hc
    have hpn : m.node p.1 = _ := Chain.node_at hc2
    have hplt := Mem.node_lt hpn
    have hhne := hc.head_ne (by simp)
    rcases post with _ | ⟨q, qs⟩
    · -- the tail of a longer list
      have htl2 := Chain.tail_last hc
      simp [List.nodup_append] at hnd
      simp [dlseg_append, dlseg_cons, lastOr_append] at hseg hxn hpn
      simp at hsz
      have hpx : p.1 ≠ x.1 := @nodup_ne α ps [] _ p x hc2.nodup
      have hs1 : L.size - 1 ≠ 0 := by omega
      simp [dll_delete, isempty_ptr, hs, list_t.isNULL, list_t.deref, hscan2, hhne, htl2, Mem.load,
        hxn, hpn, hpx, hpx.symm, hplt, hxlt, Mem.free, Mem.setNext, Mem.node_store,
        iteratorUpdate_nonempty, hs1, lastOr_append]
      refine ⟨_, _, ⟨rfl, rfl⟩, ⟨⟨?_, ?_, ?_, ?_, ?_⟩, rfl, ?_, ?_, ?_, ?_⟩, rfl⟩
      · simp [dlseg_append, dlseg_cons, dlseg_clear, dlseg_store, dlseg_release, Mem.node_clear,
          Mem.node_store, hseg, hnd, hpx, hplt]
      · simp [List.nodup_append, hnd]
      · simp [firstOr_append, hhd]
      · simp [lastOr_append]
      · simp; omega
      · simp
      · simp
      · simp [Mem.node_clear]
      · intro a h1 h2 h3; simp [Mem.node_clear, Mem.node_store, h1, h3]
    · -- an interior node
      have hc3 : Chain m L ((ps ++ [p] ++ [x]) ++ q :: qs) := by simpa using hc
      have hqn : m.node q.1 = _ := Chain.node_at hc3
      have hqlt := Mem.node_lt hqn
      have htne := hc.tail_ne (by simp)
      simp [List.nodup_append] at hnd
      simp [dlseg_append, dlseg_cons, lastOr_append] at hseg hxn hpn hqn
      simp at hsz
      have hpx : p.1 ≠ x.1 := @nodup_ne α ps [] _ p x hc2.nodup
      have hqx : q.1 ≠ x.1 := (@nodup_ne α (ps ++ [p]) [] qs x q (by simpa using hc.nodup)).symm
      have hpq : p.1 ≠ q.1 := @nodup_ne α ps [x] qs p q (by simpa using hc2.nodup)
      have hs1 : L.size - 1 ≠ 0 := by omega
      simp [dll_delete, isempty_ptr, hs, list_t.isNULL, list_t.deref, hscan2, hhne, htne, Mem.load,
        hxn, hpn, hqn, hpx, hpx.symm, hqx, hqx.symm, hpq, hpq.symm, hplt, hqlt, hxlt, Mem.free,
        Mem.setNext, Mem.setPrevious, Mem.node_store, iteratorUpdate_nonempty, hs1, lastOr_append]
      refine ⟨_, _, ⟨rfl, rfl⟩, ⟨⟨?_, ?_, ?_, ?_, ?_⟩, rfl, ?_, ?_, ?_, ?_⟩, rfl⟩
      · simp [dlseg_append, dlseg_cons, dlseg_clear, dlseg_store, dlseg_release, Mem.node_clear,
          Mem.node_store, hseg, hnd, hpx, hqx, hpq, hpq.symm, hplt, hqlt, lastOr_append]
      · simp [List.nodup_append, hnd, hpq]
      · simp [firstOr_append, hhd]
      · simp only []
        rw [htl]; simp [lastOr_append]
      · simp; omega
      · simp
      · simp
      · simp [Mem.node_clear]
      · intro a h1 h2 h3 h4 h5; simp [Mem.node_clear, Mem.node_store, h1, h3, h4]

end DeleteSpecs

section DeleteSpecs2
variable {α : Type}

theorem delete_front_chain {m : Mem α} {L : DoublyLinkedList_ADT}
    {post : List (Nat × Option α)} {x : Nat × Option α} (hc : Chain m L (x :: post)) :
    ∃ m' L', dll_delete_front m (.ptr L) = .ok (m', .ptr L')
      ∧ Removed m L [] x post m' L'
      ∧ L'.iteratorsArray = if post.isEmpty then []
          else retarget (some x.1) (firstOr post none) L.iteratorsArray := by
  have hsz := hc.size_eq
  have hxn : m.node x.1 = _ := Chain.node_at (by simpa using hc : Chain m L ([] ++ x :: post))
  have hxlt := Mem.node_lt hxn
  have hseg := hc.seg
  have hnd := hc.nodup
  have hhd := hc.head_eq
  have htl := hc.tail_eq
  unfold Removed
  rcases post with _ | ⟨q, qs⟩
  · simp at hhd htl hxn hsz
    have hs0 : ¬ (1 < L.size) := by omega
    simp [dll_delete_front, list_t.deref, hhd, htl, Mem.load, hs0,
      hxn, hxlt, Mem.free, Mem.setData, Mem.setNext, Mem.node_store, iteratorDeleteAll_ptr]
    refine ⟨_, _, ⟨rfl, rfl⟩, ⟨⟨?_, ?_, ?_, ?_, ?_⟩, rfl, ?_, ?_, ?_, ?_⟩, rfl⟩
    · simp
    · simp
    · simp
    · simp
    · simp; omega
    · simp
    · simp
    · simp [Mem.node_clear]
    · intro a h1; simp [Mem.node_clear, Mem.node_store, h1]
  · have hc2 : Chain m L ([x] ++ q :: qs) := by simpa using hc
    have hqn : m.node q.1 = _ := Chain.node_at hc2
    have hqlt := Mem.node_lt hqn
    simp at hhd htl hxn hsz hnd hqn
    simp [dlseg_cons] at hseg
    have hqx : q.1 ≠ x.1 := fun h => hnd.1.1 h.symm
    have hs1 : L.size - 1 ≠ 0 := by omega
    have hs2 : 1 < L.size := by omega
    simp [dll_delete_front, list_t.deref, hhd, Mem.load, hs2,
      hxn, hqn, hqx, hqx.symm, hqlt, hxlt, Mem.free, Mem.setPrevious, Mem.setData, Mem.setNext,
      Mem.node_store, iteratorUpdate_nonempty, hs1]
    refine ⟨_, _, ⟨rfl, rfl⟩, ⟨⟨?_, ?_, ?_, ?_, ?_⟩, rfl, ?_, ?_, ?_, ?_⟩, rfl⟩
    · simp [dlseg_cons, dlseg_clear, dlseg_store, dlseg_release, Mem.node_clear, Mem.node_store,
        hseg, hnd, hqx, hqlt]
    · simp [hnd]
    · simp
    · simp [htl]
    · simp; omega
    · simp
    · simp
    · simp [Mem.node_clear]
    · intro a h1 h2 h3; simp [Mem.node_clear, Mem.node_store, h1, h2]

theorem delete_back_chain {m : Mem α} {L : DoublyLinkedList_ADT}
    {pre : List (Nat × Option α)} {x : Nat × Option α} (hc : Chain m L (pre ++ [x])) :
    ∃ m' L', dll_delete_back m (.ptr L) = .ok (m', .ptr L')
      ∧ Removed m L pre x [] m' L'
      ∧ L'.iteratorsArray = if pre.isEmpty then []
          else retarget (some x.1) (lastOr pre none) L.iteratorsArray := by
  have hsz := hc.size_eq
  have hxn : m.node x.1 = _ := Chain.node_at hc
  have hxlt := Mem.node_lt hxn
  have hseg := hc.seg
  have hnd := hc.nodup
  have hhd := hc.head_eq
  have htl := Chain.tail_last hc
  unfold Removed
  rcases eq_nil_or_snoc pre with rfl | ⟨ps, p, rfl⟩
  · simp at hhd hxn hsz
    have hs0 : ¬ (1 < L.size) := by omega
    simp [dll_delete_back, list_t.deref, hhd, htl, Mem.load, hs0,
      hxn, hxlt, Mem.free, Mem.setData, Mem.setNext, Mem.node_store, iteratorDeleteAll_ptr]
    refine ⟨_, _, ⟨rfl, rfl⟩, ⟨⟨?_, ?_, ?_, ?_, ?_⟩, rfl, ?_, ?_, ?_, ?_⟩, rfl⟩
    · simp
    · simp
    · simp
    · simp
    · simp; omega
    · simp
    · simp
    · simp [Mem.node_clear]
    · intro a h1; simp [Mem.node_clear, Mem.node_store, h1]
  · have hc2 : Chain m L (ps ++ p :: [x]) := by simpa using hc
    have hpn : m.node p.1 = _ := Chain.node_at hc2
    have hplt := Mem.node_lt hpn
    simp [List.nodup_append] at hnd
    simp [dlseg_append, dlseg_cons, lastOr_append] at hseg hxn hpn
    simp at hsz
    have hpx : p.1 ≠ x.1 := @nodup_ne α ps [] _ p x hc2.nodup
    have hs1 : L.size - 1 ≠ 0 := by omega
    have hs2 : 1 < L.size := by omega
    simp [dll_delete_back, list_t.deref, htl, Mem.load, hs2,
      hxn, hpn, hpx, hpx.symm, hplt, hxlt, Mem.free, Mem.setPrevious, Mem.setData, Mem.setNext,
      Mem.node_store, iteratorUpdate_nonempty, hs1, lastOr_append]
    refine ⟨_, _, ⟨rfl, rfl⟩, ⟨⟨?_, ?_, ?_, ?_, ?_⟩, rfl, ?_, ?_, ?_, ?_⟩, rfl⟩
    · simp [dlseg_append, dlseg_cons, dlseg_clear, dlseg_store, dlseg_release, Mem.node_clear,
        Mem.node_store, hseg, hnd, hpx, hplt]
    · simp [List.nodup_append, hnd]
    · simp [firstOr_append, hhd]
    · simp [lastOr_append]
    · simp; omega
    · simp
    · simp
    · simp [Mem.node_clear]
    · intro a h1 h2 h3; simp [Mem.node_clear, Mem.node_store, h1, h3]

end DeleteSpecs2

section RegistryLemmas
variable {α : Type}

theorem binarySearch_congr {L L' : DoublyLinkedList_ADT}
    (h : L'.iteratorsArray = L.iteratorsArray) (key : Int) :
    ∀ (fuel : Nat) (s e : Int),
      dll_iteratorBinarySearch L' key fuel s e = dll_iteratorBinarySearch L key fuel s e := by
  intro fuel
  induction fuel with
  | zero => intro s e; rfl
  | succ k ih =>
    intro s e
    simp only [dll_iteratorBinarySearch, DoublyLinkedList_ADT.iterAt,
      DoublyLinkedList_ADT.iteratorsCount, h, ih]

theorem getIdxWithID_congr {L L' : DoublyLinkedList_ADT}
    (h : L'.iteratorsArray = L.iteratorsArray) (fuel : Nat) (key : Int) :
    dll_iteratorGetIdxWithID fuel L' key = dll_iteratorGetIdxWithID fuel L key := by
  simp only [dll_iteratorGetIdxWithID, DoublyLinkedList_ADT.iteratorsCount, h,
    binarySearch_congr h]

theorem iterAt_nat {L : DoublyLinkedList_ADT} {i : Nat} {it : dlliterator}
    (h : L.iteratorsArray[i]? = some it) : L.iterAt (i : Int) = .ok it := by
  simp [DoublyLinkedList_ADT.iterAt, h]

theorem setIterNode_nat {L : DoublyLinkedList_ADT} {i : Nat} {it : dlliterator}
    (h : L.iteratorsArray[i]? = some it) (p : dllnodeptr) :
    L.setIterNode (i : Int) p
      = .ok { L with iteratorsArray := L.iteratorsArray.set i { it with node := p } } := by
  simp [DoublyLinkedList_ADT.setIterNode, h]

/-- The search finds an ID stored in the last slot when all other slots hold smaller IDs. -/
theorem binarySearch_last {L : DoublyLinkedList_ADT} {its : List dlliterator} {p : dllnodeptr}
    {key : Int} (hL : L.iteratorsArray = its ++ [⟨p, key⟩]) (hlt : ∀ it ∈ its, it.id < key) :
    ∀ (fuel start : Nat), start ≤ its.length → its.length - start < fuel →
      dll_iteratorBinarySearch L key fuel (start : Int) (its.length : Int)
        = .ok (its.length : Int) := by
  intro fuel
  induction fuel with
  | zero => intro s _ h; omega
  | succ k ih =>
    intro s hs hf
    obtain ⟨mid, hmid, h1, h2⟩ : ∃ mid : Nat,
        Int.tdiv ((its.length : Int) - (s : Int)) 2 + (s : Int) = (mid : Int)
        ∧ (s = its.length → mid = its.length) ∧ (s ≠ its.length → s ≤ mid ∧ mid < its.length) := by
      refine ⟨(its.length - s) / 2 + s, ?_, ?_, ?_⟩
      · rw [Int.tdiv_eq_ediv (by omega) (by omega)]
        omega
      · intro h; omega
      · intro h; omega
    rw [dll_iteratorBinarySearch]
    simp only [hmid]
    by_cases hse : s = its.length
    · have hm := h1 hse
      subst hm
      have hget : L.iteratorsArray[its.length]? = some ⟨p, key⟩ := by
        rw [hL]; simp
      simp [iterAt_nat hget]
    · obtain ⟨hsm, hm⟩ := h2 hse
      have hget : L.iteratorsArray[mid]? = some (its[mid]) := by
        rw [hL, List.getElem?_append_left hm, List.getElem?_eq_getElem hm]
      have hid := hlt _ (List.getElem_mem hm)
      have hne : ¬ ((its[mid]).id = key) := by omega
      have hse' : ¬ ((s : Int) = (its.length : Int)) := by omega
      have hnl : ¬ (key < (its[mid]).id) := by omega
      have hcount : L.iteratorsCount = (its.length : Int) + 1 := by
        simp [DoublyLinkedList_ADT.iteratorsCount, hL]
      have hmc : (mid : Int) < (its.length : Int) + 1 := by omega
      have := ih (mid + 1) (by omega) (by omega)
      simp [iterAt_nat hget, hne, hse', hnl, hid, hcount, hmc]
      simpa using this

theorem getIdxWithID_last {L : DoublyLinkedList_ADT} {its : List dlliterator} {p : dllnodeptr}
    {key : Int} (hL : L.iteratorsArray = its ++ [⟨p, key⟩]) (hlt : ∀ it ∈ its, it.id < key)
    (fuel : Nat) (hf : its.length < fuel) :
    dll_iteratorGetIdxWithID fuel L key = .ok (its.length : Int) := by
  have hcount : L.iteratorsCount = (its.length : Int) + 1 := by
    simp [DoublyLinkedList_ADT.iteratorsCount, hL]
  have := binarySearch_last hL hlt fuel 0 (by omega) (by omega)
  simp [dll_iteratorGetIdxWithID, hcount] at this ⊢
  have h0 : (0 : Int) < (its.length : Int) + 1 := by omega
  simp [h0, this]

theorem iteratorRequest_last {L : DoublyLinkedList_ADT} (hs : L.size ≠ 0)
    (hlt : ∀ it ∈ L.iteratorsArray, it.id < L.id_counter) (fuel : Nat)
    (hf : L.iteratorsArray.length < fuel) :
    dll_iteratorRequest fuel (.ptr L) true
      = .ok (L.id_counter, .ptr { L with
          iteratorsArray := L.iteratorsArray ++ [⟨L.head, L.id_counter⟩],
          id_counter := wrapInt (L.id_counter + 1) }) := by
  have hidx := @getIdxWithID_last
    { L with iteratorsArray := L.iteratorsArray ++ [⟨none, L.id_counter⟩] }
    L.iteratorsArray none L.id_counter rfl hlt fuel hf
  have hget : (L.iteratorsArray ++ [(⟨none, L.id_counter⟩ : dlliterator)])[L.iteratorsArray.length]?
      = some ⟨none, L.id_counter⟩ := by simp
  have hne : ¬ ((L.iteratorsArray.length : Int) = -1) := by omega
  have hset := @setIterNode_nat
    { L with iteratorsArray := L.iteratorsArray ++ [⟨none, L.id_counter⟩] } _ _ hget L.head
  simp at hset
  simp [dll_iteratorRequest, dll_iteratorBegin, isempty_ptr, hs, list_t.isNULL, list_t.deref, hidx,
    hne, hset]

theorem iteratorGetObj_last {m : Mem α} {L : DoublyLinkedList_ADT} {its : List dlliterator}
    {a : Nat} {key : Int} {n : DoublyLinkedListNode α} (hs : L.size ≠ 0)
    (hL : L.iteratorsArray = its ++ [⟨some a, key⟩]) (hlt : ∀ it ∈ its, it.id < key)
    (hn : m.node a = some n) (fuel : Nat) (hf : its.length < fuel) :
    dll_iteratorGetObj fuel m (.ptr L) key = .ok (n.data, .ptr L) := by
  have hidx := getIdxWithID_last hL hlt fuel hf
  have hget : L.iteratorsArray[its.length]? = some ⟨some a, key⟩ := by rw [hL]; simp
  have hne : ¬ ((its.length : Int) = -1) := by omega
  simp [dll_iteratorGetObj, isempty_ptr, hs, list_t.isNULL, list_t.deref, hidx, hne,
    iterAt_nat hget, Mem.load, hn]

theorem iteratorNext_last_tail {m : Mem α} {L : DoublyLinkedList_ADT} {its : List dlliterator}
    {key : Int} (hs : L.size ≠ 0)
    (hL : L.iteratorsArray = its ++ [⟨L.tail, key⟩]) (hlt : ∀ it ∈ its, it.id < key)
    (fuel : Nat) (hf : its.length < fuel) :
    dll_iteratorNext fuel m (.ptr L) key = .ok (2, .ptr L) := by
  have hidx := getIdxWithID_last hL hlt fuel hf
  have hget : L.iteratorsArray[its.length]? = some ⟨L.tail, key⟩ := by rw [hL]; simp
  have hne : ¬ ((its.length : Int) = -1) := by omega
  simp [dll_iteratorNext, isempty_ptr, hs, list_t.isNULL, list_t.deref, hidx, hne,
    iterAt_nat hget]

theorem iteratorNext_last_step {m : Mem α} {L : DoublyLinkedList_ADT} {its : List dlliterator}
    {a : Nat} {key : Int} {n : DoublyLinkedListNode α} (hs : L.size ≠ 0)
    (hL : L.iteratorsArray = its ++ [⟨some a, key⟩]) (hlt : ∀ it ∈ its, it.id < key)
    (hn : m.node a = some n) (hnt : ¬ (some a = L.tail)) (fuel : Nat) (hf : its.length < fuel) :
    dll_iteratorNext fuel m (.ptr L) key
      = .ok (0, .ptr { L with iteratorsArray := its ++ [⟨n.next, key⟩] }) := by
  have hidx := getIdxWithID_last hL hlt fuel hf
  have hget : L.iteratorsArray[its.length]? = some ⟨some a, key⟩ := by rw [hL]; simp
  have hne : ¬ ((its.length : Int) = -1) := by omega
  simp [dll_iteratorNext, isempty_ptr, hs, list_t.isNULL, list_t.deref, hidx, hne,
    iterAt_nat hget, setIterNode_nat hget, Mem.load, hn, hnt, hL]

/-- The visiting loop, started with the iterator on the node `x` of the chain, visits the
elements from `x` to the tail and leaves the iterator on the tail. -/
theorem iterate_chain {m : Mem α} {its : List dlliterator} {key : Int}
    (hlt : ∀ it ∈ its, it.id < key) (fuel : Nat) (hf : its.length < fuel) :
    ∀ (rest done : List (Nat × Option α)) (x : Nat × Option α) (L : DoublyLinkedList_ADT)
      (k : Nat), Chain m L (done ++ x :: rest) → L.iteratorsArray = its ++ [⟨some x.1, key⟩] →
      rest.length < k →
      iterate fuel m key k (.ptr L)
        = .ok ((x :: rest).map Prod.snd,
            .ptr { L with iteratorsArray := its ++ [⟨lastOr rest (some x.1), key⟩] }) := by
  intro rest
  induction rest with
  | nil =>
    intro done x L k hc hL hk
    obtain ⟨j, rfl⟩ : ∃ j, k = j + 1 := ⟨k - 1, by simp at hk; omega⟩
    have hs : L.size ≠ 0 := fun h => by have := hc.size_eq_zero_iff.1 h; simp at this
    have hn := hc.node_at
    have ht := Chain.tail_last hc
    have hL2 : L.iteratorsArray = its ++ [⟨L.tail, key⟩] := by rw [hL, ht]
    simp [iterate, iteratorGetObj_last hs hL hlt hn fuel hf,
      iteratorNext_last_tail hs hL2 hlt fuel hf]
    cases L; simp_all
  | cons y rest ih =>
    intro done x L k hc hL hk
    obtain ⟨j, rfl⟩ : ∃ j, k = j + 1 := ⟨k - 1, by simp at hk; omega⟩
    have hs : L.size ≠ 0 := fun h => by have := hc.size_eq_zero_iff.1 h; simp at this
    have hn := hc.node_at
    have hnt := hc.tail_ne (by simp)
    have hc' : Chain m { L with iteratorsArray := its ++ [⟨some y.1, key⟩] }
        ((done ++ [x]) ++ y :: rest) := by
      have h := hc
      simp only [List.append_assoc, List.singleton_append]
      exact ⟨h.seg, h.nodup, h.head_eq, h.tail_eq, h.size_eq⟩
    have := ih (done ++ [x]) y _ j hc' rfl (by simp at hk; omega)
    simp [iterate, iteratorGetObj_last hs hL hlt hn fuel hf,
      iteratorNext_last_step hs hL hlt hn hnt fuel hf, this]

theorem traverse_chain {m : Mem α} {L : DoublyLinkedList_ADT} {xs : List (Nat × Option α)}
    (hc : Chain m L xs) (hne : xs ≠ [])
    (hlt : ∀ it ∈ L.iteratorsArray, it.id < L.id_counter) (fuel : Nat)
    (hf : L.iteratorsArray.length + xs.length < fuel) :
    traverse fuel m (.ptr L)
      = .ok (xs.map Prod.snd, .ptr { L with
          iteratorsArray := L.iteratorsArray ++ [⟨L.tail, L.id_counter⟩],
          id_counter := wrapInt (L.id_counter + 1) }) := by
  have hs : L.size ≠ 0 := by rw [hc.size_eq]; simpa using hne
  obtain ⟨x, rest, rfl⟩ : ∃ x rest, xs = x :: rest := by
    cases xs with
    | nil => exact absurd rfl hne
    | cons x rest => exact ⟨x, rest, rfl⟩
  have hreq := iteratorRequest_last hs hlt fuel (by omega)
  have hc' : Chain m { L with
      iteratorsArray := L.iteratorsArray ++ [⟨L.head, L.id_counter⟩],
      id_counter := wrapInt (L.id_counter + 1) } ([] ++ x :: rest) :=
    ⟨hc.seg, hc.nodup, hc.head_eq, hc.tail_eq, hc.size_eq⟩
  have hit := iterate_chain hlt fuel (by omega) rest [] x _ fuel hc'
    (by simp [hc.head_eq]) (by simp at hf; omega)
  simp [traverse, hreq, hit]
  rw [hc.tail_eq]; rfl

end RegistryLemmas

section RoundTrip
variable {α : Type}

theorem chain_init : Chain (Mem.empty : Mem α)
    { head := none, tail := none, size := 0, iteratorsArray := [], id_counter := 0 } [] :=
  ⟨trivial, List.nodup_nil, rfl, rfl, rfl⟩

theorem insert_all_front_chain (dup : Option α → Option α) :
    ∀ (es : List α) (m : Mem α) (L : DoublyLinkedList_ADT) (xs : List (Nat × Option α)),
      Chain m L xs →
      ∃ m' L' ys, insert_all_front dup m (.ptr L) (es.map some)
          = .ok (List.replicate es.length 0, m', .ptr L')
        ∧ Chain m' L' (ys ++ xs) ∧ ys.map Prod.snd = es.reverse.map (fun e => dup (some e))
        ∧ L'.iteratorsArray = L.iteratorsArray ∧ L'.id_counter = L.id_counter := by
  intro es
  induction es with
  | nil =>
    intro m L xs hc
    exact ⟨m, L, [], rfl, by simpa using hc, rfl, rfl, rfl⟩
  | cons e es ih =>
    intro m L xs hc
    obtain ⟨m1, L1, h1, hc1, hi1, hk1, -⟩ := insert_at_front_chain hc e dup
    obtain ⟨m2, L2, ys, h2, hc2, hy2, hi2, hk2⟩ := ih m1 L1 _ hc1
    refine ⟨m2, L2, ys ++ [(m.fresh, dup (some e))], ?_, by simpa using hc2, by simp [hy2],
      hi2.trans hi1, hk2.trans hk1⟩
    simp [insert_all_front, h1, h2, List.replicate_succ]

theorem Chain.with_registry {m : Mem α} {L : DoublyLinkedList_ADT} {xs : List (Nat × Option α)}
    (hc : Chain m L xs) (its : List dlliterator) (c : Int) :
    Chain m { L with iteratorsArray := its, id_counter := c } xs :=
  ⟨hc.seg, hc.nodup, hc.head_eq, hc.tail_eq, hc.size_eq⟩

end RoundTrip

/-- C2: for every non-empty sequence `es` of elements, `es.length` calls of
`dll_insert_at_front` on a freshly initialised list all return 0, and a front-to-back
traversal with a freshly requested iterator visits `duplicate e` for the elements `e` of
`es` in the reverse of the insertion order (whatever entries, with IDs below the ID
counter, the iterator table holds, once the step budget covers the table and the list). -/
theorem front_insertion_round_trip {α : Type} (duplicate : Option α → Option α) (es : List α)
    (hne : es ≠ []) (its : List dlliterator) (c : Int) (hreg : ∀ it ∈ its, it.id < c)
    (fuel : Nat) (hfuel : its.length + es.length < fuel) :
    ∃ m L, insert_all_front duplicate Mem.empty (dll_init true true).2 (es.map some)
        = .ok (List.replicate es.length 0, m, .ptr L)
      ∧ ∃ after, traverse fuel m (.ptr { L with iteratorsArray := its, id_counter := c })
        = .ok (es.reverse.map (fun e => duplicate (some e)), after) := by
  obtain ⟨m, L, ys, h, hc, hy, -, -⟩ := insert_all_front_chain duplicate es _ _ _ chain_init
  refine ⟨m, L, h, ?_⟩
  simp only [List.append_nil] at hc
  have hlen : ys.length = es.length := by
    have := congrArg List.length hy; simpa using this
  have hne' : ys ≠ [] := by
    intro h0; apply hne; apply List.eq_nil_of_length_eq_zero; rw [← hlen, h0]; rfl
  have := traverse_chain (hc.with_registry its c) hne' hreg fuel (by simpa [hlen] using hfuel)
  rw [hy] at this
  exact ⟨_, this⟩

/-- Witness of C2: three elements, no other iterator. -/
theorem front_insertion_round_trip_witness :
    ([1, 2, 3] : List Nat) ≠ [] ∧ (∀ it ∈ ([] : List dlliterator), it.id < 0)
      ∧ ∃ m L, insert_all_front (fun x => x) Mem.empty (dll_init true true).2
            (([1, 2, 3] : List Nat).map some) = .ok (List.replicate 3 0, m, .ptr L)
        ∧ ∃ after, traverse 4 m (.ptr { L with iteratorsArray := [], id_counter := 0 })
          = .ok ([some 3, some 2, some 1], after) :=
  ⟨by decide, by decide,
    front_insertion_round_trip (fun x => x) [1, 2, 3] (by decide) [] 0 (by decide) 4 (by decide)⟩

section AppendSpec
variable {α : Type}

theorem append_chain {m : Mem α} {A B : DoublyLinkedList_ADT} {xs ys : List (Nat × Option α)}
    (ha : Chain m A xs) (hb : Chain m B ys) (hxs : xs ≠ []) (hys : ys ≠ [])
    (hdis : ∀ a ∈ xs.map Prod.fst, a ∉ ys.map Prod.fst) :
    ∃ m' A', dll_append m (.ptr A) (.ptr B) = .ok (m', .ptr A', .dangling)
      ∧ Chain m' A' (xs ++ ys)
      ∧ A'.size = A.size + B.size ∧ A'.tail = B.tail ∧ A'.head = A.head
      ∧ A'.iteratorsArray = A.iteratorsArray ∧ A'.id_counter = A.id_counter
      ∧ m'.released = m.released ∧ m'.fresh = m.fresh
      ∧ ∀ a, a ∉ (xs ++ ys).map Prod.fst → m'.node a = m.node a := by
  rcases eq_nil_or_snoc xs with rfl | ⟨ps, t, rfl⟩
  · exact absurd rfl hxs
  rcases ys with _ | ⟨h, qs⟩
  · exact absurd rfl hys
  have htl := Chain.tail_last ha
  have hhd := Chain.head_first hb
  have htn := Chain.node_at ha
  have hhn : m.node h.1 = _ := Chain.node_at (by simpa using hb : Chain m B ([] ++ h :: qs))
  have htlt := Mem.node_lt htn
  have hhlt := Mem.node_lt hhn
  have hsa := ha.seg
  have hsb := hb.seg
  have hna := ha.nodup
  have hnb := hb.nodup
  have hnodup : ((ps ++ [t] ++ h :: qs).map Prod.fst).Nodup := by
    rw [List.map_append]
    exact List.nodup_append.2 ⟨ha.nodup, hb.nodup, fun a h1 h2 => hdis a h1 h2⟩
  simp [dlseg_append, dlseg_cons] at hsa hsb htn hhn
  simp [List.nodup_append] at hna hnb
  have hth : t.1 ≠ h.1 := fun e => hdis t.1 (by simp) (by rw [e]; simp)
  have hd1 : ∀ x, (h.1, x) ∉ ps := fun x hx => hdis h.1 (by simp; exact Or.inl ⟨x, hx⟩) (by simp)
  have hd2 : ∀ x, (t.1, x) ∉ qs := fun x hx =>
    hdis t.1 (by simp) (by simp; exact Or.inr ⟨x, hx⟩)
  simp [dll_append, list_t.deref, htl, hhd, Mem.setNext, Mem.setPrevious, htn, hhn, hth, hth.symm,
    Mem.node_store, htlt, hhlt]
  refine ⟨_, _, ⟨rfl, rfl⟩, ⟨?_, ?_, ?_, ?_, ?_⟩, rfl, ?_, rfl, rfl, rfl, ?_, ?_, ?_⟩
  · simp [dlseg_append, dlseg_cons, dlseg_store, Mem.node_store, hsa, hsb, hna, hnb, hth, hth.symm,
      htlt, hhlt, hd1, hd2, lastOr_append]
  · simpa using hnodup
  · simp [firstOr_append, ha.head_eq]
  · simp [lastOr_append, hb.tail_eq]
  · simp [ha.size_eq, hb.size_eq]; omega
  · simp [hb.tail_eq]
  · simp
  · simp
  · intro a h1 h2 h3 h4
    simp [Mem.node_store, h2, h3]

end AppendSpec

section DeleteCurrentSpec
variable {α : Type}

theorem getIdxWithID_fields {L : DoublyLinkedList_ADT} {fuel : Nat} {id : Int} {r : Res Int}
    (h : dll_iteratorGetIdxWithID fuel L id = r) (hd tl : dllnodeptr) (s c : Int) :
    dll_iteratorGetIdxWithID fuel ⟨hd, tl, s, L.iteratorsArray, c⟩ id = r :=
  (@getIdxWithID_congr L ⟨hd, tl, s, L.iteratorsArray, c⟩ rfl fuel id).trans h

set_option maxHeartbeats 1000000 in
theorem iteratorDeleteCurrentNode_chain {m : Mem α} {L : DoublyLinkedList_ADT}
    {pre post : List (Nat × Option α)} {x : Nat × Option α}
    (hc : Chain m L (pre ++ x :: post)) (fuel : Nat) (id : Int) (idx : Nat) (it : dlliterator)
    (hidx : dll_iteratorGetIdxWithID fuel L id = .ok (idx : Int))
    (hit : L.iteratorsArray[idx]? = some it) (hx : it.node = some x.1) :
    ∃ m' L', dll_iteratorDeleteCurrentNode fuel m (.ptr L) id
        = .ok ((if (pre ++ post).isEmpty then 1 else 0), m', .ptr L')
      ∧ Removed m L pre x post m' L'
      ∧ L'.iteratorsArray = if (pre ++ post).isEmpty then []
          else L.iteratorsArray.set idx { it with node := firstOr post (lastOr pre none) } := by
  have hsz := hc.size_eq
  have hs : L.size ≠ 0 := by simp at hsz; omega
  have hxn := hc.node_at
  have hxlt := Mem.node_lt hxn
  have hseg := hc.seg
  have hnd := hc.nodup
  have hhd := hc.head_eq
  have htl := hc.tail_eq
  have hne : ¬ ((idx : Int) = -1) := by omega
  have hidx2 := getIdxWithID_fields hidx
  have hitA := iterAt_nat hit
  have hset := setIterNode_nat hit
  have hset2 : ∀ (hd tl : dllnodeptr) (s c : Int) (q : dllnodeptr),
      (⟨hd, tl, s, L.iteratorsArray, c⟩ : DoublyLinkedList_ADT).setIterNode (idx : Int) q
        = .ok ⟨hd, tl, s, L.iteratorsArray.set idx { it with node := q }, c⟩ :=
    fun hd tl s c q => @setIterNode_nat ⟨hd, tl, s, L.iteratorsArray, c⟩ idx it hit q
  unfold Removed
  rcases eq_nil_or_snoc pre with rfl | ⟨ps, p, rfl⟩
  · rcases post with _ | ⟨q, qs⟩
    · -- the only node
      simp at hhd htl hxn hsz
      have hs0 : L.size - 1 = 0 := by omega
      simp [dll_iteratorDeleteCurrentNode, dll_iteratorNext, isempty_ptr, hs, list_t.isNULL,
        list_t.deref, hidx, hne, hitA, hx, hhd, htl, Mem.load, hxn, Mem.free, iteratorDeleteAll_ptr]
      refine ⟨_, _, ⟨rfl, rfl⟩, ⟨⟨?_, ?_, ?_, ?_, ?_⟩, rfl, ?_, ?_, ?_, ?_⟩, rfl⟩
      · simp
      · simp
      · simp
      · simp
      · simp; omega
      · simp
      · simp
      · simp [Mem.node_clear]
      · intro a h1; simp [Mem.node_clear, h1]
    · -- the head of a longer list
      have hc2 : Chain m L ([x] ++ q :: qs) := by simpa using hc
      have hqn : m.node q.1 = _ := Chain.node_at hc2
      have hqlt := Mem.node_lt hqn
      have htne := Chain.tail_ne (by simpa using hc : Chain m L ([] ++ x :: q :: qs)) (by simp)
      simp at hhd htl hxn hsz hnd hqn
      simp [dlseg_cons] at hseg
      have hqx : q.1 ≠ x.1 := fun h => hnd.1.1 h.symm
      simp [dll_iteratorDeleteCurrentNode, dll_iteratorNext, isempty_ptr, hs, list_t.isNULL,
        list_t.deref, hidx, hne, hitA, hset, hx, hhd, htne, Mem.load,
        hxn, hqn, hqx, hqx.symm, hqlt, hxlt, Mem.free, Mem.setPrevious, Mem.node_store]
      refine ⟨_, _, ⟨rfl, rfl⟩, ⟨⟨?_, ?_, ?_, ?_, ?_⟩, rfl, ?_, ?_, ?_, ?_⟩, rfl⟩
      · simp [dlseg_cons, dlseg_clear, dlseg_store, dlseg_release, Mem.node_clear, Mem.node_store,
          hseg, hnd, hqx, hqlt]
      · simp [hnd]
      · simp
      · simp [htl]
      · simp; omega
      · simp
      · simp
      · simp [Mem.node_clear]
      · intro a h1 h2 h3; simp [Mem.node_clear, Mem.node_store, h1, h2]
  · have hc2 : Chain m L (ps ++ p :: x :: post) := by simpa using hc
    have hpn : m.node p.1 = _ := Chain.node_at hc2
    have hplt := Mem.node_lt hpn
    have hhne := hc.head_ne (by simp)
    rcases post with _ | ⟨q, qs⟩
    · -- the tail of a longer list
      have htl2 := Chain.tail_last hc
      simp [List.nodup_append] at hnd
      simp [dlseg_append, dlseg_cons, lastOr_append] at hseg hxn hpn
      simp at hsz
      have hpx : p.1 ≠ x.1 := @nodup_ne α ps [] _ p x hc2.nodup
      have hs1 : L.size - 1 ≠ 0 := by omega
      simp [dll_iteratorDeleteCurrentNode, dll_iteratorNext, dll_iteratorEnd, isempty_ptr, hs,
        list_t.isNULL, list_t.deref, hidx, hidx2, hne, hitA, hset, hx, hhne, htl2, Mem.load,
        hxn, hpn, hpx, hpx.symm, hplt, hxlt, Mem.free, Mem.setNext, Mem.node_store, hs1,
        hset2, lastOr_append]
      refine ⟨_, _, ⟨rfl, rfl⟩, ⟨⟨?_, ?_, ?_, ?_, ?_⟩, rfl, ?_, ?_, ?_, ?_⟩, rfl⟩
      · simp [dlseg_append, dlseg_cons, dlseg_clear, dlseg_store, dlseg_release, Mem.node_clear,
          Mem.node_store, hseg, hnd, hpx, hplt]
      · simp [List.nodup_append, hnd]
      · simp [firstOr_append, hhd]
      · simp [lastOr_append]
      · simp; omega
      · simp
      · simp
      · simp [Mem.node_clear]
      · intro a h1 h2 h3; simp [Mem.node_clear, Mem.node_store, h1, h3]
    · -- an interior node
      have hc3 : Chain m L ((ps ++ [p] ++ [x]) ++ q :: qs) := by simpa using hc
      have hqn : m.node q.1 = _ := Chain.node_at hc3
      have hqlt := Mem.node_lt hqn
      have htne := hc.tail_ne (by simp)
      simp [List.nodup_append] at hnd
      simp [dlseg_append, dlseg_cons, lastOr_append] at hseg hxn hpn hqn
      simp at hsz
      have hpx : p.1 ≠ x.1 := @nodup_ne α ps [] _ p x hc2.nodup
      have hqx : q.1 ≠ x.1 := (@nodup_ne α (ps ++ [p]) [] qs x q (by simpa using hc.nodup)).symm
      have hpq : p.1 ≠ q.1 := @nodup_ne α ps [x] qs p q (by simpa using hc2.nodup)
      simp [dll_iteratorDeleteCurrentNode, dll_iteratorNext, isempty_ptr, hs, list_t.isNULL,
        list_t.deref, hidx, hne, hitA, hset, hx, hhne, htne, Mem.load,
        hxn, hpn, hqn, hpx, hpx.symm, hqx, hqx.symm, hpq, hpq.symm, hplt, hqlt, hxlt, Mem.free,
        Mem.setNext, Mem.setPrevious, Mem.node_store, lastOr_append]
      refine ⟨_, _, ⟨rfl, rfl⟩, ⟨⟨?_, ?_, ?_, ?_, ?_⟩, rfl, ?_, ?_, ?_, ?_⟩, rfl⟩
      · simp [dlseg_append, dlseg_cons, dlseg_clear, dlseg_store, dlseg_release, Mem.node_clear,
          Mem.node_store, hseg, hnd, hpx, hqx, hpq, hpq.symm, hplt, hqlt, lastOr_append]
      · simp [List.nodup_append, hnd, hpq]
      · simp [firstOr_append, hhd]
      · simp only []
        rw [htl]; simp [lastOr_append]
      · simp; omega
      · simp
      · simp
      · simp [Mem.node_clear]
      · intro a h1 h2 h3 h4 h5; simp [Mem.node_clear, Mem.node_store, h1, h3, h4]

end DeleteCurrentSpec

section NoMemory
variable {α : Type}

theorem first_nonzero_split {β : Type} (f : β → Int) :
    ∀ xs : List β, (∀ y ∈ xs, f y = 0)
      ∨ ∃ pre c post, xs = pre ++ c :: post ∧ (∀ y ∈ pre, f y = 0) ∧ f c ≠ 0 := by
  intro xs
  induction xs with
  | nil => left; simp
  | cons x xs ih =>
    by_cases hx : f x = 0
    · rcases ih with h | ⟨pre, c, post, rfl, hpre, hc⟩
      · left; intro y hy
        rcases List.mem_cons.1 hy with rfl | h'
        · exact hx
        · exact h y h'
      · right
        refine ⟨x :: pre, c, post, rfl, ?_, hc⟩
        intro y hy
        rcases List.mem_cons.1 hy with rfl | h'
        · exact hx
        · exact hpre y h'
    · right; exact ⟨[], x, xs, rfl, by simp, hx⟩

theorem scan_stop_split {β : Type} (f : β → Int) (xs : List β) (hne : xs ≠ []) :
    ∃ pre c post, xs = pre ++ c :: post ∧ (∀ y ∈ pre, f y = 0) ∧ (f c ≠ 0 ∨ post = []) := by
  rcases first_nonzero_split f xs with h | ⟨pre, c, post, rfl, hpre, hc⟩
  · rcases eq_nil_or_snoc xs with rfl | ⟨ys, t, rfl⟩
    · exact absurd rfl hne
    · exact ⟨ys, t, [], rfl, fun y hy => h y (by simp [hy]), Or.inr rfl⟩
  · exact ⟨pre, c, post, rfl, hpre, Or.inl hc⟩

theorem insert_at_back_nomem (m : Mem α) (L : DoublyLinkedList_ADT) (data : Option α)
    (dup : Option α → Option α) :
    dll_insert_at_back m (.ptr L) data dup false = .ok (-1, m, .ptr L) := by
  cases data <;> by_cases h : L.size = 0 <;>
    simp [dll_insert_at_back, list_t.isNULL, list_t.deref, h]

theorem insert_at_front_nomem (m : Mem α) (L : DoublyLinkedList_ADT) (data : Option α)
    (dup : Option α → Option α) :
    dll_insert_at_front m (.ptr L) data dup false = .ok (-1, m, .ptr L) := by
  cases data <;> by_cases h : L.size = 0 <;>
    simp [dll_insert_at_front, list_t.isNULL, list_t.deref, h]

theorem insert_sorted_nomem {m : Mem α} {L : DoublyLinkedList_ADT} {xs : List (Nat × Option α)}
    (hc : Chain m L xs) (fuel : Nat) (hfuel : xs.length ≤ fuel) (data : Option α)
    (issmaller : Option α → Option α → Int) (dup : Option α → Option α) :
    dll_insert_sorted fuel m (.ptr L) data issmaller dup false = .ok (-1, m, .ptr L) := by
  cases data with
  | none => simp [dll_insert_sorted, list_t.isNULL]
  | some e =>
    by_cases hne : xs = []
    · subst hne
      have hs : L.size = 0 := by simpa using hc.size_eq
      simp [dll_insert_sorted, isempty_ptr, list_t.isNULL, list_t.deref, hs]
    · have hs : L.size ≠ 0 := fun h => hne (hc.size_eq_zero_iff.1 h)
      obtain ⟨ys, t, hlast⟩ : ∃ ys t, xs = ys ++ [t] := by
        rcases eq_nil_or_snoc xs with h | h
        · exact absurd h hne
        · exact h
      have htl : L.tail = some t.1 := Chain.tail_last (hlast ▸ hc)
      have htn : m.node t.1 = _ := Chain.node_at (hlast ▸ hc : Chain m L (ys ++ t :: []))
      by_cases hfast : issmaller t.2 (some e) = 0
      · obtain ⟨pre, c, post, hx, hpre, hstop⟩ :=
          scan_stop_split (fun y : Nat × Option α => issmaller (some e) y.2) xs hne
        subst hx
        have hscan := insert_sorted_scan_spec (some e) issmaller c post hstop pre [] fuel
          (by simpa using hc) hpre (by simp at hfuel; omega)
        have hscan2 : insert_sorted_scan m L (some e) issmaller fuel L.head = .ok (some c.1) := by
          rw [hc.head_eq]; simpa [firstOr_append] using hscan
        simp [dll_insert_sorted, isempty_ptr, list_t.isNULL, list_t.deref, hs, htl, Mem.load, htn,
          hfast, hscan2]
      · simp [dll_insert_sorted, isempty_ptr, list_t.isNULL, list_t.deref, hs, htl, Mem.load, htn,
          hfast]

theorem insert_before_walk_any {m : Mem α} {L : DoublyLinkedList_ADT}
    (data key : Option α) (dup : Option α → Option α)
    (is_equal : Option α → Option α → Int) (ok : Bool) (c : Nat × Option α)
    (post : List (Nat × Option α)) :
    ∀ (pre done : List (Nat × Option α)) (fuel : Nat), Chain m L (done ++ (pre ++ c :: post)) →
      (∀ y ∈ pre, is_equal key y.2 = 0) → pre.length < fuel →
      insert_before_loop L data dup key is_equal ok fuel m (firstOr (pre ++ [c]) none)
        = insert_before_loop L data dup key is_equal ok (fuel - pre.length) m (some c.1) := by
  intro pre
  induction pre with
  | nil => intro done fuel _ _ _; simp
  | cons y pre ih =>
    intro done fuel hc hpre hf
    obtain ⟨k, rfl⟩ : ∃ k, fuel = k + 1 := ⟨fuel - 1, by simp at hf; omega⟩
    have hn := hc.node_at
    have hy : is_equal key y.2 = 0 := hpre y (by simp)
    have htl := hc.tail_ne (by simp)
    have hc' : Chain m L ((done ++ [y]) ++ (pre ++ c :: post)) := by simpa using hc
    have := ih (done ++ [y]) k hc' (fun z hz => hpre z (by simp [hz])) (by simp at hf; omega)
    simp [insert_before_loop, Mem.load, hn, hy, htl, firstOr_append] at this ⊢
    exact this

theorem insert_after_walk_any {m : Mem α} {L : DoublyLinkedList_ADT}
    (data key : Option α) (dup : Option α → Option α)
    (is_equal : Option α → Option α → Int) (ok : Bool) (c : Nat × Option α)
    (post : List (Nat × Option α)) :
    ∀ (pre done : List (Nat × Option α)) (fuel : Nat), Chain m L (done ++ (pre ++ c :: post)) →
      (∀ y ∈ pre, is_equal key y.2 = 0) → pre.length < fuel →
      insert_after_loop L data dup key is_equal ok fuel m (firstOr (pre ++ [c]) none)
        = insert_after_loop L data dup key is_equal ok (fuel - pre.length) m (some c.1) := by
  intro pre
  induction pre with
  | nil => intro done fuel _ _ _; simp
  | cons y pre ih =>
    intro done fuel hc hpre hf
    obtain ⟨k, rfl⟩ : ∃ k, fuel = k + 1 := ⟨fuel - 1, by simp at hf; omega⟩
    have hn := hc.node_at
    have hy : is_equal key y.2 = 0 := hpre y (by simp)
    have htl := hc.tail_ne (by simp)
    have hc' : Chain m L ((done ++ [y]) ++ (pre ++ c :: post)) := by simpa using hc
    have := ih (done ++ [y]) k hc' (fun z hz => hpre z (by simp [hz])) (by simp at hf; omega)
    simp [insert_after_loop, Mem.load, hn, hy, htl, firstOr_append] at this ⊢
    exact this

theorem insert_before_nomem {m : Mem α} {L : DoublyLinkedList_ADT} {xs : List (Nat × Option α)}
    (hc : Chain m L xs) (hne : xs ≠ []) (fuel : Nat) (hfuel : xs.length ≤ fuel)
    (data key : Option α) (dup : Option α → Option α) (is_equal : Option α → Option α → Int) :
    dll_insert_before fuel m (.ptr L) data dup key is_equal false = .ok (-1, m, .ptr L) := by
  cases data with
  | none => simp [dll_insert_before, list_t.isNULL]
  | some e =>
    cases key with
    | none => simp [dll_insert_before, list_t.isNULL]
    | some k =>
      rcases first_nonzero_split (fun y : Nat × Option α => is_equal (some k) y.2) xs with
        h | ⟨pre, c, post, rfl, hpre, hm⟩
      · exact insert_before_miss hc hne e k dup is_equal h false fuel hfuel
      · have hw := insert_before_walk_any (some e) (some k) dup is_equal false c post pre [] fuel
          (by simpa using hc) hpre (by simp at hfuel; omega)
        obtain ⟨j, hj⟩ : ∃ j, fuel - pre.length = j + 1 :=
          ⟨fuel - pre.length - 1, by simp at hfuel; omega⟩
        have hn := hc.node_at
        simp [dll_insert_before, list_t.isNULL, list_t.deref, hc.head_eq, firstOr_append] at hw ⊢
        rw [hw, hj]
        simp [insert_before_loop, Mem.load, hn, hm]

theorem insert_after_nomem {m : Mem α} {L : DoublyLinkedList_ADT} {xs : List (Nat × Option α)}
    (hc : Chain m L xs) (hne : xs ≠ []) (fuel : Nat) (hfuel : xs.length ≤ fuel)
    (data key : Option α) (dup : Option α → Option α) (is_equal : Option α → Option α → Int) :
    dll_insert_after fuel m (.ptr L) data dup key is_equal false = .ok (-1, m, .ptr L) := by
  cases data with
  | none => simp [dll_insert_after, list_t.isNULL]
  | some e =>
    cases key with
    | none => simp [dll_insert_after, list_t.isNULL]
    | some k =>
      rcases first_nonzero_split (fun y : Nat × Option α => is_equal (some k) y.2) xs with
        h | ⟨pre, c, post, rfl, hpre, hm⟩
      · exact insert_after_miss hc hne e k dup is_equal h false fuel hfuel
      · have hw := insert_after_walk_any (some e) (some k) dup is_equal false c post pre [] fuel
          (by simpa using hc) hpre (by simp at hfuel; omega)
        obtain ⟨j, hj⟩ : ∃ j, fuel - pre.length = j + 1 :=
          ⟨fuel - pre.length - 1, by simp at hfuel; omega⟩
        have hn := hc.node_at
        simp [dll_insert_after, list_t.isNULL, list_t.deref, hc.head_eq, firstOr_append] at hw ⊢
        rw [hw, hj]
        simp [insert_after_loop, Mem.load, hn, hm]

theorem insert_none_data (m : Mem α) (list : list_t) (key : Option α)
    (dup : Option α → Option α) (is_equal issmaller : Option α → Option α → Int)
    (ok : Bool) (fuel : Nat) :
    dll_insert_at_back m list none dup ok = .ok (-1, m, list)
      ∧ dll_insert_at_front m list none dup ok = .ok (-1, m, list)
      ∧ dll_insert_sorted fuel m list none issmaller dup ok = .ok (-1, m, list)
      ∧ dll_insert_before fuel m list none dup key is_equal ok = .ok (-1, m, list)
      ∧ dll_insert_after fuel m list none dup key is_equal ok = .ok (-1, m, list) := by
  refine ⟨?_, ?_, ?_, ?_, ?_⟩ <;>
    simp [dll_insert_at_back, dll_insert_at_front, dll_insert_sorted, dll_insert_before,
      dll_insert_after, list_t.isNULL]

theorem insert_none_key (m : Mem α) (list : list_t) (data : Option α)
    (dup : Option α → Option α) (is_equal : Option α → Option α → Int)
    (ok : Bool) (fuel : Nat) :
    dll_insert_before fuel m list data dup none is_equal ok = .ok (-1, m, list)
      ∧ dll_insert_after fuel m list data dup none is_equal ok = .ok (-1, m, list) := by
  refine ⟨?_, ?_⟩ <;> simp [dll_insert_before, dll_insert_after, list_t.isNULL]

end NoMemory

section RunLemmas
variable {α : Type}

theorem mem_fst_insert {pre post : List (Nat × Option α)} {a : Nat} (y : Nat × Option α)
    (h : a ∈ (pre ++ post).map Prod.fst) : a ∈ (pre ++ y :: post).map Prod.fst := by
  simp only [List.map_append, List.map_cons, List.mem_append, List.mem_cons] at h ⊢
  tauto

theorem mem_fst_remove {pre post : List (Nat × Option α)} {a : Nat} {x : Nat × Option α}
    (h : a ∈ (pre ++ x :: post).map Prod.fst) (hne : a ≠ x.1) :
    a ∈ (pre ++ post).map Prod.fst := by
  simp only [List.map_append, List.map_cons, List.mem_append, List.mem_cons] at h ⊢
  tauto

theorem mem_fst_mid {pre post : List (Nat × Option α)} (x : Nat × Option α) :
    x.1 ∈ (pre ++ x :: post).map Prod.fst := by
  simp only [List.map_append, List.map_cons, List.mem_append, List.mem_cons]
  tauto

theorem runInv_init : RunInv 0 (RunState.init : RunState α) :=
  ⟨_, [], rfl, chain_init, fun a n h => by simp [Mem.node, Mem.empty, RunState.init] at h,
    rfl, rfl, le_refl _, le_refl _⟩

theorem RunInv.mono {n k : Nat} {s : RunState α} (h : RunInv n s) (hk : n ≤ k) : RunInv k s := by
  obtain ⟨L, xs, h1, h2, h3, h4, h5, h6, h7⟩ := h
  exact ⟨L, xs, h1, h2, h3, h4, h5, by omega, h7⟩

theorem Effect.of_unchanged (m : Mem α) (L : DoublyLinkedList_ADT) (xs : List (Nat × Option α))
    (i k : Int) (r : Int) (hr : r ≠ 0) :
    Effect m L xs i k ((⟨m, .ptr L, i, k⟩ : RunState α).afterInsert (r, m, .ptr L)) := by
  refine ⟨L, rfl, Or.inl ⟨rfl, rfl, rfl, rfl, ?_, rfl⟩⟩
  simp [RunState.afterInsert, hr]

theorem Effect.of_inserted {m : Mem α} {L : DoublyLinkedList_ADT} (i k : Int)
    (pre post : List (Nat × Option α)) {d : Option α} {r : Res (Int × Mem α × list_t)}
    (hins : Inserted m L pre post d r) :
    ∃ r', r = .ok r'
      ∧ Effect m L (pre ++ post) i k ((⟨m, .ptr L, i, k⟩ : RunState α).afterInsert r') := by
  obtain ⟨m', L', hr, hrest⟩ := hins
  refine ⟨_, hr, L', rfl, Or.inr (Or.inl ⟨pre, post, d, rfl, ⟨m', L', rfl, hrest⟩, ?_, rfl⟩)⟩
  simp [RunState.afterInsert]

theorem Effect.of_removed {m m' : Mem α} {L L' : DoublyLinkedList_ADT} (i k : Int)
    (pre post : List (Nat × Option α)) {x : Nat × Option α}
    (hrem : Removed m L pre x post m' L') :
    Effect m L (pre ++ x :: post) i k ⟨m', .ptr L', i, k + 1⟩ :=
  ⟨L', rfl, Or.inr (Or.inr ⟨pre, x, post, rfl, hrem, rfl, rfl⟩)⟩

/-- A returned call keeps the invariant of runs. -/
theorem Effect.runInv {n : Nat} {m : Mem α} {L : DoublyLinkedList_ADT}
    {xs : List (Nat × Option α)} {i k : Int} {s' : RunState α}
    (hc : Chain m L xs) (ho : Owned m xs)
    (hlen : (xs.length : Int) = i - k) (hk : k = (m.released.length : Int))
    (hi : i ≤ (n : Int)) (hk0 : 0 ≤ k) (heff : Effect m L xs i k s') : RunInv (n + 1) s' := by
  obtain ⟨m', list', i', k'⟩ := s'
  obtain ⟨L', hl, heff⟩ := heff
  simp only at hl heff
  subst hl
  have hi' : i ≤ ((n + 1 : Nat) : Int) := by omega
  rcases heff with ⟨rfl, h1, h2, h3, rfl, rfl⟩ | ⟨pre, post, d, rfl, hins, rfl, rfl⟩ |
    ⟨pre, x, post, rfl, hrem, rfl, rfl⟩
  · exact ⟨L', xs, rfl, ⟨hc.seg, hc.nodup, h1.trans hc.head_eq, h2.trans hc.tail_eq,
      h3.trans hc.size_eq⟩, ho, hlen, hk, hi', hk0⟩
  · obtain ⟨m2, L2, hr, hc', -, -, hrel, -, hfr⟩ := hins
    injection hr with hr
    injection hr with _ hr
    injection hr with hm hL
    injection hL with hL
    subst hm hL
    refine ⟨L', _, rfl, hc', ?_, ?_, ?_, ?_, hk0⟩
    · intro a nd hn
      change m'.node a = some nd at hn
      by_cases ha : a = m.fresh
      · rw [ha]; exact mem_fst_mid (m.fresh, d)
      · by_cases hm : a ∈ (pre ++ post).map Prod.fst
        · exact mem_fst_insert _ hm
        · have := hfr a ha hm
          rw [this] at hn
          exact absurd (ho a nd hn) hm
    · simp at hlen ⊢; omega
    · simp [hrel, hk]
    · simp; omega
  · obtain ⟨hc', -, hrel, -, hx, hfr⟩ := hrem
    refine ⟨L', _, rfl, hc', ?_, ?_, ?_, ?_, ?_⟩
    · intro a nd hn
      change m'.node a = some nd at hn
      by_cases ha : a = x.1
      · rw [ha, hx] at hn; cases hn
      · by_contra hm
        have := hfr a ha hm
        rw [this] at hn
        exact hm (mem_fst_remove (ho a nd hn) ha)
    · simp at hlen ⊢; omega
    · simp [hrel, hk]
    · simp; omega
    · simp; omega

/-- A returned call keeps the list a chain. -/
theorem Effect.keeps_chain {m : Mem α} {L : DoublyLinkedList_ADT}
    {xs : List (Nat × Option α)} {i k : Int} {s' : RunState α}
    (hc : Chain m L xs) (heff : Effect m L xs i k s') :
    ∃ L' xs', s'.list = .ptr L' ∧ Chain s'.mem L' xs' := by
  obtain ⟨L', hl, heff⟩ := heff
  rcases heff with ⟨hm, h1, h2, h3, -, -⟩ | ⟨pre, post, d, rfl, hins, -, -⟩ |
    ⟨pre, x, post, rfl, hrem, -, -⟩
  · exact ⟨L', xs, hl, hm ▸ ⟨hc.seg, hc.nodup, h1.trans hc.head_eq, h2.trans hc.tail_eq,
      h3.trans hc.size_eq⟩⟩
  · obtain ⟨m2, L2, hr, hc', -⟩ := hins
    injection hr with hr
    injection hr with _ hr
    injection hr with hm hL
    injection hL with hL
    subst hm hL
    exact ⟨_, _, hl, hc'⟩
  · exact ⟨_, _, hl, hrem.1⟩

theorem engineEffect_of_unchanged (m : Mem α) (L : DoublyLinkedList_ADT)
    (xs : List (Nat × Option α)) (i k : Int) (r : Int) (hr : r ≠ 0) :
    EngineEffect m L xs i k ((⟨m, .ptr L, i, k⟩ : RunState α).afterInsert (r, m, .ptr L)) := by
  refine ⟨L, rfl, Or.inl ⟨rfl, rfl, ?_, rfl⟩⟩
  simp [RunState.afterInsert, hr]

theorem engineEffect_of_inserted {m : Mem α} {L : DoublyLinkedList_ADT} (i k : Int)
    (pre post : List (Nat × Option α)) {d : Option α} {r : Res (Int × Mem α × list_t)}
    (hins : Inserted m L pre post d r) :
    ∃ r', r = .ok r'
      ∧ EngineEffect m L (pre ++ post) i k ((⟨m, .ptr L, i, k⟩ : RunState α).afterInsert r') := by
  obtain ⟨m', L', hr, hrest⟩ := hins
  refine ⟨_, hr, L', rfl, Or.inr (Or.inl ⟨pre, post, d, rfl, ⟨m', L', rfl, hrest⟩, ?_, rfl⟩)⟩
  simp [RunState.afterInsert]

theorem engineEffect_of_removed {m m' : Mem α} {L L' : DoublyLinkedList_ADT} (i k : Int)
    (pre post : List (Nat × Option α)) {x : Nat × Option α}
    (hrem : Removed m L pre x post m' L')
    (hreg : L'.iteratorsArray = (if (pre ++ post).isEmpty then []
      else retarget (some x.1) (firstOr post (lastOr pre none)) L.iteratorsArray)) :
    EngineEffect m L (pre ++ x :: post) i k ⟨m', .ptr L', i, k + 1⟩ :=
  ⟨L', rfl, Or.inr (Or.inr ⟨pre, x, post, rfl, hrem, hreg, rfl, rfl⟩)⟩

/-- The effect of an engine call, with the registry forgotten. -/
theorem EngineEffect.forget_registry {m : Mem α} {L : DoublyLinkedList_ADT}
    {xs : List (Nat × Option α)} {i k : Int} {s' : RunState α}
    (h : EngineEffect m L xs i k s') : Effect m L xs i k s' := by
  obtain ⟨L', hl, h⟩ := h
  refine ⟨L', hl, ?_⟩
  rcases h with ⟨hm, rfl, hi, hk⟩ | ⟨pre, post, d, hx, hins, hi, hk⟩ |
    ⟨pre, x, post, hx, hrem, -, hi, hk⟩
  · exact Or.inl ⟨hm, rfl, rfl, rfl, hi, hk⟩
  · exact Or.inr (Or.inl ⟨pre, post, d, hx, hins, hi, hk⟩)
  · exact Or.inr (Or.inr ⟨pre, x, post, hx, hrem, hi, hk⟩)

/-- The five insertions and `dll_delete` always return, with one of the three effects of
the list engine; the keyed insertions and the boundary deletions do so on a non-empty
list and are undefined behaviour on an empty one. -/
theorem step_engine_full {fuel : Nat} {m : Mem α} {L : DoublyLinkedList_ADT}
    {xs : List (Nat × Option α)} (hch : Chain m L xs) (hfuel0 : xs.length < fuel) (i k : Int)
    (dup : Option α → Option α) (is_equal issmaller : Option α → Option α → Int) (c : Call α)
    (hng : c.usesIterator = false) :
    (∃ s', c.step fuel dup is_equal issmaller ⟨m, .ptr L, i, k⟩ = .ok s'
        ∧ EngineEffect m L xs i k s')
      ∨ (c.step fuel dup is_equal issmaller ⟨m, .ptr L, i, k⟩ = .fault
        ∧ ¬ c.admissible ⟨m, .ptr L, i, k⟩) := by
  have hfuel : xs.length ≤ fuel := by omega
  have hunch : ∀ r : Int, r ≠ 0 →
      EngineEffect m L xs i k ((⟨m, .ptr L, i, k⟩ : RunState α).afterInsert (r, m, .ptr L)) :=
    fun r hr => engineEffect_of_unchanged m L xs i k r hr
  have hnull := fun (key : Option α) (ok : Bool) =>
    insert_none_data m (.ptr L) key dup is_equal issmaller ok fuel
  have hnullk := fun (d : Option α) (ok : Bool) =>
    insert_none_key m (.ptr L) d dup is_equal ok fuel
  cases c with
  | insert_at_back d ok =>
    left
    cases d with
    | none =>
      exact ⟨_, by simp [Call.step, (hnull none ok).1], hunch (-1) (by decide)⟩
    | some e =>
      cases ok with
      | false => exact ⟨_, by simp [Call.step, insert_at_back_nomem], hunch (-1) (by decide)⟩
      | true =>
        have hins := insert_at_back_chain hch e dup
        obtain ⟨r', hr, hinv'⟩ := engineEffect_of_inserted i k xs [] hins
        simp only [List.append_nil, List.nil_append, List.append_assoc, List.singleton_append] at hinv'
        exact ⟨_, by simp [Call.step, hr], hinv'⟩
  | insert_at_front d ok =>
    left
    cases d with
    | none =>
      exact ⟨_, by simp [Call.step, (hnull none ok).2.1], hunch (-1) (by decide)⟩
    | some e =>
      cases ok with
      | false => exact ⟨_, by simp [Call.step, insert_at_front_nomem], hunch (-1) (by decide)⟩
      | true =>
        have hins := insert_at_front_chain hch e dup
        obtain ⟨r', hr, hinv'⟩ := engineEffect_of_inserted i k [] xs hins
        simp only [List.append_nil, List.nil_append, List.append_assoc, List.singleton_append] at hinv'
        exact ⟨_, by simp [Call.step, hr], hinv'⟩
  | insert_sorted d ok =>
    left
    cases ok with
    | false =>
      exact ⟨_, by simp [Call.step, insert_sorted_nomem hch fuel hfuel], hunch (-1) (by decide)⟩
    | true =>
      cases d with
      | none =>
        exact ⟨_, by simp [Call.step, (hnull none true).2.2.1], hunch (-1) (by decide)⟩
      | some e =>
        have key : ∃ pre post, xs = pre ++ post ∧ Inserted m L pre post (dup (some e))
            (dll_insert_sorted fuel m (.ptr L) (some e) issmaller dup true) := by
          by_cases hxs : xs = []
          · subst hxs
            exact ⟨[], [], rfl, insert_sorted_empty hch fuel e issmaller dup⟩
          · obtain ⟨ys, t, hlast⟩ : ∃ ys t, xs = ys ++ [t] := by
              rcases eq_nil_or_snoc xs with h | h
              · exact absurd h hxs
              · exact h
            by_cases hfast : issmaller t.2 (some e) = 0
            · obtain ⟨pre, c, post, hx, hpre, hstop⟩ :=
                scan_stop_split (fun y : Nat × Option α => issmaller (some e) y.2) xs hxs
              subst hx
              exact ⟨pre, c :: post, rfl, insert_sorted_slow hch hlast fuel e issmaller dup hfast
                hpre hstop (by simp at hfuel; omega)⟩
            · subst hlast
              exact ⟨ys ++ [t], [], by simp, insert_sorted_fast hch fuel e issmaller dup hfast⟩
        obtain ⟨pre, post, hx, hins⟩ := key
        subst hx
        obtain ⟨r', hr, hinv'⟩ := engineEffect_of_inserted i k _ _ hins
        exact ⟨_, by simp [Call.step, hr], hinv'⟩
  | insert_before d key ok =>
    by_cases hxs : xs = []
    · cases d with
      | none =>
        left
        exact ⟨_, by simp [Call.step, (hnull key ok).2.2.2.1], hunch (-1) (by decide)⟩
      | some e =>
        cases key with
        | none =>
          left
          exact ⟨_, by simp [Call.step, (hnullk (some e) ok).1], hunch (-1) (by decide)⟩
        | some kk =>
          right
          subst hxs
          have hs : L.size = 0 := by simpa using hch.size_eq
          obtain ⟨j, rfl⟩ : ∃ j, fuel = j + 1 := ⟨fuel - 1, by omega⟩
          have hh := hch.head_eq
          simp at hh
          refine ⟨?_, ?_⟩
          · simp [Call.step, dll_insert_before, insert_before_loop, list_t.isNULL, list_t.deref,
              Mem.load, hh]
          · simp [Call.admissible, isempty_ptr, hs]
    · left
      cases ok with
      | false =>
        exact ⟨_, by simp [Call.step, insert_before_nomem hch hxs fuel hfuel],
          hunch (-1) (by decide)⟩
      | true =>
        cases d with
        | none =>
          exact ⟨_, by simp [Call.step, (hnull key true).2.2.2.1], hunch (-1) (by decide)⟩
        | some e =>
          cases key with
          | none =>
            exact ⟨_, by simp [Call.step, (hnullk (some e) true).1], hunch (-1) (by decide)⟩
          | some kk =>
            rcases first_nonzero_split (fun y : Nat × Option α => is_equal (some kk) y.2) xs with
              h | ⟨pre, c, post, rfl, hpre, hm⟩
            · exact ⟨_, by simp [Call.step, insert_before_miss hch hxs e kk dup is_equal h true
                fuel hfuel], hunch (-1) (by decide)⟩
            · have hins := insert_before_chain hch e kk dup is_equal hpre hm fuel
                (by simp at hfuel; omega)
              obtain ⟨r', hr, hinv'⟩ := engineEffect_of_inserted i k _ _ hins
              exact ⟨_, by simp [Call.step, hr], hinv'⟩
  | insert_after d key ok =>
    by_cases hxs : xs = []
    · cases d with
      | none =>
        left
        exact ⟨_, by simp [Call.step, (hnull key ok).2.2.2.2], hunch (-1) (by decide)⟩
      | some e =>
        cases key with
        | none =>
          left
          exact ⟨_, by simp [Call.step, (hnullk (some e) ok).2], hunch (-1) (by decide)⟩
        | some kk =>
          right
          subst hxs
          have hs : L.size = 0 := by simpa using hch.size_eq
          obtain ⟨j, rfl⟩ : ∃ j, fuel = j + 1 := ⟨fuel - 1, by omega⟩
          have hh := hch.head_eq
          simp at hh
          refine ⟨?_, ?_⟩
          · simp [Call.step, dll_insert_after, insert_after_loop, list_t.isNULL, list_t.deref,
              Mem.load, hh]
          · simp [Call.admissible, isempty_ptr, hs]
    · left
      cases ok with
      | false =>
        exact ⟨_, by simp [Call.step, insert_after_nomem hch hxs fuel hfuel],
          hunch (-1) (by decide)⟩
      | true =>
        cases d with
        | none =>
          exact ⟨_, by simp [Call.step, (hnull key true).2.2.2.2], hunch (-1) (by decide)⟩
        | some e =>
          cases key with
          | none =>
            exact ⟨_, by simp [Call.step, (hnullk (some e) true).2], hunch (-1) (by decide)⟩
          | some kk =>
            rcases first_nonzero_split (fun y : Nat × Option α => is_equal (some kk) y.2) xs with
              h | ⟨pre, c, post, rfl, hpre, hm⟩
            · exact ⟨_, by simp [Call.step, insert_after_miss hch hxs e kk dup is_equal h true
                fuel hfuel], hunch (-1) (by decide)⟩
            · have hins := insert_after_chain hch e kk dup is_equal hpre hm fuel
                (by simp at hfuel; omega)
              obtain ⟨r', hr, hinv'⟩ := engineEffect_of_inserted i k (pre ++ [c]) post hins
              simp only [List.append_nil, List.nil_append, List.append_assoc, List.singleton_append] at hinv'
              exact ⟨_, by simp [Call.step, hr], hinv'⟩
  | delete key =>
    left
    have hsame : EngineEffect m L xs i k (⟨m, .ptr L, i, k⟩ : RunState α) :=
      ⟨L, rfl, Or.inl ⟨rfl, rfl, rfl, rfl⟩⟩
    cases key with
    | none => exact ⟨_, by simp [Call.step, dll_delete, list_t.isNULL], hsame⟩
    | some kk =>
      rcases first_nonzero_split (fun y : Nat × Option α => is_equal (some kk) y.2) xs with
        h | ⟨pre, c, post, rfl, hpre, hm⟩
      · exact ⟨_, by simp [Call.step, delete_miss hch kk is_equal h fuel hfuel], hsame⟩
      · obtain ⟨m', L', hr, hrem, hreg⟩ := delete_chain hch kk is_equal hpre hm fuel
          (by simp at hfuel; omega)
        exact ⟨_, by simp [Call.step, hr], engineEffect_of_removed i k _ _ hrem hreg⟩
  | delete_front =>
    rcases xs with _ | ⟨x, post⟩
    · right
      have hs : L.size = 0 := by simpa using hch.size_eq
      have hh := hch.head_eq
      simp at hh
      refine ⟨?_, ?_⟩
      · simp [Call.step, dll_delete_front, list_t.deref, hs, hh, iteratorDeleteAll_ptr, Mem.load]
      · simp [Call.admissible, isempty_ptr, hs]
    · left
      obtain ⟨m', L', hr, hrem, hreg⟩ := delete_front_chain hch
      have hinv2 := engineEffect_of_removed i k [] _ hrem (by simpa using hreg)
      simp only [List.nil_append] at hinv2
      exact ⟨_, by simp [Call.step, hr], hinv2⟩
  | delete_back =>
    rcases eq_nil_or_snoc xs with rfl | ⟨pre, x, rfl⟩
    · right
      have hs : L.size = 0 := by simpa using hch.size_eq
      have hh := hch.tail_eq
      simp at hh
      refine ⟨?_, ?_⟩
      · simp [Call.step, dll_delete_back, list_t.deref, hs, hh, iteratorDeleteAll_ptr, Mem.load]
      · simp [Call.admissible, isempty_ptr, hs]
    · left
      obtain ⟨m', L', hr, hrem, hreg⟩ := delete_back_chain hch
      exact ⟨_, by simp [Call.step, hr], engineEffect_of_removed i k _ [] hrem
        (by rw [List.append_nil]; exact hreg)⟩
  | iteratorRequest b => simp [Call.usesIterator] at hng
  | iteratorBegin id => simp [Call.usesIterator] at hng
  | iteratorEnd id => simp [Call.usesIterator] at hng
  | iteratorNext id => simp [Call.usesIterator] at hng
  | iteratorDeleteCurrentNode id => simp [Call.usesIterator] at hng

/-- The five insertions and `dll_delete` always return and keep the invariant; the keyed
insertions and the boundary deletions do so on a non-empty list and are undefined
behaviour on an empty one. -/
theorem step_engine {fuel : Nat} {m : Mem α} {L : DoublyLinkedList_ADT}
    {xs : List (Nat × Option α)} (hch : Chain m L xs) (hfuel0 : xs.length < fuel) (i k : Int)
    (dup : Option α → Option α) (is_equal issmaller : Option α → Option α → Int) (c : Call α)
    (hng : c.usesIterator = false) :
    (∃ s', c.step fuel dup is_equal issmaller ⟨m, .ptr L, i, k⟩ = .ok s' ∧ Effect m L xs i k s')
      ∨ (c.step fuel dup is_equal issmaller ⟨m, .ptr L, i, k⟩ = .fault
        ∧ ¬ c.admissible ⟨m, .ptr L, i, k⟩) := by
  rcases step_engine_full hch hfuel0 i k dup is_equal issmaller c hng with ⟨s', h, heff⟩ | h
  · exact Or.inl ⟨s', h, heff.forget_registry⟩
  · exact Or.inr h

end RunLemmas

section IteratorRunLemmas
variable {α : Type}

theorem Chain.of_fields {m : Mem α} {L L' : DoublyLinkedList_ADT} {xs : List (Nat × Option α)}
    (hc : Chain m L xs) (h : L'.head = L.head ∧ L'.tail = L.tail ∧ L'.size = L.size) :
    Chain m L' xs :=
  ⟨hc.seg, hc.nodup, h.1.trans hc.head_eq, h.2.1.trans hc.tail_eq, h.2.2.trans hc.size_eq⟩

theorem setIterNode_fields {L L' : DoublyLinkedList_ADT} {idx : Int} {p : dllnodeptr}
    (h : L.setIterNode idx p = .ok L') :
    L'.head = L.head ∧ L'.tail = L.tail ∧ L'.size = L.size := by
  unfold DoublyLinkedList_ADT.setIterNode at h
  split at h
  · cases h
  · split at h
    · injection h with h; subst h; exact ⟨rfl, rfl, rfl⟩
    · cases h

theorem iterAt_ok {L : DoublyLinkedList_ADT} {idx : Int} {it : dlliterator}
    (h : L.iterAt idx = .ok it) : ∃ i : Nat, idx = (i : Int) ∧ L.iteratorsArray[i]? = some it := by
  unfold DoublyLinkedList_ADT.iterAt at h
  split at h
  · cases h
  · rename_i hlt
    split at h
    · rename_i it' hget
      injection h with h; subst h
      exact ⟨idx.toNat, by omega, hget⟩
    · cases h

theorem iteratorBegin_fields {L : DoublyLinkedList_ADT} {fuel : Nat} {id r : Int} {list' : list_t}
    (h : dll_iteratorBegin fuel (.ptr L) id = .ok (r, list')) :
    ∃ L', list' = .ptr L' ∧ L'.head = L.head ∧ L'.tail = L.tail ∧ L'.size = L.size := by
  by_cases hs : L.size = 0
  · simp [dll_iteratorBegin, isempty_ptr, hs, list_t.isNULL, iteratorDeleteAll_ptr] at h
    exact ⟨_, h.2.symm, rfl, rfl, hs.symm⟩
  · simp [dll_iteratorBegin, isempty_ptr, hs, list_t.isNULL, list_t.deref] at h
    obtain ⟨idx, -, h⟩ := Res.bind_eq_ok.1 h
    split at h
    · injection h with h; injection h with h1 h2
      exact ⟨_, h2.symm, rfl, rfl, rfl⟩
    · obtain ⟨L2, hset, h⟩ := Res.bind_eq_ok.1 h
      injection h with h; injection h with h1 h2
      exact ⟨_, h2.symm, setIterNode_fields hset⟩

theorem iteratorEnd_fields {L : DoublyLinkedList_ADT} {fuel : Nat} {id r : Int} {list' : list_t}
    (h : dll_iteratorEnd fuel (.ptr L) id = .ok (r, list')) :
    ∃ L', list' = .ptr L' ∧ L'.head = L.head ∧ L'.tail = L.tail ∧ L'.size = L.size := by
  by_cases hs : L.size = 0
  · simp [dll_iteratorEnd, isempty_ptr, hs, list_t.isNULL, iteratorDeleteAll_ptr] at h
    exact ⟨_, h.2.symm, rfl, rfl, hs.symm⟩
  · simp [dll_iteratorEnd, isempty_ptr, hs, list_t.isNULL, list_t.deref] at h
    obtain ⟨idx, -, h⟩ := Res.bind_eq_ok.1 h
    split at h
    · injection h with h; injection h with h1 h2
      exact ⟨_, h2.symm, rfl, rfl, rfl⟩
    · obtain ⟨L2, hset, h⟩ := Res.bind_eq_ok.1 h
      injection h with h; injection h with h1 h2
      exact ⟨_, h2.symm, setIterNode_fields hset⟩

theorem iteratorNext_fields {m : Mem α} {L : DoublyLinkedList_ADT} {fuel : Nat} {id r : Int}
    {list' : list_t} (h : dll_iteratorNext fuel m (.ptr L) id = .ok (r, list')) :
    ∃ L', list' = .ptr L' ∧ L'.head = L.head ∧ L'.tail = L.tail ∧ L'.size = L.size := by
  by_cases hs : L.size = 0
  · simp [dll_iteratorNext, isempty_ptr, hs, list_t.isNULL, iteratorDeleteAll_ptr] at h
    exact ⟨_, h.2.symm, rfl, rfl, hs.symm⟩
  · simp [dll_iteratorNext, isempty_ptr, hs, list_t.isNULL, list_t.deref] at h
    obtain ⟨idx, -, h⟩ := Res.bind_eq_ok.1 h
    split at h
    · injection h with h; injection h with h1 h2
      exact ⟨_, h2.symm, rfl, rfl, rfl⟩
    · obtain ⟨it, -, h⟩ := Res.bind_eq_ok.1 h
      split at h
      · injection h with h; injection h with h1 h2
        exact ⟨_, h2.symm, rfl, rfl, rfl⟩
      · obtain ⟨nd, -, h⟩ := Res.bind_eq_ok.1 h
        obtain ⟨L2, hset, h⟩ := Res.bind_eq_ok.1 h
        injection h with h; injection h with h1 h2
        exact ⟨_, h2.symm, setIterNode_fields hset⟩

theorem iteratorRequest_fields {L : DoublyLinkedList_ADT} {fuel : Nat} {ok : Bool} {r : Int}
    {list' : list_t} (h : dll_iteratorRequest fuel (.ptr L) ok = .ok (r, list')) :
    ∃ L', list' = .ptr L' ∧ L'.head = L.head ∧ L'.tail = L.tail ∧ L'.size = L.size := by
  by_cases hs : L.size = 0
  · simp [dll_iteratorRequest, isempty_ptr, hs, list_t.isNULL, iteratorDeleteAll_ptr] at h
    exact ⟨_, h.2.symm, rfl, rfl, hs.symm⟩
  · cases ok with
    | false =>
      simp [dll_iteratorRequest, isempty_ptr, hs, list_t.isNULL, list_t.deref] at h
      exact ⟨_, h.2.symm, rfl, rfl, rfl⟩
    | true =>
      simp [dll_iteratorRequest, isempty_ptr, hs, list_t.isNULL, list_t.deref] at h
      obtain ⟨rb, hb, h⟩ := Res.bind_eq_ok.1 h
      obtain ⟨r1, l1⟩ := rb
      obtain ⟨L1, hl1, hf⟩ := iteratorBegin_fields hb
      subst hl1
      simp at h
      split at h
      · injection h with h; injection h with h1 h2
        exact ⟨_, h2.symm, hf⟩
      · injection h with h; injection h with h1 h2
        exact ⟨_, h2.symm, hf⟩

theorem mem_fst_split {xs : List (Nat × Option α)} {a : Nat} (h : a ∈ xs.map Prod.fst) :
    ∃ pre x post, xs = pre ++ x :: post ∧ x.1 = a := by
  obtain ⟨x, hx, rfl⟩ := List.mem_map.1 h
  obtain ⟨pre, post, rfl⟩ := List.append_of_mem hx
  exact ⟨pre, x, post, rfl, rfl⟩

/-- The outcome of `dll_iteratorDeleteCurrentNode` with the ID counter: when nothing was
removed the counter is as before (when a node was removed, `Removed` says so). -/
theorem iteratorDeleteCurrentNode_ok_core {m m' : Mem α} {L : DoublyLinkedList_ADT}
    {xs : List (Nat × Option α)} (hc : Chain m L xs) (ho : Owned m xs) {fuel : Nat}
    {id r : Int} {list' : list_t}
    (h : dll_iteratorDeleteCurrentNode fuel m (.ptr L) id = .ok (r, m', list')) :
    (m' = m ∧ (∃ L', list' = .ptr L' ∧ L'.head = L.head ∧ L'.tail = L.tail ∧ L'.size = L.size
          ∧ L'.id_counter = L.id_counter)
        ∧ ¬ (r = 0 ∨ (r = 1 ∧ L.size ≠ 0)))
      ∨ (∃ pre x post L', xs = pre ++ x :: post ∧ list' = .ptr L'
        ∧ Removed m L pre x post m' L' ∧ (r = 0 ∨ (r = 1 ∧ L.size ≠ 0))) := by
  by_cases hs : L.size = 0
  · left
    simp [dll_iteratorDeleteCurrentNode, isempty_ptr, hs, list_t.isNULL,
      iteratorDeleteAll_ptr] at h
    obtain ⟨h1, h2, h3⟩ := h
    subst h1 h2
    exact ⟨rfl, ⟨_, h3.symm, rfl, rfl, hs.symm, rfl⟩, by simp [hs]⟩
  · have hxs : xs ≠ [] := fun h0 => hs (hc.size_eq_zero_iff.2 h0)
    cases hidx : dll_iteratorGetIdxWithID fuel L id with
    | fault =>
      simp [dll_iteratorDeleteCurrentNode, isempty_ptr, hs, list_t.isNULL, list_t.deref, hidx] at h
    | timeout =>
      simp [dll_iteratorDeleteCurrentNode, isempty_ptr, hs, list_t.isNULL, list_t.deref, hidx] at h
    | ok idx =>
      by_cases hneg : idx = -1
      · left
        simp [dll_iteratorDeleteCurrentNode, isempty_ptr, hs, list_t.isNULL, list_t.deref, hidx,
          hneg] at h
        obtain ⟨h1, h2, h3⟩ := h
        subst h1 h2
        exact ⟨rfl, ⟨_, h3.symm, rfl, rfl, rfl, rfl⟩, by simp⟩
      · cases hit : L.iterAt idx with
        | fault =>
          simp [dll_iteratorDeleteCurrentNode, isempty_ptr, hs, list_t.isNULL, list_t.deref, hidx,
            hneg, hit] at h
        | timeout =>
          simp [dll_iteratorDeleteCurrentNode, isempty_ptr, hs, list_t.isNULL, list_t.deref, hidx,
            hneg, hit] at h
        | ok it =>
          right
          obtain ⟨i, rfl, hget⟩ := iterAt_ok hit
          have hmem : ∃ pre x post, xs = pre ++ x :: post ∧ it.node = some x.1 := by
            by_cases htl : it.node = L.tail
            · rcases eq_nil_or_snoc xs with h0 | ⟨ys, t, rfl⟩
              · exact absurd h0 hxs
              · exact ⟨ys, t, [], rfl, htl.trans (Chain.tail_last hc)⟩
            · cases hnode : it.node with
              | none =>
                rw [hnode] at htl
                simp [dll_iteratorDeleteCurrentNode, dll_iteratorNext, isempty_ptr, hs,
                  list_t.isNULL, list_t.deref, hidx, hneg, hit, htl, hnode, Mem.load] at h
              | some a =>
                cases hlive : m.node a with
                | none =>
                  rw [hnode] at htl
                  simp [dll_iteratorDeleteCurrentNode, dll_iteratorNext, isempty_ptr, hs,
                    list_t.isNULL, list_t.deref, hidx, hneg, hit, htl, hnode, Mem.load,
                    hlive] at h
                | some nd =>
                  obtain ⟨pre, x, post, hx, hxa⟩ := mem_fst_split (ho a nd hlive)
                  exact ⟨pre, x, post, hx, by rw [hxa]⟩
          obtain ⟨pre, x, post, rfl, hnode⟩ := hmem
          obtain ⟨m2, L2, hres, hrem, -⟩ :=
            iteratorDeleteCurrentNode_chain hc fuel id i it hidx hget hnode
          rw [hres] at h
          injection h with h
          injection h with h1 h2
          injection h2 with h2 h3
          subst h2
          refine ⟨pre, x, post, L2, rfl, h3.symm, hrem, ?_⟩
          rw [← h1]
          by_cases he : (pre ++ post).isEmpty
          · simp [he, hs]
          · simp [he]

/-- Whatever the iterator table holds: when `dll_iteratorDeleteCurrentNode` returns, either
nothing was removed (return code -1, or 1 on an empty list) or exactly one node of the
chain was removed (return code 0, or 1 when the list became empty). -/
theorem iteratorDeleteCurrentNode_ok {m m' : Mem α} {L : DoublyLinkedList_ADT}
    {xs : List (Nat × Option α)} (hc : Chain m L xs) (ho : Owned m xs) {fuel : Nat}
    {id r : Int} {list' : list_t}
    (h : dll_iteratorDeleteCurrentNode fuel m (.ptr L) id = .ok (r, m', list')) :
    (m' = m ∧ (∃ L', list' = .ptr L' ∧ L'.head = L.head ∧ L'.tail = L.tail ∧ L'.size = L.size)
        ∧ ¬ (r = 0 ∨ (r = 1 ∧ L.size ≠ 0)))
      ∨ (∃ pre x post L', xs = pre ++ x :: post ∧ list' = .ptr L'
        ∧ Removed m L pre x post m' L' ∧ (r = 0 ∨ (r = 1 ∧ L.size ≠ 0))) := by
  rcases iteratorDeleteCurrentNode_ok_core hc ho h with
    ⟨hm, ⟨L', hl, h1, h2, h3, -⟩, hr⟩ | h
  · exact Or.inl ⟨hm, ⟨L', hl, h1, h2, h3⟩, hr⟩
  · exact Or.inr h

end IteratorRunLemmas

section RunTheorems
variable {α : Type}

/-- Every call that returns, iterator calls included, has one of the three effects. -/
theorem step_ok_effect {fuel : Nat} {m : Mem α} {L : DoublyLinkedList_ADT}
    {xs : List (Nat × Option α)} {s' : RunState α} (hch : Chain m L xs) (ho : Owned m xs)
    (hn : xs.length < fuel) (i k : Int)
    (dup : Option α → Option α) (is_equal issmaller : Option α → Option α → Int) (c : Call α)
    (h : c.step fuel dup is_equal issmaller ⟨m, .ptr L, i, k⟩ = .ok s') :
    Effect m L xs i k s' := by
  by_cases hit : c.usesIterator = false
  · rcases step_engine hch hn i k dup is_equal issmaller c hit with ⟨s'', h2, hinv'⟩ | ⟨h2, -⟩
    · rw [h2] at h; injection h with h; subst h; exact hinv'
    · rw [h2] at h; cases h
  · have keep : ∀ L', (L'.head = L.head ∧ L'.tail = L.tail ∧ L'.size = L.size) →
        Effect m L xs i k (⟨m, .ptr L', i, k⟩ : RunState α) :=
      fun L' hf => ⟨L', rfl, Or.inl ⟨rfl, hf.1, hf.2.1, hf.2.2, rfl, rfl⟩⟩
    cases c with
    | iteratorRequest b =>
      simp only [Call.step] at h
      obtain ⟨⟨r, l⟩, hr, h⟩ := Res.bind_eq_ok.1 h
      obtain ⟨L', rfl, hf⟩ := iteratorRequest_fields hr
      injection h with h; subst h; exact keep L' hf
    | iteratorBegin id =>
      simp only [Call.step] at h
      obtain ⟨⟨r, l⟩, hr, h⟩ := Res.bind_eq_ok.1 h
      obtain ⟨L', rfl, hf⟩ := iteratorBegin_fields hr
      injection h with h; subst h; exact keep L' hf
    | iteratorEnd id =>
      simp only [Call.step] at h
      obtain ⟨⟨r, l⟩, hr, h⟩ := Res.bind_eq_ok.1 h
      obtain ⟨L', rfl, hf⟩ := iteratorEnd_fields hr
      injection h with h; subst h; exact keep L' hf
    | iteratorNext id =>
      simp only [Call.step] at h
      obtain ⟨⟨r, l⟩, hr, h⟩ := Res.bind_eq_ok.1 h
      obtain ⟨L', rfl, hf⟩ := iteratorNext_fields hr
      injection h with h; subst h; exact keep L' hf
    | iteratorDeleteCurrentNode id =>
      simp only [Call.step, isempty_ptr, Res.ok_bind] at h
      obtain ⟨⟨r, m', l⟩, hr, h⟩ := Res.bind_eq_ok.1 h
      injection h with h; subst h
      rcases iteratorDeleteCurrentNode_ok hch ho hr with
        ⟨rfl, ⟨L', rfl, hf⟩, hnot⟩ | ⟨pre, x, post, L', rfl, rfl, hrem, hyes⟩
      · have h0 : ¬ (r = 0 ∨ (r = 1 ∧ (if L.size = 0 then (1 : Int) else 0) = 0)) := by
          by_cases hs : L.size = 0 <;> simp [hs] at hnot ⊢ <;> tauto
        simp only [h0, if_false, add_zero]
        exact keep L' hf
      · have h1 : (r = 0 ∨ (r = 1 ∧ (if L.size = 0 then (1 : Int) else 0) = 0)) := by
          by_cases hs : L.size = 0 <;> simp [hs] at hyes ⊢ <;> tauto
        simp only [h1, if_true]
        exact Effect.of_removed i k _ _ hrem
    | insert_at_back _ _ => simp [Call.usesIterator] at hit
    | insert_at_front _ _ => simp [Call.usesIterator] at hit
    | insert_sorted _ _ => simp [Call.usesIterator] at hit
    | insert_before _ _ _ => simp [Call.usesIterator] at hit
    | insert_after _ _ _ => simp [Call.usesIterator] at hit
    | delete _ => simp [Call.usesIterator] at hit
    | delete_front => simp [Call.usesIterator] at hit
    | delete_back => simp [Call.usesIterator] at hit

theorem step_ok_inv {n fuel : Nat} {s s' : RunState α} (hinv : RunInv n s) (hn : n < fuel)
    (dup : Option α → Option α) (is_equal issmaller : Option α → Option α → Int) (c : Call α)
    (h : c.step fuel dup is_equal issmaller s = .ok s') : RunInv (n + 1) s' := by
  obtain ⟨L, xs, hl, hch, ho, hlen, hk, hi, hk0⟩ := hinv
  obtain ⟨m, list, i, k⟩ := s
  simp only at hl hch ho hlen hk hi hk0
  subst hl
  exact Effect.runInv hch ho hlen hk hi hk0
    (step_ok_effect hch ho (show xs.length < fuel by omega) i k dup is_equal issmaller c h)

theorem run_ok_inv {fuel : Nat} (dup : Option α → Option α)
    (is_equal issmaller : Option α → Option α → Int) :
    ∀ (cs : List (Call α)) (n : Nat) (s s' : RunState α), RunInv n s → n + cs.length ≤ fuel →
      run fuel dup is_equal issmaller cs s = .ok s' → RunInv (n + cs.length) s' := by
  intro cs
  induction cs with
  | nil =>
    intro n s s' hinv _ h
    simp only [run] at h
    injection h with h; subst h; simpa using hinv
  | cons c cs ih =>
    intro n s s' hinv hn h
    simp only [run] at h
    obtain ⟨s1, h1, h2⟩ := Res.bind_eq_ok.1 h
    have hinv1 := step_ok_inv hinv (by simp at hn; omega) dup is_equal issmaller c h1
    have := ih (n + 1) s1 s' hinv1 (by simp at hn ⊢; omega) h2
    simpa [Nat.add_assoc, Nat.add_comm 1] using this

theorem admissible_engine {s : RunState α} {c : Call α} (h : c.admissible s) :
    c.usesIterator = false := by
  cases c <;> simp [Call.admissible] at h <;> rfl

end RunTheorems

/-- C3: run any sequence of calls (the five insertions, `dll_delete`, `dll_delete_front`,
`dll_delete_back`, `dll_iteratorDeleteCurrentNode`, and the iterator requests and moves
needed to use the latter) on a freshly initialised list, with a step budget above the
number of calls. Whenever the run returns, `dll_size` is the number of insert calls that
returned 0 minus the number of delete calls that removed a node, and that second number
is the number of `free_data` calls made. Moreover the next list-engine call made within
its precondition (boundary deletions and keyed insertions on a non-empty list) returns. -/
theorem size_is_inserts_minus_deletes {α : Type} (fuel : Nat) (duplicate : Option α → Option α)
    (is_equal issmaller : Option α → Option α → Int) (calls : List (Call α))
    (hfuel : calls.length < fuel) (s : RunState α)
    (hrun : run fuel duplicate is_equal issmaller calls RunState.init = .ok s) :
    dll_size s.list = .ok (s.inserted - s.removed)
      ∧ s.removed = (s.mem.released.length : Int)
      ∧ ∀ c : Call α, c.admissible s →
          ∃ s', c.step fuel duplicate is_equal issmaller s = .ok s' := by
  have hinv := run_ok_inv duplicate is_equal issmaller calls 0 _ s runInv_init (by omega) hrun
  simp only [Nat.zero_add] at hinv
  refine ⟨?_, ?_, ?_⟩
  · obtain ⟨L, xs, hl, hch, -, hlen, -, -, -⟩ := hinv
    rw [hl, ← hlen, ← hch.size_eq]; rfl
  · obtain ⟨L, xs, -, -, -, -, hk, -, -⟩ := hinv
    exact hk
  · intro c hc
    obtain ⟨L, xs, hl, hch, -, hlen, -, hi, hk0⟩ := hinv
    obtain ⟨m, list, i, k⟩ := s
    simp only at hl hch hlen hi hk0
    subst hl
    rcases step_engine hch (show xs.length < fuel by omega) i k duplicate is_equal issmaller c
      (admissible_engine hc) with ⟨s', h, -⟩ | ⟨-, h⟩
    · exact ⟨s', h⟩
    · exact absurd hc h

/-- Witness of C3: the run `sampleCalls`, five successful inserts and four removals. -/
theorem size_is_inserts_minus_deletes_witness :
    sampleCalls.length < 13
      ∧ run 13 copyElem natEqual natSmaller sampleCalls RunState.init = .ok sampleFinal
      ∧ dll_size sampleFinal.list = .ok (sampleFinal.inserted - sampleFinal.removed)
      ∧ sampleFinal.removed = (sampleFinal.mem.released.length : Int)
      ∧ ∀ c : Call Nat, c.admissible sampleFinal →
          ∃ s', c.step 13 copyElem natEqual natSmaller sampleFinal = .ok s' :=
  ⟨by decide, by decide,
    size_is_inserts_minus_deletes 13 copyElem natEqual natSmaller sampleCalls (by decide)
      sampleFinal (by decide)⟩

section SortedLemmas
variable {α : Type}

/-- One sorted insertion keeps the chain sorted and adds the duplicated element. -/
theorem insert_sorted_keeps_sorted {m : Mem α} {L : DoublyLinkedList_ADT}
    {xs : List (Nat × Option α)} (issmaller : Option α → Option α → Int)
    (dup : Option α → Option α)
    (hirr : ∀ a, issmaller a a = 0)
    (htrans : ∀ a b c, issmaller a b ≠ 0 → issmaller b c ≠ 0 → issmaller a c ≠ 0)
    (hdup : ∀ a b, issmaller (dup a) b = issmaller a b ∧ issmaller a (dup b) = issmaller a b)
    (hc : Chain m L xs) (hsorted : (xs.map Prod.snd).Pairwise (fun a b => issmaller b a = 0))
    (e : α) (fuel : Nat) (hfuel : xs.length < fuel) :
    ∃ pre post, xs = pre ++ post
      ∧ Inserted m L pre post (dup (some e))
          (dll_insert_sorted fuel m (.ptr L) (some e) issmaller dup true)
      ∧ ((pre ++ (m.fresh, dup (some e)) :: post).map Prod.snd).Pairwise
          (fun a b => issmaller b a = 0) := by
  have hasym : ∀ a b, issmaller a b ≠ 0 → issmaller b a = 0 := by
    intro a b hab
    by_contra hba
    exact htrans a b a hab hba (hirr a)
  by_cases hxs : xs = []
  · subst hxs
    exact ⟨[], [], rfl, insert_sorted_empty hc fuel e issmaller dup, by simp⟩
  obtain ⟨ys, t, hlast⟩ : ∃ ys t, xs = ys ++ [t] := by
    rcases eq_nil_or_snoc xs with h | h
    · exact absurd h hxs
    · exact h
  by_cases hfast : issmaller t.2 (some e) = 0
  · obtain ⟨pre, c, post, hx, hpre, hstop⟩ :=
      scan_stop_split (fun y : Nat × Option α => issmaller (some e) y.2) xs hxs
    subst hx
    refine ⟨pre, c :: post, rfl, insert_sorted_slow hc hlast fuel e issmaller dup hfast hpre hstop
      (by simp at hfuel; omega), ?_⟩
    simp only [List.map_append, List.map_cons, List.pairwise_append, List.pairwise_cons,
      List.mem_cons, List.mem_map] at hsorted ⊢
    obtain ⟨h1, ⟨h2, h3⟩, h4⟩ := hsorted
    refine ⟨h1, ⟨?_, h2, h3⟩, ?_⟩
    · intro z hz
      rw [(hdup _ _).2]
      rcases hstop with hlt | hpost
      · rcases hz with rfl | ⟨w, hw, rfl⟩
        · exact hasym _ _ hlt
        · by_contra hze
          exact htrans _ _ _ hze hlt (h2 w.2 ⟨w, hw, rfl⟩)
      · subst hpost
        have htc : t = c := by
          have := congrArg List.getLast? hlast
          simpa using this.symm
        subst htc
        rcases hz with rfl | ⟨w, hw, rfl⟩
        · exact hfast
        · cases hw
    · intro a ha b hb
      rcases hb with rfl | hb
      · rw [(hdup _ _).1]
        obtain ⟨w, hw, rfl⟩ := ha
        exact hpre w hw
      · exact h4 a ha b hb
  · subst hlast
    refine ⟨ys ++ [t], [], by simp, insert_sorted_fast hc fuel e issmaller dup hfast, ?_⟩
    have hs2 := hsorted
    rw [List.map_append, List.pairwise_append] at hs2
    obtain ⟨-, -, h4⟩ := hs2
    rw [List.map_append, List.pairwise_append]
    refine ⟨hsorted, by simp, ?_⟩
    intro a ha b hb
    simp only [List.map_cons, List.map_nil, List.mem_singleton] at hb
    subst hb
    rw [(hdup _ _).1]
    simp only [List.map_append, List.map_cons, List.map_nil, List.mem_append, List.mem_map,
      List.mem_singleton] at ha
    rcases ha with ⟨w, hw, rfl⟩ | rfl
    · by_contra hew
      exact htrans _ _ _ hfast hew (h4 w.2 (List.mem_map.2 ⟨w, hw, rfl⟩) t.2 (by simp))
    · exact hasym _ _ hfast

theorem insert_all_sorted_chain (issmaller : Option α → Option α → Int)
    (dup : Option α → Option α)
    (hirr : ∀ a, issmaller a a = 0)
    (htrans : ∀ a b c, issmaller a b ≠ 0 → issmaller b c ≠ 0 → issmaller a c ≠ 0)
    (hdup : ∀ a b, issmaller (dup a) b = issmaller a b ∧ issmaller a (dup b) = issmaller a b)
    (fuel : Nat) :
    ∀ (es : List α) (m : Mem α) (L : DoublyLinkedList_ADT) (xs : List (Nat × Option α)),
      Chain m L xs → (xs.map Prod.snd).Pairwise (fun a b => issmaller b a = 0) →
      xs.length + es.length ≤ fuel →
      ∃ m' L' ys, insert_all_sorted fuel issmaller dup m (.ptr L) (es.map some)
          = .ok (List.replicate es.length 0, m', .ptr L')
        ∧ Chain m' L' ys ∧ (ys.map Prod.snd).Pairwise (fun a b => issmaller b a = 0)
        ∧ (ys.map Prod.snd).Perm (xs.map Prod.snd ++ es.map (fun e => dup (some e)))
        ∧ L'.iteratorsArray = L.iteratorsArray ∧ L'.id_counter = L.id_counter := by
  intro es
  induction es with
  | nil =>
    intro m L xs hc hs _
    exact ⟨m, L, xs, rfl, hc, hs, by simp, rfl, rfl⟩
  | cons e es ih =>
    intro m L xs hc hs hf
    obtain ⟨pre, post, rfl, hins, hs1⟩ :=
      insert_sorted_keeps_sorted issmaller dup hirr htrans hdup hc hs e fuel
        (by simp at hf; omega)
    obtain ⟨m1, L1, h1, hc1, hi1, hk1, -⟩ := hins
    obtain ⟨m2, L2, ys, h2, hc2, hs2, hp2, hi2, hk2⟩ := ih m1 L1 _ hc1 hs1
      (by simp at hf ⊢; omega)
    refine ⟨m2, L2, ys, ?_, hc2, hs2, ?_, hi2.trans hi1, hk2.trans hk1⟩
    · simp [insert_all_sorted, h1, h2, List.replicate_succ]
    · refine hp2.trans ?_
      simp only [List.map_append, List.map_cons, List.append_assoc]
      refine List.Perm.append_left _ ?_
      simp only [List.cons_append]
      exact (List.perm_middle).symm.trans (List.Perm.refl _) |>.symm |>.symm

end SortedLemmas

section WellFormedness
variable {α : Type}

theorem nextPath_suffix {m : Mem α} : ∀ (l1 l2 : List Nat), nextPath m (l1 ++ l2) → nextPath m l2
  | [], _, h => h
  | _ :: l1, l2, h => by
    obtain ⟨nd, -, -, h⟩ := h
    exact nextPath_suffix l1 l2 h

/-- Two walks along `next` from the same node that both stop at a node without successor
visit the same nodes. -/
theorem nextPath_det {m : Mem α} : ∀ (r1 r2 : List Nat) (a : Nat),
    nextPath m (a :: r1) → nextPath m (a :: r2) →
    (∀ t nd, (a :: r1).getLast? = some t → m.node t = some nd → nd.next = none) →
    (∀ t nd, (a :: r2).getLast? = some t → m.node t = some nd → nd.next = none) → r1 = r2 := by
  intro r1
  induction r1 with
  | nil =>
    intro r2 a h1 h2 e1 e2
    obtain ⟨nd, hn, -, -⟩ := h1
    have hnone := e1 a nd rfl hn
    cases r2 with
    | nil => rfl
    | cons b r2 =>
      obtain ⟨nd2, hn2, hb, -⟩ := h2
      rw [hn] at hn2; injection hn2 with hn2; subst hn2
      have := hb b rfl
      rw [hnone] at this; cases this
  | cons b r1 ih =>
    intro r2 a h1 h2 e1 e2
    obtain ⟨nd, hn, hb, h1⟩ := h1
    have hsome := hb b rfl
    cases r2 with
    | nil =>
      have := e2 a nd rfl hn
      rw [hsome] at this; cases this
    | cons b2 r2 =>
      obtain ⟨nd2, hn2, hb2, h2⟩ := h2
      rw [hn] at hn2; injection hn2 with hn2; subst hn2
      have := hb2 b2 rfl
      rw [hsome] at this; injection this with this; subst this
      rw [ih r2 b h1 h2 (by simpa [List.getLast?_cons_cons] using e1)
        (by simpa [List.getLast?_cons_cons] using e2)]

theorem nextPath_nodup {m : Mem α} : ∀ (ps : List Nat), nextPath m ps →
    (∀ t nd, ps.getLast? = some t → m.node t = some nd → nd.next = none) → ps.Nodup := by
  intro ps
  induction ps with
  | nil => intro _ _; exact List.nodup_nil
  | cons a rest ih =>
    intro h e
    have hrest : nextPath m rest := nextPath_suffix [a] rest h
    have erest : ∀ t nd, rest.getLast? = some t → m.node t = some nd → nd.next = none := by
      cases rest with
      | nil => intro t nd ht; cases ht
      | cons b r => simpa [List.getLast?_cons_cons] using e
    refine List.nodup_cons.2 ⟨?_, ih hrest erest⟩
    intro hmem
    obtain ⟨l1, l2, rfl⟩ := List.append_of_mem hmem
    have h2 : nextPath m (a :: l2) := nextPath_suffix l1 (a :: l2) hrest
    have e2 : ∀ t nd, (a :: l2).getLast? = some t → m.node t = some nd → nd.next = none := by
      intro t nd ht
      apply e t nd
      rw [← ht]
      exact (List.getLast?_append_cons (a :: l1) a l2)
    have := nextPath_det (l1 ++ a :: l2) l2 a h h2 e e2
    have hl := congrArg List.length this
    simp at hl
    omega

/-- The chain read off a walk: each address with the element stored there. -/
theorem lastOr_map_pair (f : Nat → Option α) : ∀ (ps : List Nat) (d : dllnodeptr),
    lastOr (ps.map (fun a => (a, f a))) d = (match ps.getLast? with | some t => some t | none => d)
  | [], _ => rfl
  | [a], _ => rfl
  | a :: b :: r, d => by
    rw [List.map_cons, lastOr_cons, lastOr_map_pair f (b :: r), List.getLast?_cons_cons]
    cases h : (b :: r).getLast? with
    | none => simp at h
    | some t => rfl

theorem dlseg_of_path {m : Mem α} : ∀ (ps : List Nat) (prev : dllnodeptr), nextPath m ps →
    (∀ t nd, ps.getLast? = some t → m.node t = some nd → nd.next = none) →
    (∀ a nd, ps.head? = some a → m.node a = some nd → nd.previous = prev) →
    (∀ a ∈ ps, ∀ b ∈ ps, ∀ na nb, m.node a = some na → m.node b = some nb →
      na.next = some b → nb.previous = some a) →
    dlseg m prev (ps.map (fun a => (a, m.dataAt a))) none := by
  intro ps
  induction ps with
  | nil => intro _ _ _ _ _; trivial
  | cons a rest ih =>
    intro prev h e hp hl
    obtain ⟨nd, hn, hb, hrest⟩ := h
    have hprev := hp a nd rfl hn
    have hdata : m.dataAt a = nd.data := by simp [Mem.dataAt, hn]
    cases rest with
    | nil =>
      have hnext := e a nd rfl hn
      refine ⟨?_, trivial⟩
      show m.node a = some ⟨prev, none, m.dataAt a⟩
      rw [hn, hdata, ← hprev, ← hnext]
    | cons b r =>
      have hnext := hb b rfl
      refine ⟨?_, ?_⟩
      · show m.node a = some ⟨prev, some b, m.dataAt a⟩
        rw [hn, hdata, ← hprev, ← hnext]
      · apply ih (some a) hrest
        · simpa [List.getLast?_cons_cons] using e
        · intro c nc hc hnc
          simp only [List.head?_cons, Option.some.injEq] at hc
          subst hc
          exact hl a (by simp) b (by simp) nd nc hn hnc hnext
        · intro x hx y hy
          exact hl x (List.mem_cons_of_mem _ hx) y (List.mem_cons_of_mem _ hy)

/-- A well-formed list holds a chain. -/
theorem WellFormed.holds_chain {m : Mem α} {L : DoublyLinkedList_ADT} (h : WellFormed m L) :
    ∃ xs, Chain m L xs := by
  obtain ⟨ps, hpath, hhead, htail, hsize⟩ := h.walk
  have hend : ∀ t nd, ps.getLast? = some t → m.node t = some nd → nd.next = none := by
    intro t nd ht hn
    obtain ⟨nd2, hn2, hx⟩ := h.tail_next t (htail.trans ht)
    rw [hn] at hn2; injection hn2 with hn2; subst hn2; exact hx
  have hon : ∀ a ∈ ps, OnList m L a := fun a ha => ⟨ps, hpath, hhead, ha⟩
  refine ⟨ps.map (fun a => (a, m.dataAt a)), ?_, ?_, ?_, ?_, ?_⟩
  · apply dlseg_of_path ps none hpath hend
    · intro a nd ha hn
      obtain ⟨nd2, hn2, hx⟩ := h.head_previous a (hhead.trans ha)
      rw [hn] at hn2; injection hn2 with hn2; subst hn2; exact hx
    · intro a ha b hb na nb hna hnb hnext
      exact (h.links a b na nb (hon a ha) (hon b hb) hna hnb).1 hnext
  · rw [List.map_map]
    simpa [Function.comp_def] using nextPath_nodup ps hpath hend
  · rw [hhead]; cases ps <;> rfl
  · rw [htail, lastOr_map_pair]; cases ps.getLast? <;> rfl
  · rw [hsize]; simp

theorem split_unique : ∀ (p1 p2 q1 q2 : List (Nat × Option α)) (x y : Nat × Option α),
    ((p1 ++ x :: q1).map Prod.fst).Nodup → p1 ++ x :: q1 = p2 ++ y :: q2 → x.1 = y.1 →
    p1 = p2 ∧ x = y ∧ q1 = q2 := by
  intro p1
  induction p1 with
  | nil =>
    intro p2 q1 q2 x y hnd he hxy
    cases p2 with
    | nil =>
      simp only [List.nil_append, List.cons.injEq] at he
      exact ⟨rfl, he.1, he.2⟩
    | cons z p2 =>
      simp only [List.nil_append, List.cons_append, List.cons.injEq] at he
      obtain ⟨rfl, rfl⟩ := he
      simp only [List.nil_append, List.map_cons, List.nodup_cons] at hnd
      exact absurd (by rw [hxy]; simp) hnd.1
  | cons z p1 ih =>
    intro p2 q1 q2 x y hnd he hxy
    cases p2 with
    | nil =>
      simp only [List.nil_append, List.cons_append, List.cons.injEq] at he
      obtain ⟨rfl, rfl⟩ := he
      simp only [List.cons_append, List.map_cons, List.nodup_cons] at hnd
      exact absurd (by rw [← hxy]; simp) hnd.1
    | cons z2 p2 =>
      simp only [List.cons_append, List.cons.injEq] at he
      obtain ⟨rfl, he⟩ := he
      simp only [List.cons_append, List.map_cons, List.nodup_cons] at hnd
      obtain ⟨rfl, h2, h3⟩ := ih p2 q1 q2 x y hnd.2 he hxy
      exact ⟨rfl, h2, h3⟩

theorem path_of_dlseg {m : Mem α} : ∀ (xs : List (Nat × Option α)) (prev nxt : dllnodeptr),
    dlseg m prev xs nxt → nextPath m (xs.map Prod.fst)
  | [], _, _, _ => trivial
  | x :: xs, _, nxt, h => by
    refine ⟨_, h.1, ?_, path_of_dlseg xs _ nxt h.2⟩
    intro b hb
    cases xs with
    | nil => cases hb
    | cons y ys =>
      simp only [List.map_cons, List.head?_cons, Option.some.injEq] at hb
      subst hb; rfl

theorem lastOr_eq_getLast (xs : List (Nat × Option α)) :
    lastOr xs none = (xs.map Prod.fst).getLast? := by
  rcases eq_nil_or_snoc xs with rfl | ⟨ys, t, rfl⟩
  · rfl
  · rw [lastOr_append]; simp

theorem firstOr_eq_head (xs : List (Nat × Option α)) :
    firstOr xs none = (xs.map Prod.fst).head? := by
  cases xs <;> rfl

/-- A walk along `next` that starts inside a chain stays inside it. -/
theorem path_in_chain {m : Mem α} {L : DoublyLinkedList_ADT} {xs : List (Nat × Option α)}
    (hc : Chain m L xs) : ∀ (ps : List Nat), nextPath m ps →
    (∀ a, ps.head? = some a → a ∈ xs.map Prod.fst) → ∀ a ∈ ps, a ∈ xs.map Prod.fst := by
  intro ps
  induction ps with
  | nil => intro _ _ a ha; cases ha
  | cons c rest ih =>
    intro h hhead a ha
    have hcin := hhead c rfl
    rcases List.mem_cons.1 ha with rfl | ha
    · exact hcin
    · obtain ⟨nd, hn, hb, hrest⟩ := h
      apply ih hrest _ a ha
      intro b hbh
      have hnext := hb b hbh
      obtain ⟨pre, x, post, rfl, rfl⟩ := mem_fst_split hcin
      rw [hc.node_at] at hn
      injection hn with hn
      subst hn
      simp only at hnext
      cases post with
      | nil => cases hnext
      | cons y post =>
        simp only [firstOr_cons, Option.some.injEq] at hnext
        subst hnext
        simp

theorem Chain.onList_iff {m : Mem α} {L : DoublyLinkedList_ADT} {xs : List (Nat × Option α)}
    (hc : Chain m L xs) (a : Nat) : OnList m L a ↔ a ∈ xs.map Prod.fst := by
  constructor
  · rintro ⟨ps, hp, hh, ha⟩
    apply path_in_chain hc ps hp _ a ha
    intro b hb
    have := hc.head_eq
    rw [hh, hb] at this
    cases xs with
    | nil => cases this
    | cons x xs =>
      simp only [firstOr_cons, Option.some.injEq] at this
      subst this; simp
  · intro ha
    exact ⟨xs.map Prod.fst, path_of_dlseg xs none none hc.seg,
      hc.head_eq.trans (firstOr_eq_head xs), ha⟩

/-- A list holding a chain is well-formed. -/
theorem Chain.wellFormed {m : Mem α} {L : DoublyLinkedList_ADT} {xs : List (Nat × Option α)}
    (hc : Chain m L xs) : WellFormed m L := by
  refine ⟨?_, ?_, ?_, ?_, ?_⟩
  · rw [hc.size_eq_zero_iff, hc.head_eq, hc.tail_eq]
    rcases eq_nil_or_snoc xs with rfl | ⟨ys, t, rfl⟩
    · simp
    · simp [lastOr_append]
  · intro h hh
    rw [hc.head_eq] at hh
    cases xs with
    | nil => cases hh
    | cons x xs =>
      simp only [firstOr_cons, Option.some.injEq] at hh
      subst hh
      exact ⟨_, @Chain.node_at α m L [] xs x hc, rfl⟩
  · intro t ht
    rw [hc.tail_eq] at ht
    rcases eq_nil_or_snoc xs with rfl | ⟨ys, x, rfl⟩
    · cases ht
    · rw [lastOr_append] at ht
      simp only [lastOr_cons, lastOr_nil, Option.some.injEq] at ht
      subst ht
      exact ⟨_, hc.node_at, rfl⟩
  · intro a b na nb ha hb hna hnb
    obtain ⟨p1, xa, q1, h1, rfl⟩ := mem_fst_split ((hc.onList_iff a).1 ha)
    obtain ⟨p2, xb, q2, h2, rfl⟩ := mem_fst_split ((hc.onList_iff b).1 hb)
    have hnd := hc.nodup
    have n1 : m.node xa.1 = _ := @Chain.node_at α m L p1 q1 xa (h1 ▸ hc)
    have n2 : m.node xb.1 = _ := @Chain.node_at α m L p2 q2 xb (h2 ▸ hc)
    rw [n1] at hna; injection hna with hna; subst hna
    rw [n2] at hnb; injection hnb with hnb; subst hnb
    simp only
    constructor
    · intro hnext
      cases q1 with
      | nil => cases hnext
      | cons y q1 =>
        simp only [firstOr_cons, Option.some.injEq] at hnext
        have e : (p1 ++ [xa]) ++ y :: q1 = p2 ++ xb :: q2 := by
          rw [← h2, h1]; simp
        obtain ⟨rfl, -, -⟩ := split_unique (p1 ++ [xa]) p2 q1 q2 y xb
          (by rw [e, ← h2]; exact hnd) e hnext
        rw [lastOr_append]; rfl
    · intro hprev
      rcases eq_nil_or_snoc p2 with rfl | ⟨p0, z, rfl⟩
      · cases hprev
      · rw [lastOr_append] at hprev
        simp only [lastOr_cons, lastOr_nil, Option.some.injEq] at hprev
        have e : p0 ++ z :: (xb :: q2) = p1 ++ xa :: q1 := by
          rw [← h1, h2]; simp
        obtain ⟨-, -, rfl⟩ := split_unique p0 p1 (xb :: q2) q1 z xa
          (by rw [e, ← h1]; exact hnd) e hprev
        rfl
  · exact ⟨xs.map Prod.fst, path_of_dlseg xs none none hc.seg,
      hc.head_eq.trans (firstOr_eq_head xs), hc.tail_eq.trans (lastOr_eq_getLast xs),
      by rw [hc.size_eq]; simp⟩

end WellFormedness

section WellFormedSteps
variable {α : Type}

/-- A list-engine call made within its precondition on a well-formed list returns and
leaves a well-formed list. -/
theorem step_wf {fuel : Nat} {m : Mem α} {L : DoublyLinkedList_ADT} (hwf : WellFormed m L)
    (hfuel : L.size < (fuel : Int))
    (dup : Option α → Option α) (is_equal issmaller : Option α → Option α → Int) (c : Call α)
    (hc : c.admissible ⟨m, .ptr L, 0, 0⟩) :
    ∃ s' L', c.step fuel dup is_equal issmaller ⟨m, .ptr L, 0, 0⟩ = .ok s'
      ∧ s'.list = .ptr L' ∧ WellFormed s'.mem L' := by
  obtain ⟨xs, hch⟩ := hwf.holds_chain
  have hlen : xs.length < fuel := by
    have := hch.size_eq
    omega
  rcases step_engine hch hlen 0 0 dup is_equal issmaller c (admissible_engine hc) with
    ⟨s', h, heff⟩ | ⟨-, h⟩
  · obtain ⟨L', xs', hl, hch'⟩ := heff.keeps_chain hch
    exact ⟨s', L', h, hl, hch'.wellFormed⟩
  · exact absurd hc h

theorem insert_of_step {s s' : RunState α} {f : Res (Int × Mem α × list_t)}
    {L' : DoublyLinkedList_ADT}
    (h : (f >>= fun r => Res.ok (s.afterInsert r)) = .ok s') (hl : s'.list = .ptr L') :
    ∃ r, f = .ok (r, s'.mem, .ptr L') := by
  obtain ⟨⟨r, m', l⟩, hr, h⟩ := Res.bind_eq_ok.1 h
  injection h with h
  subst h
  exact ⟨r, by rw [hr]; simp only [RunState.afterInsert] at hl ⊢; rw [hl]⟩

theorem nonempty_admissible {L : DoublyLinkedList_ADT} (h : L.size ≠ 0) :
    dll_isempty (.ptr L) = .ok 0 := by
  simp [isempty_ptr, h]

end WellFormedSteps

section RegistryFrame
variable {α : Type}

theorem iterAt_ids {L L' : DoublyLinkedList_ADT}
    (h : L'.iteratorsArray.map (fun it => it.id) = L.iteratorsArray.map (fun it => it.id))
    (i : Int) {β : Type} (f : dlliterator → Res β)
    (hf : ∀ a b : dlliterator, a.id = b.id → f a = f b) :
    (L'.iterAt i >>= f) = (L.iterAt i >>= f) := by
  unfold DoublyLinkedList_ADT.iterAt
  by_cases hi : i < 0
  · simp [hi]
  · have hg := congrArg (fun l => l[i.toNat]?) h
    simp only [List.getElem?_map] at hg
    simp only [hi, if_false]
    cases h1 : L'.iteratorsArray[i.toNat]? with
    | none =>
      cases h2 : L.iteratorsArray[i.toNat]? with
      | none => rfl
      | some b => rw [h1, h2] at hg; cases hg
    | some a =>
      cases h2 : L.iteratorsArray[i.toNat]? with
      | none => rw [h1, h2] at hg; cases hg
      | some b =>
        rw [h1, h2] at hg
        simp only [Option.map_some', Option.some.injEq] at hg
        simp [hf a b hg]

/-- The ID search looks at the IDs of the table only. -/
theorem binarySearch_ids {L L' : DoublyLinkedList_ADT}
    (h : L'.iteratorsArray.map (fun it => it.id) = L.iteratorsArray.map (fun it => it.id))
    (key : Int) : ∀ (fuel : Nat) (s e : Int),
      dll_iteratorBinarySearch L' key fuel s e = dll_iteratorBinarySearch L key fuel s e := by
  have hcount : L'.iteratorsCount = L.iteratorsCount := by
    have := congrArg List.length h
    simpa [DoublyLinkedList_ADT.iteratorsCount] using this
  intro fuel
  induction fuel with
  | zero => intro s e; rfl
  | succ k ih =>
    intro s e
    simp only [dll_iteratorBinarySearch, hcount, ih]
    apply iterAt_ids h
    intro a b hab
    simp only [hab]

theorem getIdxWithID_ids {L L' : DoublyLinkedList_ADT}
    (h : L'.iteratorsArray.map (fun it => it.id) = L.iteratorsArray.map (fun it => it.id))
    (fuel : Nat) (key : Int) :
    dll_iteratorGetIdxWithID fuel L' key = dll_iteratorGetIdxWithID fuel L key := by
  have hcount : L'.iteratorsCount = L.iteratorsCount := by
    have := congrArg List.length h
    simpa [DoublyLinkedList_ADT.iteratorsCount] using this
  simp only [dll_iteratorGetIdxWithID, hcount, binarySearch_ids h]

theorem retarget_ids (old new : dllnodeptr) (its : List dlliterator) :
    (retarget old new its).map (fun it => it.id) = its.map (fun it => it.id) := by
  simp only [retarget, List.map_map]
  apply List.map_congr_left
  intro it _
  simp only [Function.comp]
  split <;> rfl

theorem set_node_ids {its : List dlliterator} {i : Nat} {it : dlliterator}
    (h : its[i]? = some it) (p : dllnodeptr) :
    (its.set i { it with node := p }).map (fun it => it.id) = its.map (fun it => it.id) := by
  apply List.ext_getElem?
  intro j
  simp only [List.getElem?_map]
  by_cases hj : i = j
  · subst hj
    have hlt : i < its.length := by
      rcases Nat.lt_or_ge i its.length with hl | hl
      · exact hl
      · rw [List.getElem?_eq_none hl] at h; cases h
    rw [List.getElem?_set_self hlt, h]
    rfl
  · rw [List.getElem?_set_ne hj]

/-- Reading through an iterator that the lookup resolves and that is positioned on a node
of the chain returns the element of that node. -/
theorem getObj_of_chain {m : Mem α} {L : DoublyLinkedList_ADT} {xs : List (Nat × Option α)}
    (hc : Chain m L xs) {a : Nat} {e : Option α} (hx : (a, e) ∈ xs) {idx : Nat}
    {it : dlliterator} (hit : L.iteratorsArray[idx]? = some it) (hnode : it.node = some a)
    {fuel : Nat} {id : Int} (hidx : dll_iteratorGetIdxWithID fuel L id = .ok (idx : Int)) :
    dll_iteratorGetObj fuel m (.ptr L) id = .ok (e, .ptr L) := by
  obtain ⟨pre, post, rfl⟩ := List.append_of_mem hx
  have hs : L.size ≠ 0 := fun h => by have := hc.size_eq_zero_iff.1 h; simp at this
  have hn := hc.node_at
  have hne : ¬ ((idx : Int) = -1) := by omega
  simp [dll_iteratorGetObj, isempty_ptr, hs, list_t.isNULL, list_t.deref, hidx, hne,
    iterAt_nat hit, Mem.load, hnode, hn]

/-- With a non-empty list every call of the list engine is within its precondition. -/
theorem admissible_of_nonempty {m : Mem α} {L : DoublyLinkedList_ADT} (hs : L.size ≠ 0)
    (i k : Int) (c : Call α) (hng : c.usesIterator = false) :
    c.admissible ⟨m, .ptr L, i, k⟩ := by
  cases c <;> simp [Call.admissible, Call.usesIterator, isempty_ptr, hs] at hng ⊢

end RegistryFrame

section CopySpec
variable {α : Type}

end CopySpec

section IteratorMoves
variable {α : Type}

/-- An index the search returns holds the ID searched for. -/
theorem binarySearch_sound {L : DoublyLinkedList_ADT} {key : Int} :
    ∀ (fuel : Nat) (s e idx : Int), dll_iteratorBinarySearch L key fuel s e = .ok idx →
      idx = -1 ∨ ∃ (i : Nat) (it : dlliterator), idx = (i : Int)
        ∧ L.iteratorsArray[i]? = some it ∧ it.id = key := by
  intro fuel
  induction fuel with
  | zero => intro s e idx h; cases h
  | succ k ih =>
    intro s e idx h
    simp only [dll_iteratorBinarySearch] at h
    obtain ⟨it, hit, h⟩ := Res.bind_eq_ok.1 h
    split at h
    · rename_i hid
      injection h with h
      obtain ⟨i, hi, hget⟩ := iterAt_ok hit
      exact Or.inr ⟨i, it, by rw [← h, hi], hget, hid⟩
    · split at h
      · injection h with h; exact Or.inl h.symm
      · split at h
        · exact ih _ _ _ h
        · split at h
          · exact ih _ _ _ h
          · injection h with h; exact Or.inl h.symm

theorem getIdxWithID_sound {L : DoublyLinkedList_ADT} {key : Int} {fuel : Nat} {idx : Int}
    (h : dll_iteratorGetIdxWithID fuel L key = .ok idx) :
    idx = -1 ∨ ∃ (i : Nat) (it : dlliterator), idx = (i : Int)
      ∧ L.iteratorsArray[i]? = some it ∧ it.id = key := by
  unfold dll_iteratorGetIdxWithID at h
  split at h
  · exact binarySearch_sound _ _ _ _ h
  · injection h with h; exact Or.inl h.symm

/-- Advancing an iterator that the lookup resolves and that is on the node `x` of the
chain. -/
theorem iteratorNext_resolved {m : Mem α} {L : DoublyLinkedList_ADT}
    {pre post : List (Nat × Option α)} {x : Nat × Option α}
    (hc : Chain m L (pre ++ x :: post)) {fuel : Nat} {id : Int} {idx : Nat} {it : dlliterator}
    (hidx : dll_iteratorGetIdxWithID fuel L id = .ok (idx : Int))
    (hit : L.iteratorsArray[idx]? = some it) (hx : it.node = some x.1) :
    dll_iteratorNext fuel m (.ptr L) id
      = if post.isEmpty then .ok (2, .ptr L)
        else .ok (0, .ptr { L with
          iteratorsArray := L.iteratorsArray.set idx { it with node := firstOr post none } }) := by
  have hs : L.size ≠ 0 := fun h => by have := hc.size_eq_zero_iff.1 h; simp at this
  have hn := hc.node_at
  have hne : ¬ ((idx : Int) = -1) := by omega
  cases post with
  | nil =>
    have ht := Chain.tail_last hc
    simp [dll_iteratorNext, isempty_ptr, hs, list_t.isNULL, list_t.deref, hidx, hne,
      iterAt_nat hit, hx, ht]
  | cons y rest =>
    have hnt := hc.tail_ne (by simp)
    simp [dll_iteratorNext, isempty_ptr, hs, list_t.isNULL, list_t.deref, hidx, hne,
      iterAt_nat hit, setIterNode_nat hit, Mem.load, hn, hnt, hx]

/-- Moving back an iterator that the lookup resolves and that is on the node `x` of the
chain. -/
theorem iteratorPrev_resolved {m : Mem α} {L : DoublyLinkedList_ADT}
    {pre post : List (Nat × Option α)} {x : Nat × Option α}
    (hc : Chain m L (pre ++ x :: post)) {fuel : Nat} {id : Int} {idx : Nat} {it : dlliterator}
    (hidx : dll_iteratorGetIdxWithID fuel L id = .ok (idx : Int))
    (hit : L.iteratorsArray[idx]? = some it) (hx : it.node = some x.1) :
    dll_iteratorPrev fuel m (.ptr L) id
      = if pre.isEmpty then .ok (2, .ptr L)
        else .ok (0, .ptr { L with
          iteratorsArray := L.iteratorsArray.set idx { it with node := lastOr pre none } }) := by
  have hs : L.size ≠ 0 := fun h => by have := hc.size_eq_zero_iff.1 h; simp at this
  have hn := hc.node_at
  have hne : ¬ ((idx : Int) = -1) := by omega
  rcases eq_nil_or_snoc pre with rfl | ⟨init, p, rfl⟩
  · have hh := Chain.head_first (by simpa using hc : Chain m L (x :: post))
    simp [dll_iteratorPrev, isempty_ptr, hs, list_t.isNULL, list_t.deref, hidx, hne,
      iterAt_nat hit, hx, hh]
  · have hnh := hc.head_ne (by simp)
    simp [dll_iteratorPrev, isempty_ptr, hs, list_t.isNULL, list_t.deref, hidx, hne,
      iterAt_nat hit, setIterNode_nat hit, Mem.load, hn, hnh, hx, lastOr_append]

/-- Advancing an iterator that the lookup resolves to the entry `i`, positioned on a node
of the chain, returns and leaves every other entry alone. -/
theorem next_leaves {m : Mem α} {L : DoublyLinkedList_ADT} {xs : List (Nat × Option α)}
    (hc : Chain m L xs) {fuel : Nat} {id : Int} {i j : Nat} {it : dlliterator} {a : Nat}
    (hidx : dll_iteratorGetIdxWithID fuel L id = .ok (i : Int))
    (hit : L.iteratorsArray[i]? = some it) (hnode : it.node = some a)
    (ha : a ∈ xs.map Prod.fst) (hij : i ≠ j) : NextLeaves fuel m L id j := by
  obtain ⟨pre, x, post, rfl, rfl⟩ := mem_fst_split ha
  have h := iteratorNext_resolved hc hidx hit hnode
  by_cases hp : post.isEmpty
  · rw [if_pos hp] at h
    exact ⟨_, _, h, rfl⟩
  · rw [if_neg hp] at h
    exact ⟨_, _, h, List.getElem?_set_ne hij⟩

/-- Copy construction: the new entry takes the next ID and the target of `src`. -/
theorem iteratorCopy_construct {L : DoublyLinkedList_ADT} (hs : L.size ≠ 0) {fuel : Nat}
    {src : Int} {srcIdx : Nat} {s : dlliterator}
    (hsrc : dll_iteratorGetIdxWithID fuel L src = .ok (srcIdx : Int))
    (hsit : L.iteratorsArray[srcIdx]? = some s)
    (hlt : ∀ it ∈ L.iteratorsArray, it.id < L.id_counter) (hcnt : 0 ≤ L.id_counter)
    (hf : L.iteratorsArray.length < fuel) :
    dll_iteratorCopy fuel (.ptr L) src (-1) true
      = .ok (0, .ptr { L with
          iteratorsArray := L.iteratorsArray ++ [⟨s.node, L.id_counter⟩],
          id_counter := wrapInt (L.id_counter + 1) }, L.id_counter) := by
  have hne : ¬ ((srcIdx : Int) = -1) := by omega
  have hreq := iteratorRequest_last hs hlt fuel hf
  have hlast := @getIdxWithID_last
    { L with iteratorsArray := L.iteratorsArray ++ [⟨L.head, L.id_counter⟩],
             id_counter := wrapInt (L.id_counter + 1) }
    L.iteratorsArray L.head L.id_counter rfl hlt fuel hf
  have hlt2 : srcIdx < L.iteratorsArray.length := by
    rcases Nat.lt_or_ge srcIdx L.iteratorsArray.length with hl | hl
    · exact hl
    · rw [List.getElem?_eq_none hl] at hsit; cases hsit
  have hget1 : (L.iteratorsArray ++ [(⟨L.head, L.id_counter⟩ : dlliterator)])[srcIdx]?
      = some s := by
    rw [List.getElem?_append_left hlt2]; exact hsit
  have hget2 : (L.iteratorsArray ++ [(⟨L.head, L.id_counter⟩ : dlliterator)])[
      L.iteratorsArray.length]? = some ⟨L.head, L.id_counter⟩ := by simp
  have hit1 := @iterAt_nat
    { L with iteratorsArray := L.iteratorsArray ++ [⟨L.head, L.id_counter⟩],
             id_counter := wrapInt (L.id_counter + 1) } srcIdx s hget1
  have hset := @setIterNode_nat
    { L with iteratorsArray := L.iteratorsArray ++ [⟨L.head, L.id_counter⟩],
             id_counter := wrapInt (L.id_counter + 1) } L.iteratorsArray.length _ hget2 s.node
  have hc1 : ¬ (L.id_counter = -1) := by omega
  simp only [dll_iteratorCopy, list_t.isNULL, Bool.false_eq_true, if_false, isempty_ptr, hs,
    Res.ok_bind, list_t.deref, hsrc, hne, if_true, hreq, hc1, hlast, hit1, hset]
  simp

/-- Copy assignment: only the entry of `dest` is retargeted. -/
theorem iteratorCopy_assign {L : DoublyLinkedList_ADT} (hs : L.size ≠ 0) {fuel : Nat}
    {src dest : Int} {srcIdx dIdx : Nat} {s d : dlliterator}
    (hsrc : dll_iteratorGetIdxWithID fuel L src = .ok (srcIdx : Int))
    (hsit : L.iteratorsArray[srcIdx]? = some s) (hd : dest ≠ -1)
    (hdest : dll_iteratorGetIdxWithID fuel L dest = .ok (dIdx : Int))
    (hdit : L.iteratorsArray[dIdx]? = some d) (ok : Bool) :
    dll_iteratorCopy fuel (.ptr L) src dest ok
      = .ok (0, .ptr { L with
          iteratorsArray := L.iteratorsArray.set dIdx { d with node := s.node } }, dest) := by
  have hne : ¬ ((srcIdx : Int) = -1) := by omega
  have hne2 : ¬ ((dIdx : Int) = -1) := by omega
  simp [dll_iteratorCopy, list_t.isNULL, isempty_ptr, hs, list_t.deref, hsrc, hne, hd, hdest,
    hne2, iterAt_nat hsit, setIterNode_nat hdit]

theorem iteratorCopy_no_src {L : DoublyLinkedList_ADT} (hs : L.size ≠ 0) {fuel : Nat}
    {src : Int} (hsrc : dll_iteratorGetIdxWithID fuel L src = .ok (-1)) (dest : Int)
    (ok : Bool) :
    dll_iteratorCopy fuel (.ptr L) src dest ok = .ok (2, .ptr L, dest) := by
  simp [dll_iteratorCopy, list_t.isNULL, isempty_ptr, hs, list_t.deref, hsrc]

theorem iteratorCopy_no_dest {L : DoublyLinkedList_ADT} (hs : L.size ≠ 0) {fuel : Nat}
    {src dest : Int} {srcIdx : Nat}
    (hsrc : dll_iteratorGetIdxWithID fuel L src = .ok (srcIdx : Int)) (hd : dest ≠ -1)
    (hdest : dll_iteratorGetIdxWithID fuel L dest = .ok (-1)) (ok : Bool) :
    dll_iteratorCopy fuel (.ptr L) src dest ok = .ok (-1, .ptr L, dest) := by
  have hne : ¬ ((srcIdx : Int) = -1) := by omega
  simp [dll_iteratorCopy, list_t.isNULL, isempty_ptr, hs, list_t.deref, hsrc, hne, hd, hdest]

end IteratorMoves

section TraceLemmas
variable {α : Type}

theorem setIterNode_same {L L' : DoublyLinkedList_ADT} {idx : Int} {p : dllnodeptr}
    (h : L.setIterNode idx p = .ok L') : SameList L L' := by
  unfold DoublyLinkedList_ADT.setIterNode at h
  split at h
  · cases h
  · split at h
    · injection h with h; subst h; exact ⟨rfl, rfl, rfl, rfl⟩
    · cases h

theorem SameList.refl (L : DoublyLinkedList_ADT) : SameList L L := ⟨rfl, rfl, rfl, rfl⟩

theorem SameList.trans {L L1 L2 : DoublyLinkedList_ADT} (h1 : SameList L L1)
    (h2 : SameList L1 L2) : SameList L L2 :=
  ⟨h2.1.trans h1.1, h2.2.1.trans h1.2.1, h2.2.2.1.trans h1.2.2.1, h2.2.2.2.trans h1.2.2.2⟩

theorem iteratorDeleteAll_same {L : DoublyLinkedList_ADT} {r : Int} {list' : list_t}
    (h : dll_iteratorDeleteAll (.ptr L) = .ok (r, list')) :
    ∃ L', list' = .ptr L' ∧ SameList L L' := by
  rw [iteratorDeleteAll_ptr] at h
  injection h with h; injection h with h1 h2
  exact ⟨_, h2.symm, rfl, rfl, rfl, rfl⟩

theorem iteratorBegin_same {L : DoublyLinkedList_ADT} {fuel : Nat} {id r : Int} {list' : list_t}
    (h : dll_iteratorBegin fuel (.ptr L) id = .ok (r, list')) :
    ∃ L', list' = .ptr L' ∧ SameList L L' := by
  by_cases hs : L.size = 0
  · simp [dll_iteratorBegin, isempty_ptr, hs, list_t.isNULL, iteratorDeleteAll_ptr] at h
    exact ⟨_, h.2.symm, rfl, rfl, hs.symm, rfl⟩
  · simp [dll_iteratorBegin, isempty_ptr, hs, list_t.isNULL, list_t.deref] at h
    obtain ⟨idx, -, h⟩ := Res.bind_eq_ok.1 h
    split at h
    · injection h with h; injection h with h1 h2
      exact ⟨_, h2.symm, SameList.refl L⟩
    · obtain ⟨L2, hset, h⟩ := Res.bind_eq_ok.1 h
      injection h with h; injection h with h1 h2
      exact ⟨_, h2.symm, setIterNode_same hset⟩

theorem iteratorEnd_same {L : DoublyLinkedList_ADT} {fuel : Nat} {id r : Int} {list' : list_t}
    (h : dll_iteratorEnd fuel (.ptr L) id = .ok (r, list')) :
    ∃ L', list' = .ptr L' ∧ SameList L L' := by
  by_cases hs : L.size = 0
  · simp [dll_iteratorEnd, isempty_ptr, hs, list_t.isNULL, iteratorDeleteAll_ptr] at h
    exact ⟨_, h.2.symm, rfl, rfl, hs.symm, rfl⟩
  · simp [dll_iteratorEnd, isempty_ptr, hs, list_t.isNULL, list_t.deref] at h
    obtain ⟨idx, -, h⟩ := Res.bind_eq_ok.1 h
    split at h
    · injection h with h; injection h with h1 h2
      exact ⟨_, h2.symm, SameList.refl L⟩
    · obtain ⟨L2, hset, h⟩ := Res.bind_eq_ok.1 h
      injection h with h; injection h with h1 h2
      exact ⟨_, h2.symm, setIterNode_same hset⟩

theorem iteratorNext_same {m : Mem α} {L : DoublyLinkedList_ADT} {fuel : Nat} {id r : Int}
    {list' : list_t} (h : dll_iteratorNext fuel m (.ptr L) id = .ok (r, list')) :
    ∃ L', list' = .ptr L' ∧ SameList L L' := by
  by_cases hs : L.size = 0
  · simp [dll_iteratorNext, isempty_ptr, hs, list_t.isNULL, iteratorDeleteAll_ptr] at h
    exact ⟨_, h.2.symm, rfl, rfl, hs.symm, rfl⟩
  · simp [dll_iteratorNext, isempty_ptr, hs, list_t.isNULL, list_t.deref] at h
    obtain ⟨idx, -, h⟩ := Res.bind_eq_ok.1 h
    split at h
    · injection h with h; injection h with h1 h2
      exact ⟨_, h2.symm, SameList.refl L⟩
    · obtain ⟨it, -, h⟩ := Res.bind_eq_ok.1 h
      split at h
      · injection h with h; injection h with h1 h2
        exact ⟨_, h2.symm, SameList.refl L⟩
      · obtain ⟨nd, -, h⟩ := Res.bind_eq_ok.1 h
        obtain ⟨L2, hset, h⟩ := Res.bind_eq_ok.1 h
        injection h with h; injection h with h1 h2
        exact ⟨_, h2.symm, setIterNode_same hset⟩

theorem iteratorPrev_same {m : Mem α} {L : DoublyLinkedList_ADT} {fuel : Nat} {id r : Int}
    {list' : list_t} (h : dll_iteratorPrev fuel m (.ptr L) id = .ok (r, list')) :
    ∃ L', list' = .ptr L' ∧ SameList L L' := by
  by_cases hs : L.size = 0
  · simp [dll_iteratorPrev, isempty_ptr, hs, list_t.isNULL, iteratorDeleteAll_ptr] at h
    exact ⟨_, h.2.symm, rfl, rfl, hs.symm, rfl⟩
  · simp [dll_iteratorPrev, isempty_ptr, hs, list_t.isNULL, list_t.deref] at h
    obtain ⟨idx, -, h⟩ := Res.bind_eq_ok.1 h
    split at h
    · injection h with h; injection h with h1 h2
      exact ⟨_, h2.symm, SameList.refl L⟩
    · obtain ⟨it, -, h⟩ := Res.bind_eq_ok.1 h
      split at h
      · injection h with h; injection h with h1 h2
        exact ⟨_, h2.symm, SameList.refl L⟩
      · obtain ⟨nd, -, h⟩ := Res.bind_eq_ok.1 h
        obtain ⟨L2, hset, h⟩ := Res.bind_eq_ok.1 h
        injection h with h; injection h with h1 h2
        exact ⟨_, h2.symm, setIterNode_same hset⟩

theorem iteratorGetObj_same {m : Mem α} {L : DoublyLinkedList_ADT} {fuel : Nat} {id : Int}
    {r : Option α} {list' : list_t}
    (h : dll_iteratorGetObj fuel m (.ptr L) id = .ok (r, list')) :
    ∃ L', list' = .ptr L' ∧ SameList L L' := by
  by_cases hs : L.size = 0
  · simp [dll_iteratorGetObj, isempty_ptr, hs, list_t.isNULL, iteratorDeleteAll_ptr] at h
    exact ⟨_, h.2.symm, rfl, rfl, hs.symm, rfl⟩
  · simp [dll_iteratorGetObj, isempty_ptr, hs, list_t.isNULL, list_t.deref] at h
    obtain ⟨idx, -, h⟩ := Res.bind_eq_ok.1 h
    split at h
    · injection h with h; injection h with h1 h2
      exact ⟨_, h2.symm, SameList.refl L⟩
    · obtain ⟨it, -, h⟩ := Res.bind_eq_ok.1 h
      obtain ⟨nd, -, h⟩ := Res.bind_eq_ok.1 h
      injection h with h; injection h with h1 h2
      exact ⟨_, h2.symm, SameList.refl L⟩

theorem get_front_same {m : Mem α} {L : DoublyLinkedList_ADT} {dup : Option α → Option α}
    {g : Int} {r : Option α} {list' : list_t}
    (h : dll_get_front m (.ptr L) dup g = .ok (r, list')) :
    ∃ L', list' = .ptr L' ∧ SameList L L' := by
  by_cases hs : L.size = 0
  · simp [dll_get_front, isempty_ptr, hs, list_t.isNULL, iteratorDeleteAll_ptr] at h
    exact ⟨_, h.2.symm, rfl, rfl, hs.symm, rfl⟩
  · simp [dll_get_front, isempty_ptr, hs, list_t.isNULL, list_t.deref] at h
    obtain ⟨nd, -, h⟩ := Res.bind_eq_ok.1 h
    split at h <;>
    · injection h with h; injection h with h1 h2
      exact ⟨_, h2.symm, SameList.refl L⟩

theorem get_back_same {m : Mem α} {L : DoublyLinkedList_ADT} {dup : Option α → Option α}
    {g : Int} {r : Option α} {list' : list_t}
    (h : dll_get_back m (.ptr L) dup g = .ok (r, list')) :
    ∃ L', list' = .ptr L' ∧ SameList L L' := by
  by_cases hs : L.size = 0
  · simp [dll_get_back, isempty_ptr, hs, list_t.isNULL, iteratorDeleteAll_ptr] at h
    exact ⟨_, h.2.symm, rfl, rfl, hs.symm, rfl⟩
  · simp [dll_get_back, isempty_ptr, hs, list_t.isNULL, list_t.deref] at h
    obtain ⟨nd, -, h⟩ := Res.bind_eq_ok.1 h
    split at h <;>
    · injection h with h; injection h with h1 h2
      exact ⟨_, h2.symm, SameList.refl L⟩

theorem iteratorDelete_same {L : DoublyLinkedList_ADT} {fuel : Nat} {id r : Int} {ok : Bool}
    {list' : list_t} (h : dll_iteratorDelete fuel (.ptr L) id ok = .ok (r, list')) :
    ∃ L', list' = .ptr L' ∧ SameList L L' := by
  by_cases hs : L.size = 0
  · simp [dll_iteratorDelete, isempty_ptr, hs, list_t.isNULL, iteratorDeleteAll_ptr] at h
    exact ⟨_, h.2.symm, rfl, rfl, hs.symm, rfl⟩
  · simp [dll_iteratorDelete, isempty_ptr, hs, list_t.isNULL, list_t.deref] at h
    obtain ⟨idx, -, h⟩ := Res.bind_eq_ok.1 h
    split at h
    · injection h with h; injection h with h1 h2
      exact ⟨_, h2.symm, SameList.refl L⟩
    · obtain ⟨it, -, h⟩ := Res.bind_eq_ok.1 h
      obtain ⟨b1, -, h⟩ := Res.bind_eq_ok.1 h
      split at h
      · obtain ⟨b2, -, h⟩ := Res.bind_eq_ok.1 h
        injection h with h; injection h with h1 h2
        exact ⟨_, h2.symm, rfl, rfl, rfl, rfl⟩
      · injection h with h; injection h with h1 h2
        exact ⟨_, h2.symm, rfl, rfl, rfl, rfl⟩

/-- What a call of `dll_iteratorRequest` does to the ID counter: either it leaves the
counter alone, on an empty list or with the result -1; or the list is not empty, the value
returned is the old counter and the counter has been incremented as an `int`. -/
theorem iteratorRequest_issue {L : DoublyLinkedList_ADT} {fuel : Nat} {ok : Bool} {r : Int}
    {list' : list_t} (h : dll_iteratorRequest fuel (.ptr L) ok = .ok (r, list')) :
    ∃ L', list' = .ptr L' ∧ L'.head = L.head ∧ L'.tail = L.tail ∧ L'.size = L.size
      ∧ ((L'.id_counter = L.id_counter ∧ (L.size = 0 ∨ r = -1))
        ∨ (L.size ≠ 0 ∧ r = L.id_counter ∧ L'.id_counter = wrapInt (L.id_counter + 1))) := by
  by_cases hs : L.size = 0
  · simp [dll_iteratorRequest, isempty_ptr, hs, list_t.isNULL, iteratorDeleteAll_ptr] at h
    exact ⟨_, h.2.symm, rfl, rfl, hs.symm, Or.inl ⟨rfl, Or.inl hs⟩⟩
  · cases ok with
    | false =>
      simp [dll_iteratorRequest, isempty_ptr, hs, list_t.isNULL, list_t.deref] at h
      exact ⟨_, h.2.symm, rfl, rfl, rfl, Or.inl ⟨rfl, Or.inr h.1.symm⟩⟩
    | true =>
      simp [dll_iteratorRequest, isempty_ptr, hs, list_t.isNULL, list_t.deref] at h
      obtain ⟨rb, hb, h⟩ := Res.bind_eq_ok.1 h
      obtain ⟨r1, l1⟩ := rb
      obtain ⟨L1, hl1, hf1, hf2, hf3, hf4⟩ := iteratorBegin_same hb
      subst hl1
      simp at h
      split at h
      · injection h with h; injection h with h1 h2
        exact ⟨_, h2.symm, hf1, hf2, hf3, Or.inl ⟨hf4, Or.inr h1.symm⟩⟩
      · injection h with h; injection h with h1 h2
        have hc : L1.id_counter = L.id_counter := hf4
        refine ⟨_, h2.symm, hf1, hf2, hf3, Or.inr ⟨hs, ?_, ?_⟩⟩
        · rw [← h1]; exact hc
        · show wrapInt (L1.id_counter + 1) = wrapInt (L.id_counter + 1)
          rw [hc]

/-- What a call of `dll_iteratorCopy` does to the ID counter: either it leaves the counter
alone and did not construct an iterator; or the list is not empty and the counter has been
incremented as an `int`, in which case the call was made with `*dest == -1`, returns 0 and
`*dest` is the old counter, unless the old counter was -1. -/
theorem iteratorCopy_issue {L : DoublyLinkedList_ADT} {fuel : Nat} {ok : Bool}
    {src dest r d : Int} {list' : list_t}
    (h : dll_iteratorCopy fuel (.ptr L) src dest ok = .ok (r, list', d)) :
    ∃ L', list' = .ptr L' ∧ L'.head = L.head ∧ L'.tail = L.tail ∧ L'.size = L.size
      ∧ ((L'.id_counter = L.id_counter ∧ ¬ (dest = -1 ∧ r = 0))
        ∨ (L.size ≠ 0 ∧ L'.id_counter = wrapInt (L.id_counter + 1)
          ∧ (L.id_counter = -1 ∨ (dest = -1 ∧ r = 0 ∧ d = L.id_counter)))) := by
  by_cases hs : L.size = 0
  · simp [dll_iteratorCopy, isempty_ptr, hs, list_t.isNULL, iteratorDeleteAll_ptr] at h
    obtain ⟨h1, h2, h3⟩ := h
    refine ⟨_, h2.symm, rfl, rfl, hs.symm, Or.inl ⟨rfl, fun hr => ?_⟩⟩
    rw [← h1] at hr; exact absurd hr.2 (by decide)
  · simp [dll_iteratorCopy, isempty_ptr, hs, list_t.isNULL, list_t.deref] at h
    obtain ⟨srcIdx, -, h⟩ := Res.bind_eq_ok.1 h
    split at h
    · injection h with h; injection h with h1 h2; injection h2 with h2 h3
      refine ⟨_, h2.symm, rfl, rfl, rfl, Or.inl ⟨rfl, fun hr => ?_⟩⟩
      rw [← h1] at hr; exact absurd hr.2 (by decide)
    · split at h
      · rename_i hdest
        obtain ⟨rq, hrq, h⟩ := Res.bind_eq_ok.1 h
        obtain ⟨r1, l1⟩ := rq
        obtain ⟨L1, hl1, hf1, hf2, hf3, hiss⟩ := iteratorRequest_issue hrq
        subst hl1
        simp only at h
        split at h
        · rename_i hr1
          injection h with h; injection h with h1 h2; injection h2 with h2 h3
          rcases hiss with ⟨hc, -⟩ | ⟨-, hrc, hc⟩
          · refine ⟨_, h2.symm, hf1, hf2, hf3, Or.inl ⟨hc, fun hr => ?_⟩⟩
            rw [← h1] at hr; exact absurd hr.2 (by decide)
          · exact ⟨_, h2.symm, hf1, hf2, hf3, Or.inr ⟨hs, hc, Or.inl (by rw [← hrc]; exact hr1)⟩⟩
        · rename_i hr1
          simp only [list_t.deref, Res.ok_bind] at h
          obtain ⟨destIdx, -, h⟩ := Res.bind_eq_ok.1 h
          obtain ⟨s, -, h⟩ := Res.bind_eq_ok.1 h
          obtain ⟨L2, hset, h⟩ := Res.bind_eq_ok.1 h
          injection h with h; injection h with h1 h2; injection h2 with h2 h3
          obtain ⟨g1, g2, g3, g4⟩ := setIterNode_same hset
          rcases hiss with ⟨-, h0 | h0⟩ | ⟨-, hrc, hc⟩
          · exact absurd h0 hs
          · exact absurd h0 hr1
          · exact ⟨_, h2.symm, g1.trans hf1, g2.trans hf2, g3.trans hf3,
              Or.inr ⟨hs, g4.trans hc, Or.inr ⟨hdest, h1.symm, by rw [← h3]; exact hrc⟩⟩⟩
      · rename_i hd
        obtain ⟨destIdx, -, h⟩ := Res.bind_eq_ok.1 h
        split at h
        · injection h with h; injection h with h1 h2; injection h2 with h2 h3
          exact ⟨_, h2.symm, rfl, rfl, rfl, Or.inl ⟨rfl, fun hr => hd hr.1⟩⟩
        · obtain ⟨s, -, h⟩ := Res.bind_eq_ok.1 h
          obtain ⟨L2, hset, h⟩ := Res.bind_eq_ok.1 h
          injection h with h; injection h with h1 h2; injection h2 with h2 h3
          obtain ⟨g1, g2, g3, g4⟩ := setIterNode_same hset
          exact ⟨_, h2.symm, g1, g2, g3, Or.inl ⟨g4, fun hr => hd hr.1⟩⟩

/-- A change of the iterator table alone keeps the invariant of runs. -/
theorem RunInv.same_fields {n : Nat} {m : Mem α} {L L' : DoublyLinkedList_ADT} {i k : Int}
    (h : RunInv n ⟨m, .ptr L, i, k⟩)
    (hf : L'.head = L.head ∧ L'.tail = L.tail ∧ L'.size = L.size) :
    RunInv (n + 1) ⟨m, .ptr L', i, k⟩ := by
  obtain ⟨L0, xs, hl, hch, ho, hlen, hk, hi, hk0⟩ := h
  simp only at hl hch ho hlen hk hi hk0
  injection hl with hl
  subst hl
  exact ⟨L', xs, rfl, hch.of_fields hf, ho, hlen, hk,
    (by show i ≤ ((n + 1 : Nat) : Int); omega), hk0⟩

/-- The calls of `Call` other than `dll_iteratorRequest` leave the ID counter alone. -/
theorem call_step_counter {n fuel : Nat} {m : Mem α} {L : DoublyLinkedList_ADT} {i k : Int}
    {s' : RunState α} (hinv : RunInv n ⟨m, .ptr L, i, k⟩) (hn : n < fuel)
    (dup : Option α → Option α) (is_equal issmaller : Option α → Option α → Int) (c : Call α)
    (hreq : ∀ ok, c ≠ .iteratorRequest ok)
    (h : c.step fuel dup is_equal issmaller ⟨m, .ptr L, i, k⟩ = .ok s') :
    ∃ L', s'.list = .ptr L' ∧ L'.id_counter = L.id_counter := by
  obtain ⟨L0, xs, hl, hch, ho, hlen, hk, hi, hk0⟩ := hinv
  simp only at hl hch ho hlen hk hi hk0
  injection hl with hl
  subst hl
  by_cases hit : c.usesIterator = false
  · rcases step_engine_full hch (show xs.length < fuel by omega) i k dup is_equal issmaller c
      hit with ⟨s'', h2, L', hl', heff⟩ | ⟨h2, -⟩
    · rw [h2] at h; injection h with h; subst h
      refine ⟨L', hl', ?_⟩
      rcases heff with ⟨-, rfl, -, -⟩ | ⟨pre, post, d, -, hins, -, -⟩ |
        ⟨pre, x, post, -, hrem, -, -, -⟩
      · rfl
      · obtain ⟨m2, L2, hr, -, -, hcnt, -⟩ := hins
        injection hr with hr
        injection hr with _ hr
        injection hr with _ hL
        injection hL with hL
        subst hL
        exact hcnt
      · exact hrem.2.1
    · rw [h2] at h; cases h
  · cases c with
    | iteratorRequest b => exact absurd rfl (hreq b)
    | iteratorBegin id =>
      simp only [Call.step] at h
      obtain ⟨⟨r, l⟩, hr, h⟩ := Res.bind_eq_ok.1 h
      obtain ⟨L', rfl, hf⟩ := iteratorBegin_same hr
      injection h with h; subst h; exact ⟨L', rfl, hf.2.2.2⟩
    | iteratorEnd id =>
      simp only [Call.step] at h
      obtain ⟨⟨r, l⟩, hr, h⟩ := Res.bind_eq_ok.1 h
      obtain ⟨L', rfl, hf⟩ := iteratorEnd_same hr
      injection h with h; subst h; exact ⟨L', rfl, hf.2.2.2⟩
    | iteratorNext id =>
      simp only [Call.step] at h
      obtain ⟨⟨r, l⟩, hr, h⟩ := Res.bind_eq_ok.1 h
      obtain ⟨L', rfl, hf⟩ := iteratorNext_same hr
      injection h with h; subst h; exact ⟨L', rfl, hf.2.2.2⟩
    | iteratorDeleteCurrentNode id =>
      simp only [Call.step, isempty_ptr, Res.ok_bind] at h
      obtain ⟨⟨r, m', l⟩, hr, h⟩ := Res.bind_eq_ok.1 h
      injection h with h; subst h
      rcases iteratorDeleteCurrentNode_ok_core hch ho hr with
        ⟨-, ⟨L', rfl, -, -, -, hcnt⟩, -⟩ | ⟨pre, x, post, L', -, rfl, hrem, -⟩
      · exact ⟨L', rfl, hcnt⟩
      · exact ⟨L', rfl, hrem.2.1⟩
    | insert_at_back _ _ => simp [Call.usesIterator] at hit
    | insert_at_front _ _ => simp [Call.usesIterator] at hit
    | insert_sorted _ _ => simp [Call.usesIterator] at hit
    | insert_before _ _ _ => simp [Call.usesIterator] at hit
    | insert_after _ _ _ => simp [Call.usesIterator] at hit
    | delete _ => simp [Call.usesIterator] at hit
    | delete_front => simp [Call.usesIterator] at hit
    | delete_back => simp [Call.usesIterator] at hit

end TraceLemmas

section TraceInvariant
variable {α : Type}

theorem wrapInt_small {x : Int} (h0 : -2147483648 ≤ x) (h1 : x ≤ 2147483647) :
    wrapInt x = x := by
  unfold wrapInt; omega

theorem cast_range_succ (k : Nat) :
    (List.range (k + 1)).map Int.ofNat = (List.range k).map Int.ofNat ++ [(k : Int)] := by
  rw [List.range_succ, List.map_append]; rfl

/-- A step that changes the iterator table at most keeps the invariant of traces when it
issues nothing. -/
theorem TraceInv.keep {n : Nat} {m : Mem α} {L L' : DoublyLinkedList_ADT} {i k : Int}
    {issued : List Int} (h : TraceInv n ⟨⟨m, .ptr L, i, k⟩, issued⟩)
    (hf : L'.head = L.head ∧ L'.tail = L.tail ∧ L'.size = L.size)
    (hc : L'.id_counter = L.id_counter) :
    TraceInv (n + 1) ⟨⟨m, .ptr L', i, k⟩, issued⟩ := by
  obtain ⟨hrun, L0, hl, hiss⟩ := h
  simp only at hrun hl hiss
  injection hl with hl
  rw [← hl] at hiss
  exact ⟨hrun.same_fields hf, L', rfl, fun hlen => by
    show L'.id_counter = _ ∧ _
    rw [hc]; exact hiss hlen⟩

theorem issue_core (issued : List Int) (c c' : Int)
    (hiss : issued.length ≤ 2147483648 →
      c = wrapInt (issued.length : Int) ∧ issued = (List.range issued.length).map Int.ofNat)
    (hcnt : c' = wrapInt (c + 1)) :
    (issued ++ [c]).length ≤ 2147483648 →
      c' = wrapInt ((issued ++ [c]).length : Int)
        ∧ issued ++ [c] = (List.range (issued ++ [c]).length).map Int.ofNat := by
  intro hlen
  rw [List.length_append, List.length_singleton] at hlen ⊢
  obtain ⟨hc, hi⟩ := hiss (by omega)
  have hw : wrapInt (issued.length : Int) = (issued.length : Int) :=
    wrapInt_small (by omega) (by omega)
  rw [hw] at hc
  refine ⟨?_, ?_⟩
  · rw [hcnt, hc]; push_cast; rfl
  · rw [cast_range_succ, ← hi, hc]

/-- A step that issues the old value of the ID counter and increments the counter keeps
the invariant of traces. -/
theorem TraceInv.issue {n : Nat} {m : Mem α} {L L' : DoublyLinkedList_ADT} {i k : Int}
    {issued : List Int} (h : TraceInv n ⟨⟨m, .ptr L, i, k⟩, issued⟩)
    (hf : L'.head = L.head ∧ L'.tail = L.tail ∧ L'.size = L.size)
    (hcnt : L'.id_counter = wrapInt (L.id_counter + 1)) :
    TraceInv (n + 1) ⟨⟨m, .ptr L', i, k⟩, issued ++ [L.id_counter]⟩ := by
  obtain ⟨hrun, L0, hl, hiss⟩ := h
  simp only at hrun hl hiss
  injection hl with hl
  rw [← hl] at hiss
  exact ⟨hrun.same_fields hf, L', rfl, issue_core issued _ _ hiss hcnt⟩

/-- A state whose ID counter is -1 has seen more than 2^31 IDs issued; whatever a step
does from there keeps the invariant of traces. -/
theorem TraceInv.skip {n : Nat} {m : Mem α} {L L' : DoublyLinkedList_ADT} {i k : Int}
    {issued issued' : List Int} (h : TraceInv n ⟨⟨m, .ptr L, i, k⟩, issued⟩)
    (hf : L'.head = L.head ∧ L'.tail = L.tail ∧ L'.size = L.size)
    (hneg : L.id_counter = -1) (hle : issued.length ≤ issued'.length) :
    TraceInv (n + 1) ⟨⟨m, .ptr L', i, k⟩, issued'⟩ := by
  obtain ⟨hrun, L0, hl, hiss⟩ := h
  simp only at hrun hl hiss
  injection hl with hl
  rw [← hl] at hiss
  refine ⟨hrun.same_fields hf, L', rfl, ?_⟩
  intro hlen
  have hlen2 : issued'.length ≤ 2147483648 := hlen
  obtain ⟨hc, -⟩ := hiss (by omega)
  exfalso
  rw [hneg] at hc
  unfold wrapInt at hc
  omega

/-- A call of `Call` other than `dll_iteratorRequest` keeps the invariant of traces. -/
theorem TraceInv.call {n fuel : Nat} {s s' : RunState α} {issued : List Int}
    (h : TraceInv n ⟨s, issued⟩) (hn : n < fuel)
    (dup : Option α → Option α) (is_equal issmaller : Option α → Option α → Int) (c : Call α)
    (hreq : ∀ ok, c ≠ .iteratorRequest ok)
    (hs : c.step fuel dup is_equal issmaller s = .ok s') :
    TraceInv (n + 1) ⟨s', issued⟩ := by
  obtain ⟨hrun, L0, hl, hiss⟩ := h
  obtain ⟨m, list, i, k⟩ := s
  simp only at hrun hl hiss
  subst hl
  obtain ⟨L', hl', hcnt⟩ := call_step_counter hrun hn dup is_equal issmaller c hreq hs
  exact ⟨step_ok_inv hrun hn dup is_equal issmaller c hs, L', hl', fun hlen => by
    rw [hcnt]; exact hiss hlen⟩

/-- Every operation that returns keeps the invariant of traces. -/
theorem op_step_inv {n fuel : Nat} {t t' : TraceState α} (hinv : TraceInv n t) (hn : n < fuel)
    (dup : Option α → Option α) (is_equal issmaller : Option α → Option α → Int) (o : Op α)
    (h : o.step fuel dup is_equal issmaller t = .ok t') : TraceInv (n + 1) t' := by
  obtain ⟨⟨m, list, i, k⟩, issued⟩ := t
  have hinv0 := hinv
  obtain ⟨-, L, hl, -⟩ := hinv0
  simp only at hl
  subst hl
  cases o with
  | call c =>
    by_cases hreq : ∀ ok, c ≠ .iteratorRequest ok
    · have hs : c.step fuel dup is_equal issmaller ⟨m, .ptr L, i, k⟩ >>=
          (fun s => Res.ok (⟨s, issued⟩ : TraceState α)) = .ok t' := by
        cases c <;> first | exact h | exact absurd rfl (hreq _)
      obtain ⟨s', hs', h'⟩ := Res.bind_eq_ok.1 hs
      injection h' with h'; subst h'
      exact hinv.call hn dup is_equal issmaller c hreq hs'
    · have : ∃ ok, c = .iteratorRequest ok := by
        by_contra hc
        exact hreq (fun ok hok => hc ⟨ok, hok⟩)
      obtain ⟨ok, rfl⟩ := this
      simp only [Op.step] at h
      obtain ⟨⟨r, l⟩, hr, h⟩ := Res.bind_eq_ok.1 h
      injection h with h; subst h
      obtain ⟨L', rfl, hf1, hf2, hf3, hiss⟩ := iteratorRequest_issue hr
      rcases hiss with ⟨hc, hor⟩ | ⟨hs, hrc, hc⟩
      · have : requestIssued (list_t.ptr L) r = none := by
          rcases hor with h0 | h0
          · simp [requestIssued, isempty_ptr, h0]
          · simp [requestIssued, h0]
        simp only [this, Option.toList, List.append_nil]
        exact hinv.keep ⟨hf1, hf2, hf3⟩ hc
      · by_cases hr1 : r = -1
        · have : requestIssued (list_t.ptr L) r = none := by
            simp [requestIssued, hr1]
          simp only [this, Option.toList, List.append_nil]
          exact hinv.skip ⟨hf1, hf2, hf3⟩ (by rw [← hrc]; exact hr1) (le_refl _)
        · have : requestIssued (list_t.ptr L) r = some r := by
            simp [requestIssued, isempty_ptr, hs, hr1]
          simp only [this, Option.toList]
          rw [hrc]
          exact hinv.issue ⟨hf1, hf2, hf3⟩ hc
  | iteratorPrev id =>
    simp only [Op.step] at h
    obtain ⟨⟨r, l⟩, hr, h⟩ := Res.bind_eq_ok.1 h
    injection h with h; subst h
    obtain ⟨L', rfl, hf⟩ := iteratorPrev_same hr
    exact hinv.keep ⟨hf.1, hf.2.1, hf.2.2.1⟩ hf.2.2.2
  | iteratorGetObj id =>
    simp only [Op.step] at h
    obtain ⟨⟨r, l⟩, hr, h⟩ := Res.bind_eq_ok.1 h
    injection h with h; subst h
    obtain ⟨L', rfl, hf⟩ := iteratorGetObj_same hr
    exact hinv.keep ⟨hf.1, hf.2.1, hf.2.2.1⟩ hf.2.2.2
  | iteratorCopy src dest ok =>
    simp only [Op.step] at h
    obtain ⟨⟨r, l, d⟩, hr, h⟩ := Res.bind_eq_ok.1 h
    injection h with h; subst h
    obtain ⟨L', rfl, hf1, hf2, hf3, hiss⟩ := iteratorCopy_issue hr
    rcases hiss with ⟨hc, hno⟩ | ⟨hs, hc, hneg | ⟨hd1, hd2, hd3⟩⟩
    · simp only [hno, if_false, List.append_nil]
      exact hinv.keep ⟨hf1, hf2, hf3⟩ hc
    · exact hinv.skip ⟨hf1, hf2, hf3⟩ hneg (by simp)
    · simp only [hd1, hd2, and_self, if_true]
      rw [hd3]
      exact hinv.issue ⟨hf1, hf2, hf3⟩ hc
  | iteratorDelete id ok =>
    simp only [Op.step] at h
    obtain ⟨⟨r, l⟩, hr, h⟩ := Res.bind_eq_ok.1 h
    injection h with h; subst h
    obtain ⟨L', rfl, hf⟩ := iteratorDelete_same hr
    exact hinv.keep ⟨hf.1, hf.2.1, hf.2.2.1⟩ hf.2.2.2
  | iteratorDeleteAll =>
    simp only [Op.step] at h
    obtain ⟨⟨r, l⟩, hr, h⟩ := Res.bind_eq_ok.1 h
    injection h with h; subst h
    obtain ⟨L', rfl, hf⟩ := iteratorDeleteAll_same hr
    exact hinv.keep ⟨hf.1, hf.2.1, hf.2.2.1⟩ hf.2.2.2
  | get_front g =>
    simp only [Op.step] at h
    obtain ⟨⟨r, l⟩, hr, h⟩ := Res.bind_eq_ok.1 h
    injection h with h; subst h
    obtain ⟨L', rfl, hf⟩ := get_front_same hr
    exact hinv.keep ⟨hf.1, hf.2.1, hf.2.2.1⟩ hf.2.2.2
  | get_back g =>
    simp only [Op.step] at h
    obtain ⟨⟨r, l⟩, hr, h⟩ := Res.bind_eq_ok.1 h
    injection h with h; subst h
    obtain ⟨L', rfl, hf⟩ := get_back_same hr
    exact hinv.keep ⟨hf.1, hf.2.1, hf.2.2.1⟩ hf.2.2.2

theorem traceInv_init : TraceInv 0 (⟨RunState.init, []⟩ : TraceState α) :=
  ⟨runInv_init, ⟨none, none, 0, [], 0⟩, rfl,
    fun _ => ⟨(@wrapInt_small 0 (by decide) (by decide)).symm, rfl⟩⟩

/-- The log of issued IDs only grows. -/
theorem op_step_issued_le {fuel : Nat} {t t' : TraceState α}
    (dup : Option α → Option α) (is_equal issmaller : Option α → Option α → Int) (o : Op α)
    (h : o.step fuel dup is_equal issmaller t = .ok t') :
    t.issued.length ≤ t'.issued.length := by
  cases o with
  | call c =>
    cases c <;>
    · simp only [Op.step] at h
      obtain ⟨x, -, h⟩ := Res.bind_eq_ok.1 h
      injection h with h; subst h
      simp
  | iteratorCopy src dest ok =>
    simp only [Op.step] at h
    obtain ⟨x, -, h⟩ := Res.bind_eq_ok.1 h
    injection h with h; subst h
    simp
  | iteratorPrev id =>
    simp only [Op.step] at h
    obtain ⟨x, -, h⟩ := Res.bind_eq_ok.1 h
    injection h with h; subst h
    simp
  | iteratorGetObj id =>
    simp only [Op.step] at h
    obtain ⟨x, -, h⟩ := Res.bind_eq_ok.1 h
    injection h with h; subst h
    simp
  | iteratorDelete id ok =>
    simp only [Op.step] at h
    obtain ⟨x, -, h⟩ := Res.bind_eq_ok.1 h
    injection h with h; subst h
    simp
  | iteratorDeleteAll =>
    simp only [Op.step] at h
    obtain ⟨x, -, h⟩ := Res.bind_eq_ok.1 h
    injection h with h; subst h
    simp
  | get_front g =>
    simp only [Op.step] at h
    obtain ⟨x, -, h⟩ := Res.bind_eq_ok.1 h
    injection h with h; subst h
    simp
  | get_back g =>
    simp only [Op.step] at h
    obtain ⟨x, -, h⟩ := Res.bind_eq_ok.1 h
    injection h with h; subst h
    simp

/-- Every trace that returns keeps the invariant of traces. -/
theorem trace_inv {fuel : Nat} (dup : Option α → Option α)
    (is_equal issmaller : Option α → Option α → Int) :
    ∀ (os : List (Op α)) (n : Nat) (t t' : TraceState α), TraceInv n t → n + os.length ≤ fuel →
      trace fuel dup is_equal issmaller os t = .ok t' → TraceInv (n + os.length) t' := by
  intro os
  induction os with
  | nil =>
    intro n t t' hinv _ h
    simp only [trace] at h
    injection h with h; subst h; simpa using hinv
  | cons o os ih =>
    intro n t t' hinv hn h
    simp only [trace] at h
    obtain ⟨t1, h1, h2⟩ := Res.bind_eq_ok.1 h
    have hinv1 := op_step_inv hinv (by simp at hn; omega) dup is_equal issmaller o h1
    have := ih (n + 1) t1 t' hinv1 (by simp at hn ⊢; omega) h2
    simpa [Nat.add_assoc, Nat.add_comm 1] using this

end TraceInvariant

section LookupComplete

/-- In a table strictly sorted by ID an earlier entry has a smaller ID. -/
theorem ids_lt {its : List dlliterator}
    (h : (its.map (fun it => it.id)).Pairwise (fun a b => a < b)) {i j : Nat}
    {a b : dlliterator} (hij : i < j) (ha : its[i]? = some a) (hb : its[j]? = some b) :
    a.id < b.id := by
  rw [List.pairwise_map] at h
  obtain ⟨hi, rfl⟩ := List.getElem?_eq_some.1 ha
  obtain ⟨hj, rfl⟩ := List.getElem?_eq_some.1 hb
  exact List.pairwise_iff_getElem.1 h i j hi hj hij

theorem ids_le {its : List dlliterator}
    (h : (its.map (fun it => it.id)).Pairwise (fun a b => a < b)) {i j : Nat}
    {a b : dlliterator} (hij : i ≤ j) (ha : its[i]? = some a) (hb : its[j]? = some b) :
    a.id ≤ b.id := by
  rcases Nat.lt_or_ge i j with hlt | hge
  · exact le_of_lt (ids_lt h hlt ha hb)
  · have : i = j := by omega
    subst this
    rw [ha] at hb
    injection hb with hb
    rw [hb]

/-- In a table strictly sorted by ID, the search answers -1 only when no entry holds the
ID. Every range the search visits starts at 0 or ends at the last index; a range of one
index is only entered when the ID cannot be anywhere else. -/
theorem binarySearch_complete {L : DoublyLinkedList_ADT} {key : Int}
    (hsort : (L.iteratorsArray.map (fun it => it.id)).Pairwise (fun a b => a < b)) :
    ∀ (fuel : Nat) (s e : Nat), s ≤ e → e < L.iteratorsArray.length →
      (s = e → ∀ (j : Nat) (it : dlliterator), j ≠ s → L.iteratorsArray[j]? = some it →
        it.id ≠ key) →
      dll_iteratorBinarySearch L key fuel (s : Int) (e : Int) = .ok (-1) →
      ∀ it ∈ L.iteratorsArray, it.id ≠ key := by
  intro fuel
  induction fuel with
  | zero => intro s e _ _ _ h; cases h
  | succ k ih =>
    intro s e hse hen hone h
    obtain ⟨mid, hmid, h1, h2, h3⟩ : ∃ mid : Nat,
        Int.tdiv ((e : Int) - (s : Int)) 2 + (s : Int) = (mid : Int)
        ∧ s ≤ mid ∧ mid ≤ e ∧ (s ≠ e → mid < e) := by
      refine ⟨(e - s) / 2 + s, ?_, ?_, ?_, ?_⟩
      · rw [Int.tdiv_eq_ediv (by omega) (by omega)]
        omega
      · omega
      · omega
      · intro hne; omega
    have hml : mid < L.iteratorsArray.length := by omega
    have hget : L.iteratorsArray[mid]? = some (L.iteratorsArray[mid]) :=
      List.getElem?_eq_getElem hml
    rw [dll_iteratorBinarySearch] at h
    simp only [hmid, iterAt_nat hget, Res.ok_bind] at h
    have hall : ∀ P : Int → Prop,
        (∀ (j : Nat) (it : dlliterator), L.iteratorsArray[j]? = some it → P it.id) →
        ∀ it ∈ L.iteratorsArray, P it.id := by
      intro P hP it hmem
      obtain ⟨j, hj⟩ := List.getElem?_of_mem hmem
      exact hP j it hj
    split at h
    · injection h with h
      omega
    · rename_i hne
      split at h
      · rename_i hse2
        have hse3 : s = e := by omega
        have hms : mid = s := by omega
        apply hall (fun i => i ≠ key)
        intro j it hj
        by_cases hjs : j = s
        · rw [hjs, ← hms, hget] at hj
          injection hj with hj
          rw [← hj]; exact hne
        · exact hone hse3 j it hjs hj
      · rename_i hse2
        have hse3 : s ≠ e := fun h0 => hse2 (by rw [h0])
        have hme := h3 hse3
        split at h
        · rename_i hlow
          obtain ⟨hk, hm0⟩ := hlow
          have hm1 : 0 < mid := by omega
          have hcast : ((mid : Int) - 1) = ((mid - 1 : Nat) : Int) := by omega
          rw [hcast] at h
          have hz : ((0 : Nat) : Int) = 0 := rfl
          rw [← hz] at h
          refine ih 0 (mid - 1) (by omega) (by omega) ?_ h
          intro h0 j it hj0 hj
          have hle := ids_le hsort (show mid ≤ j by omega) hget hj
          omega
        · split at h
          · rename_i hhigh
            obtain ⟨hk, -⟩ := hhigh
            have hcast1 : ((mid : Int) + 1) = ((mid + 1 : Nat) : Int) := by omega
            have hcast2 : L.iteratorsCount - 1 = ((L.iteratorsArray.length - 1 : Nat) : Int) := by
              simp only [DoublyLinkedList_ADT.iteratorsCount]; omega
            rw [hcast1, hcast2] at h
            refine ih (mid + 1) (L.iteratorsArray.length - 1) (by omega) (by omega) ?_ h
            intro h0 j it hj0 hj
            have hjl : j < L.iteratorsArray.length := by
              obtain ⟨hj1, -⟩ := List.getElem?_eq_some.1 hj
              exact hj1
            have hle := ids_le hsort (show j ≤ mid by omega) hj hget
            omega
          · rename_i hnl hnh
            have hcount : (mid : Int) < L.iteratorsCount := by
              simp only [DoublyLinkedList_ADT.iteratorsCount]; omega
            have hk : key < (L.iteratorsArray[mid]).id := by
              have : ¬ (key > (L.iteratorsArray[mid]).id) := fun h0 => hnh ⟨h0, hcount⟩
              omega
            have hm0 : mid = 0 := by
              have : ¬ ((mid : Int) > 0) := fun h0 => hnl ⟨hk, h0⟩
              omega
            apply hall (fun i => i ≠ key)
            intro j it hj
            have hle := ids_le hsort (show mid ≤ j by omega) hget hj
            omega

/-- In a table strictly sorted by ID, the lookup answers -1 only when no entry holds the
ID. -/
theorem getIdxWithID_complete {L : DoublyLinkedList_ADT} {key : Int} {fuel : Nat}
    (hsort : (L.iteratorsArray.map (fun it => it.id)).Pairwise (fun a b => a < b))
    (h : dll_iteratorGetIdxWithID fuel L key = .ok (-1)) :
    ∀ it ∈ L.iteratorsArray, it.id ≠ key := by
  unfold dll_iteratorGetIdxWithID at h
  split at h
  · rename_i hpos
    have hlen : 0 < L.iteratorsArray.length := by
      simp only [DoublyLinkedList_ADT.iteratorsCount] at hpos; omega
    have hcast : L.iteratorsCount - 1 = ((L.iteratorsArray.length - 1 : Nat) : Int) := by
      simp only [DoublyLinkedList_ADT.iteratorsCount]; omega
    have hz : (0 : Int) = ((0 : Nat) : Int) := rfl
    rw [hcast, hz] at h
    refine binarySearch_complete hsort fuel 0 (L.iteratorsArray.length - 1) (by omega)
      (by omega) ?_ h
    intro h0 j it hj0 hj
    obtain ⟨hj1, -⟩ := List.getElem?_eq_some.1 hj
    omega
  · rename_i hpos
    have hlen : L.iteratorsArray.length = 0 := by
      simp only [DoublyLinkedList_ADT.iteratorsCount] at hpos; omega
    intro it hmem
    rw [List.length_eq_zero.1 hlen] at hmem
    cases hmem

end LookupComplete

section IteratorDelete

/-- The first `memmove` of `dll_iteratorDelete`: the entries after the one removed move
one slot down; the last slot keeps its old content. -/
theorem memmove_left (pre post : List dlliterator) (it : dlliterator) :
    memmove_entries (pre ++ it :: post) pre.length (pre.length + 1) post.length
      = .ok (pre ++ post ++ (pre ++ it :: post).drop (pre.length + post.length)) := by
  have h1 : pre.length + 1 + post.length ≤ (pre ++ it :: post).length := by
    simp only [List.length_append, List.length_cons]; omega
  have h2 : pre.length + post.length ≤ (pre ++ it :: post).length := by
    simp only [List.length_append, List.length_cons]; omega
  simp only [memmove_entries, h1, h2, and_self, if_true]
  congr 2
  congr 1
  · simp
  · have : (pre ++ it :: post).drop (pre.length + 1) = post := by
      rw [show pre ++ it :: post = (pre ++ [it]) ++ post by simp]
      rw [List.drop_left' (by simp)]
    rw [this, List.take_length]

theorem drop_last_slot (pre post : List dlliterator) (it : dlliterator) :
    ∃ z, (pre ++ it :: post).drop (pre.length + post.length) = [z] := by
  induction post using List.reverseRecOn with
  | nil => exact ⟨it, by simp⟩
  | append_singleton ys y _ =>
    refine ⟨y, ?_⟩
    rw [show pre ++ it :: (ys ++ [y]) = (pre ++ it :: ys) ++ [y] by simp]
    rw [List.drop_left' (by simp)]

/-- The second `memmove` of `dll_iteratorDelete`, which undoes the first, followed by the
write of the saved entry. -/
theorem memmove_right (pre post : List dlliterator) (z b : dlliterator) :
    (memmove_entries (pre ++ post ++ [z]) (pre.length + 1) pre.length post.length
        >>= fun block => Res.ok (block.set pre.length b))
      = .ok (pre ++ b :: post) := by
  have h1 : pre.length + post.length ≤ (pre ++ post ++ [z]).length := by
    simp only [List.length_append, List.length_singleton]; omega
  have h2 : pre.length + 1 + post.length ≤ (pre ++ post ++ [z]).length := by
    simp only [List.length_append, List.length_singleton]; omega
  simp only [memmove_entries, h1, h2, and_self, if_true, Res.ok_bind]
  congr 1
  have hd1 : (pre ++ post ++ [z]).drop pre.length = post ++ [z] := by
    rw [List.append_assoc, List.drop_left' rfl]
  have hd2 : (pre ++ post ++ [z]).drop (pre.length + 1 + post.length) = [] := by
    apply List.drop_eq_nil_of_le
    simp only [List.length_append, List.length_singleton]; omega
  have ht : ∃ y, (pre ++ post ++ [z]).take (pre.length + 1) = pre ++ [y] := by
    cases post with
    | nil => exact ⟨z, by simp⟩
    | cons y ys =>
      refine ⟨y, ?_⟩
      rw [show pre ++ y :: ys ++ [z] = (pre ++ [y]) ++ (ys ++ [z]) by simp]
      rw [List.take_left' (by simp)]
  obtain ⟨y, ht⟩ := ht
  rw [hd1, hd2, ht, List.take_left' rfl, List.append_nil]
  rw [show pre ++ [y] ++ post = pre ++ y :: post by simp]
  rw [List.set_append_right _ _ (le_refl _)]
  simp

/-- The table around one of its entries. -/
theorem split_at_entry {its : List dlliterator} {i : Nat} {it : dlliterator}
    (h : its[i]? = some it) :
    its = its.take i ++ it :: its.drop (i + 1) ∧ (its.take i).length = i := by
  obtain ⟨hi, rfl⟩ := List.getElem?_eq_some.1 h
  refine ⟨?_, ?_⟩
  · rw [← List.drop_eq_getElem_cons hi, List.take_append_drop]
  · rw [List.length_take]; omega

/-- What `dll_iteratorDelete` does on a non-empty list when the lookup resolves the ID to
the entry `it` between the entries `pre` and `post`. -/
theorem iteratorDelete_at {L : DoublyLinkedList_ADT} {fuel : Nat} {id : Int}
    {pre post : List dlliterator} {it : dlliterator} (hs : L.size ≠ 0)
    (hL : L.iteratorsArray = pre ++ it :: post)
    (hidx : dll_iteratorGetIdxWithID fuel L id = .ok (pre.length : Int)) (ok : Bool) :
    dll_iteratorDelete fuel (.ptr L) id ok
      = if ok = false ∧ pre ++ post ≠ [] then
          .ok (-1, .ptr { L with iteratorsArray := pre ++ ⟨it.node, pre.length⟩ :: post })
        else .ok (0, .ptr { L with iteratorsArray := pre ++ post }) := by
  have hget : L.iteratorsArray[pre.length]? = some it := by
    rw [hL, List.getElem?_append_right (le_refl _)]; simp
  have hneg : ¬ ((pre.length : Int) = -1) := by omega
  have hcount : L.iteratorsCount = ((pre.length + 1 + post.length : Nat) : Int) := by
    simp only [DoublyLinkedList_ADT.iteratorsCount, hL, List.length_append, List.length_cons]
    omega
  have hn : (L.iteratorsCount - 1 - (pre.length : Int)).toNat = post.length := by
    rw [hcount]; omega
  have hc1 : (L.iteratorsCount - 1).toNat = pre.length + post.length := by
    rw [hcount]; omega
  obtain ⟨z, hz⟩ := drop_last_slot pre post it
  simp only [dll_iteratorDelete, list_t.isNULL, Bool.false_eq_true, if_false, isempty_ptr, hs,
    Res.ok_bind, list_t.deref, hidx, hneg, iterAt_nat hget, Int.toNat_ofNat, hn, hc1]
  rw [hL, memmove_left, hz]
  simp only [Res.ok_bind]
  have hz0 : (L.iteratorsCount - 1 ≠ 0) = (pre ++ post ≠ []) := by
    rw [hcount]
    apply propext
    constructor
    · intro h0 h1
      have := congrArg List.length h1
      rw [List.length_append, List.length_nil] at this
      omega
    · intro h0 h1
      apply h0
      apply List.eq_nil_of_length_eq_zero
      rw [List.length_append]; omega
  have h00 : ((0 : Int) ≠ 0) = False := by simp
  simp only [h00, if_false, hz0]
  by_cases hc : ok = false ∧ pre ++ post ≠ []
  · rw [if_pos hc, if_pos hc]
    have := memmove_right pre post z ⟨it.node, (pre.length : Int)⟩
    obtain ⟨b2, hb2, hb3⟩ := Res.bind_eq_ok.1 this
    rw [hb2]
    simp only [Res.ok_bind]
    injection hb3 with hb3
    rw [hb3]
  · rw [if_neg hc, if_neg hc]
    rw [show pre ++ post ++ [z] = (pre ++ post) ++ [z] by rfl, List.take_left' (by simp)]

/-- When the lookup finds nothing, `dll_iteratorDelete` returns -1 and changes nothing. -/
theorem iteratorDelete_miss {L : DoublyLinkedList_ADT} {fuel : Nat} {id : Int}
    (hs : L.size ≠ 0) (hidx : dll_iteratorGetIdxWithID fuel L id = .ok (-1)) (ok : Bool) :
    dll_iteratorDelete fuel (.ptr L) id ok = .ok (-1, .ptr L) := by
  simp [dll_iteratorDelete, list_t.isNULL, isempty_ptr, hs, list_t.deref, hidx]

end IteratorDelete

section Registry
variable {α : Type}

theorem RegistrySorted.sub {L L' : DoublyLinkedList_ADT} (h : RegistrySorted L)
    (hsub : (L'.iteratorsArray.map (fun it => it.id)).Sublist
      (L.iteratorsArray.map (fun it => it.id)))
    (hc : L.id_counter ≤ L'.id_counter) : RegistrySorted L' := by
  refine ⟨h.1.sublist hsub, ?_⟩
  intro it hit
  have hm : it.id ∈ L'.iteratorsArray.map (fun it => it.id) := List.mem_map.2 ⟨it, hit, rfl⟩
  obtain ⟨it0, h0, hid⟩ := List.mem_map.1 (hsub.subset hm)
  have h1 := h.2 it0 h0
  have h2 : it0.id = it.id := hid
  omega

theorem RegistrySorted.kept {L L' : DoublyLinkedList_ADT} (h : RegistrySorted L)
    (hk : RegistryKept L L') : RegistrySorted L' := by
  obtain ⟨hc, hids | hnil⟩ := hk
  · exact h.sub (by rw [hids]) (le_of_eq hc.symm)
  · exact h.sub (by rw [hnil]; exact List.nil_sublist _) (le_of_eq hc.symm)

/-- The registry stays sorted and below the counter when the old value of the counter is
appended as a new ID and the counter grows by one. -/
theorem RegistrySorted.issued {L L' : DoublyLinkedList_ADT} (h : RegistrySorted L)
    (hids : L'.iteratorsArray.map (fun it => it.id)
      = L.iteratorsArray.map (fun it => it.id) ++ [L.id_counter])
    (hc : L'.id_counter = L.id_counter + 1) : RegistrySorted L' := by
  have hmem : ∀ i ∈ L.iteratorsArray.map (fun it => it.id), i < L.id_counter := by
    intro i hi
    obtain ⟨it, hit, rfl⟩ := List.mem_map.1 hi
    exact h.2 it hit
  refine ⟨?_, ?_⟩
  · rw [hids, List.pairwise_append]
    refine ⟨h.1, List.pairwise_singleton _ _, fun a ha b hb => ?_⟩
    rw [List.mem_singleton] at hb
    rw [hb]; exact hmem a ha
  · intro it hit
    have hm : it.id ∈ L'.iteratorsArray.map (fun it => it.id) := List.mem_map.2 ⟨it, hit, rfl⟩
    rw [hids] at hm
    rw [hc]
    rcases List.mem_append.1 hm with h1 | h1
    · have := hmem _ h1; omega
    · rw [List.mem_singleton] at h1; omega

theorem registryKept_refl (L : DoublyLinkedList_ADT) : RegistryKept L L := ⟨rfl, Or.inl rfl⟩

theorem registryKept_trans {L L1 L2 : DoublyLinkedList_ADT} (h1 : RegistryKept L L1)
    (h2 : RegistryKept L1 L2) : RegistryKept L L2 := by
  refine ⟨h2.1.trans h1.1, ?_⟩
  rcases h2.2 with h | h
  · rcases h1.2 with h0 | h0
    · exact Or.inl (h.trans h0)
    · right
      rw [h0] at h
      exact List.map_eq_nil_iff.1 h
  · exact Or.inr h

theorem setIterNode_kept {L L' : DoublyLinkedList_ADT} {idx : Int} {p : dllnodeptr}
    (h : L.setIterNode idx p = .ok L') : RegistryKept L L' := by
  unfold DoublyLinkedList_ADT.setIterNode at h
  split at h
  · cases h
  · split at h
    · rename_i it hit
      injection h with h; subst h
      exact ⟨rfl, Or.inl (set_node_ids hit p)⟩
    · cases h

theorem setIterNode_ids {L L' : DoublyLinkedList_ADT} {idx : Int} {p : dllnodeptr}
    (h : L.setIterNode idx p = .ok L') :
    L'.iteratorsArray.map (fun it => it.id) = L.iteratorsArray.map (fun it => it.id) := by
  unfold DoublyLinkedList_ADT.setIterNode at h
  split at h
  · cases h
  · split at h
    · rename_i it hit
      injection h with h; subst h
      exact set_node_ids hit p
    · cases h

theorem iteratorBegin_kept {L : DoublyLinkedList_ADT} {fuel : Nat} {id r : Int} {list' : list_t}
    (h : dll_iteratorBegin fuel (.ptr L) id = .ok (r, list')) :
    ∃ L', list' = .ptr L' ∧ RegistryKept L L'
      ∧ (L.size ≠ 0 → r < 0 → dll_iteratorGetIdxWithID fuel L id = .ok (-1))
      ∧ (L.size ≠ 0 →
        L'.iteratorsArray.map (fun it => it.id) = L.iteratorsArray.map (fun it => it.id)) := by
  by_cases hs : L.size = 0
  · simp [dll_iteratorBegin, isempty_ptr, hs, list_t.isNULL, iteratorDeleteAll_ptr] at h
    exact ⟨_, h.2.symm, ⟨rfl, Or.inr rfl⟩, fun h0 => absurd hs h0, fun h0 => absurd hs h0⟩
  · simp [dll_iteratorBegin, isempty_ptr, hs, list_t.isNULL, list_t.deref] at h
    obtain ⟨idx, hidx, h⟩ := Res.bind_eq_ok.1 h
    split at h
    · rename_i hneg
      injection h with h; injection h with h1 h2
      exact ⟨_, h2.symm, registryKept_refl L, fun _ _ => by rw [hidx, hneg], fun _ => rfl⟩
    · obtain ⟨L2, hset, h⟩ := Res.bind_eq_ok.1 h
      injection h with h; injection h with h1 h2
      refine ⟨_, h2.symm, setIterNode_kept hset, fun _ hr => ?_, fun _ => setIterNode_ids hset⟩
      omega

theorem iteratorEnd_kept {L : DoublyLinkedList_ADT} {fuel : Nat} {id r : Int} {list' : list_t}
    (h : dll_iteratorEnd fuel (.ptr L) id = .ok (r, list')) :
    ∃ L', list' = .ptr L' ∧ RegistryKept L L' := by
  by_cases hs : L.size = 0
  · simp [dll_iteratorEnd, isempty_ptr, hs, list_t.isNULL, iteratorDeleteAll_ptr] at h
    exact ⟨_, h.2.symm, rfl, Or.inr rfl⟩
  · simp [dll_iteratorEnd, isempty_ptr, hs, list_t.isNULL, list_t.deref] at h
    obtain ⟨idx, -, h⟩ := Res.bind_eq_ok.1 h
    split at h
    · injection h with h; injection h with h1 h2
      exact ⟨_, h2.symm, registryKept_refl L⟩
    · obtain ⟨L2, hset, h⟩ := Res.bind_eq_ok.1 h
      injection h with h; injection h with h1 h2
      exact ⟨_, h2.symm, setIterNode_kept hset⟩

theorem iteratorNext_kept {m : Mem α} {L : DoublyLinkedList_ADT} {fuel : Nat} {id r : Int}
    {list' : list_t} (h : dll_iteratorNext fuel m (.ptr L) id = .ok (r, list')) :
    ∃ L', list' = .ptr L' ∧ RegistryKept L L' := by
  by_cases hs : L.size = 0
  · simp [dll_iteratorNext, isempty_ptr, hs, list_t.isNULL, iteratorDeleteAll_ptr] at h
    exact ⟨_, h.2.symm, rfl, Or.inr rfl⟩
  · simp [dll_iteratorNext, isempty_ptr, hs, list_t.isNULL, list_t.deref] at h
    obtain ⟨idx, -, h⟩ := Res.bind_eq_ok.1 h
    split at h
    · injection h with h; injection h with h1 h2
      exact ⟨_, h2.symm, registryKept_refl L⟩
    · obtain ⟨it, -, h⟩ := Res.bind_eq_ok.1 h
      split at h
      · injection h with h; injection h with h1 h2
        exact ⟨_, h2.symm, registryKept_refl L⟩
      · obtain ⟨nd, -, h⟩ := Res.bind_eq_ok.1 h
        obtain ⟨L2, hset, h⟩ := Res.bind_eq_ok.1 h
        injection h with h; injection h with h1 h2
        exact ⟨_, h2.symm, setIterNode_kept hset⟩

theorem iteratorPrev_kept {m : Mem α} {L : DoublyLinkedList_ADT} {fuel : Nat} {id r : Int}
    {list' : list_t} (h : dll_iteratorPrev fuel m (.ptr L) id = .ok (r, list')) :
    ∃ L', list' = .ptr L' ∧ RegistryKept L L' := by
  by_cases hs : L.size = 0
  · simp [dll_iteratorPrev, isempty_ptr, hs, list_t.isNULL, iteratorDeleteAll_ptr] at h
    exact ⟨_, h.2.symm, rfl, Or.inr rfl⟩
  · simp [dll_iteratorPrev, isempty_ptr, hs, list_t.isNULL, list_t.deref] at h
    obtain ⟨idx, -, h⟩ := Res.bind_eq_ok.1 h
    split at h
    · injection h with h; injection h with h1 h2
      exact ⟨_, h2.symm, registryKept_refl L⟩
    · obtain ⟨it, -, h⟩ := Res.bind_eq_ok.1 h
      split at h
      · injection h with h; injection h with h1 h2
        exact ⟨_, h2.symm, registryKept_refl L⟩
      · obtain ⟨nd, -, h⟩ := Res.bind_eq_ok.1 h
        obtain ⟨L2, hset, h⟩ := Res.bind_eq_ok.1 h
        injection h with h; injection h with h1 h2
        exact ⟨_, h2.symm, setIterNode_kept hset⟩

theorem iteratorGetObj_kept {m : Mem α} {L : DoublyLinkedList_ADT} {fuel : Nat} {id : Int}
    {r : Option α} {list' : list_t}
    (h : dll_iteratorGetObj fuel m (.ptr L) id = .ok (r, list')) :
    ∃ L', list' = .ptr L' ∧ RegistryKept L L' := by
  by_cases hs : L.size = 0
  · simp [dll_iteratorGetObj, isempty_ptr, hs, list_t.isNULL, iteratorDeleteAll_ptr] at h
    exact ⟨_, h.2.symm, rfl, Or.inr rfl⟩
  · simp [dll_iteratorGetObj, isempty_ptr, hs, list_t.isNULL, list_t.deref] at h
    obtain ⟨idx, -, h⟩ := Res.bind_eq_ok.1 h
    split at h
    · injection h with h; injection h with h1 h2
      exact ⟨_, h2.symm, registryKept_refl L⟩
    · obtain ⟨it, -, h⟩ := Res.bind_eq_ok.1 h
      obtain ⟨nd, -, h⟩ := Res.bind_eq_ok.1 h
      injection h with h; injection h with h1 h2
      exact ⟨_, h2.symm, registryKept_refl L⟩

theorem get_front_kept {m : Mem α} {L : DoublyLinkedList_ADT} {dup : Option α → Option α}
    {g : Int} {r : Option α} {list' : list_t}
    (h : dll_get_front m (.ptr L) dup g = .ok (r, list')) :
    ∃ L', list' = .ptr L' ∧ RegistryKept L L' := by
  by_cases hs : L.size = 0
  · simp [dll_get_front, isempty_ptr, hs, list_t.isNULL, iteratorDeleteAll_ptr] at h
    exact ⟨_, h.2.symm, rfl, Or.inr rfl⟩
  · simp [dll_get_front, isempty_ptr, hs, list_t.isNULL, list_t.deref] at h
    obtain ⟨nd, -, h⟩ := Res.bind_eq_ok.1 h
    split at h <;>
    · injection h with h; injection h with h1 h2
      exact ⟨_, h2.symm, registryKept_refl L⟩

theorem get_back_kept {m : Mem α} {L : DoublyLinkedList_ADT} {dup : Option α → Option α}
    {g : Int} {r : Option α} {list' : list_t}
    (h : dll_get_back m (.ptr L) dup g = .ok (r, list')) :
    ∃ L', list' = .ptr L' ∧ RegistryKept L L' := by
  by_cases hs : L.size = 0
  · simp [dll_get_back, isempty_ptr, hs, list_t.isNULL, iteratorDeleteAll_ptr] at h
    exact ⟨_, h.2.symm, rfl, Or.inr rfl⟩
  · simp [dll_get_back, isempty_ptr, hs, list_t.isNULL, list_t.deref] at h
    obtain ⟨nd, -, h⟩ := Res.bind_eq_ok.1 h
    split at h <;>
    · injection h with h; injection h with h1 h2
      exact ⟨_, h2.symm, registryKept_refl L⟩

theorem getIdxWithID_hit {L : DoublyLinkedList_ADT} {key : Int} {fuel : Nat} {r : Int}
    (h : dll_iteratorGetIdxWithID fuel L key = .ok r)
    (hsort : (L.iteratorsArray.map (fun it => it.id)).Pairwise (fun a b => a < b))
    (hmem : ∃ it ∈ L.iteratorsArray, it.id = key) : r ≠ -1 := by
  intro hr
  rw [hr] at h
  obtain ⟨it, hit, hid⟩ := hmem
  exact getIdxWithID_complete hsort h it hit hid

/-- A call of `dll_iteratorRequest` that returns, made on a sorted registry: either the
counter is as before and the registry is still sorted, or the list is not empty, the value
returned is the old counter, which was appended as a new ID, and the counter has been
incremented as an `int`. The lookup made by the inner `dll_iteratorBegin` cannot miss the
ID just appended, because the table with that ID at its end is sorted. -/
theorem iteratorRequest_sorted {L : DoublyLinkedList_ADT} {fuel : Nat} {ok : Bool} {r : Int}
    {list' : list_t} (hreg : RegistrySorted L)
    (h : dll_iteratorRequest fuel (.ptr L) ok = .ok (r, list')) :
    ∃ L', list' = .ptr L'
      ∧ ((L'.id_counter = L.id_counter ∧ RegistrySorted L' ∧ (L.size = 0 ∨ r = -1))
        ∨ (L.size ≠ 0 ∧ r = L.id_counter ∧ L'.id_counter = wrapInt (L.id_counter + 1)
          ∧ L'.iteratorsArray.map (fun it => it.id)
            = L.iteratorsArray.map (fun it => it.id) ++ [L.id_counter])) := by
  by_cases hs : L.size = 0
  · simp [dll_iteratorRequest, isempty_ptr, hs, list_t.isNULL, iteratorDeleteAll_ptr] at h
    exact ⟨_, h.2.symm, Or.inl ⟨rfl, hreg.kept ⟨rfl, Or.inr rfl⟩, Or.inl hs⟩⟩
  · cases ok with
    | false =>
      simp [dll_iteratorRequest, isempty_ptr, hs, list_t.isNULL, list_t.deref] at h
      exact ⟨_, h.2.symm, Or.inl ⟨rfl, hreg, Or.inr h.1.symm⟩⟩
    | true =>
      simp [dll_iteratorRequest, isempty_ptr, hs, list_t.isNULL, list_t.deref] at h
      obtain ⟨rb, hb, h⟩ := Res.bind_eq_ok.1 h
      obtain ⟨r1, l1⟩ := rb
      have hreg1 : RegistrySorted ({ L with
          iteratorsArray := L.iteratorsArray ++ [{ node := none, id := L.id_counter }],
          id_counter := L.id_counter + 1 } : DoublyLinkedList_ADT) :=
        hreg.issued (by simp) rfl
      obtain ⟨L1, hl1, hk, hmiss, hids⟩ := iteratorBegin_kept hb
      subst hl1
      simp at h
      split at h
      · rename_i hneg
        have hlook := hmiss hs hneg
        exact absurd rfl (getIdxWithID_hit hlook hreg1.1 ⟨⟨none, L.id_counter⟩, by simp, rfl⟩)
      · injection h with h; injection h with h1 h2
        have hc : L1.id_counter = L.id_counter := hk.1
        refine ⟨_, h2.symm, Or.inr ⟨hs, ?_, ?_, ?_⟩⟩
        · rw [← h1]; exact hc
        · show wrapInt (L1.id_counter + 1) = wrapInt (L.id_counter + 1)
          rw [hc]
        · show L1.iteratorsArray.map (fun it => it.id) = _
          rw [hids hs]; simp

end Registry

section RegistryTrace
variable {α : Type}

/-- A call of `dll_iteratorCopy` that returns, made on a sorted registry: either the counter
is as before, the registry is still sorted and no iterator was constructed, or the list is
not empty, the old counter was appended as a new ID and the counter has been incremented
as an `int`. -/
theorem iteratorCopy_sorted {L : DoublyLinkedList_ADT} {fuel : Nat} {ok : Bool}
    {src dest r d : Int} {list' : list_t} (hreg : RegistrySorted L)
    (h : dll_iteratorCopy fuel (.ptr L) src dest ok = .ok (r, list', d)) :
    ∃ L', list' = .ptr L'
      ∧ ((L'.id_counter = L.id_counter ∧ RegistrySorted L' ∧ ¬ (dest = -1 ∧ r = 0))
        ∨ (L.size ≠ 0 ∧ L'.id_counter = wrapInt (L.id_counter + 1)
          ∧ L'.iteratorsArray.map (fun it => it.id)
            = L.iteratorsArray.map (fun it => it.id) ++ [L.id_counter]
          ∧ (L.id_counter = -1 ∨ (dest = -1 ∧ r = 0 ∧ d = L.id_counter)))) := by
  by_cases hs : L.size = 0
  · simp [dll_iteratorCopy, isempty_ptr, hs, list_t.isNULL, iteratorDeleteAll_ptr] at h
    obtain ⟨h1, h2, h3⟩ := h
    refine ⟨_, h2.symm, Or.inl ⟨rfl, hreg.kept ⟨rfl, Or.inr rfl⟩, fun hr => ?_⟩⟩
    rw [← h1] at hr; exact absurd hr.2 (by decide)
  · simp [dll_iteratorCopy, isempty_ptr, hs, list_t.isNULL, list_t.deref] at h
    obtain ⟨srcIdx, -, h⟩ := Res.bind_eq_ok.1 h
    split at h
    · injection h with h; injection h with h1 h2; injection h2 with h2 h3
      refine ⟨_, h2.symm, Or.inl ⟨rfl, hreg, fun hr => ?_⟩⟩
      rw [← h1] at hr; exact absurd hr.2 (by decide)
    · split at h
      · rename_i hdest
        obtain ⟨rq, hrq, h⟩ := Res.bind_eq_ok.1 h
        obtain ⟨r1, l1⟩ := rq
        obtain ⟨L1, hl1, hcase⟩ := iteratorRequest_sorted hreg hrq
        subst hl1
        simp only at h
        split at h
        · rename_i hr1
          injection h with h; injection h with h1 h2; injection h2 with h2 h3
          rcases hcase with ⟨hc, hreg1, -⟩ | ⟨-, hrc, hc, hids⟩
          · refine ⟨_, h2.symm, Or.inl ⟨hc, hreg1, fun hr => ?_⟩⟩
            rw [← h1] at hr; exact absurd hr.2 (by decide)
          · exact ⟨_, h2.symm, Or.inr ⟨hs, hc, hids, Or.inl (by rw [← hrc]; exact hr1)⟩⟩
        · rename_i hr1
          simp only [list_t.deref, Res.ok_bind] at h
          obtain ⟨destIdx, -, h⟩ := Res.bind_eq_ok.1 h
          obtain ⟨s, -, h⟩ := Res.bind_eq_ok.1 h
          obtain ⟨L2, hset, h⟩ := Res.bind_eq_ok.1 h
          injection h with h; injection h with h1 h2; injection h2 with h2 h3
          have hk := setIterNode_kept hset
          have hi2 := setIterNode_ids hset
          rcases hcase with ⟨-, -, h0 | h0⟩ | ⟨-, hrc, hc, hids⟩
          · exact absurd h0 hs
          · exact absurd h0 hr1
          · exact ⟨_, h2.symm, Or.inr ⟨hs, hk.1.trans hc, hi2.trans hids,
              Or.inr ⟨hdest, h1.symm, by rw [← h3]; exact hrc⟩⟩⟩
      · rename_i hd
        obtain ⟨destIdx, -, h⟩ := Res.bind_eq_ok.1 h
        split at h
        · injection h with h; injection h with h1 h2; injection h2 with h2 h3
          exact ⟨_, h2.symm, Or.inl ⟨rfl, hreg, fun hr => hd hr.1⟩⟩
        · obtain ⟨s, -, h⟩ := Res.bind_eq_ok.1 h
          obtain ⟨L2, hset, h⟩ := Res.bind_eq_ok.1 h
          injection h with h; injection h with h1 h2; injection h2 with h2 h3
          exact ⟨_, h2.symm, Or.inl ⟨(setIterNode_kept hset).1,
            hreg.kept (setIterNode_kept hset), fun hr => hd hr.1⟩⟩

/-- A `dll_iteratorDelete` whose shrinking allocation succeeds leaves a sorted registry
sorted: its table is the old one without one entry. -/
theorem iteratorDelete_sorted {L : DoublyLinkedList_ADT} {fuel : Nat} {id r : Int}
    {list' : list_t} (hreg : RegistrySorted L)
    (h : dll_iteratorDelete fuel (.ptr L) id true = .ok (r, list')) :
    ∃ L', list' = .ptr L' ∧ RegistrySorted L' := by
  by_cases hs : L.size = 0
  · simp [dll_iteratorDelete, isempty_ptr, hs, list_t.isNULL, iteratorDeleteAll_ptr] at h
    exact ⟨_, h.2.symm, hreg.kept ⟨rfl, Or.inr rfl⟩⟩
  · cases hidx : dll_iteratorGetIdxWithID fuel L id with
    | fault => simp [dll_iteratorDelete, isempty_ptr, hs, list_t.isNULL, list_t.deref, hidx] at h
    | timeout =>
      simp [dll_iteratorDelete, isempty_ptr, hs, list_t.isNULL, list_t.deref, hidx] at h
    | ok idx =>
      rcases getIdxWithID_sound hidx with h1 | ⟨i, it, hi, hget, -⟩
      · rw [h1] at hidx
        rw [iteratorDelete_miss hs hidx true] at h
        injection h with h; injection h with h1 h2
        exact ⟨_, h2.symm, hreg⟩
      · obtain ⟨hsplit, hlen⟩ := split_at_entry hget
        have hidx2 : dll_iteratorGetIdxWithID fuel L id
            = .ok (((L.iteratorsArray.take i).length : Nat) : Int) := by
          rw [hlen, ← hi]; exact hidx
        have hd := iteratorDelete_at hs hsplit hidx2 true
        simp only [Bool.true_eq_false, false_and, if_false] at hd
        rw [hd] at h
        injection h with h; injection h with h1 h2
        refine ⟨_, h2.symm, hreg.sub ?_ (le_refl _)⟩
        show ((L.iteratorsArray.take i ++ L.iteratorsArray.drop (i + 1)).map
          (fun it => it.id)).Sublist (L.iteratorsArray.map (fun it => it.id))
        apply List.Sublist.map
        rw [← List.eraseIdx_eq_take_drop_succ]
        exact List.eraseIdx_sublist _ _

/-- Whatever the iterator table holds: `dll_iteratorDeleteCurrentNode` keeps the IDs of the
registry in place, or empties it, and keeps the ID counter. -/
theorem iteratorDeleteCurrentNode_kept {m m' : Mem α} {L : DoublyLinkedList_ADT}
    {xs : List (Nat × Option α)} (hc : Chain m L xs) (ho : Owned m xs) {fuel : Nat}
    {id r : Int} {list' : list_t}
    (h : dll_iteratorDeleteCurrentNode fuel m (.ptr L) id = .ok (r, m', list')) :
    ∃ L', list' = .ptr L' ∧ RegistryKept L L' := by
  by_cases hs : L.size = 0
  · simp [dll_iteratorDeleteCurrentNode, isempty_ptr, hs, list_t.isNULL,
      iteratorDeleteAll_ptr] at h
    exact ⟨_, h.2.2.symm, rfl, Or.inr rfl⟩
  · have hxs : xs ≠ [] := fun h0 => hs (hc.size_eq_zero_iff.2 h0)
    cases hidx : dll_iteratorGetIdxWithID fuel L id with
    | fault =>
      simp [dll_iteratorDeleteCurrentNode, isempty_ptr, hs, list_t.isNULL, list_t.deref, hidx] at h
    | timeout =>
      simp [dll_iteratorDeleteCurrentNode, isempty_ptr, hs, list_t.isNULL, list_t.deref, hidx] at h
    | ok idx =>
      by_cases hneg : idx = -1
      · simp [dll_iteratorDeleteCurrentNode, isempty_ptr, hs, list_t.isNULL, list_t.deref, hidx,
          hneg] at h
        exact ⟨_, h.2.2.symm, registryKept_refl L⟩
      · cases hit : L.iterAt idx with
        | fault =>
          simp [dll_iteratorDeleteCurrentNode, isempty_ptr, hs, list_t.isNULL, list_t.deref, hidx,
            hneg, hit] at h
        | timeout =>
          simp [dll_iteratorDeleteCurrentNode, isempty_ptr, hs, list_t.isNULL, list_t.deref, hidx,
            hneg, hit] at h
        | ok it =>
          obtain ⟨i, rfl, hget⟩ := iterAt_ok hit
          have hmem : ∃ pre x post, xs = pre ++ x :: post ∧ it.node = some x.1 := by
            by_cases htl : it.node = L.tail
            · rcases eq_nil_or_snoc xs with h0 | ⟨ys, t, rfl⟩
              · exact absurd h0 hxs
              · exact ⟨ys, t, [], rfl, htl.trans (Chain.tail_last hc)⟩
            · cases hnode : it.node with
              | none =>
                rw [hnode] at htl
                simp [dll_iteratorDeleteCurrentNode, dll_iteratorNext, isempty_ptr, hs,
                  list_t.isNULL, list_t.deref, hidx, hneg, hit, htl, hnode, Mem.load] at h
              | some a =>
                cases hlive : m.node a with
                | none =>
                  rw [hnode] at htl
                  simp [dll_iteratorDeleteCurrentNode, dll_iteratorNext, isempty_ptr, hs,
                    list_t.isNULL, list_t.deref, hidx, hneg, hit, htl, hnode, Mem.load,
                    hlive] at h
                | some nd =>
                  obtain ⟨pre, x, post, hx, hxa⟩ := mem_fst_split (ho a nd hlive)
                  exact ⟨pre, x, post, hx, by rw [hxa]⟩
          obtain ⟨pre, x, post, rfl, hnode⟩ := hmem
          obtain ⟨m2, L2, hres, hrem, hregs⟩ :=
            iteratorDeleteCurrentNode_chain hc fuel id i it hidx hget hnode
          rw [hres] at h
          injection h with h
          injection h with h1 h2
          injection h2 with h2 h3
          refine ⟨L2, h3.symm, hrem.2.1, ?_⟩
          by_cases he : (pre ++ post).isEmpty
          · right
            rw [hregs, if_pos he]
          · left
            rw [hregs, if_neg he]
            exact set_node_ids hget _

/-- The calls of the list engine keep the IDs of the registry in place, or empty it, and
keep the ID counter. -/
theorem engine_step_kept {n fuel : Nat} {m : Mem α} {L : DoublyLinkedList_ADT} {i k : Int}
    {s' : RunState α} (hinv : RunInv n ⟨m, .ptr L, i, k⟩) (hn : n < fuel)
    (dup : Option α → Option α) (is_equal issmaller : Option α → Option α → Int) (c : Call α)
    (hit : c.usesIterator = false)
    (h : c.step fuel dup is_equal issmaller ⟨m, .ptr L, i, k⟩ = .ok s') :
    ∃ L', s'.list = .ptr L' ∧ RegistryKept L L' := by
  obtain ⟨L0, xs, hl, hch, ho, hlen, hk, hi, hk0⟩ := hinv
  simp only at hl hch ho hlen hk hi hk0
  injection hl with hl
  subst hl
  rcases step_engine_full hch (show xs.length < fuel by omega) i k dup is_equal issmaller c
    hit with ⟨s'', h2, L', hl', heff⟩ | ⟨h2, -⟩
  · rw [h2] at h; injection h with h; subst h
    refine ⟨L', hl', ?_⟩
    rcases heff with ⟨-, rfl, -, -⟩ | ⟨pre, post, d, -, hins, -, -⟩ |
      ⟨pre, x, post, -, hrem, hregs, -, -⟩
    · exact registryKept_refl _
    · obtain ⟨m2, L2, hr, -, hreg2, hcnt, -⟩ := hins
      injection hr with hr
      injection hr with _ hr
      injection hr with _ hL
      injection hL with hL
      subst hL
      exact ⟨hcnt, Or.inl (by rw [hreg2])⟩
    · refine ⟨hrem.2.1, ?_⟩
      by_cases he : (pre ++ post).isEmpty
      · right; rw [hregs, if_pos he]
      · left; rw [hregs, if_neg he]; exact retarget_ids _ _ _
  · rw [h2] at h; cases h

/-- Every call of `Call` other than `dll_iteratorRequest` that returns leaves a sorted
registry sorted. -/
theorem call_step_sorted {n fuel : Nat} {m : Mem α} {L : DoublyLinkedList_ADT} {i k : Int}
    {s' : RunState α} (hinv : RunInv n ⟨m, .ptr L, i, k⟩) (hn : n < fuel)
    (hreg : RegistrySorted L)
    (dup : Option α → Option α) (is_equal issmaller : Option α → Option α → Int) (c : Call α)
    (hreq : ∀ ok, c ≠ .iteratorRequest ok)
    (h : c.step fuel dup is_equal issmaller ⟨m, .ptr L, i, k⟩ = .ok s') :
    ∃ L', s'.list = .ptr L' ∧ RegistrySorted L' := by
  by_cases hit : c.usesIterator = false
  · obtain ⟨L', hl, hk⟩ := engine_step_kept hinv hn dup is_equal issmaller c hit h
    exact ⟨L', hl, hreg.kept hk⟩
  · obtain ⟨L0, xs, hl, hch, ho, hlen, hk, hi, hk0⟩ := hinv
    simp only at hl hch ho hlen hk hi hk0
    injection hl with hl
    subst hl
    cases c with
    | iteratorRequest b => exact absurd rfl (hreq b)
    | iteratorBegin id =>
      simp only [Call.step] at h
      obtain ⟨⟨r, l⟩, hr, h⟩ := Res.bind_eq_ok.1 h
      obtain ⟨L', rfl, hf, -, -⟩ := iteratorBegin_kept hr
      injection h with h; subst h; exact ⟨L', rfl, hreg.kept hf⟩
    | iteratorEnd id =>
      simp only [Call.step] at h
      obtain ⟨⟨r, l⟩, hr, h⟩ := Res.bind_eq_ok.1 h
      obtain ⟨L', rfl, hf⟩ := iteratorEnd_kept hr
      injection h with h; subst h; exact ⟨L', rfl, hreg.kept hf⟩
    | iteratorNext id =>
      simp only [Call.step] at h
      obtain ⟨⟨r, l⟩, hr, h⟩ := Res.bind_eq_ok.1 h
      obtain ⟨L', rfl, hf⟩ := iteratorNext_kept hr
      injection h with h; subst h; exact ⟨L', rfl, hreg.kept hf⟩
    | iteratorDeleteCurrentNode id =>
      simp only [Call.step, isempty_ptr, Res.ok_bind] at h
      obtain ⟨⟨r, m', l⟩, hr, h⟩ := Res.bind_eq_ok.1 h
      injection h with h; subst h
      obtain ⟨L', rfl, hf⟩ := iteratorDeleteCurrentNode_kept hch ho hr
      exact ⟨L', rfl, hreg.kept hf⟩
    | insert_at_back _ _ => simp [Call.usesIterator] at hit
    | insert_at_front _ _ => simp [Call.usesIterator] at hit
    | insert_sorted _ _ => simp [Call.usesIterator] at hit
    | insert_before _ _ _ => simp [Call.usesIterator] at hit
    | insert_after _ _ _ => simp [Call.usesIterator] at hit
    | delete _ => simp [Call.usesIterator] at hit
    | delete_front => simp [Call.usesIterator] at hit
    | delete_back => simp [Call.usesIterator] at hit

/-- While at most 2^31 - 1 IDs have been issued, the ID counter is their number. -/
theorem TraceInv.counter_eq {n : Nat} {m : Mem α} {L : DoublyLinkedList_ADT} {i k : Int}
    {issued : List Int} (h : TraceInv n ⟨⟨m, .ptr L, i, k⟩, issued⟩)
    (hlen : issued.length ≤ 2147483647) : L.id_counter = (issued.length : Int) := by
  obtain ⟨-, L0, hl, hiss⟩ := h
  simp only at hl hiss
  injection hl with hl
  rw [← hl] at hiss
  rw [(hiss (by omega)).1]
  exact wrapInt_small (by omega) (by omega)

/-- Every operation that returns, other than a `dll_iteratorDelete` whose shrinking
allocation fails, leaves a sorted registry sorted, as long as at most 2^31 - 1 IDs have
been issued after it. -/
theorem op_step_sorted {n fuel : Nat} {m : Mem α} {L : DoublyLinkedList_ADT} {i k : Int}
    {issued : List Int} {t' : TraceState α}
    (hinv : TraceInv n ⟨⟨m, .ptr L, i, k⟩, issued⟩) (hn : n < fuel) (hreg : RegistrySorted L)
    (dup : Option α → Option α) (is_equal issmaller : Option α → Option α → Int) (o : Op α)
    (hshrink : o.shrinkSucceeds = true)
    (h : o.step fuel dup is_equal issmaller ⟨⟨m, .ptr L, i, k⟩, issued⟩ = .ok t')
    (hlen : t'.issued.length ≤ 2147483647) :
    ∃ L', t'.run.list = .ptr L' ∧ RegistrySorted L' := by
  have hmono := op_step_issued_le dup is_equal issmaller o h
  have hlen0 : issued.length ≤ 2147483647 := le_trans hmono hlen
  have hcnt := hinv.counter_eq hlen0
  have hgrow : ∀ L' : DoublyLinkedList_ADT,
      L'.id_counter = wrapInt (L.id_counter + 1) →
      L'.iteratorsArray.map (fun it => it.id)
        = L.iteratorsArray.map (fun it => it.id) ++ [L.id_counter] →
      issued.length + 1 ≤ 2147483647 → RegistrySorted L' := by
    intro L' hc hids hl
    refine hreg.issued hids ?_
    rw [hc]
    exact wrapInt_small (by omega) (by omega)
  cases o with
  | call c =>
    have hs : (c.step fuel dup is_equal issmaller ⟨m, .ptr L, i, k⟩ >>=
          (fun s => Res.ok (⟨s, issued⟩ : TraceState α)) = .ok t' ∧ ∀ ok, c ≠ .iteratorRequest ok)
        ∨ ∃ ok, c = .iteratorRequest ok := by
      cases c <;> first | exact Or.inr ⟨_, rfl⟩ | exact Or.inl ⟨h, fun _ hc => by cases hc⟩
    rcases hs with ⟨hs, hreq⟩ | ⟨ok, rfl⟩
    · obtain ⟨s', hs', h'⟩ := Res.bind_eq_ok.1 hs
      injection h' with h'; subst h'
      exact call_step_sorted hinv.1 hn hreg dup is_equal issmaller c hreq hs'
    · simp only [Op.step] at h
      obtain ⟨⟨r, l⟩, hr, h⟩ := Res.bind_eq_ok.1 h
      injection h with h; subst h
      obtain ⟨L', rfl, hcase⟩ := iteratorRequest_sorted hreg hr
      refine ⟨L', rfl, ?_⟩
      rcases hcase with ⟨-, hreg', -⟩ | ⟨hs, hrc, hc, hids⟩
      · exact hreg'
      · have hr1 : r ≠ -1 := by rw [hrc, hcnt]; omega
        have hq : requestIssued (list_t.ptr L) r = some r := by
          simp [requestIssued, isempty_ptr, hs, hr1]
        have hlen1 : (issued ++ (requestIssued (list_t.ptr L) r).toList).length
            ≤ 2147483647 := hlen
        rw [hq, Option.toList, List.length_append, List.length_singleton] at hlen1
        exact hgrow L' hc hids hlen1
  | iteratorPrev id =>
    simp only [Op.step] at h
    obtain ⟨⟨r, l⟩, hr, h⟩ := Res.bind_eq_ok.1 h
    injection h with h; subst h
    obtain ⟨L', rfl, hf⟩ := iteratorPrev_kept hr
    exact ⟨L', rfl, hreg.kept hf⟩
  | iteratorGetObj id =>
    simp only [Op.step] at h
    obtain ⟨⟨r, l⟩, hr, h⟩ := Res.bind_eq_ok.1 h
    injection h with h; subst h
    obtain ⟨L', rfl, hf⟩ := iteratorGetObj_kept hr
    exact ⟨L', rfl, hreg.kept hf⟩
  | iteratorCopy src dest ok =>
    simp only [Op.step] at h
    obtain ⟨⟨r, l, d⟩, hr, h⟩ := Res.bind_eq_ok.1 h
    injection h with h; subst h
    obtain ⟨L', rfl, hcase⟩ := iteratorCopy_sorted hreg hr
    refine ⟨L', rfl, ?_⟩
    rcases hcase with ⟨-, hreg', -⟩ | ⟨hs, hc, hids, hneg | ⟨hd1, hd2, hd3⟩⟩
    · exact hreg'
    · exfalso; rw [hcnt] at hneg; omega
    · have hlen1 : (issued ++ (if dest = -1 ∧ r = 0 then [d] else [])).length
          ≤ 2147483647 := hlen
      rw [if_pos ⟨hd1, hd2⟩, List.length_append, List.length_singleton] at hlen1
      exact hgrow L' hc hids hlen1
  | iteratorDelete id ok =>
    have hok : ok = true := hshrink
    subst hok
    simp only [Op.step] at h
    obtain ⟨⟨r, l⟩, hr, h⟩ := Res.bind_eq_ok.1 h
    injection h with h; subst h
    exact iteratorDelete_sorted hreg hr
  | iteratorDeleteAll =>
    simp only [Op.step] at h
    obtain ⟨⟨r, l⟩, hr, h⟩ := Res.bind_eq_ok.1 h
    injection h with h; subst h
    rw [iteratorDeleteAll_ptr] at hr
    injection hr with hr; injection hr with h1 h2
    exact ⟨_, h2.symm, hreg.kept ⟨rfl, Or.inr rfl⟩⟩
  | get_front g =>
    simp only [Op.step] at h
    obtain ⟨⟨r, l⟩, hr, h⟩ := Res.bind_eq_ok.1 h
    injection h with h; subst h
    obtain ⟨L', rfl, hf⟩ := get_front_kept hr
    exact ⟨L', rfl, hreg.kept hf⟩
  | get_back g =>
    simp only [Op.step] at h
    obtain ⟨⟨r, l⟩, hr, h⟩ := Res.bind_eq_ok.1 h
    injection h with h; subst h
    obtain ⟨L', rfl, hf⟩ := get_back_kept hr
    exact ⟨L', rfl, hreg.kept hf⟩

/-- Along a trace without failing shrinking allocations the registry stays sorted, as long
as at most 2^31 - 1 IDs have been issued. -/
theorem trace_sorted {fuel : Nat} (dup : Option α → Option α)
    (is_equal issmaller : Option α → Option α → Int) :
    ∀ (os : List (Op α)) (n : Nat) (t t' : TraceState α), TraceInv n t →
      (t.issued.length ≤ 2147483647 → ∃ L, t.run.list = .ptr L ∧ RegistrySorted L) →
      (∀ o ∈ os, o.shrinkSucceeds = true) → n + os.length ≤ fuel →
      trace fuel dup is_equal issmaller os t = .ok t' →
      t'.issued.length ≤ 2147483647 →
      ∃ L', t'.run.list = .ptr L' ∧ RegistrySorted L' := by
  intro os
  induction os with
  | nil =>
    intro n t t' _ hreg _ _ h hlen
    simp only [trace] at h
    injection h with h; subst h; exact hreg hlen
  | cons o os ih =>
    intro n t t' hinv hreg hsh hn h hlen
    simp only [trace] at h
    obtain ⟨t1, h1, h2⟩ := Res.bind_eq_ok.1 h
    have hn1 : n < fuel := by simp at hn; omega
    have hinv1 := op_step_inv hinv hn1 dup is_equal issmaller o h1
    have hmono := op_step_issued_le dup is_equal issmaller o h1
    refine ih (n + 1) t1 t' hinv1 ?_ (fun o' ho' => hsh o' (List.mem_cons_of_mem _ ho'))
      (by simp at hn ⊢; omega) h2 hlen
    intro hl1
    obtain ⟨L, hl, hregL⟩ := hreg (le_trans hmono hl1)
    obtain ⟨⟨m, list, i, k⟩, issued⟩ := t
    simp only at hl
    subst hl
    exact op_step_sorted hinv hn1 hregL dup is_equal issmaller o
      (hsh o (List.mem_cons_self _ _)) h1 hl1

end RegistryTrace

section CopySource
variable {α : Type}

end CopySource

section Overflow
variable {α : Type}

theorem requestAndDeleteAll_shrink (k : Nat) :
    ∀ o ∈ (requestAndDeleteAll k : List (Op α)), o.shrinkSucceeds = true := by
  induction k with
  | zero => intro o ho; cases ho
  | succ k ih =>
    intro o ho
    simp only [requestAndDeleteAll, List.mem_cons] at ho
    rcases ho with rfl | rfl | ho
    · rfl
    · rfl
    · exact ih o ho

/-- One round of `requestAndDeleteAll` on a one-element list with an empty registry and
the ID counter `c` below `INT_MAX`: the counter becomes `c + 1`, the registry is empty
again. -/
theorem trace_request_deleteAll {fuel : Nat} (hf : 0 < fuel) (dup : Option α → Option α)
    (is_equal issmaller : Option α → Option α → Int) (m : Mem α) (hd tl : dllnodeptr)
    (i r : Int) (os : List (Op α)) (c : Nat) (hc : c + 1 ≤ 2147483647) (issued : List Int) :
    trace fuel dup is_equal issmaller
        (.call (.iteratorRequest true) :: .iteratorDeleteAll :: os)
        ⟨⟨m, .ptr ⟨hd, tl, 1, [], (c : Int)⟩, i, r⟩, issued⟩
      = trace fuel dup is_equal issmaller os
          ⟨⟨m, .ptr ⟨hd, tl, 1, [], ((c + 1 : Nat) : Int)⟩, i, r⟩,
            issued ++ (requestIssued (.ptr ⟨hd, tl, 1, [], (c : Int)⟩) (c : Int)).toList⟩ := by
  have hreq := @iteratorRequest_last ⟨hd, tl, 1, [], (c : Int)⟩
    (show (1 : Int) ≠ 0 by decide)
    (fun it hit => by cases hit) fuel hf
  have hw : wrapInt ((c : Int) + 1) = ((c + 1 : Nat) : Int) := by
    rw [wrapInt_small (by omega) (by omega)]; push_cast; rfl
  simp only [trace, Op.step, hreq, Res.ok_bind, iteratorDeleteAll_ptr, List.nil_append, hw]

/-- The rounds of `requestAndDeleteAll k` raise the ID counter from `c` to `c + k` as long
as it stays within `INT_MAX`. -/
theorem trace_requestAndDeleteAll {fuel : Nat} (hf : 0 < fuel) (dup : Option α → Option α)
    (is_equal issmaller : Option α → Option α → Int) (m : Mem α) (hd tl : dllnodeptr)
    (i r : Int) (os : List (Op α)) :
    ∀ (k c : Nat) (issued : List Int), c + k ≤ 2147483647 →
      ∃ issued', trace fuel dup is_equal issmaller (requestAndDeleteAll k ++ os)
            ⟨⟨m, .ptr ⟨hd, tl, 1, [], (c : Int)⟩, i, r⟩, issued⟩
          = trace fuel dup is_equal issmaller os
              ⟨⟨m, .ptr ⟨hd, tl, 1, [], ((c + k : Nat) : Int)⟩, i, r⟩, issued'⟩ := by
  intro k
  induction k with
  | zero => intro c issued _; exact ⟨issued, rfl⟩
  | succ k ih =>
    intro c issued hck
    obtain ⟨issued', h⟩ := ih (c + 1)
      (issued ++ (requestIssued (.ptr ⟨hd, tl, 1, [], (c : Int)⟩) (c : Int)).toList)
      (by omega)
    refine ⟨issued', ?_⟩
    have hadd : c + 1 + k = c + (k + 1) := by omega
    rw [hadd] at h
    rw [← h]
    show trace fuel dup is_equal issmaller
        (.call (.iteratorRequest true) :: .iteratorDeleteAll :: (requestAndDeleteAll k ++ os)) _
      = _
    exact trace_request_deleteAll hf dup is_equal issmaller m hd tl i r _ c (by omega) issued

end Overflow
theorem trace_overflowOps (fuel : Nat) (duplicate : Option Nat → Option Nat)
    (is_equal issmaller : Option Nat → Option Nat → Int) (k : Nat) (t : TraceState Nat) :
    trace fuel duplicate is_equal issmaller (overflowOps k) t
      = (Op.step fuel duplicate is_equal issmaller (.call (.insert_at_back (some 5) true)) t
          >>= fun t' => trace fuel duplicate is_equal issmaller
            (requestAndDeleteAll k
              ++ [.call (.iteratorRequest true), .call (.iteratorRequest true)]) t') := rfl

/-- The run of `overflowOps k` up to its last two requests: one element has been inserted
and the ID counter stands at `k`, with an empty registry. -/
theorem trace_overflowOps_rounds (k : Nat) (hk : k ≤ 2147483647) :
    ∃ issued, trace 3 copyElem natEqual natSmaller (overflowOps k) ⟨RunState.init, []⟩
      = trace 3 copyElem natEqual natSmaller
          [.call (.iteratorRequest true), .call (.iteratorRequest true)]
          ⟨⟨⟨[some ⟨none, none, some 5⟩], []⟩,
            .ptr ⟨some 0, some 0, 1, [], (k : Int)⟩, 1, 0⟩, issued⟩ := by
  have h1 : Op.step 3 copyElem natEqual natSmaller (.call (.insert_at_back (some 5) true))
        (⟨RunState.init, []⟩ : TraceState Nat)
      = .ok ⟨⟨⟨[some ⟨none, none, some 5⟩], []⟩,
          .ptr ⟨some 0, some 0, 1, [], ((0 : Nat) : Int)⟩, 1, 0⟩, []⟩ := rfl
  obtain ⟨issued, hp⟩ := trace_requestAndDeleteAll (show 0 < 3 by decide) copyElem natEqual
    natSmaller (⟨[some ⟨none, none, some 5⟩], []⟩ : Mem Nat) (some 0) (some 0) 1 0
    [.call (.iteratorRequest true), .call (.iteratorRequest true)] k 0 [] (by omega)
  rw [Nat.zero_add] at hp
  exact ⟨issued, by rw [trace_overflowOps, h1, Res.ok_bind, hp]⟩

section LookupTimeout
variable {α : Type}

/-! ### Iterator calls whose ID lookup does not return

Every iterator call on a non-empty list starts with the lookup of its ID; if the lookup
does not return, neither does the call. -/

theorem iteratorNext_stuck {L : DoublyLinkedList_ADT} {fuel : Nat} {id : Int} (m : Mem α)
    (hs : L.size ≠ 0) (h : dll_iteratorGetIdxWithID fuel L id = .timeout) :
    dll_iteratorNext fuel m (.ptr L) id = .timeout := by
  simp [dll_iteratorNext, list_t.isNULL, isempty_ptr, hs, list_t.deref, h]

theorem iteratorPrev_stuck {L : DoublyLinkedList_ADT} {fuel : Nat} {id : Int} (m : Mem α)
    (hs : L.size ≠ 0) (h : dll_iteratorGetIdxWithID fuel L id = .timeout) :
    dll_iteratorPrev fuel m (.ptr L) id = .timeout := by
  simp [dll_iteratorPrev, list_t.isNULL, isempty_ptr, hs, list_t.deref, h]

theorem iteratorDeleteCurrentNode_stuck {L : DoublyLinkedList_ADT} {fuel : Nat} {id : Int}
    (m : Mem α) (hs : L.size ≠ 0) (h : dll_iteratorGetIdxWithID fuel L id = .timeout) :
    dll_iteratorDeleteCurrentNode fuel m (.ptr L) id = .timeout := by
  simp [dll_iteratorDeleteCurrentNode, list_t.isNULL, isempty_ptr, hs, list_t.deref, h]

theorem iteratorDelete_stuck {L : DoublyLinkedList_ADT} {fuel : Nat} {id : Int}
    (hs : L.size ≠ 0) (h : dll_iteratorGetIdxWithID fuel L id = .timeout) (ok : Bool) :
    dll_iteratorDelete fuel (.ptr L) id ok = .timeout := by
  simp [dll_iteratorDelete, list_t.isNULL, isempty_ptr, hs, list_t.deref, h]

theorem iteratorCopy_stuck_src {L : DoublyLinkedList_ADT} {fuel : Nat} {src : Int}
    (hs : L.size ≠ 0) (h : dll_iteratorGetIdxWithID fuel L src = .timeout) (dest : Int)
    (ok : Bool) :
    dll_iteratorCopy fuel (.ptr L) src dest ok = .timeout := by
  simp [dll_iteratorCopy, list_t.isNULL, isempty_ptr, hs, list_t.deref, h]

/-- The lookup of `src` returns or not, the lookup of `dest` does not: the call does not
return. -/
theorem iteratorCopy_stuck_dest {L : DoublyLinkedList_ADT} {fuel : Nat} {src dest : Int}
    {srcIdx : Int} (hs : L.size ≠ 0)
    (hsrc : dll_iteratorGetIdxWithID fuel L src = .timeout
      ∨ (dll_iteratorGetIdxWithID fuel L src = .ok srcIdx ∧ srcIdx ≠ -1))
    (hd : dest ≠ -1) (h : dll_iteratorGetIdxWithID fuel L dest = .timeout) (ok : Bool) :
    dll_iteratorCopy fuel (.ptr L) src dest ok = .timeout := by
  rcases hsrc with hsrc | ⟨hsrc, hne⟩
  · exact iteratorCopy_stuck_src hs hsrc dest ok
  · simp [dll_iteratorCopy, list_t.isNULL, isempty_ptr, hs, list_t.deref, hsrc, hne, hd, h]

end LookupTimeout

/-- C4: for every initialised list `dll_isempty` returns 1 exactly when `dll_size` is 0
and returns 0 otherwise; for the null handle it returns -1, which is neither of the two
boolean results. -/
theorem isempty_iff_size_zero (L : DoublyLinkedList_ADT) :
    (∃ s, dll_size (.ptr L) = .ok s
        ∧ (s = 0 → dll_isempty (.ptr L) = .ok 1) ∧ (s ≠ 0 → dll_isempty (.ptr L) = .ok 0))
      ∧ dll_isempty .NULL = .ok (-1) ∧ (-1 : Int) ≠ 1 ∧ (-1 : Int) ≠ 0 := by
  refine ⟨⟨L.size, rfl, ?_, ?_⟩, rfl, by decide, by decide⟩
  · intro h; simp [isempty_ptr, h]
  · intro h; simp [isempty_ptr, h]

/-- C8: in a non-empty well-formed list whose first element matching the key (under
`is_equal`) is `c`, at index `pre.length`, with allocation succeeding and a step budget
above that index: `dll_insert_before` returns 0 and the chain becomes the old one with a
new node holding `duplicate data` inserted at that index; `dll_insert_after` returns 0 and
the new node is inserted at the next index; in both cases all other nodes and elements
keep their order, `size` grows by 1, and `head` (resp. `tail`) is the new node exactly
when the match was the head (resp. the tail). -/
theorem insert_before_after_at_first_match {α : Type} (m : Mem α) (L : DoublyLinkedList_ADT)
    (pre post : List (Nat × Option α)) (c : Nat × Option α) (e k : α)
    (duplicate : Option α → Option α) (is_equal : Option α → Option α → Int) (fuel : Nat)
    (hc : Chain m L (pre ++ c :: post))
    (hpre : ∀ y ∈ pre, is_equal (some k) y.2 = 0) (hm : is_equal (some k) c.2 ≠ 0)
    (hfuel : pre.length < fuel) :
    (∃ m' L', dll_insert_before fuel m (.ptr L) (some e) duplicate (some k) is_equal true
          = .ok (0, m', .ptr L')
        ∧ Chain m' L' (pre ++ (m.fresh, duplicate (some e)) :: c :: post)
        ∧ L'.size = L.size + 1
        ∧ L'.head = (if pre.isEmpty then some m.fresh else L.head) ∧ L'.tail = L.tail)
      ∧ (∃ m' L', dll_insert_after fuel m (.ptr L) (some e) duplicate (some k) is_equal true
          = .ok (0, m', .ptr L')
        ∧ Chain m' L' (pre ++ c :: (m.fresh, duplicate (some e)) :: post)
        ∧ L'.size = L.size + 1
        ∧ L'.head = L.head ∧ L'.tail = (if post.isEmpty then some m.fresh else L.tail)) := by
  constructor
  · obtain ⟨m', L', h, hc', -⟩ := insert_before_chain hc e k duplicate is_equal hpre hm fuel hfuel
    refine ⟨m', L', h, hc', ?_, ?_, ?_⟩
    · rw [hc'.size_eq, hc.size_eq]; simp; omega
    · rw [hc'.head_eq, hc.head_eq]; cases pre <;> simp [firstOr_append]
    · rw [hc'.tail_eq, hc.tail_eq]; simp [lastOr_append]
  · obtain ⟨m', L', h, hc', -⟩ := insert_after_chain hc e k duplicate is_equal hpre hm fuel hfuel
    have hc'' : Chain m' L' (pre ++ c :: (m.fresh, duplicate (some e)) :: post) := by
      simpa using hc'
    refine ⟨m', L', h, hc'', ?_, ?_, ?_⟩
    · rw [hc''.size_eq, hc.size_eq]; simp; omega
    · rw [hc''.head_eq, hc.head_eq]; cases pre <;> simp [firstOr_append]
    · rw [hc''.tail_eq, hc.tail_eq]; cases post <;> simp [lastOr_append]

/-- Witness of C8: the list [10, 20, 30] (nodes 0, 1, 2), key 20, new element 7. -/
theorem insert_before_after_at_first_match_witness :
    Chain (⟨[some ⟨none, some 1, some 10⟩, some ⟨some 0, some 2, some 20⟩,
              some ⟨some 1, none, some 30⟩], []⟩ : Mem Nat)
        ⟨some 0, some 2, 3, [], 0⟩ ([(0, some 10)] ++ (1, some 20) :: [(2, some 30)])
      ∧ (∃ m' L', dll_insert_before 2
            (⟨[some ⟨none, some 1, some 10⟩, some ⟨some 0, some 2, some 20⟩,
               some ⟨some 1, none, some 30⟩], []⟩ : Mem Nat)
            (.ptr ⟨some 0, some 2, 3, [], 0⟩) (some 7) (fun x => x) (some 20)
            (fun a b => if a = b then 1 else 0) true = .ok (0, m', .ptr L')
          ∧ Chain m' L' ([(0, some 10)] ++ (3, some 7) :: (1, some 20) :: [(2, some 30)])
          ∧ L'.size = 3 + 1 ∧ L'.head = some 0 ∧ L'.tail = some 2)
      ∧ (∃ m' L', dll_insert_after 2
            (⟨[some ⟨none, some 1, some 10⟩, some ⟨some 0, some 2, some 20⟩,
               some ⟨some 1, none, some 30⟩], []⟩ : Mem Nat)
            (.ptr ⟨some 0, some 2, 3, [], 0⟩) (some 7) (fun x => x) (some 20)
            (fun a b => if a = b then 1 else 0) true = .ok (0, m', .ptr L')
          ∧ Chain m' L' ([(0, some 10)] ++ (1, some 20) :: (3, some 7) :: [(2, some 30)])
          ∧ L'.size = 3 + 1 ∧ L'.head = some 0 ∧ L'.tail = some 2) :=
  have hc : Chain (⟨[some ⟨none, some 1, some 10⟩, some ⟨some 0, some 2, some 20⟩,
              some ⟨some 1, none, some 30⟩], []⟩ : Mem Nat)
        ⟨some 0, some 2, 3, [], 0⟩ ([(0, some 10)] ++ (1, some 20) :: [(2, some 30)]) :=
    ⟨⟨rfl, rfl, rfl, trivial⟩, by decide, rfl, rfl, rfl⟩
  ⟨hc, insert_before_after_at_first_match _ _ [(0, some 10)] [(2, some 30)] (1, some 20) 7 20
    (fun x => x) (fun a b => if a = b then 1 else 0) 2 hc (by decide) (by decide) (by decide)⟩

/-- C9, the code at the failing input: on an initialised empty list (whatever its iterator
table), `dll_insert_before` and `dll_insert_after` called with a non-null element and a
non-null key read `current->data` through the null `head`: the run is undefined
behaviour instead of returning -1. -/
theorem insert_before_after_empty_list_faults {α : Type} (m : Mem α) (its : List dlliterator)
    (c : Int) (e k : α) (duplicate : Option α → Option α)
    (is_equal : Option α → Option α → Int) (malloc_ok : Bool) (fuel : Nat) :
    dll_insert_before (fuel + 1) m (.ptr ⟨none, none, 0, its, c⟩) (some e) duplicate (some k)
        is_equal malloc_ok = .fault
      ∧ dll_insert_after (fuel + 1) m (.ptr ⟨none, none, 0, its, c⟩) (some e) duplicate (some k)
        is_equal malloc_ok = .fault := by
  constructor <;>
    simp [dll_insert_before, dll_insert_after, insert_before_loop, insert_after_loop,
      list_t.isNULL, list_t.deref, Mem.load]

/-- C10: each of the five insertion operations returns -1 and leaves memory and the list
struct (hence the iterator table) untouched when the list handle is null and when the
element is null; `dll_insert_before` and `dll_insert_after` do so as well when the key is
null. -/
theorem insert_null_arguments {α : Type} (m : Mem α) (list : list_t) (data key : Option α)
    (duplicate : Option α → Option α) (is_equal issmaller : Option α → Option α → Int)
    (malloc_ok : Bool) (fuel : Nat) :
    (dll_insert_at_back m .NULL data duplicate malloc_ok = .ok (-1, m, .NULL)
      ∧ dll_insert_at_front m .NULL data duplicate malloc_ok = .ok (-1, m, .NULL)
      ∧ dll_insert_sorted fuel m .NULL data issmaller duplicate malloc_ok = .ok (-1, m, .NULL)
      ∧ dll_insert_before fuel m .NULL data duplicate key is_equal malloc_ok
          = .ok (-1, m, .NULL)
      ∧ dll_insert_after fuel m .NULL data duplicate key is_equal malloc_ok
          = .ok (-1, m, .NULL))
    ∧ (dll_insert_at_back m list none duplicate malloc_ok = .ok (-1, m, list)
      ∧ dll_insert_at_front m list none duplicate malloc_ok = .ok (-1, m, list)
      ∧ dll_insert_sorted fuel m list none issmaller duplicate malloc_ok = .ok (-1, m, list)
      ∧ dll_insert_before fuel m list none duplicate key is_equal malloc_ok
          = .ok (-1, m, list)
      ∧ dll_insert_after fuel m list none duplicate key is_equal malloc_ok
          = .ok (-1, m, list))
    ∧ (dll_insert_before fuel m list data duplicate none is_equal malloc_ok
          = .ok (-1, m, list)
      ∧ dll_insert_after fuel m list data duplicate none is_equal malloc_ok
          = .ok (-1, m, list)) := by
  refine ⟨⟨?_, ?_, ?_, ?_, ?_⟩, ⟨?_, ?_, ?_, ?_, ?_⟩, ?_, ?_⟩ <;>
    simp [dll_insert_at_back, dll_insert_at_front, dll_insert_sorted, dll_insert_before,
      dll_insert_after, list_t.isNULL]

theorem natSmaller_irrefl (a : Option Nat) : natSmaller a a = 0 := by
  simp [natSmaller]

theorem natSmaller_trans (a b c : Option Nat) (h1 : natSmaller a b ≠ 0) (h2 : natSmaller b c ≠ 0) :
    natSmaller a c ≠ 0 := by
  simp only [natSmaller, ne_eq, ite_eq_right_iff, one_ne_zero, imp_false, not_not] at h1 h2 ⊢
  omega

theorem copyElem_compat {α : Type} (f : Option α → Option α → Int) (a b : Option α) :
    f (copyElem a) b = f a b ∧ f a (copyElem b) = f a b :=
  ⟨rfl, rfl⟩

/-- C6: let `issmaller` be irreflexive and transitive (as every strict total order is) and
let `duplicate` return copies that compare like their originals. Then any sequence of
`dll_insert_sorted` calls on a freshly initialised list, with allocation succeeding and a
step budget above the number of calls, returns 0 each time, and the resulting chain is
non-decreasing (no element is followed by one that `issmaller` than it) and holds a
permutation of the duplicated inserted elements; for a non-empty sequence the
front-to-back traversal with a fresh iterator visits exactly that chain. -/
theorem sorted_insertion_sorts {α : Type} (issmaller : Option α → Option α → Int)
    (duplicate : Option α → Option α)
    (hirr : ∀ a, issmaller a a = 0)
    (htrans : ∀ a b c, issmaller a b ≠ 0 → issmaller b c ≠ 0 → issmaller a c ≠ 0)
    (hdup : ∀ a b, issmaller (duplicate a) b = issmaller a b
      ∧ issmaller a (duplicate b) = issmaller a b)
    (es : List α) (fuel : Nat) (hfuel : es.length < fuel) :
    ∃ m L xs, insert_all_sorted fuel issmaller duplicate Mem.empty (dll_init true true).2
          (es.map some) = .ok (List.replicate es.length 0, m, .ptr L)
      ∧ Chain m L xs
      ∧ (xs.map Prod.snd).Pairwise (fun a b => issmaller b a = 0)
      ∧ (xs.map Prod.snd).Perm (es.map (fun e => duplicate (some e)))
      ∧ (es ≠ [] → ∃ after, traverse fuel m (.ptr L) = .ok (xs.map Prod.snd, after)) := by
  obtain ⟨m, L, xs, h, hc, hs, hp, hi, hk⟩ :=
    insert_all_sorted_chain issmaller duplicate hirr htrans hdup fuel es _ _ [] chain_init
      List.Pairwise.nil (by simp; omega)
  simp only [List.map_nil, List.nil_append] at hp
  refine ⟨m, L, xs, h, hc, hs, hp, ?_⟩
  intro hne
  have hlen : xs.length = es.length := by
    have := hp.length_eq; simpa using this
  have hxs : xs ≠ [] := by
    intro h0; apply hne; apply List.eq_nil_of_length_eq_zero; rw [← hlen, h0]; rfl
  have hreg : ∀ it ∈ L.iteratorsArray, it.id < L.id_counter := by
    rw [hi]; intro it hit; cases hit
  have hlen2 : L.iteratorsArray.length = 0 := by rw [hi]; rfl
  exact ⟨_, traverse_chain hc hxs hreg fuel (by omega)⟩

/-- Witness of C6: inserting 3, 1, 2 with the order of the naturals. -/
theorem sorted_insertion_sorts_witness :
    ([3, 1, 2] : List Nat).length < 4
      ∧ ∃ m L xs, insert_all_sorted 4 natSmaller copyElem Mem.empty (dll_init true true).2
            (([3, 1, 2] : List Nat).map some) = .ok (List.replicate 3 0, m, .ptr L)
        ∧ Chain m L xs
        ∧ (xs.map Prod.snd).Pairwise (fun a b => natSmaller b a = 0)
        ∧ (xs.map Prod.snd).Perm (([3, 1, 2] : List Nat).map (fun e => copyElem (some e)))
        ∧ (([3, 1, 2] : List Nat) ≠ [] →
            ∃ after, traverse 4 m (.ptr L) = .ok (xs.map Prod.snd, after)) :=
  ⟨by decide,
    sorted_insertion_sorts natSmaller copyElem natSmaller_irrefl natSmaller_trans
      (copyElem_compat natSmaller) [3, 1, 2] 4 (by decide)⟩

/-- C7, the code at a failing input: two elements with the same key 2, tagged 0 and 1, are
inserted in this order with `dll_insert_sorted` into a fresh list; both calls return 0 and
the traversal visits the element tagged 1 before the element tagged 0: the later of two
equal elements comes first, because the earlier one is the tail. When the equal element
is not the tail (1, 2, 3 then a second 2) the later one is placed after the earlier. -/
theorem sorted_insertion_unstable_at_tail :
    insert_all_sorted 3 keySmaller copyElem Mem.empty (dll_init true true).2
          [some (2, 0), some (2, 1)]
        = .ok ([0, 0],
            ⟨[some ⟨some 1, none, some (2, 0)⟩, some ⟨none, some 0, some (2, 1)⟩], []⟩,
            .ptr ⟨some 1, some 0, 2, [], 0⟩)
      ∧ keySmaller (some (2, 0)) (some (2, 1)) = 0 ∧ keySmaller (some (2, 1)) (some (2, 0)) = 0
      ∧ traverse 3
          (⟨[some ⟨some 1, none, some (2, 0)⟩, some ⟨none, some 0, some (2, 1)⟩], []⟩ :
            Mem (Nat × Nat))
          (.ptr ⟨some 1, some 0, 2, [], 0⟩)
        = .ok ([some (2, 1), some (2, 0)], .ptr ⟨some 1, some 0, 2, [⟨some 0, 0⟩], 1⟩)
      ∧ (insert_all_sorted 5 keySmaller copyElem Mem.empty (dll_init true true).2
            [some (1, 0), some (2, 0), some (3, 0), some (2, 1)] >>= fun r =>
          traverse 5 r.2.1 r.2.2 >>= fun t => .ok t.1)
        = .ok [some (1, 0), some (2, 0), some (2, 1), some (3, 0)] := by
  refine ⟨by decide, by decide, by decide, by decide, by decide⟩

/-- C5: well-formedness (`size == 0` exactly when `head` and `tail` are `NULL`;
`head->previous` and `tail->next` are `NULL`; `a->next == b` exactly when
`b->previous == a`; following `next` from `head` reaches `tail` after exactly `size`
nodes) is kept by every mutating operation. On a well-formed list, with a step budget
above its size, each of these calls returns and leaves a well-formed list: the three
unkeyed insertions with any arguments, whether or not the allocation succeeds;
`dll_insert_before` and `dll_insert_after` on a non-empty list; `dll_delete`;
`dll_delete_front` and `dll_delete_back` on a non-empty list; `dll_append` of a second
non-empty well-formed list that shares no node with the first;
`dll_iteratorDeleteCurrentNode` through an iterator ID that the table lookup resolves
and whose node is on the list. -/
theorem well_formedness_is_invariant {α : Type} (fuel : Nat) (m : Mem α)
    (L : DoublyLinkedList_ADT) (duplicate : Option α → Option α)
    (is_equal issmaller : Option α → Option α → Int)
    (hwf : WellFormed m L) (hfuel : L.size < (fuel : Int)) :
    (∀ d ok, ∃ r m' L', dll_insert_at_back m (.ptr L) d duplicate ok = .ok (r, m', .ptr L')
        ∧ WellFormed m' L')
    ∧ (∀ d ok, ∃ r m' L', dll_insert_at_front m (.ptr L) d duplicate ok = .ok (r, m', .ptr L')
        ∧ WellFormed m' L')
    ∧ (∀ d ok, ∃ r m' L',
        dll_insert_sorted fuel m (.ptr L) d issmaller duplicate ok = .ok (r, m', .ptr L')
        ∧ WellFormed m' L')
    ∧ (L.size ≠ 0 → ∀ d key ok, ∃ r m' L',
        dll_insert_before fuel m (.ptr L) d duplicate key is_equal ok = .ok (r, m', .ptr L')
        ∧ WellFormed m' L')
    ∧ (L.size ≠ 0 → ∀ d key ok, ∃ r m' L',
        dll_insert_after fuel m (.ptr L) d duplicate key is_equal ok = .ok (r, m', .ptr L')
        ∧ WellFormed m' L')
    ∧ (∀ key, ∃ r m' L', dll_delete fuel m (.ptr L) key is_equal = .ok (r, m', .ptr L')
        ∧ WellFormed m' L')
    ∧ (L.size ≠ 0 → ∃ m' L', dll_delete_front m (.ptr L) = .ok (m', .ptr L')
        ∧ WellFormed m' L')
    ∧ (L.size ≠ 0 → ∃ m' L', dll_delete_back m (.ptr L) = .ok (m', .ptr L')
        ∧ WellFormed m' L')
    ∧ (∀ B, WellFormed m B → L.size ≠ 0 → B.size ≠ 0 → (∀ a, OnList m L a → ¬ OnList m B a) →
        ∃ m' L', dll_append m (.ptr L) (.ptr B) = .ok (m', .ptr L', .dangling)
          ∧ WellFormed m' L')
    ∧ (∀ (id : Int) (idx : Nat) (it : dlliterator) (a : Nat),
        dll_iteratorGetIdxWithID fuel L id = .ok (idx : Int) →
        L.iteratorsArray[idx]? = some it → it.node = some a → OnList m L a →
        ∃ r m' L', dll_iteratorDeleteCurrentNode fuel m (.ptr L) id = .ok (r, m', .ptr L')
          ∧ WellFormed m' L') := by
  have step := fun c hc => step_wf hwf hfuel duplicate is_equal issmaller c hc
  refine ⟨?_, ?_, ?_, ?_, ?_, ?_, ?_, ?_, ?_, ?_⟩
  · intro d ok
    obtain ⟨s', L', h, hl, hw⟩ := step (.insert_at_back d ok) trivial
    obtain ⟨r, hr⟩ := insert_of_step h hl
    exact ⟨r, _, L', hr, hw⟩
  · intro d ok
    obtain ⟨s', L', h, hl, hw⟩ := step (.insert_at_front d ok) trivial
    obtain ⟨r, hr⟩ := insert_of_step h hl
    exact ⟨r, _, L', hr, hw⟩
  · intro d ok
    obtain ⟨s', L', h, hl, hw⟩ := step (.insert_sorted d ok) trivial
    obtain ⟨r, hr⟩ := insert_of_step h hl
    exact ⟨r, _, L', hr, hw⟩
  · intro hs d key ok
    obtain ⟨s', L', h, hl, hw⟩ := step (.insert_before d key ok) (nonempty_admissible hs)
    obtain ⟨r, hr⟩ := insert_of_step h hl
    exact ⟨r, _, L', hr, hw⟩
  · intro hs d key ok
    obtain ⟨s', L', h, hl, hw⟩ := step (.insert_after d key ok) (nonempty_admissible hs)
    obtain ⟨r, hr⟩ := insert_of_step h hl
    exact ⟨r, _, L', hr, hw⟩
  · intro key
    obtain ⟨s', L', h, hl, hw⟩ := step (.delete key) trivial
    obtain ⟨⟨r, m', l⟩, hr, h⟩ := Res.bind_eq_ok.1 h
    injection h with h
    subst h
    simp only at hl
    subst hl
    exact ⟨r, m', L', hr, hw⟩
  · intro hs
    obtain ⟨s', L', h, hl, hw⟩ := step .delete_front (nonempty_admissible hs)
    obtain ⟨⟨m', l⟩, hr, h⟩ := Res.bind_eq_ok.1 h
    injection h with h
    subst h
    simp only at hl
    subst hl
    exact ⟨m', L', hr, hw⟩
  · intro hs
    obtain ⟨s', L', h, hl, hw⟩ := step .delete_back (nonempty_admissible hs)
    obtain ⟨⟨m', l⟩, hr, h⟩ := Res.bind_eq_ok.1 h
    injection h with h
    subst h
    simp only at hl
    subst hl
    exact ⟨m', L', hr, hw⟩
  · intro B hB hs hsB hdis
    obtain ⟨xs, hx⟩ := hwf.holds_chain
    obtain ⟨ys, hy⟩ := hB.holds_chain
    have hxs : xs ≠ [] := fun e => hs (hx.size_eq_zero_iff.2 e)
    have hys : ys ≠ [] := fun e => hsB (hy.size_eq_zero_iff.2 e)
    obtain ⟨m', A', hr, hc', -⟩ := append_chain hx hy hxs hys
      (fun a ha hb => hdis a ((hx.onList_iff a).2 ha) ((hy.onList_iff a).2 hb))
    exact ⟨m', A', hr, hc'.wellFormed⟩
  · intro id idx it a hidx hit hnode hon
    obtain ⟨xs, hx⟩ := hwf.holds_chain
    obtain ⟨pre, x, post, rfl, rfl⟩ := mem_fst_split ((hx.onList_iff a).1 hon)
    obtain ⟨m', L', hr, hrem, -⟩ := iteratorDeleteCurrentNode_chain hx fuel id idx it hidx hit hnode
    exact ⟨_, m', L', hr, hrem.1.wellFormed⟩

/-- Witness of C5 on the two lists of `pairMem`: a boundary deletion, the append of the
second list and the deletion through iterator 0. -/
theorem well_formedness_is_invariant_witness :
    WellFormed pairMem pairFirst ∧ pairFirst.size < ((3 : Nat) : Int)
      ∧ (∃ m' L', dll_delete_back pairMem (.ptr pairFirst) = .ok (m', .ptr L')
          ∧ WellFormed m' L')
      ∧ (∃ m' L', dll_append pairMem (.ptr pairFirst) (.ptr pairSecond)
            = .ok (m', .ptr L', .dangling) ∧ WellFormed m' L')
      ∧ (∃ r m' L', dll_iteratorDeleteCurrentNode 3 pairMem (.ptr pairFirst) 0
            = .ok (r, m', .ptr L') ∧ WellFormed m' L') :=
  have ha : Chain pairMem pairFirst [(0, some 10), (1, some 20)] :=
    ⟨⟨rfl, rfl, trivial⟩, by decide, rfl, rfl, rfl⟩
  have hb : Chain pairMem pairSecond [(2, some 30)] :=
    ⟨⟨rfl, trivial⟩, by decide, rfl, rfl, rfl⟩
  have h := well_formedness_is_invariant 3 pairMem pairFirst copyElem natEqual natSmaller
    ha.wellFormed (by decide)
  ⟨ha.wellFormed, by decide, h.2.2.2.2.2.2.2.1 (by decide),
    h.2.2.2.2.2.2.2.2.1 pairSecond hb.wellFormed (by decide) (by decide)
      (fun a h1 h2 => by
        have h1 := (ha.onList_iff a).1 h1
        have h2 := (hb.onList_iff a).1 h2
        simp at h1 h2
        omega),
    h.2.2.2.2.2.2.2.2.2 0 0 ⟨some 0, 0⟩ 0 (by decide) rfl rfl
      ((ha.onList_iff 0).2 (by decide))⟩

/-- C11: when the node allocation fails, each of the five insertions returns -1 and leaves
node memory and the list struct exactly as they were, so the chain, `size`, `head`,
`tail` and every `previous`/`next` link are those of before the call. This holds on every
list holding a chain for the unkeyed insertions and `dll_insert_sorted`, and on every
non-empty one for the keyed insertions (which attempt no allocation on an empty list). -/
theorem insert_allocation_failure_unchanged {α : Type} (m : Mem α) (L : DoublyLinkedList_ADT)
    (xs : List (Nat × Option α)) (fuel : Nat) (data key : Option α)
    (duplicate : Option α → Option α) (is_equal issmaller : Option α → Option α → Int)
    (hc : Chain m L xs) (hfuel : xs.length ≤ fuel) :
    dll_insert_at_back m (.ptr L) data duplicate false = .ok (-1, m, .ptr L)
      ∧ dll_insert_at_front m (.ptr L) data duplicate false = .ok (-1, m, .ptr L)
      ∧ dll_insert_sorted fuel m (.ptr L) data issmaller duplicate false = .ok (-1, m, .ptr L)
      ∧ (xs ≠ [] →
          dll_insert_before fuel m (.ptr L) data duplicate key is_equal false
              = .ok (-1, m, .ptr L)
            ∧ dll_insert_after fuel m (.ptr L) data duplicate key is_equal false
              = .ok (-1, m, .ptr L)) :=
  ⟨insert_at_back_nomem m L data duplicate, insert_at_front_nomem m L data duplicate,
    insert_sorted_nomem hc fuel hfuel data issmaller duplicate,
    fun hne => ⟨insert_before_nomem hc hne fuel hfuel data key duplicate is_equal,
      insert_after_nomem hc hne fuel hfuel data key duplicate is_equal⟩⟩

/-- Witness of C11: the list 10, 20 of `pairMem`, new element 7, key 20. -/
theorem insert_allocation_failure_unchanged_witness :
    Chain pairMem pairFirst [(0, some 10), (1, some 20)]
      ∧ dll_insert_at_back pairMem (.ptr pairFirst) (some 7) copyElem false
          = .ok (-1, pairMem, .ptr pairFirst)
      ∧ dll_insert_at_front pairMem (.ptr pairFirst) (some 7) copyElem false
          = .ok (-1, pairMem, .ptr pairFirst)
      ∧ dll_insert_sorted 2 pairMem (.ptr pairFirst) (some 7) natSmaller copyElem false
          = .ok (-1, pairMem, .ptr pairFirst)
      ∧ dll_insert_before 2 pairMem (.ptr pairFirst) (some 7) copyElem (some 20) natEqual false
          = .ok (-1, pairMem, .ptr pairFirst)
      ∧ dll_insert_after 2 pairMem (.ptr pairFirst) (some 7) copyElem (some 20) natEqual false
          = .ok (-1, pairMem, .ptr pairFirst) :=
  have hc : Chain pairMem pairFirst [(0, some 10), (1, some 20)] :=
    ⟨⟨rfl, rfl, trivial⟩, by decide, rfl, rfl, rfl⟩
  have h := insert_allocation_failure_unchanged pairMem pairFirst _ 2 (some 7) (some 20)
    copyElem natEqual natSmaller hc (by decide)
  ⟨hc, h.1, h.2.1, h.2.2.1, h.2.2.2 (by simp)⟩

/-- C12, the code at a counterexample: with a `duplicate` that returns `NULL`,
`dll_insert_at_back` and `dll_insert_at_front` on a fresh list return 0 and link a node
whose element is `NULL`. -/
theorem insert_null_duplicate_is_linked :
    dll_insert_at_back (Mem.empty : Mem Nat) (dll_init true true).2 (some 5) (fun _ => none) true
        = .ok (0, ⟨[some ⟨none, none, none⟩], []⟩, .ptr ⟨some 0, some 0, 1, [], 0⟩)
      ∧ dll_insert_at_front (Mem.empty : Mem Nat) (dll_init true true).2 (some 5)
          (fun _ => none) true
        = .ok (0, ⟨[some ⟨none, none, none⟩], []⟩, .ptr ⟨some 0, some 0, 1, [], 0⟩) := by
  constructor <;> decide

/-- C12 as the code has it: `dll_insert_at_back` and `dll_insert_at_front` never inspect
what `duplicate` returns. On a list holding the chain `xs`, with a non-null element and
the node allocation succeeding, they return 0 and link a new node at the back (resp. at
the front) whose element is the result of `duplicate`, also when that result is `NULL`;
`size` grows by 1. -/
theorem insert_links_whatever_duplicate_returns {α : Type} (m : Mem α)
    (L : DoublyLinkedList_ADT) (xs : List (Nat × Option α)) (e : α)
    (duplicate : Option α → Option α) (hc : Chain m L xs) (hdup : duplicate (some e) = none) :
    (∃ m' L', dll_insert_at_back m (.ptr L) (some e) duplicate true = .ok (0, m', .ptr L')
        ∧ Chain m' L' (xs ++ [(m.fresh, none)]) ∧ L'.size = L.size + 1)
      ∧ (∃ m' L', dll_insert_at_front m (.ptr L) (some e) duplicate true = .ok (0, m', .ptr L')
        ∧ Chain m' L' ((m.fresh, none) :: xs) ∧ L'.size = L.size + 1) := by
  constructor
  · obtain ⟨m', L', h, hc', -⟩ := insert_at_back_chain hc e duplicate
    rw [hdup] at hc'
    exact ⟨m', L', h, hc', by rw [hc'.size_eq, hc.size_eq]; simp⟩
  · obtain ⟨m', L', h, hc', -⟩ := insert_at_front_chain hc e duplicate
    rw [hdup] at hc'
    exact ⟨m', L', h, by simpa using hc', by rw [hc'.size_eq, hc.size_eq]; simp⟩

/-- Witness of the amended C12: the list 10, 20 of `pairMem` and a `duplicate` that always
fails. -/
theorem insert_links_whatever_duplicate_returns_witness :
    Chain pairMem pairFirst [(0, some 10), (1, some 20)]
      ∧ (fun _ : Option Nat => (none : Option Nat)) (some 7) = none
      ∧ (∃ m' L', dll_insert_at_back pairMem (.ptr pairFirst) (some 7) (fun _ => none) true
            = .ok (0, m', .ptr L')
          ∧ Chain m' L' ([(0, some 10), (1, some 20)] ++ [(pairMem.fresh, none)])
          ∧ L'.size = pairFirst.size + 1)
      ∧ (∃ m' L', dll_insert_at_front pairMem (.ptr pairFirst) (some 7) (fun _ => none) true
            = .ok (0, m', .ptr L')
          ∧ Chain m' L' ((pairMem.fresh, none) :: [(0, some 10), (1, some 20)])
          ∧ L'.size = pairFirst.size + 1) :=
  have hc : Chain pairMem pairFirst [(0, some 10), (1, some 20)] :=
    ⟨⟨rfl, rfl, trivial⟩, by decide, rfl, rfl, rfl⟩
  ⟨hc, rfl, insert_links_whatever_duplicate_returns pairMem pairFirst _ 7 (fun _ => none) hc rfl⟩

/-- C13: on a list holding the non-empty chain `xs`, `dll_get_front` returns the element
stored in the head node when `getCopy` is 0 and `duplicate` of it otherwise, and
`dll_get_back` does the same with the tail node; the list struct, registry included, is
the same afterwards (node memory is only read). On an empty list both return `NULL` and
the iterator table is empty afterwards. -/
theorem get_front_back_spec {α : Type} (m : Mem α) (L : DoublyLinkedList_ADT)
    (xs : List (Nat × Option α)) (duplicate : Option α → Option α) (getCopy : Int)
    (hc : Chain m L xs) :
    (∀ x post, xs = x :: post →
        dll_get_front m (.ptr L) duplicate getCopy
          = .ok (if getCopy = 0 then x.2 else duplicate x.2, .ptr L))
      ∧ (∀ pre x, xs = pre ++ [x] →
        dll_get_back m (.ptr L) duplicate getCopy
          = .ok (if getCopy = 0 then x.2 else duplicate x.2, .ptr L))
      ∧ (xs = [] →
        dll_get_front m (.ptr L) duplicate getCopy
            = .ok (none, .ptr { L with iteratorsArray := [] })
          ∧ dll_get_back m (.ptr L) duplicate getCopy
            = .ok (none, .ptr { L with iteratorsArray := [] })) := by
  refine ⟨?_, ?_, ?_⟩
  · rintro x post rfl
    have hs : L.size ≠ 0 := fun h => by have := hc.size_eq_zero_iff.1 h; cases this
    have hn : m.node x.1 = _ := @Chain.node_at α m L [] post x hc
    by_cases hg : getCopy = 0 <;>
      simp [dll_get_front, list_t.isNULL, list_t.deref, isempty_ptr, hs, hc.head_first,
        Mem.load, hn, hg]
  · rintro pre x rfl
    have hs : L.size ≠ 0 := fun h => by have := hc.size_eq_zero_iff.1 h; simp at this
    have hn := hc.node_at
    by_cases hg : getCopy = 0 <;>
      simp [dll_get_back, list_t.isNULL, list_t.deref, isempty_ptr, hs, hc.tail_last,
        Mem.load, hn, hg]
  · rintro rfl
    have hs : L.size = 0 := hc.size_eq_zero_iff.2 rfl
    have hall := iteratorDeleteAll_ptr L
    constructor <;>
      simp [dll_get_front, dll_get_back, list_t.isNULL, isempty_ptr, hs, hall]

/-- Witness of C13: the list 10, 20 of `pairMem`, asked for a copy. -/
theorem get_front_back_spec_witness :
    Chain pairMem pairFirst [(0, some 10), (1, some 20)]
      ∧ dll_get_front pairMem (.ptr pairFirst) copyElem 1 = .ok (some 10, .ptr pairFirst)
      ∧ dll_get_back pairMem (.ptr pairFirst) copyElem 1 = .ok (some 20, .ptr pairFirst) :=
  have hc : Chain pairMem pairFirst [(0, some 10), (1, some 20)] :=
    ⟨⟨rfl, rfl, trivial⟩, by decide, rfl, rfl, rfl⟩
  have h := get_front_back_spec pairMem pairFirst _ copyElem 1 hc
  ⟨hc, h.1 (0, some 10) [(1, some 20)] rfl, h.2.1 [(0, some 10)] (1, some 20) rfl⟩

theorem retarget_retargeted {L L' : DoublyLinkedList_ADT} {old new : dllnodeptr}
    (h : L'.iteratorsArray = retarget old new L.iteratorsArray) : Retargeted L L' old new := by
  intro i it hi hn
  rw [h]
  simp [retarget, hi, hn]

theorem retarget_kept {L L' : DoublyLinkedList_ADT} {old new : dllnodeptr}
    (h : L'.iteratorsArray = retarget old new L.iteratorsArray) (i : Nat) (it : dlliterator)
    (hi : L.iteratorsArray[i]? = some it) (hn : it.node ≠ old) :
    L'.iteratorsArray[i]? = some it := by
  rw [h]
  simp [retarget, hi, hn]

theorem retargetedAfterRemoval_of {α : Type} {L L' : DoublyLinkedList_ADT}
    {pre post : List (Nat × Option α)} {x : Nat × Option α}
    (h : L'.iteratorsArray = (if (pre ++ post).isEmpty then []
      else retarget (some x.1) (firstOr post (lastOr pre none)) L.iteratorsArray)) :
    RetargetedAfterRemoval L L' pre x post := by
  refine ⟨?_, ?_, ?_⟩
  · rintro y rest rfl
    apply retarget_retargeted
    simpa using h
  · rintro rfl init p rfl
    apply retarget_retargeted
    simpa [lastOr_append] using h
  · rintro rfl rfl
    simpa using h

/-- C14: for a list holding the chain `xs`, a non-null key and a step budget of at least
the length of the chain: if no element matches the key under `is_equal`, `dll_delete`
returns 1 and leaves memory and the list struct as they were; if `x` is the first
matching element (no element of `pre` before it matches), it returns 0, the chain is the
old one without `x`, `size` is one less, `free_data` is called once, on the element of
`x`, `head` becomes the successor of `x` when `x` was the head and `tail` its predecessor
when `x` was the tail (both `NULL` when `x` was the only node), and they are unchanged
otherwise. -/
theorem delete_first_match {α : Type} (m : Mem α) (L : DoublyLinkedList_ADT)
    (xs : List (Nat × Option α)) (k : α) (is_equal : Option α → Option α → Int) (fuel : Nat)
    (hc : Chain m L xs) (hfuel : xs.length ≤ fuel) :
    ((∀ y ∈ xs, is_equal (some k) y.2 = 0) →
        dll_delete fuel m (.ptr L) (some k) is_equal = .ok (1, m, .ptr L))
      ∧ (∀ pre x post, xs = pre ++ x :: post → (∀ y ∈ pre, is_equal (some k) y.2 = 0) →
          is_equal (some k) x.2 ≠ 0 →
          ∃ m' L', dll_delete fuel m (.ptr L) (some k) is_equal = .ok (0, m', .ptr L')
            ∧ Chain m' L' (pre ++ post) ∧ L'.size = L.size - 1
            ∧ m'.released = m.released ++ [x.2]
            ∧ L'.head = (if pre.isEmpty then firstOr post none else L.head)
            ∧ L'.tail = (if post.isEmpty then lastOr pre none else L.tail)) := by
  refine ⟨fun hall => delete_miss hc k is_equal hall fuel hfuel, ?_⟩
  rintro pre x post rfl hpre hm
  obtain ⟨m', L', h, ⟨hc', -, hrel, -⟩, -⟩ := delete_chain hc k is_equal hpre hm fuel
    (by simp at hfuel; omega)
  refine ⟨m', L', h, hc', ?_, hrel, ?_, ?_⟩
  · rw [hc'.size_eq, hc.size_eq]; simp; omega
  · rw [hc'.head_eq, hc.head_eq]; cases pre <;> simp [firstOr_append]
  · rw [hc'.tail_eq, hc.tail_eq]; cases post <;> simp [lastOr_append]

/-- Witness of C14: deleting the key 20 from the list 10, 20 of `pairMem`. -/
theorem delete_first_match_witness :
    Chain pairMem pairFirst [(0, some 10), (1, some 20)]
      ∧ ∃ m' L', dll_delete 2 pairMem (.ptr pairFirst) (some 20) natEqual = .ok (0, m', .ptr L')
        ∧ Chain m' L' ([(0, some 10)] ++ []) ∧ L'.size = pairFirst.size - 1
        ∧ m'.released = pairMem.released ++ [some 20]
        ∧ L'.head = pairFirst.head ∧ L'.tail = some 0 :=
  have hc : Chain pairMem pairFirst [(0, some 10), (1, some 20)] :=
    ⟨⟨rfl, rfl, trivial⟩, by decide, rfl, rfl, rfl⟩
  ⟨hc, (delete_first_match pairMem pairFirst _ 20 natEqual 2 hc (by decide)).2
    [(0, some 10)] (1, some 20) [] rfl (by decide) (by decide)⟩

/-- C15: on a list holding the non-empty chain `xs`, `dll_delete_front` removes exactly
the first node and `dll_delete_back` exactly the last one: the other nodes keep their
order, `size` is one less, `free_data` is called once, on the removed element, and when
the list had a single node the result has `head` and `tail` `NULL`, `size` 0 and an
empty iterator table. -/
theorem delete_front_back_spec {α : Type} (m : Mem α) (L : DoublyLinkedList_ADT)
    (xs : List (Nat × Option α)) (hc : Chain m L xs) :
    (∀ x post, xs = x :: post →
        ∃ m' L', dll_delete_front m (.ptr L) = .ok (m', .ptr L')
          ∧ Chain m' L' post ∧ L'.size = L.size - 1 ∧ m'.released = m.released ++ [x.2]
          ∧ (post = [] → L'.head = none ∧ L'.tail = none ∧ L'.size = 0
              ∧ L'.iteratorsArray = []))
      ∧ (∀ pre x, xs = pre ++ [x] →
        ∃ m' L', dll_delete_back m (.ptr L) = .ok (m', .ptr L')
          ∧ Chain m' L' pre ∧ L'.size = L.size - 1 ∧ m'.released = m.released ++ [x.2]
          ∧ (pre = [] → L'.head = none ∧ L'.tail = none ∧ L'.size = 0
              ∧ L'.iteratorsArray = [])) := by
  constructor
  · rintro x post rfl
    obtain ⟨m', L', h, ⟨hc', -, hrel, -⟩, hreg⟩ := delete_front_chain hc
    simp only [List.nil_append] at hc'
    refine ⟨m', L', h, hc', ?_, hrel, ?_⟩
    · rw [hc'.size_eq, hc.size_eq]; simp
    · rintro rfl
      exact ⟨hc'.head_eq, hc'.tail_eq, hc'.size_eq, by simpa using hreg⟩
  · rintro pre x rfl
    obtain ⟨m', L', h, ⟨hc', -, hrel, -⟩, hreg⟩ := delete_back_chain hc
    simp only [List.append_nil] at hc'
    refine ⟨m', L', h, hc', ?_, hrel, ?_⟩
    · rw [hc'.size_eq, hc.size_eq]; simp
    · rintro rfl
      exact ⟨hc'.head_eq, hc'.tail_eq, hc'.size_eq, by simpa using hreg⟩

/-- Witness of C15: the one-element list 30 of `pairMem` becomes the empty list. -/
theorem delete_front_back_spec_witness :
    Chain pairMem pairSecond [(2, some 30)]
      ∧ (∃ m' L', dll_delete_front pairMem (.ptr pairSecond) = .ok (m', .ptr L')
          ∧ Chain m' L' [] ∧ L'.size = pairSecond.size - 1
          ∧ m'.released = pairMem.released ++ [some 30]
          ∧ (([] : List (Nat × Option Nat)) = [] → L'.head = none ∧ L'.tail = none
              ∧ L'.size = 0 ∧ L'.iteratorsArray = []))
      ∧ (∃ m' L', dll_delete_back pairMem (.ptr pairSecond) = .ok (m', .ptr L')
          ∧ Chain m' L' [] ∧ L'.size = pairSecond.size - 1
          ∧ m'.released = pairMem.released ++ [some 30]
          ∧ (([] : List (Nat × Option Nat)) = [] → L'.head = none ∧ L'.tail = none
              ∧ L'.size = 0 ∧ L'.iteratorsArray = [])) :=
  have hc : Chain pairMem pairSecond [(2, some 30)] :=
    ⟨⟨rfl, trivial⟩, by decide, rfl, rfl, rfl⟩
  have h := delete_front_back_spec pairMem pairSecond _ hc
  ⟨hc, h.1 (2, some 30) [] rfl, h.2 [] (2, some 30) rfl⟩

/-- C16: let the list hold the chain `pre ++ x :: post`. When `dll_delete` removes `x`
(the first match of its key), when `dll_delete_front` does (`x` is the head) and when
`dll_delete_back` does (`x` is the tail), every registry entry that targeted `x` targets
afterwards, at the same index and under the same ID, the successor of `x` if `x` was the
head or an interior node and the predecessor of `x` if it was the tail of a list of at
least two nodes; if `x` was the only node the registry is empty afterwards. -/
theorem deletion_retargets_registry {α : Type} (m : Mem α) (L : DoublyLinkedList_ADT)
    (pre post : List (Nat × Option α)) (x : Nat × Option α) (k : α)
    (is_equal : Option α → Option α → Int) (fuel : Nat)
    (hc : Chain m L (pre ++ x :: post)) (hfuel : pre.length < fuel) :
    ((∀ y ∈ pre, is_equal (some k) y.2 = 0) → is_equal (some k) x.2 ≠ 0 →
        ∃ m' L', dll_delete fuel m (.ptr L) (some k) is_equal = .ok (0, m', .ptr L')
          ∧ RetargetedAfterRemoval L L' pre x post)
      ∧ (pre = [] → ∃ m' L', dll_delete_front m (.ptr L) = .ok (m', .ptr L')
          ∧ RetargetedAfterRemoval L L' pre x post)
      ∧ (post = [] → ∃ m' L', dll_delete_back m (.ptr L) = .ok (m', .ptr L')
          ∧ RetargetedAfterRemoval L L' pre x post) := by
  refine ⟨?_, ?_, ?_⟩
  · intro hpre hm
    obtain ⟨m', L', h, -, hreg⟩ := delete_chain hc k is_equal hpre hm fuel hfuel
    exact ⟨m', L', h, retargetedAfterRemoval_of hreg⟩
  · rintro rfl
    obtain ⟨m', L', h, -, hreg⟩ := delete_front_chain hc
    exact ⟨m', L', h, retargetedAfterRemoval_of (by simpa using hreg)⟩
  · rintro rfl
    obtain ⟨m', L', h, -, hreg⟩ := delete_back_chain hc
    exact ⟨m', L', h, retargetedAfterRemoval_of (by rw [List.append_nil]; exact hreg)⟩

/-- Witness of C16: in the list 10, 20 of `pairMem` the iterator 0 is on the head; each
way of deleting the head moves it to node 1. -/
theorem deletion_retargets_registry_witness :
    Chain pairMem pairFirst ([] ++ (0, some 10) :: [(1, some 20)]) ∧ ([] : List Nat).length < 2
      ∧ (∃ m' L', dll_delete 2 pairMem (.ptr pairFirst) (some 10) natEqual = .ok (0, m', .ptr L')
          ∧ L'.iteratorsArray[0]? = some ⟨some 1, 0⟩)
      ∧ (∃ m' L', dll_delete_front pairMem (.ptr pairFirst) = .ok (m', .ptr L')
          ∧ L'.iteratorsArray[0]? = some ⟨some 1, 0⟩) :=
  have hc : Chain pairMem pairFirst ([] ++ (0, some 10) :: [(1, some 20)]) :=
    ⟨⟨rfl, rfl, trivial⟩, by decide, rfl, rfl, rfl⟩
  have h := deletion_retargets_registry pairMem pairFirst [] [(1, some 20)] (0, some 10) 10
    natEqual 2 hc (by decide)
  ⟨hc, by decide,
    (h.1 (by simp) (by decide)).elim fun m' e => e.elim fun L' e =>
      ⟨m', L', e.1, e.2.1 (1, some 20) [] rfl 0 ⟨some 0, 0⟩ rfl rfl⟩,
    (h.2.1 rfl).elim fun m' e => e.elim fun L' e =>
      ⟨m', L', e.1, e.2.1 (1, some 20) [] rfl 0 ⟨some 0, 0⟩ rfl rfl⟩⟩

/-- C17, the code at a failing input: on the list 10, 20 two iterators are requested (IDs
0 and 1, both on the head) and `dll_iteratorDeleteCurrentNode` is called with ID 0. The
call returns 0, frees node 0 and moves entry 0 to node 1, but entry 1 still targets the
freed node 0, and reading through ID 1 afterwards is a read of freed memory. -/
theorem iterator_delete_leaves_alias_dangling :
    (insert_all_back copyElem (Mem.empty : Mem Nat) (dll_init true true).2 [some 10, some 20]
        >>= fun r => dll_iteratorRequest 3 r.2.2 true
        >>= fun r1 => dll_iteratorRequest 3 r1.2 true
        >>= fun r2 => dll_iteratorDeleteCurrentNode 3 r.2.1 r2.2 r1.1
        >>= fun r3 => .ok (r1.1, r2.1, r3))
      = .ok (0, 1, 0, ⟨[none, some ⟨none, none, some 20⟩], [some 10]⟩,
          .ptr ⟨some 1, some 1, 1, [⟨some 1, 0⟩, ⟨some 0, 1⟩], 2⟩)
      ∧ (⟨[none, some ⟨none, none, some 20⟩], [some 10]⟩ : Mem Nat).node 0 = none
      ∧ dll_iteratorGetObj 3 (⟨[none, some ⟨none, none, some 20⟩], [some 10]⟩ : Mem Nat)
          (.ptr ⟨some 1, some 1, 1, [⟨some 1, 0⟩, ⟨some 0, 1⟩], 2⟩) 1 = .fault := by
  refine ⟨by decide, by decide, by decide⟩

/-- C18: let the list hold the chain `xs` and let the registry entry `it` at index `idx`
be positioned on the node at address `a` holding `e`. Every call of the list engine (the
five insertions, `dll_delete`, `dll_delete_front`, `dll_delete_back`) returns, and unless
it freed the node `a` itself the entry at `idx` is the same afterwards (same ID, same
target); if the lookup of that ID resolved to the entry before the call, then
`dll_iteratorGetObj` with that ID returns `e` after it. The same holds after
`dll_iteratorDeleteCurrentNode` through any iterator that the lookup resolves and that is
positioned on another node of the list. -/
theorem iterator_stability {α : Type} (fuel : Nat) (m : Mem α) (L : DoublyLinkedList_ADT)
    (xs : List (Nat × Option α)) (duplicate : Option α → Option α)
    (is_equal issmaller : Option α → Option α → Int) (idx : Nat) (it : dlliterator) (a : Nat)
    (e : Option α) (hc : Chain m L xs) (hfuel : xs.length < fuel) (hx : (a, e) ∈ xs)
    (hit : L.iteratorsArray[idx]? = some it) (hnode : it.node = some a) :
    (∀ c : Call α, c.usesIterator = false →
        ∃ s' L', c.step fuel duplicate is_equal issmaller ⟨m, .ptr L, 0, 0⟩ = .ok s'
          ∧ s'.list = .ptr L'
          ∧ (s'.mem.node a ≠ none →
              L'.iteratorsArray[idx]? = some it
                ∧ (dll_iteratorGetIdxWithID fuel L it.id = .ok (idx : Int) →
                  dll_iteratorGetObj fuel s'.mem (.ptr L') it.id = .ok (e, .ptr L'))))
      ∧ (∀ (id : Int) (j : Nat) (itj : dlliterator) (b : Nat),
          dll_iteratorGetIdxWithID fuel L id = .ok (j : Int) → L.iteratorsArray[j]? = some itj →
          itj.node = some b → b ∈ xs.map Prod.fst → b ≠ a →
          ∃ r m' L', dll_iteratorDeleteCurrentNode fuel m (.ptr L) id = .ok (r, m', .ptr L')
            ∧ L'.iteratorsArray[idx]? = some it
            ∧ (dll_iteratorGetIdxWithID fuel L it.id = .ok (idx : Int) →
              dll_iteratorGetObj fuel m' (.ptr L') it.id = .ok (e, .ptr L'))) := by
  have hs : L.size ≠ 0 := fun h => by
    have := hc.size_eq_zero_iff.1 h
    rw [this] at hx; cases hx
  constructor
  · intro c hng
    rcases step_engine_full hc hfuel 0 0 duplicate is_equal issmaller c hng with
      ⟨s', h, L', hl, heff⟩ | ⟨-, h⟩
    · refine ⟨s', L', h, hl, fun hlive => ?_⟩
      rcases heff with ⟨hm, rfl, -, -⟩ | ⟨pre, post, d, rfl, hins, -, -⟩ |
        ⟨pre, x, post, rfl, hrem, hreg, -, -⟩
      · rw [hm]
        exact ⟨hit, fun hidx => getObj_of_chain hc hx hit hnode hidx⟩
      · obtain ⟨m2, L2, hr, hc', hreg, -⟩ := hins
        injection hr with hr
        injection hr with _ hr
        injection hr with hm hL
        injection hL with hL
        subst hL
        rw [hm]
        have hit' : L'.iteratorsArray[idx]? = some it := by rw [hreg]; exact hit
        have hx' : (a, e) ∈ pre ++ (m.fresh, d) :: post := by
          simp only [List.mem_append, List.mem_cons] at hx ⊢
          tauto
        refine ⟨hit', fun hidx => getObj_of_chain hc' hx' hit' hnode ?_⟩
        rw [getIdxWithID_congr hreg]; exact hidx
      · obtain ⟨hc', -, -, -, hgone, -⟩ := hrem
        have hne : a ≠ x.1 := fun h => hlive (h ▸ hgone)
        have hx' : (a, e) ∈ pre ++ post := by
          simp only [List.mem_append, List.mem_cons] at hx ⊢
          rcases hx with h | h | h
          · exact Or.inl h
          · exact absurd (congrArg Prod.fst h) hne
          · exact Or.inr h
        have hnonempty : (pre ++ post).isEmpty = false := by
          cases hpp : pre ++ post with
          | nil => rw [hpp] at hx'; cases hx'
          | cons _ _ => rfl
        rw [hnonempty] at hreg
        simp only [Bool.false_eq_true, if_false] at hreg
        have hit' : L'.iteratorsArray[idx]? = some it :=
          retarget_kept hreg idx it hit (by rw [hnode]; simpa using hne)
        refine ⟨hit', fun hidx => getObj_of_chain hc' hx' hit' hnode ?_⟩
        rw [@getIdxWithID_ids L L' (by rw [hreg]; exact retarget_ids _ _ _) fuel it.id]; exact hidx
    · exact absurd (admissible_of_nonempty hs 0 0 c hng) h
  · intro id j itj b hj hitj hnj hb hba
    obtain ⟨pre, x, post, rfl, rfl⟩ := mem_fst_split hb
    obtain ⟨m', L', hr, ⟨hc', -⟩, hreg⟩ :=
      iteratorDeleteCurrentNode_chain hc fuel id j itj hj hitj hnj
    have hx' : (a, e) ∈ pre ++ post := by
      simp only [List.mem_append, List.mem_cons] at hx ⊢
      rcases hx with h | h | h
      · exact Or.inl h
      · exact absurd (congrArg Prod.fst h).symm hba
      · exact Or.inr h
    have hnonempty : (pre ++ post).isEmpty = false := by
      cases hpp : pre ++ post with
      | nil => rw [hpp] at hx'; cases hx'
      | cons _ _ => rfl
    rw [hnonempty] at hreg hr
    simp only [Bool.false_eq_true, if_false] at hreg hr
    have hji : j ≠ idx := by
      rintro rfl
      rw [hit] at hitj
      injection hitj with hitj
      rw [← hitj, hnode] at hnj
      injection hnj with hnj
      exact hba hnj.symm
    have hit' : L'.iteratorsArray[idx]? = some it := by
      rw [hreg, List.getElem?_set_ne hji]; exact hit
    refine ⟨0, m', L', hr, hit', fun hidx => getObj_of_chain hc' hx' hit' hnode ?_⟩
    rw [@getIdxWithID_ids L L' (by rw [hreg]; exact set_node_ids hitj _) fuel it.id]; exact hidx

/-- Witness of C18: in `pairWatched` the iterator 0 is on node 0; deleting the tail with
`dll_delete_back`, or through iterator 1, leaves it in place. -/
theorem iterator_stability_witness :
    Chain pairMem pairWatched [(0, some 10), (1, some 20)]
      ∧ dll_iteratorGetIdxWithID 3 pairWatched 0 = .ok ((0 : Nat) : Int)
      ∧ (∃ s' L', (Call.delete_back : Call Nat).step 3 copyElem natEqual natSmaller
            ⟨pairMem, .ptr pairWatched, 0, 0⟩ = .ok s'
          ∧ s'.list = .ptr L'
          ∧ (s'.mem.node 0 ≠ none →
              L'.iteratorsArray[0]? = some ⟨some 0, 0⟩
                ∧ dll_iteratorGetObj 3 s'.mem (.ptr L') 0 = .ok (some 10, .ptr L')))
      ∧ (∃ r m' L', dll_iteratorDeleteCurrentNode 3 pairMem (.ptr pairWatched) 1
            = .ok (r, m', .ptr L')
          ∧ L'.iteratorsArray[0]? = some ⟨some 0, 0⟩
          ∧ dll_iteratorGetObj 3 m' (.ptr L') 0 = .ok (some 10, .ptr L')) :=
  have hc : Chain pairMem pairWatched [(0, some 10), (1, some 20)] :=
    ⟨⟨rfl, rfl, trivial⟩, by decide, rfl, rfl, rfl⟩
  have hidx : dll_iteratorGetIdxWithID 3 pairWatched 0 = .ok ((0 : Nat) : Int) := by decide
  have h := iterator_stability 3 pairMem pairWatched _ copyElem natEqual natSmaller 0
    ⟨some 0, 0⟩ 0 (some 10) hc (by decide) (by decide) rfl rfl
  ⟨hc, hidx,
    (h.1 .delete_back rfl).elim fun s' h1 => h1.elim fun L' h1 =>
      ⟨s', L', h1.1, h1.2.1, fun hl => ⟨(h1.2.2 hl).1, (h1.2.2 hl).2 hidx⟩⟩,
    (h.2 1 1 ⟨some 1, 1⟩ 1 (by decide) rfl rfl (by decide) (by decide)).elim
      fun r h2 => h2.elim fun m' h2 => h2.elim fun L' h2 =>
        ⟨r, m', L', h2.1, h2.2.1, h2.2.2 hidx⟩⟩

/-- What `dll_iteratorDeleteCurrentNode` does when the lookup returns: let the list hold
the chain `pre ++ x :: post`, and let the lookup of `id`
resolve to a registry entry positioned on `x`. Then `dll_iteratorDeleteCurrentNode`
returns, the chain afterwards is the old one without `x`, `size` is one less and
`free_data` is called once, on the element of `x`. If `x` had a successor the call
returns 0 and the entry targets that successor; if `x` was the tail of a list of at least
two nodes the call returns 0 and the entry targets the predecessor of `x`, which is the
new tail; if `x` was the only node the call returns 1, `head` and `tail` are `NULL`,
`size` is 0 and the whole registry is empty. -/
theorem iterator_delete_current_resolved {α : Type} (fuel : Nat) (m : Mem α)
    (L : DoublyLinkedList_ADT) (pre post : List (Nat × Option α)) (x : Nat × Option α)
    (id : Int) (idx : Nat) (it : dlliterator) (hc : Chain m L (pre ++ x :: post))
    (hidx : dll_iteratorGetIdxWithID fuel L id = .ok (idx : Int))
    (hit : L.iteratorsArray[idx]? = some it) (hx : it.node = some x.1) :
    ∃ r m' L', dll_iteratorDeleteCurrentNode fuel m (.ptr L) id = .ok (r, m', .ptr L')
      ∧ Chain m' L' (pre ++ post) ∧ L'.size = L.size - 1 ∧ m'.released = m.released ++ [x.2]
      ∧ (∀ y rest, post = y :: rest →
          r = 0 ∧ L'.iteratorsArray[idx]? = some ⟨some y.1, it.id⟩)
      ∧ (post = [] → ∀ init p, pre = init ++ [p] →
          r = 0 ∧ L'.iteratorsArray[idx]? = some ⟨some p.1, it.id⟩ ∧ L'.tail = some p.1)
      ∧ (pre = [] → post = [] →
          r = 1 ∧ L'.head = none ∧ L'.tail = none ∧ L'.size = 0 ∧ L'.iteratorsArray = []) := by
  obtain ⟨m', L', hr, ⟨hc', -, hrel, -⟩, hreg⟩ :=
    iteratorDeleteCurrentNode_chain hc fuel id idx it hidx hit hx
  have hlt : idx < L.iteratorsArray.length := by
    rcases Nat.lt_or_ge idx L.iteratorsArray.length with hl | hl
    · exact hl
    · rw [List.getElem?_eq_none hl] at hit; cases hit
  refine ⟨_, m', L', hr, hc', ?_, hrel, ?_, ?_, ?_⟩
  · rw [hc'.size_eq, hc.size_eq]; simp; omega
  · rintro y rest rfl
    have hne : (pre ++ y :: rest).isEmpty = false := by cases pre <;> rfl
    rw [hne] at hreg
    simp only [Bool.false_eq_true, if_false] at hreg
    refine ⟨by simp [hne], ?_⟩
    rw [hreg, List.getElem?_set_self hlt]
    rfl
  · rintro rfl init p rfl
    have hne : (init ++ [p] ++ []).isEmpty = false := by cases init <;> rfl
    rw [hne] at hreg
    simp only [Bool.false_eq_true, if_false] at hreg
    refine ⟨by simp [hne], ?_, ?_⟩
    · rw [hreg, List.getElem?_set_self hlt]
      simp [lastOr_append]
    · rw [hc'.tail_eq]; simp [lastOr_append]
  · rintro rfl rfl
    exact ⟨rfl, hc'.head_eq, hc'.tail_eq, hc'.size_eq, by simpa using hreg⟩

/-- Example: in `pairWatched`, deleting through iterator 1 (on the tail, node 1)
returns 0 and leaves that iterator on node 0, the new tail. -/
theorem iterator_delete_current_resolved_example :
    Chain pairMem pairWatched ([(0, some 10)] ++ (1, some 20) :: [])
      ∧ dll_iteratorGetIdxWithID 3 pairWatched 1 = .ok ((1 : Nat) : Int)
      ∧ ∃ r m' L', dll_iteratorDeleteCurrentNode 3 pairMem (.ptr pairWatched) 1
            = .ok (r, m', .ptr L')
          ∧ Chain m' L' ([(0, some 10)] ++ []) ∧ L'.size = pairWatched.size - 1
          ∧ m'.released = pairMem.released ++ [some 20]
          ∧ r = 0 ∧ L'.iteratorsArray[1]? = some ⟨some 0, 1⟩ ∧ L'.tail = some 0 :=
  have hc : Chain pairMem pairWatched ([(0, some 10)] ++ (1, some 20) :: []) :=
    ⟨⟨rfl, rfl, trivial⟩, by decide, rfl, rfl, rfl⟩
  ⟨hc, by decide,
    (iterator_delete_current_resolved 3 pairMem pairWatched [(0, some 10)] [] (1, some 20) 1 1
      ⟨some 1, 1⟩ hc (by decide) rfl rfl).elim fun r h => h.elim fun m' h => h.elim fun L' h =>
        ⟨r, m', L', h.1, h.2.1, h.2.2.1, h.2.2.2.1,
          h.2.2.2.2.2.1 rfl [] (0, some 10) rfl⟩⟩

/-- C21: `dll_copy` returns -1 for a null source and for a null destination; it returns
2 for a non-empty destination whatever the (non-null) source is, without looking at the
source's contents; it returns 1 for an empty source with an empty destination. In each
case node memory and both handles, with the structs they point to, are as before. -/
theorem copy_rejects_bad_preconditions {α : Type} (fuel : Nat) (m : Mem α)
    (duplicate : Option α → Option α) (realloc_ok : Bool) (malloc_ok : Nat → Bool) :
    (∀ dest, dll_copy fuel m .NULL dest duplicate realloc_ok malloc_ok
        = .ok (-1, m, .NULL, dest))
      ∧ (∀ src, dll_copy fuel m src .NULL duplicate realloc_ok malloc_ok
        = .ok (-1, m, src, .NULL))
      ∧ (∀ src D, src.isNULL = false → D.size ≠ 0 →
        dll_copy fuel m src (.ptr D) duplicate realloc_ok malloc_ok
          = .ok (2, m, src, .ptr D))
      ∧ (∀ S D, S.size = 0 → D.size = 0 →
        dll_copy fuel m (.ptr S) (.ptr D) duplicate realloc_ok malloc_ok
          = .ok (1, m, .ptr S, .ptr D)) := by
  refine ⟨?_, ?_, ?_, ?_⟩
  · intro dest
    simp [dll_copy, list_t.isNULL]
  · intro src
    cases src <;> simp [dll_copy, list_t.isNULL]
  · intro src D hsrc hD
    cases src with
    | NULL => cases hsrc
    | ptr S => simp [dll_copy, list_t.isNULL, isempty_ptr, hD]
    | dangling => simp [dll_copy, list_t.isNULL, isempty_ptr, hD]
  · intro S D hS hD
    simp [dll_copy, list_t.isNULL, isempty_ptr, hS, hD]

/-- Witness of C21: the non-empty destination `pairFirst` and the empty source and
destination. -/
theorem copy_rejects_bad_preconditions_witness :
    dll_copy 3 pairMem (.ptr pairSecond) (.ptr pairFirst) copyElem true (fun _ => true)
        = .ok (2, pairMem, .ptr pairSecond, .ptr pairFirst)
      ∧ dll_copy 3 pairMem (.ptr ⟨none, none, 0, [], 0⟩) (.ptr ⟨none, none, 0, [], 0⟩)
          copyElem true (fun _ => true)
        = .ok (1, pairMem, .ptr ⟨none, none, 0, [], 0⟩, .ptr ⟨none, none, 0, [], 0⟩) :=
  have h := copy_rejects_bad_preconditions 3 pairMem copyElem true (fun _ => true)
  ⟨h.2.2.1 _ pairFirst rfl (by decide), h.2.2.2 _ _ rfl rfl⟩

/-- C22: let `a` hold the non-empty chain `xs` and `b` the non-empty chain `ys`, in the
same memory and without a common node. Then `dll_append` returns, `a` holds the chain
`xs` followed by `ys`, its `size` is the sum of the two sizes, its `tail` is the old
`tail` of `b`, and it is well-formed. -/
theorem append_concatenates {α : Type} (m : Mem α) (A B : DoublyLinkedList_ADT)
    (xs ys : List (Nat × Option α)) (ha : Chain m A xs) (hb : Chain m B ys)
    (hxs : xs ≠ []) (hys : ys ≠ []) (hdis : ∀ a ∈ xs.map Prod.fst, a ∉ ys.map Prod.fst) :
    ∃ m' A', dll_append m (.ptr A) (.ptr B) = .ok (m', .ptr A', .dangling)
      ∧ Chain m' A' (xs ++ ys) ∧ A'.size = A.size + B.size ∧ A'.tail = B.tail
      ∧ WellFormed m' A' := by
  obtain ⟨m', A', h, hc, hsz, htl, -⟩ := append_chain ha hb hxs hys hdis
  exact ⟨m', A', h, hc, hsz, htl, hc.wellFormed⟩

/-- Witness of C22: A = 1, 2 and B = 3, 4 give A = 1, 2, 3, 4 with size 4. -/
theorem append_concatenates_witness :
    Chain appendMem appendA [(0, some 1), (1, some 2)]
      ∧ Chain appendMem appendB [(2, some 3), (3, some 4)]
      ∧ ∃ m' A', dll_append appendMem (.ptr appendA) (.ptr appendB)
            = .ok (m', .ptr A', .dangling)
          ∧ Chain m' A' ([(0, some 1), (1, some 2)] ++ [(2, some 3), (3, some 4)])
          ∧ A'.size = 4 ∧ A'.tail = some 3 ∧ WellFormed m' A' :=
  have ha : Chain appendMem appendA [(0, some 1), (1, some 2)] :=
    ⟨⟨rfl, rfl, trivial⟩, by decide, rfl, rfl, rfl⟩
  have hb : Chain appendMem appendB [(2, some 3), (3, some 4)] :=
    ⟨⟨rfl, rfl, trivial⟩, by decide, rfl, rfl, rfl⟩
  ⟨ha, hb, append_concatenates appendMem appendA appendB _ _ ha hb (by simp) (by simp)
    (by decide)⟩

/-- C23, what the code does: whenever `dll_append` returns, the caller's handle `b` is
not null: it still points to the struct that was freed (the function assigns `NULL` to
its own parameter `listptrb`, not to `*listptrb`). A further call with `b` does not take
the null-handle branch: `dll_size`, `dll_isempty`, `dll_iteratorRequest` and an insertion
read the freed struct. -/
theorem append_leaves_handle_dangling {α : Type} (m : Mem α) (alist b : list_t)
    (r : Mem α × list_t × list_t) (h : dll_append m alist b = .ok r) :
    r.2.2 = .dangling ∧ r.2.2.isNULL = false
      ∧ dll_size r.2.2 = .fault ∧ dll_isempty r.2.2 = .fault
      ∧ (∀ fuel ok, dll_iteratorRequest fuel r.2.2 ok = .fault)
      ∧ (∀ (e : α) (duplicate : Option α → Option α) ok,
          dll_insert_at_back r.1 r.2.2 (some e) duplicate ok = .fault) := by
  have hb : r.2.2 = .dangling := by
    simp only [dll_append] at h
    obtain ⟨A, -, h⟩ := Res.bind_eq_ok.1 h
    obtain ⟨B, -, h⟩ := Res.bind_eq_ok.1 h
    obtain ⟨m1, -, h⟩ := Res.bind_eq_ok.1 h
    obtain ⟨m2, -, h⟩ := Res.bind_eq_ok.1 h
    injection h with h
    rw [← h]
  rw [hb]
  refine ⟨rfl, rfl, rfl, rfl, ?_, ?_⟩
  · intro fuel ok
    rfl
  · intro e duplicate ok
    rfl

/-- Witness of C23: appending B = 3, 4 to A = 1, 2 in `appendMem`. -/
theorem append_leaves_handle_dangling_witness :
    dll_append appendMem (.ptr appendA) (.ptr appendB)
        = .ok (⟨[some ⟨none, some 1, some 1⟩, some ⟨some 0, some 2, some 2⟩,
                some ⟨some 1, some 3, some 3⟩, some ⟨some 2, none, some 4⟩], []⟩,
            .ptr ⟨some 0, some 3, 4, [], 0⟩, .dangling)
      ∧ dll_isempty (.dangling) = .fault :=
  have h : dll_append appendMem (.ptr appendA) (.ptr appendB)
      = .ok (⟨[some ⟨none, some 1, some 1⟩, some ⟨some 0, some 2, some 2⟩,
              some ⟨some 1, some 3, some 3⟩, some ⟨some 2, none, some 4⟩], []⟩,
          .ptr ⟨some 0, some 3, 4, [], 0⟩, .dangling) := by decide
  ⟨h, (append_leaves_handle_dangling appendMem _ _ _ h).2.2.2.1⟩

/-- Counterexample to C24 as stated. (1) The list 10, 20 with the one iterator 5 and the ID
counter 3 has a registry sorted by ID; `dll_iteratorRequest` with the allocation
succeeding returns -1 and leaves the table with the IDs 5, 3: the ID just appended is not
found, because it is not the largest. (2) With the iterator 0 and the ID counter at
`INT_MAX` the call returns `INT_MAX` and appends the entry, but the counter afterwards is
`INT_MIN`, not one more. -/
theorem iterator_request_needs_ids_below_counter :
    (([⟨some 0, 5⟩] : List dlliterator).map (fun it => it.id)).Pairwise (fun a b => a < b)
      ∧ dll_iteratorRequest 3 (.ptr ⟨some 0, some 1, 2, [⟨some 0, 5⟩], 3⟩) true
        = .ok (-1, .ptr ⟨some 0, some 1, 2, [⟨some 0, 5⟩, ⟨none, 3⟩], 3⟩)
      ∧ dll_iteratorRequest 3 (.ptr ⟨some 0, some 1, 2, [⟨some 0, 0⟩], 2147483647⟩) true
        = .ok (2147483647,
            .ptr ⟨some 0, some 1, 2, [⟨some 0, 0⟩, ⟨some 0, 2147483647⟩], -2147483648⟩)
      ∧ (-2147483648 : Int) ≠ 2147483647 + 1 := by
  decide

/-- C24 as amended: on a non-empty list whose registry holds only IDs below the ID counter
(as in every state the API builds before the counter overflows; the table need not be
sorted), the counter being an `int` below `INT_MAX`, with the table allocation succeeding
and a step budget above the number of entries, `dll_iteratorRequest` returns the current
value of the ID counter; the table afterwards is the old one, entry for entry, followed by
one new entry with that ID on the head node; the counter is one more. -/
theorem iterator_request_appends (fuel : Nat) (L : DoublyLinkedList_ADT) (hs : L.size ≠ 0)
    (hlt : ∀ it ∈ L.iteratorsArray, it.id < L.id_counter)
    (hmin : -2147483648 ≤ L.id_counter) (hmax : L.id_counter < INT_MAX)
    (hf : L.iteratorsArray.length < fuel) :
    dll_iteratorRequest fuel (.ptr L) true
      = .ok (L.id_counter, .ptr { L with
          iteratorsArray := L.iteratorsArray ++ [⟨L.head, L.id_counter⟩],
          id_counter := L.id_counter + 1 }) := by
  have hw : wrapInt (L.id_counter + 1) = L.id_counter + 1 := by
    unfold INT_MAX at hmax
    unfold wrapInt
    omega
  rw [iteratorRequest_last hs hlt fuel hf, hw]

/-- Witness of C24 as amended: a third iterator on `pairWatched`. -/
theorem iterator_request_appends_witness :
    pairWatched.size ≠ 0 ∧ (∀ it ∈ pairWatched.iteratorsArray, it.id < pairWatched.id_counter)
      ∧ pairWatched.id_counter < INT_MAX
      ∧ dll_iteratorRequest 3 (.ptr pairWatched) true
        = .ok (2, .ptr { pairWatched with
            iteratorsArray := [⟨some 0, 0⟩, ⟨some 1, 1⟩] ++ [⟨some 0, 2⟩], id_counter := 3 }) :=
  ⟨by decide, by decide, by decide, iterator_request_appends 3 pairWatched (by decide)
    (by decide) (by decide) (by decide) (by decide)⟩

/-- C25: on an empty list `dll_iteratorRequest` returns 1, the empty-list code, whatever
the outcome of the allocation would be; the registry is empty afterwards and the rest of
the struct, the ID counter included, is as before. In particular when `dll_delete`
removes the only element of a one-element list, it returns 0, `size` is 0 and the next
`dll_iteratorRequest` returns 1. -/
theorem iterator_request_on_empty_list {α : Type} (fuel : Nat) (ok : Bool) :
    (∀ L : DoublyLinkedList_ADT, L.size = 0 →
        dll_iteratorRequest fuel (.ptr L) ok = .ok (1, .ptr { L with iteratorsArray := [] }))
      ∧ (∀ (m : Mem α) (L : DoublyLinkedList_ADT) (x : Nat × Option α) (k : α)
          (is_equal : Option α → Option α → Int),
          Chain m L [x] → is_equal (some k) x.2 ≠ 0 → 0 < fuel →
          ∃ m' L', dll_delete fuel m (.ptr L) (some k) is_equal = .ok (0, m', .ptr L')
            ∧ L'.size = 0 ∧ L'.id_counter = L.id_counter
            ∧ dll_iteratorRequest fuel (.ptr L') ok
              = .ok (1, .ptr { L' with iteratorsArray := [] })) := by
  have h1 : ∀ L : DoublyLinkedList_ADT, L.size = 0 →
      dll_iteratorRequest fuel (.ptr L) ok = .ok (1, .ptr { L with iteratorsArray := [] }) := by
    intro L hs
    simp [dll_iteratorRequest, list_t.isNULL, isempty_ptr, hs, iteratorDeleteAll_ptr]
  refine ⟨h1, ?_⟩
  intro m L x k is_equal hc hm hfuel
  obtain ⟨m', L', h, ⟨hc', hcnt, -⟩, -⟩ :=
    delete_chain (by simpa using hc : Chain m L ([] ++ x :: [])) k is_equal (by simp) hm fuel
      (by simpa using hfuel)
  have hs : L'.size = 0 := hc'.size_eq_zero_iff.2 rfl
  exact ⟨m', L', h, hs, hcnt, h1 L' hs⟩

/-- Witness of C25: deleting the only element of the list 30 of `pairMem`. -/
theorem iterator_request_on_empty_list_witness :
    Chain pairMem pairSecond [(2, some 30)]
      ∧ ∃ m' L', dll_delete 1 pairMem (.ptr pairSecond) (some 30) natEqual = .ok (0, m', .ptr L')
        ∧ L'.size = 0 ∧ L'.id_counter = pairSecond.id_counter
        ∧ dll_iteratorRequest 1 (.ptr L') true = .ok (1, .ptr { L' with iteratorsArray := [] }) :=
  have hc : Chain pairMem pairSecond [(2, some 30)] :=
    ⟨⟨rfl, trivial⟩, by decide, rfl, rfl, rfl⟩
  ⟨hc, (@iterator_request_on_empty_list Nat 1 true).2 pairMem pairSecond (2, some 30) 30
    natEqual hc (by decide) (by decide)⟩

/-- C27, the code at a failing input: on a one-element list two calls of
`dll_iteratorRequest` succeed and return the IDs 0 and 1; after `dll_delete` has emptied
the list a third call fails and returns 1 as well, the value the second, successful call
returned on the same list. (The error value -1 is never an ID as long as the counter is
not negative.) -/
theorem iterator_request_empty_code_is_an_id :
    (insert_all_back copyElem (Mem.empty : Mem Nat) (dll_init true true).2 [some 10]
        >>= fun r => dll_iteratorRequest 3 r.2.2 true
        >>= fun r1 => dll_iteratorRequest 3 r1.2 true
        >>= fun r2 => dll_delete 3 r.2.1 r2.2 (some 10) natEqual
        >>= fun d => dll_isempty d.2.2
        >>= fun e => dll_iteratorRequest 3 d.2.2 true
        >>= fun r3 => .ok (r1.1, r2.1, d.1, e, r3.1))
      = .ok (0, 1, 0, 1, 1) := by
  decide

/-- What `dll_iteratorNext` and `dll_iteratorPrev` do when the lookup returns: let the
list hold the chain `pre ++ x :: post` and let the lookup of `id` resolve
to the registry entry `it` at index `idx`, positioned on `x`. If `x` has a successor,
`dll_iteratorNext` returns 0 and the registry afterwards is the old one with the target
of that entry moved to the successor; if `x` is the tail it returns 2 and leaves the list
struct, registry included, as it was, so that a second call returns 2 again.
`dll_iteratorPrev` does the same towards the head. No other entry, and no ID, changes. -/
theorem iterator_next_prev_resolved {α : Type} (fuel : Nat) (m : Mem α)
    (L : DoublyLinkedList_ADT) (pre post : List (Nat × Option α)) (x : Nat × Option α)
    (id : Int) (idx : Nat) (it : dlliterator) (hc : Chain m L (pre ++ x :: post))
    (hidx : dll_iteratorGetIdxWithID fuel L id = .ok (idx : Int))
    (hit : L.iteratorsArray[idx]? = some it) (hx : it.node = some x.1) :
    (∀ y rest, post = y :: rest →
        dll_iteratorNext fuel m (.ptr L) id
          = .ok (0, .ptr { L with
              iteratorsArray := L.iteratorsArray.set idx ⟨some y.1, it.id⟩ }))
      ∧ (post = [] →
        dll_iteratorNext fuel m (.ptr L) id = .ok (2, .ptr L)
          ∧ (dll_iteratorNext fuel m (.ptr L) id >>= fun r => dll_iteratorNext fuel m r.2 id)
            = .ok (2, .ptr L))
      ∧ (∀ init p, pre = init ++ [p] →
        dll_iteratorPrev fuel m (.ptr L) id
          = .ok (0, .ptr { L with
              iteratorsArray := L.iteratorsArray.set idx ⟨some p.1, it.id⟩ }))
      ∧ (pre = [] →
        dll_iteratorPrev fuel m (.ptr L) id = .ok (2, .ptr L)
          ∧ (dll_iteratorPrev fuel m (.ptr L) id >>= fun r => dll_iteratorPrev fuel m r.2 id)
            = .ok (2, .ptr L)) := by
  have hn := iteratorNext_resolved hc hidx hit hx
  have hp := iteratorPrev_resolved hc hidx hit hx
  refine ⟨?_, ?_, ?_, ?_⟩
  · rintro y rest rfl
    rw [hn]; rfl
  · rintro rfl
    have h2 : dll_iteratorNext fuel m (.ptr L) id = .ok (2, .ptr L) := by rw [hn]; rfl
    exact ⟨h2, by rw [h2]; exact h2⟩
  · rintro init p rfl
    rw [hp]
    have : (init ++ [p]).isEmpty = false := by cases init <;> rfl
    simp [this, lastOr_append]
  · rintro rfl
    have h2 : dll_iteratorPrev fuel m (.ptr L) id = .ok (2, .ptr L) := by rw [hp]; rfl
    exact ⟨h2, by rw [h2]; exact h2⟩

/-- Example: in `pairWatched` the iterator 0 (on the head, node 0) moves to node 1
with `dll_iteratorNext` and stays with `dll_iteratorPrev`. -/
theorem iterator_next_prev_resolved_example :
    Chain pairMem pairWatched ([] ++ (0, some 10) :: [(1, some 20)])
      ∧ dll_iteratorGetIdxWithID 3 pairWatched 0 = .ok ((0 : Nat) : Int)
      ∧ dll_iteratorNext 3 pairMem (.ptr pairWatched) 0
        = .ok (0, .ptr { pairWatched with
            iteratorsArray := pairWatched.iteratorsArray.set 0 ⟨some 1, 0⟩ })
      ∧ dll_iteratorPrev 3 pairMem (.ptr pairWatched) 0 = .ok (2, .ptr pairWatched) :=
  have hc : Chain pairMem pairWatched ([] ++ (0, some 10) :: [(1, some 20)]) :=
    ⟨⟨rfl, rfl, trivial⟩, by decide, rfl, rfl, rfl⟩
  have hidx : dll_iteratorGetIdxWithID 3 pairWatched 0 = .ok ((0 : Nat) : Int) := by decide
  have h := iterator_next_prev_resolved 3 pairMem pairWatched [] [(1, some 20)] (0, some 10) 0 0
    ⟨some 0, 0⟩ hc hidx rfl rfl
  ⟨hc, hidx, h.1 (1, some 20) [] rfl, (h.2.2.2 rfl).1⟩

theorem pairFive_search_cycle : ∀ fuel : Nat,
    dll_iteratorBinarySearch pairFive 1 fuel 0 1 = .timeout
      ∧ dll_iteratorBinarySearch pairFive 1 fuel 1 4 = .timeout := by
  intro fuel
  induction fuel with
  | zero => exact ⟨rfl, rfl⟩
  | succ k ih =>
    have h1 : dll_iteratorBinarySearch pairFive 1 (k + 1) 0 1
        = dll_iteratorBinarySearch pairFive 1 k 1 4 := rfl
    have h2 : dll_iteratorBinarySearch pairFive 1 (k + 1) 1 4
        = dll_iteratorBinarySearch pairFive 1 k 0 1 := rfl
    exact ⟨h1.trans ih.2, h2.trans ih.1⟩

/-- C29, the code at a failing input: the list 10, 20 with the five iterators 0 to 4 that
five calls of `dll_iteratorRequest` leave (a table strictly sorted by ID, in which the ID 1
is registered). `dll_iteratorGetObj` with the ID 1 does not return, whatever the step
budget: the ID search goes from the range [0, 4] to [0, 1], then to [1, 4], then back to
[0, 1], and so on. With the ID 3 the same call returns the element of the head. -/
theorem iterator_get_obj_lookup_diverges :
    (insert_all_back copyElem (Mem.empty : Mem Nat) (dll_init true true).2 [some 10, some 20]
        >>= fun r => dll_iteratorRequest 5 r.2.2 true
        >>= fun r1 => dll_iteratorRequest 5 r1.2 true
        >>= fun r2 => dll_iteratorRequest 5 r2.2 true
        >>= fun r3 => dll_iteratorRequest 5 r3.2 true
        >>= fun r4 => dll_iteratorRequest 5 r4.2 true
        >>= fun r5 => .ok r5.2) = .ok (.ptr pairFive)
      ∧ (pairFive.iteratorsArray.map (fun it => it.id)).Pairwise (fun a b => a < b)
      ∧ pairFive.iteratorsArray[1]? = some ⟨some 0, 1⟩
      ∧ (∀ fuel, dll_iteratorGetObj fuel pairMem (.ptr pairFive) 1 = .timeout)
      ∧ dll_iteratorGetObj 5 pairMem (.ptr pairFive) 3 = .ok (some 10, .ptr pairFive) := by
  refine ⟨by decide, by decide, rfl, ?_, by decide⟩
  intro fuel
  cases fuel with
  | zero => rfl
  | succ k =>
    have h : dll_iteratorGetObj (k + 1) pairMem (.ptr pairFive) 1
        = (dll_iteratorBinarySearch pairFive 1 k 0 1 >>= fun idx =>
            if idx = -1 then Res.ok (none, list_t.ptr pairFive)
            else pairFive.iterAt idx >>= fun it =>
              pairMem.load it.node >>= fun n => Res.ok (n.data, list_t.ptr pairFive)) := rfl
    rw [h, (pairFive_search_cycle k).1]
    rfl

/-- What `dll_iteratorCopy` does when the lookups return: let the list hold the non-empty
chain `xs`.
(1) Copy construction: if the lookup of `src` resolves to an entry `s` positioned on a
node of the list, the registry IDs are below the non-negative ID counter and the table
allocation succeeds, `dll_iteratorCopy` with `*dest == -1` returns 0, sets `*dest` to the
value of the ID counter and appends one entry with that ID and the target of `s`; the
counter is incremented as an `int`. Afterwards `dll_iteratorNext` through the new ID leaves the entry of
`src` as it is, and `dll_iteratorNext` through `src`, if its lookup still resolves in the
longer table, leaves the new entry as it is.
(2) Assignment: if moreover the lookup of `dest` resolves to the entry `d`,
`dll_iteratorCopy` returns 0 and only that entry changes, its target becoming that of
`s`; if `dest` and `src` are different IDs, `dll_iteratorNext` through one leaves the
entry of the other as it is.
(3) A `dest` other than -1 whose lookup finds nothing gives -1, and (4) a `src` whose
lookup finds nothing gives 2; in both cases the list struct and `*dest` are unchanged. -/
theorem iterator_copy_resolved {α : Type} (fuel : Nat) (m : Mem α) (L : DoublyLinkedList_ADT)
    (xs : List (Nat × Option α)) (src : Int) (hc : Chain m L xs) (hne : xs ≠ []) :
    (∀ (srcIdx : Nat) (s : dlliterator) (a : Nat),
        dll_iteratorGetIdxWithID fuel L src = .ok (srcIdx : Int) →
        L.iteratorsArray[srcIdx]? = some s → s.node = some a → a ∈ xs.map Prod.fst →
        (∀ it ∈ L.iteratorsArray, it.id < L.id_counter) → 0 ≤ L.id_counter →
        L.iteratorsArray.length + 1 < fuel →
        ∃ L', dll_iteratorCopy fuel (.ptr L) src (-1) true = .ok (0, .ptr L', L.id_counter)
          ∧ L'.iteratorsArray = L.iteratorsArray ++ [⟨s.node, L.id_counter⟩]
          ∧ L'.id_counter = wrapInt (L.id_counter + 1)
          ∧ NextLeaves fuel m L' L.id_counter srcIdx
          ∧ (dll_iteratorGetIdxWithID fuel L' src = .ok (srcIdx : Int) →
              NextLeaves fuel m L' src L.iteratorsArray.length))
      ∧ (∀ (srcIdx dIdx : Nat) (s d : dlliterator) (a : Nat) (dest : Int) (ok : Bool),
        dll_iteratorGetIdxWithID fuel L src = .ok (srcIdx : Int) →
        L.iteratorsArray[srcIdx]? = some s → s.node = some a → a ∈ xs.map Prod.fst →
        dest ≠ -1 → dll_iteratorGetIdxWithID fuel L dest = .ok (dIdx : Int) →
        L.iteratorsArray[dIdx]? = some d →
        ∃ L', dll_iteratorCopy fuel (.ptr L) src dest ok = .ok (0, .ptr L', dest)
          ∧ L'.iteratorsArray = L.iteratorsArray.set dIdx ⟨s.node, d.id⟩
          ∧ L'.id_counter = L.id_counter
          ∧ (dest ≠ src → NextLeaves fuel m L' dest srcIdx ∧ NextLeaves fuel m L' src dIdx))
      ∧ (∀ (srcIdx : Nat) (dest : Int) (ok : Bool),
        dll_iteratorGetIdxWithID fuel L src = .ok (srcIdx : Int) → dest ≠ -1 →
        dll_iteratorGetIdxWithID fuel L dest = .ok (-1) →
        dll_iteratorCopy fuel (.ptr L) src dest ok = .ok (-1, .ptr L, dest))
      ∧ (∀ (dest : Int) (ok : Bool), dll_iteratorGetIdxWithID fuel L src = .ok (-1) →
        dll_iteratorCopy fuel (.ptr L) src dest ok = .ok (2, .ptr L, dest)) := by
  have hs : L.size ≠ 0 := by rw [hc.size_eq]; simpa using hne
  refine ⟨?_, ?_, ?_, ?_⟩
  · intro srcIdx s a hsrc hsit hnode ha hlt hcnt hf
    have hlt2 : srcIdx < L.iteratorsArray.length := by
      rcases Nat.lt_or_ge srcIdx L.iteratorsArray.length with hl | hl
      · exact hl
      · rw [List.getElem?_eq_none hl] at hsit; cases hsit
    have hc' : Chain m { L with
        iteratorsArray := L.iteratorsArray ++ [⟨s.node, L.id_counter⟩],
        id_counter := wrapInt (L.id_counter + 1) } xs :=
      ⟨hc.seg, hc.nodup, hc.head_eq, hc.tail_eq, hc.size_eq⟩
    have hlast := @getIdxWithID_last
      { L with iteratorsArray := L.iteratorsArray ++ [⟨s.node, L.id_counter⟩],
               id_counter := wrapInt (L.id_counter + 1) }
      L.iteratorsArray s.node L.id_counter rfl hlt fuel (by omega)
    refine ⟨_, iteratorCopy_construct hs hsrc hsit hlt hcnt (by omega), rfl, rfl, ?_, ?_⟩
    · have hget : (L.iteratorsArray ++ [(⟨s.node, L.id_counter⟩ : dlliterator)])[
          L.iteratorsArray.length]? = some ⟨s.node, L.id_counter⟩ := by simp
      exact next_leaves hc' hlast hget hnode ha (by omega)
    · intro hsrc'
      exact next_leaves hc' hsrc' (by
        show (L.iteratorsArray ++ [(⟨s.node, L.id_counter⟩ : dlliterator)])[srcIdx]? = some s
        rw [List.getElem?_append_left hlt2]; exact hsit) hnode ha (by omega)
  · intro srcIdx dIdx s d a dest ok hsrc hsit hnode ha hd hdest hdit
    have hc' : Chain m { L with
        iteratorsArray := L.iteratorsArray.set dIdx { d with node := s.node } } xs :=
      ⟨hc.seg, hc.nodup, hc.head_eq, hc.tail_eq, hc.size_eq⟩
    have hids : ({ L with
        iteratorsArray := L.iteratorsArray.set dIdx { d with node := s.node } } :
          DoublyLinkedList_ADT).iteratorsArray.map (fun it => it.id)
        = L.iteratorsArray.map (fun it => it.id) := set_node_ids hdit _
    have hdlt : dIdx < L.iteratorsArray.length := by
      rcases Nat.lt_or_ge dIdx L.iteratorsArray.length with hl | hl
      · exact hl
      · rw [List.getElem?_eq_none hl] at hdit; cases hdit
    refine ⟨_, iteratorCopy_assign hs hsrc hsit hd hdest hdit ok, rfl, rfl, ?_⟩
    intro hds
    have hneq : dIdx ≠ srcIdx := by
      rintro rfl
      rcases getIdxWithID_sound hsrc with h | ⟨i, it1, hi, hg1, hid1⟩
      · omega
      rcases getIdxWithID_sound hdest with h | ⟨j, it2, hj, hg2, hid2⟩
      · omega
      have hij : i = j := by omega
      subst hij
      rw [hg1] at hg2
      injection hg2 with hg2
      subst hg2
      exact hds (hid2.symm.trans hid1)
    constructor
    · have hget : (L.iteratorsArray.set dIdx { d with node := s.node })[dIdx]?
          = some { d with node := s.node } := List.getElem?_set_self hdlt
      exact next_leaves hc' (by rw [getIdxWithID_ids hids]; exact hdest) hget hnode ha hneq
    · have hget : (L.iteratorsArray.set dIdx { d with node := s.node })[srcIdx]? = some s := by
        rw [List.getElem?_set_ne hneq]; exact hsit
      exact next_leaves hc' (by rw [getIdxWithID_ids hids]; exact hsrc) hget hnode ha
        (Ne.symm hneq)
  · intro srcIdx dest ok hsrc hd hdest
    exact iteratorCopy_no_dest hs hsrc hd hdest ok
  · intro dest ok hsrc
    exact iteratorCopy_no_src hs hsrc dest ok

/-- Example on `pairWatched` (iterator 0 on node 0, iterator 1 on node 1): a copy
of iterator 1 into a new iterator, which gets the ID 2, and into iterator 0. -/
theorem iterator_copy_resolved_example :
    Chain pairMem pairWatched [(0, some 10), (1, some 20)]
      ∧ dll_iteratorGetIdxWithID 4 pairWatched 1 = .ok ((1 : Nat) : Int)
      ∧ (∃ L', dll_iteratorCopy 4 (.ptr pairWatched) 1 (-1) true = .ok (0, .ptr L', 2)
          ∧ L'.iteratorsArray = [⟨some 0, 0⟩, ⟨some 1, 1⟩] ++ [⟨some 1, 2⟩]
          ∧ L'.id_counter = 3 ∧ NextLeaves 4 pairMem L' 2 1)
      ∧ (∃ L', dll_iteratorCopy 4 (.ptr pairWatched) 1 0 true = .ok (0, .ptr L', 0)
          ∧ L'.iteratorsArray = [⟨some 1, 0⟩, ⟨some 1, 1⟩]
          ∧ NextLeaves 4 pairMem L' 0 1 ∧ NextLeaves 4 pairMem L' 1 0) :=
  have hc : Chain pairMem pairWatched [(0, some 10), (1, some 20)] :=
    ⟨⟨rfl, rfl, trivial⟩, by decide, rfl, rfl, rfl⟩
  have hsrc : dll_iteratorGetIdxWithID 4 pairWatched 1 = .ok ((1 : Nat) : Int) := by decide
  have h := iterator_copy_resolved 4 pairMem pairWatched _ 1 hc (by simp)
  ⟨hc, hsrc,
    (h.1 1 ⟨some 1, 1⟩ 1 hsrc rfl rfl (by decide) (by decide) (by decide) (by decide)).elim
      fun L' e => ⟨L', e.1, e.2.1, e.2.2.1, e.2.2.2.1⟩,
    (h.2.1 1 0 ⟨some 1, 1⟩ ⟨some 0, 0⟩ 1 0 true hsrc rfl rfl (by decide) (by decide)
      (by decide) rfl).elim
      fun L' e => ⟨L', e.1, e.2.1, (e.2.2.2 (by decide)).1, (e.2.2.2 (by decide)).2⟩⟩

/-- C26: take any sequence of operations on one list, started at `dll_init`: the five
insertions, the three deletions, `dll_get_front`, `dll_get_back` and every iterator
operation (request, begin, end, next, previous, get, copy, delete of the current node,
`dll_iteratorDelete`, `dll_iteratorDeleteAll`), with any outcome of the allocations. If
the sequence runs to its end and the `int` counter has not overflowed before its last
issue, that is, at most 2^31 IDs were issued, then the IDs issued along it, in the order
of the calls, are strictly increasing, so no ID occurs twice. An ID is issued by a
`dll_iteratorRequest` on a non-empty list that does not return -1, and by a
`dll_iteratorCopy` into a new iterator (`*dest == -1`) that returns 0, which requests it.
`fuel` only has to be at least the number of operations. `dll_size`, `dll_isempty`,
`dll_print` and `dll_edit_data` leave the list struct alone and are not part of `Op`;
neither are the operations on two lists or `dll_destroy`. -/
theorem issued_ids_strictly_increase {α : Type} (fuel : Nat) (duplicate : Option α → Option α)
    (is_equal issmaller : Option α → Option α → Int) (ops : List (Op α)) (t : TraceState α)
    (hfuel : ops.length ≤ fuel)
    (h : trace fuel duplicate is_equal issmaller ops ⟨RunState.init, []⟩ = .ok t)
    (hno : t.issued.length ≤ 2147483648) :
    t.issued.Pairwise (fun a b => a < b) ∧ t.issued.Nodup := by
  have hinv := trace_inv duplicate is_equal issmaller ops 0 _ t traceInv_init
    (by omega) h
  obtain ⟨-, L, -, hiss⟩ := hinv
  obtain ⟨-, hi⟩ := hiss hno
  have hp : t.issued.Pairwise (fun a b => a < b) := by
    rw [hi, List.pairwise_map]
    exact (List.pairwise_lt_range _).imp (fun hab => Int.ofNat_lt.2 hab)
  exact ⟨hp, hp.imp (fun hab => ne_of_lt hab)⟩

/-- Witness of C26 on `sampleOps`: IDs 0 and 1 are requested, iterator 0 is deleted, the
copy of iterator 1 gets ID 2, the table is emptied, ID 3 is requested, the list is emptied
(the request on the empty list issues nothing), and the next request gets ID 4. -/
theorem issued_ids_strictly_increase_witness :
    sampleOps.length ≤ 20
      ∧ ∃ t, trace 20 copyElem natEqual natSmaller sampleOps ⟨RunState.init, []⟩ = .ok t
          ∧ t.issued = [0, 1, 2, 3, 4] ∧ t.issued.length ≤ 2147483648
          ∧ t.issued.Pairwise (fun a b => a < b) ∧ t.issued.Nodup :=
  ⟨by decide, _, rfl, rfl, by decide,
    issued_ids_strictly_increase 20 copyElem natEqual natSmaller sampleOps _ (by decide) rfl
      (by decide)⟩

/-- What `dll_iteratorDelete` does when the lookup returns: on a non-empty list, when the
lookup resolves `id` to the index `idx`, the entry
there has the ID `id`, and `dll_iteratorDelete` with the shrinking allocation succeeding
returns 0 and leaves the table made of the entries before `idx` followed by the entries
after `idx`, each as it was: one entry fewer, the others with their IDs, targets and
order. When the lookup finds nothing, which is what it answers for an ID no entry holds
whenever it answers, the call returns -1 and the list struct is as before. -/
theorem iterator_delete_resolved (fuel : Nat) (L : DoublyLinkedList_ADT) (id : Int)
    (hs : L.size ≠ 0) :
    (∀ idx : Nat, dll_iteratorGetIdxWithID fuel L id = .ok (idx : Int) →
        ∃ it, L.iteratorsArray[idx]? = some it ∧ it.id = id
          ∧ dll_iteratorDelete fuel (.ptr L) id true
            = .ok (0, .ptr { L with
                iteratorsArray := L.iteratorsArray.take idx ++ L.iteratorsArray.drop (idx + 1) })
          ∧ (L.iteratorsArray.take idx ++ L.iteratorsArray.drop (idx + 1)).length + 1
            = L.iteratorsArray.length)
      ∧ (dll_iteratorGetIdxWithID fuel L id = .ok (-1) →
          ∀ ok, dll_iteratorDelete fuel (.ptr L) id ok = .ok (-1, .ptr L))
      ∧ ((∀ it ∈ L.iteratorsArray, it.id ≠ id) →
          ∀ r ok, dll_iteratorGetIdxWithID fuel L id = .ok r →
            dll_iteratorDelete fuel (.ptr L) id ok = .ok (-1, .ptr L)) := by
  refine ⟨?_, ?_, ?_⟩
  · intro idx hidx
    rcases getIdxWithID_sound hidx with h | ⟨i, it, hi, hget, hid⟩
    · omega
    · have hii : i = idx := by omega
      subst hii
      obtain ⟨hsplit, hlen⟩ := split_at_entry hget
      have hidx2 : dll_iteratorGetIdxWithID fuel L id
          = .ok (((L.iteratorsArray.take i).length : Nat) : Int) := by rw [hlen]; exact hidx
      have h := iteratorDelete_at hs hsplit hidx2 true
      simp only [Bool.true_eq_false, false_and, if_false] at h
      refine ⟨it, hget, hid, h, ?_⟩
      have := congrArg List.length hsplit
      simp only [List.length_append, List.length_cons] at this ⊢
      omega
  · intro hidx ok
    exact iteratorDelete_miss hs hidx ok
  · intro hno r ok hidx
    rcases getIdxWithID_sound hidx with h | ⟨i, it, -, hget, hid⟩
    · rw [h] at hidx
      exact iteratorDelete_miss hs hidx ok
    · exact absurd hid (hno it (List.getElem?_mem hget))

/-- Example: deleting the iterator 0 of `pairWatched` leaves the iterator 1 alone. -/
theorem iterator_delete_resolved_example :
    pairWatched.size ≠ 0
      ∧ dll_iteratorGetIdxWithID 3 pairWatched 0 = .ok ((0 : Nat) : Int)
      ∧ dll_iteratorDelete 3 (.ptr pairWatched) 0 true
        = .ok (0, .ptr { pairWatched with iteratorsArray := [⟨some 1, 1⟩] })
      ∧ dll_iteratorDelete 3 (.ptr pairWatched) 7 true = .ok (-1, .ptr pairWatched) :=
  have h := iterator_delete_resolved 3 pairWatched
  ⟨by decide, by decide,
    ((h 0 (by decide)).1 0 (by decide)).elim fun _ e => e.2.2.1,
    (h 7 (by decide)).2.1 (by decide) true⟩

/-- C32, what the code does: when the shrinking allocation fails and at least one entry
would remain, `dll_iteratorDelete` returns -1 and puts the entries back, but the entry it
restores at index `idx` carries the ID `idx` (the saved copy is made with
`backup.id = idx`), with its old target. The registry is in its prior state exactly when
the ID deleted equals the index it stood at. -/
theorem iterator_delete_rollback_overwrites_id (fuel : Nat) (L : DoublyLinkedList_ADT)
    (id : Int) (idx : Nat) (it : dlliterator) (hs : L.size ≠ 0)
    (hidx : dll_iteratorGetIdxWithID fuel L id = .ok (idx : Int))
    (hit : L.iteratorsArray[idx]? = some it) (hmore : 2 ≤ L.iteratorsArray.length) :
    dll_iteratorDelete fuel (.ptr L) id false
        = .ok (-1, .ptr { L with
            iteratorsArray := L.iteratorsArray.set idx ⟨it.node, (idx : Int)⟩ })
      ∧ (L.iteratorsArray.set idx ⟨it.node, (idx : Int)⟩ = L.iteratorsArray ↔ id = (idx : Int)) := by
  have hid : it.id = id := by
    rcases getIdxWithID_sound hidx with h | ⟨i, it2, hi, hget, hid⟩
    · omega
    · have hii : i = idx := by omega
      subst hii
      rw [hit] at hget
      injection hget with hget
      rw [hget]; exact hid
  obtain ⟨hsplit, hlen⟩ := split_at_entry hit
  have hidx2 : dll_iteratorGetIdxWithID fuel L id
      = .ok (((L.iteratorsArray.take idx).length : Nat) : Int) := by rw [hlen]; exact hidx
  have h := iteratorDelete_at hs hsplit hidx2 false
  have hne : L.iteratorsArray.take idx ++ L.iteratorsArray.drop (idx + 1) ≠ [] := by
    intro h0
    have h1 := congrArg List.length hsplit
    have h2 := congrArg List.length h0
    simp only [List.length_append, List.length_cons, List.length_nil] at h1 h2
    omega
  rw [if_pos ⟨rfl, hne⟩, hlen] at h
  have hset : L.iteratorsArray.set idx ⟨it.node, (idx : Int)⟩
      = L.iteratorsArray.take idx ++ ⟨it.node, (idx : Int)⟩ :: L.iteratorsArray.drop (idx + 1) := by
    conv_lhs => rw [hsplit]
    rw [List.set_append_right _ _ (by rw [hlen]), hlen, Nat.sub_self]
    rfl
  refine ⟨by rw [hset]; exact h, ?_⟩
  rw [hset]
  constructor
  · intro heq
    have h1 : L.iteratorsArray.take idx ++ ⟨it.node, (idx : Int)⟩ :: L.iteratorsArray.drop (idx + 1)
        = L.iteratorsArray.take idx ++ it :: L.iteratorsArray.drop (idx + 1) :=
      heq.trans hsplit
    have h2 := List.append_cancel_left h1
    injection h2 with h2 _
    rw [← hid, ← h2]
  · intro heq
    have h1 : (⟨it.node, (idx : Int)⟩ : dlliterator) = it := by
      rw [← heq, ← hid]
    rw [h1]
    exact hsplit.symm

/-- Witness of C32: the list 10, 20 with the iterators 0, 1, 2 requested and the iterator 0
deleted is `pairGap`, whose table holds the IDs 1 and 2; a `dll_iteratorDelete` of the
iterator 2 whose allocation fails returns -1 and leaves the IDs 1 and 1. -/
theorem iterator_delete_rollback_overwrites_id_witness :
    (insert_all_back copyElem (Mem.empty : Mem Nat) (dll_init true true).2 [some 10, some 20]
        >>= fun r => dll_iteratorRequest 4 r.2.2 true
        >>= fun r1 => dll_iteratorRequest 4 r1.2 true
        >>= fun r2 => dll_iteratorRequest 4 r2.2 true
        >>= fun r3 => dll_iteratorDelete 4 r3.2 0 true
        >>= fun d => .ok d.2) = .ok (.ptr pairGap)
      ∧ dll_iteratorGetIdxWithID 4 pairGap 2 = .ok ((1 : Nat) : Int)
      ∧ dll_iteratorDelete 4 (.ptr pairGap) 2 false
        = .ok (-1, .ptr { pairGap with iteratorsArray := [⟨some 0, 1⟩, ⟨some 0, 1⟩] })
      ∧ pairGap.iteratorsArray = [⟨some 0, 1⟩, ⟨some 0, 2⟩] :=
  ⟨by decide, by decide,
    (iterator_delete_rollback_overwrites_id 4 pairGap 2 1 ⟨some 0, 2⟩ (by decide) (by decide)
      rfl (by decide)).1, rfl⟩

/-- C34: whatever the lookup `dll_iteratorGetIdxWithID` returns is correct. On a table
strictly sorted by ID, a result is -1 or an index of the table; at an index it returns the
entry has the ID asked for, and when it returns -1 no entry has that ID. On an empty table
it returns -1. -/
theorem id_lookup_results_correct (fuel : Nat) (L : DoublyLinkedList_ADT) (id : Int) :
    ((L.iteratorsArray.map (fun it => it.id)).Pairwise (fun a b => a < b) →
        ∀ r, dll_iteratorGetIdxWithID fuel L id = .ok r →
          (r = -1 ∨ (0 ≤ r ∧ r < L.iteratorsCount))
            ∧ (0 ≤ r → ∃ it, L.iteratorsArray[r.toNat]? = some it ∧ it.id = id)
            ∧ (r = -1 → ∀ it ∈ L.iteratorsArray, it.id ≠ id))
      ∧ (L.iteratorsArray = [] → dll_iteratorGetIdxWithID fuel L id = .ok (-1)) := by
  refine ⟨?_, ?_⟩
  · intro hsort r h
    refine ⟨?_, ?_, ?_⟩
    · rcases getIdxWithID_sound h with h1 | ⟨i, it, hi, hget, -⟩
      · exact Or.inl h1
      · obtain ⟨hlt, -⟩ := List.getElem?_eq_some.1 hget
        right
        simp only [DoublyLinkedList_ADT.iteratorsCount]
        omega
    · intro h0
      rcases getIdxWithID_sound h with h1 | ⟨i, it, hi, hget, hid⟩
      · omega
      · refine ⟨it, ?_, hid⟩
        rw [hi, Int.toNat_ofNat]; exact hget
    · intro h1
      rw [h1] at h
      exact getIdxWithID_complete hsort h
  · intro he
    simp [dll_iteratorGetIdxWithID, DoublyLinkedList_ADT.iteratorsCount, he]

/-- Witness of C34 on the table of `pairFive` (IDs 0 to 4): the ID 3 is found at index 3,
and the ID 7, which no entry has, gives -1. -/
theorem id_lookup_results_correct_witness :
    (pairFive.iteratorsArray.map (fun it => it.id)).Pairwise (fun a b => a < b)
      ∧ dll_iteratorGetIdxWithID 5 pairFive 3 = .ok 3
      ∧ (∃ it, pairFive.iteratorsArray[(3 : Int).toNat]? = some it ∧ it.id = 3)
      ∧ dll_iteratorGetIdxWithID 5 pairFive 7 = .ok (-1)
      ∧ ∀ it ∈ pairFive.iteratorsArray, it.id ≠ 7 :=
  have hs : (pairFive.iteratorsArray.map (fun it => it.id)).Pairwise (fun a b => a < b) := by
    decide
  have h3 : dll_iteratorGetIdxWithID 5 pairFive 3 = .ok 3 := by decide
  have h7 : dll_iteratorGetIdxWithID 5 pairFive 7 = .ok (-1) := by decide
  ⟨hs, h3, ((id_lookup_results_correct 5 pairFive 3).1 hs 3 h3).2.1 (by decide), h7,
    ((id_lookup_results_correct 5 pairFive 7).1 hs (-1) h7).2.2 rfl⟩

theorem pairFour_search_cycle : ∀ fuel : Nat,
    dll_iteratorBinarySearch pairFour 2 fuel 0 1 = .timeout
      ∧ dll_iteratorBinarySearch pairFour 2 fuel 1 3 = .timeout := by
  intro fuel
  induction fuel with
  | zero => exact ⟨rfl, rfl⟩
  | succ k ih =>
    have h1 : dll_iteratorBinarySearch pairFour 2 (k + 1) 0 1
        = dll_iteratorBinarySearch pairFour 2 k 1 3 := rfl
    have h2 : dll_iteratorBinarySearch pairFour 2 (k + 1) 1 3
        = dll_iteratorBinarySearch pairFour 2 k 0 1 := rfl
    exact ⟨h1.trans ih.2, h2.trans ih.1⟩

/-- C35, the code at two failing inputs. The table of `pairFive` (IDs 0, 1, 2, 3, 4, as
five calls of `dll_iteratorRequest` leave it) is strictly sorted and not empty, and the
lookup of the registered ID 1 does not return, whatever the step budget: the search goes
from the range [0, 4] to [0, 1], to [1, 4], back to [0, 1], and so on. After
`dll_iteratorDelete` of the iterator 2 the table holds the IDs 0, 1, 3, 4, and the lookup
of the ID 2, now unregistered, does not return either: [0, 3], [2, 3], [0, 1], [1, 3],
[0, 1], and so on. -/
theorem id_lookup_diverges :
    (pairFive.iteratorsArray.map (fun it => it.id)).Pairwise (fun a b => a < b)
      ∧ pairFive.iteratorsArray[1]? = some ⟨some 0, 1⟩
      ∧ (∀ fuel, dll_iteratorGetIdxWithID fuel pairFive 1 = .timeout)
      ∧ dll_iteratorDelete 5 (.ptr pairFive) 2 true = .ok (0, .ptr pairFour)
      ∧ (pairFour.iteratorsArray.map (fun it => it.id)).Pairwise (fun a b => a < b)
      ∧ (∀ it ∈ pairFour.iteratorsArray, it.id ≠ 2)
      ∧ (∀ fuel, dll_iteratorGetIdxWithID fuel pairFour 2 = .timeout) := by
  refine ⟨by decide, rfl, ?_, by decide, by decide, by decide, ?_⟩
  · intro fuel
    cases fuel with
    | zero => rfl
    | succ k =>
      have h : dll_iteratorGetIdxWithID (k + 1) pairFive 1
          = dll_iteratorBinarySearch pairFive 1 k 0 1 := rfl
      rw [h]; exact (pairFive_search_cycle k).1
  · intro fuel
    cases fuel with
    | zero => rfl
    | succ k =>
      cases k with
      | zero => rfl
      | succ j =>
        have h : dll_iteratorGetIdxWithID (j + 1 + 1) pairFour 2
            = dll_iteratorBinarySearch pairFour 2 j 0 1 := rfl
        rw [h]; exact (pairFour_search_cycle j).1

/-- Counterexample to C36 as stated: a list with one element, started at `dll_init`. An
iterator is requested and all iterators are deleted, 2147483647 times over; this brings the
ID counter to `INT_MAX`. The next request registers the ID 2147483647 and the counter, an
`int`, wraps to -2147483648. One more request finds the counter negative, returns -1 and
leaves an entry with the ID -2147483648 behind the entry 2147483647: the registry is not
sorted by ID, and the ID 2147483647 is not below the counter. No shrinking allocation fails
in this run. -/
theorem registry_unsorted_after_overflow :
    (∀ o ∈ overflowOps 2147483647, o.shrinkSucceeds = true)
      ∧ ∃ t, trace 3 copyElem natEqual natSmaller (overflowOps 2147483647) ⟨RunState.init, []⟩
            = .ok t
          ∧ t.run.list = .ptr ⟨some 0, some 0, 1,
              [⟨some 0, 2147483647⟩, ⟨none, -2147483648⟩], -2147483648⟩
          ∧ ¬ (([⟨some 0, 2147483647⟩, ⟨none, -2147483648⟩] : List dlliterator).map
              (fun it => it.id)).Pairwise (fun a b => a < b)
          ∧ ¬ ((2147483647 : Int) < -2147483648) := by
  refine ⟨?_, ?_⟩
  · intro o ho
    rcases List.mem_cons.1 ho with rfl | ho
    · rfl
    · rcases List.mem_append.1 ho with ho | ho
      · exact requestAndDeleteAll_shrink _ o ho
      · rcases List.mem_cons.1 ho with rfl | ho
        · rfl
        · rcases List.mem_cons.1 ho with rfl | ho
          · rfl
          · cases ho
  · obtain ⟨iss, hp⟩ := trace_overflowOps_rounds 2147483647 (Nat.le_refl _)
    have hcast : ((2147483647 : Nat) : Int) = 2147483647 := rfl
    rw [hcast] at hp
    have hreqA : dll_iteratorRequest 3 (.ptr ⟨some 0, some 0, 1, [], 2147483647⟩) true
        = .ok (2147483647, .ptr ⟨some 0, some 0, 1, [⟨some 0, 2147483647⟩], -2147483648⟩) := by
      decide
    have hreqB : dll_iteratorRequest 3
          (.ptr ⟨some 0, some 0, 1, [⟨some 0, 2147483647⟩], -2147483648⟩) true
        = .ok (-1, .ptr ⟨some 0, some 0, 1,
            [⟨some 0, 2147483647⟩, ⟨none, -2147483648⟩], -2147483648⟩) := by
      decide
    have hfin : trace 3 copyElem natEqual natSmaller
          [.call (.iteratorRequest true), .call (.iteratorRequest true)]
          ⟨⟨⟨[some ⟨none, none, some 5⟩], []⟩,
            .ptr ⟨some 0, some 0, 1, [], 2147483647⟩, 1, 0⟩, iss⟩
        = .ok ⟨⟨⟨[some ⟨none, none, some 5⟩], []⟩,
            .ptr ⟨some 0, some 0, 1, [⟨some 0, 2147483647⟩, ⟨none, -2147483648⟩],
              -2147483648⟩, 1, 0⟩, iss ++ [2147483647]⟩ := by
      simp [trace, Op.step, Call.step, requestIssued, hreqA, hreqB, isempty_ptr]
    exact ⟨_, hp.trans hfin, rfl, by decide, by decide⟩

/-- C36 as amended: take any sequence of operations on one list, started at `dll_init`: the
five insertions, the three deletions, `dll_get_front`, `dll_get_back`, and every iterator
operation (request, begin, end, next, previous, get, copy, delete of the current node,
`dll_iteratorDelete`, `dll_iteratorDeleteAll`), with any outcome of the allocations except
that no shrinking allocation of `dll_iteratorDelete` fails. If the sequence runs to its
end and at most 2147483647 IDs have been issued in it, so that the `int` ID counter has
not wrapped around, the registry is strictly increasing by ID and every ID in it is
smaller than the ID counter. `fuel` only has to be at least the number of operations. -/
theorem registry_stays_sorted {α : Type} (fuel : Nat) (duplicate : Option α → Option α)
    (is_equal issmaller : Option α → Option α → Int) (ops : List (Op α)) (t : TraceState α)
    (hfuel : ops.length ≤ fuel) (hshrink : ∀ o ∈ ops, o.shrinkSucceeds = true)
    (h : trace fuel duplicate is_equal issmaller ops ⟨RunState.init, []⟩ = .ok t)
    (hno : t.issued.length ≤ 2147483647) :
    ∃ L, t.run.list = .ptr L
      ∧ (L.iteratorsArray.map (fun it => it.id)).Pairwise (fun a b => a < b)
      ∧ ∀ it ∈ L.iteratorsArray, it.id < L.id_counter := by
  have h0 : (⟨RunState.init, []⟩ : TraceState α).issued.length ≤ 2147483647 →
      ∃ L, (⟨RunState.init, []⟩ : TraceState α).run.list = .ptr L ∧ RegistrySorted L :=
    fun _ => ⟨_, rfl, List.Pairwise.nil, fun _ hit => by cases hit⟩
  obtain ⟨L, hl, hreg⟩ := trace_sorted duplicate is_equal issmaller ops 0 _ t traceInv_init h0
    hshrink (by omega) h hno
  exact ⟨L, hl, hreg.1, hreg.2⟩

/-- Witness of C36 as amended on `sampleRegistryOps`: five IDs are issued, and the run ends
with the iterators 1, 3 and 4 registered, in this order, and the ID counter 5. -/
theorem registry_stays_sorted_witness :
    sampleRegistryOps.length ≤ 20 ∧ (∀ o ∈ sampleRegistryOps, o.shrinkSucceeds = true)
      ∧ ∃ t, trace 20 copyElem natEqual natSmaller sampleRegistryOps ⟨RunState.init, []⟩ = .ok t
          ∧ t.issued.length ≤ 2147483647
          ∧ t.run.list = .ptr ⟨some 1, some 1, 1, [⟨some 1, 1⟩, ⟨some 1, 3⟩, ⟨some 1, 4⟩], 5⟩
          ∧ ∃ L, t.run.list = .ptr L
            ∧ (L.iteratorsArray.map (fun it => it.id)).Pairwise (fun a b => a < b)
            ∧ ∀ it ∈ L.iteratorsArray, it.id < L.id_counter :=
  ⟨by decide, by decide, _, rfl, by decide, rfl,
    registry_stays_sorted 20 copyElem natEqual natSmaller sampleRegistryOps _ (by decide)
      (by decide) rfl (by decide)⟩

/-- Counterexample to C37 as stated: the list (1,0), (2,0), (3,0), built by three calls of
`dll_insert_sorted` and ordered by the key, receives (2,1). The tail (3,0) is not smaller
than the new element, and the first node that is not smaller than it, scanning from the
head, is (2,0). The new element is not placed before that node: the traversal afterwards
is (1,0), (2,0), (2,1), (3,0). -/
theorem insert_sorted_tie_goes_after_equal :
    insert_all_sorted 4 keySmaller copyElem Mem.empty (dll_init true true).2
        [some (1, 0), some (2, 0), some (3, 0)] = .ok ([0, 0, 0], tieMem, .ptr tieList)
      ∧ keySmaller (some (3, 0)) (some (2, 1)) = 0
      ∧ keySmaller (some (1, 0)) (some (2, 1)) ≠ 0
      ∧ keySmaller (some (2, 0)) (some (2, 1)) = 0
      ∧ (dll_insert_sorted 4 tieMem (.ptr tieList) (some (2, 1)) keySmaller copyElem true
          >>= fun r => traverse 6 r.2.1 r.2.2 >>= fun tr => .ok (r.1, tr.1))
        = .ok (0, [some (1, 0), some (2, 0), some (2, 1), some (3, 0)])
      ∧ [some (1, 0), some (2, 0), some (2, 1), some (3, 0)]
        ≠ [some (1, 0), some (2, 1), some (2, 0), some (3, 0)] := by
  decide

/-- C37 as amended: on a list holding the non-empty chain that ends with the node `t`, with
the node allocation succeeding: if `issmaller(tail, new)` holds, the new node is linked
after `t` and becomes the tail. Otherwise, if `c` is the first node, scanning from the
head, whose element is larger than the new one (`issmaller(new, c)` holds), the new node is
linked immediately before `c`; the nodes before `c`, among them those equal to the new
element, stay before the new node. -/
theorem insert_sorted_placement {α : Type} (fuel : Nat) (m : Mem α) (L : DoublyLinkedList_ADT)
    (ys : List (Nat × Option α)) (t : Nat × Option α) (e : α)
    (issmaller : Option α → Option α → Int) (duplicate : Option α → Option α)
    (hc : Chain m L (ys ++ [t])) :
    (issmaller t.2 (some e) ≠ 0 →
        ∃ m' L', dll_insert_sorted fuel m (.ptr L) (some e) issmaller duplicate true
            = .ok (0, m', .ptr L')
          ∧ Chain m' L' (ys ++ [t] ++ [(m.fresh, duplicate (some e))])
          ∧ L'.tail = some m.fresh)
      ∧ (issmaller t.2 (some e) = 0 →
        ∀ pre c post, ys ++ [t] = pre ++ c :: post →
          (∀ y ∈ pre, issmaller (some e) y.2 = 0) → issmaller (some e) c.2 ≠ 0 →
          pre.length < fuel →
          ∃ m' L', dll_insert_sorted fuel m (.ptr L) (some e) issmaller duplicate true
              = .ok (0, m', .ptr L')
            ∧ Chain m' L' (pre ++ (m.fresh, duplicate (some e)) :: c :: post)) := by
  refine ⟨?_, ?_⟩
  · intro hfast
    obtain ⟨m', L', hr, hch, -⟩ := insert_sorted_fast hc fuel e issmaller duplicate hfast
    exact ⟨m', L', hr, hch, Chain.tail_last hch⟩
  · intro hfast pre c post hsplit hpre hstop hfuel
    obtain ⟨m', L', hr, hch, -⟩ :=
      insert_sorted_slow (hsplit ▸ hc) hsplit.symm fuel e issmaller duplicate hfast hpre
        (Or.inl hstop) hfuel
    exact ⟨m', L', hr, hch⟩

/-- Witness of C37 as amended: (2,1) goes into the list (1,0), (2,0), (3,0) before (3,0),
the first node with a larger key, hence after (2,0). -/
theorem insert_sorted_placement_witness :
    Chain tieMem tieList ([(0, some (1, 0)), (1, some (2, 0))] ++ [(2, some (3, 0))])
      ∧ ∃ m' L', dll_insert_sorted 4 tieMem (.ptr tieList) (some (2, 1)) keySmaller copyElem true
            = .ok (0, m', .ptr L')
          ∧ Chain m' L' ([(0, some (1, 0)), (1, some (2, 0))]
              ++ (3, some (2, 1)) :: (2, some (3, 0)) :: []) :=
  have hc : Chain tieMem tieList ([(0, some (1, 0)), (1, some (2, 0))] ++ [(2, some (3, 0))]) :=
    ⟨⟨rfl, rfl, rfl, trivial⟩, by decide, rfl, rfl, rfl⟩
  ⟨hc, (insert_sorted_placement 4 tieMem tieList _ _ (2, 1) keySmaller copyElem hc).2
    (by decide) [(0, some (1, 0)), (1, some (2, 0))] (2, some (3, 0)) [] rfl (by decide)
    (by decide) (by decide)⟩

/-- C38: on a well-formed list, `dll_delete_front` and `dll_delete_back` run without a
faulting memory access exactly when the list is not empty. On a non-empty list both
return. On an empty list both end in a read through a null pointer: `size` has been
decremented to -1 by then, the branch for the last element is taken, and `head`
(resp. `tail`), which is `NULL`, is dereferenced; no result is returned. -/
theorem delete_front_back_fault_iff_empty {α : Type} (m : Mem α) (L : DoublyLinkedList_ADT)
    (hwf : WellFormed m L) :
    (L.size ≠ 0 →
        (∃ m' L', dll_delete_front m (.ptr L) = .ok (m', .ptr L'))
          ∧ (∃ m' L', dll_delete_back m (.ptr L) = .ok (m', .ptr L')))
      ∧ (L.size = 0 →
        dll_delete_front m (.ptr L) = .fault ∧ dll_delete_back m (.ptr L) = .fault
          ∧ L.size - 1 = -1 ∧ ¬ (L.size - 1 > 0)
          ∧ m.load L.head = .fault ∧ m.load L.tail = .fault) := by
  obtain ⟨xs, hc⟩ := hwf.holds_chain
  refine ⟨?_, ?_⟩
  · intro hs
    have hne : xs ≠ [] := fun h0 => hs (hc.size_eq_zero_iff.2 h0)
    constructor
    · cases xs with
      | nil => exact absurd rfl hne
      | cons x post =>
        obtain ⟨m', L', h, -⟩ := delete_front_chain hc
        exact ⟨m', L', h⟩
    · rcases eq_nil_or_snoc xs with h0 | ⟨pre, x, rfl⟩
      · exact absurd h0 hne
      · obtain ⟨m', L', h, -⟩ := delete_back_chain hc
        exact ⟨m', L', h⟩
  · intro hs
    have hnil : xs = [] := hc.size_eq_zero_iff.1 hs
    subst hnil
    have hh : L.head = none := hc.head_eq
    have ht : L.tail = none := hc.tail_eq
    refine ⟨?_, ?_, by omega, by omega, by rw [hh]; rfl, by rw [ht]; rfl⟩
    · simp [dll_delete_front, list_t.deref, hs, hh, iteratorDeleteAll_ptr, Mem.load]
    · simp [dll_delete_back, list_t.deref, hs, ht, iteratorDeleteAll_ptr, Mem.load]

/-- Witness of C38: the list 10, 20 of `pairMem`, and an empty list. -/
theorem delete_front_back_fault_iff_empty_witness :
    WellFormed pairMem pairFirst
      ∧ (∃ m' L', dll_delete_front pairMem (.ptr pairFirst) = .ok (m', .ptr L'))
      ∧ (∃ m' L', dll_delete_back pairMem (.ptr pairFirst) = .ok (m', .ptr L'))
      ∧ WellFormed pairMem ⟨none, none, 0, [], 0⟩
      ∧ dll_delete_front pairMem (.ptr ⟨none, none, 0, [], 0⟩) = .fault
      ∧ dll_delete_back pairMem (.ptr ⟨none, none, 0, [], 0⟩) = .fault :=
  have hc : Chain pairMem pairFirst [(0, some 10), (1, some 20)] :=
    ⟨⟨rfl, rfl, trivial⟩, by decide, rfl, rfl, rfl⟩
  have he : Chain pairMem ⟨none, none, 0, [], 0⟩ ([] : List (Nat × Option Nat)) :=
    ⟨trivial, List.nodup_nil, rfl, rfl, rfl⟩
  have h1 := (delete_front_back_fault_iff_empty pairMem pairFirst hc.wellFormed).1 (by decide)
  have h2 := (delete_front_back_fault_iff_empty pairMem ⟨none, none, 0, [], 0⟩
    he.wellFormed).2 rfl
  ⟨hc.wellFormed, h1.1, h1.2, he.wellFormed, h2.1, h2.2.1⟩

theorem pairFive_lookup_stuck (fuel : Nat) :
    dll_iteratorGetIdxWithID fuel pairFive 1 = .timeout := by
  cases fuel with
  | zero => rfl
  | succ k =>
    have h : dll_iteratorGetIdxWithID (k + 1) pairFive 1
        = dll_iteratorBinarySearch pairFive 1 k 0 1 := rfl
    rw [h]; exact (pairFive_search_cycle k).1

theorem pairFour_lookup_stuck (fuel : Nat) :
    dll_iteratorGetIdxWithID fuel pairFour 2 = .timeout := by
  cases fuel with
  | zero => rfl
  | succ k =>
    cases k with
    | zero => rfl
    | succ j =>
      have h : dll_iteratorGetIdxWithID (j + 1 + 1) pairFour 2
          = dll_iteratorBinarySearch pairFour 2 j 0 1 := rfl
      rw [h]; exact (pairFour_search_cycle j).1

/-- The lookup of the ID 3 in the table of `pairFive` finds the index 3 when it has the two
steps it needs. -/
theorem pairFive_lookup_three (fuel : Nat) :
    dll_iteratorGetIdxWithID fuel pairFive 3 = .timeout
      ∨ (dll_iteratorGetIdxWithID fuel pairFive 3 = .ok 3 ∧ (3 : Int) ≠ -1) := by
  cases fuel with
  | zero => exact Or.inl rfl
  | succ k =>
    cases k with
    | zero => exact Or.inl rfl
    | succ j => exact Or.inr ⟨rfl, by decide⟩

/-- The lookup of the ID 0 in the table of `pairFour` finds the index 0 when it has the two
steps it needs. -/
theorem pairFour_lookup_zero (fuel : Nat) :
    dll_iteratorGetIdxWithID fuel pairFour 0 = .timeout
      ∨ (dll_iteratorGetIdxWithID fuel pairFour 0 = .ok 0 ∧ (0 : Int) ≠ -1) := by
  cases fuel with
  | zero => exact Or.inl rfl
  | succ k =>
    cases k with
    | zero => exact Or.inl rfl
    | succ j => exact Or.inr ⟨rfl, by decide⟩

/-- C19, the code at a failing input: the list 10, 20 with the five iterators 0 to 4 that
five calls of `dll_iteratorRequest` leave. The ID 1 is registered and positioned on the
head node. `dll_iteratorDeleteCurrentNode` with the ID 1 does not return, whatever the step
budget: its first step is the ID lookup, whose search goes from the range [0, 4] to [0, 1],
then to [1, 4], then back to [0, 1], and so on. No node is removed and no value is
returned. With the ID 3 the same call returns 0, removes the head node and leaves the
iterator 3 on the former successor. -/
theorem iterator_delete_current_lookup_diverges :
    (insert_all_back copyElem (Mem.empty : Mem Nat) (dll_init true true).2 [some 10, some 20]
        >>= fun r => dll_iteratorRequest 5 r.2.2 true
        >>= fun r1 => dll_iteratorRequest 5 r1.2 true
        >>= fun r2 => dll_iteratorRequest 5 r2.2 true
        >>= fun r3 => dll_iteratorRequest 5 r3.2 true
        >>= fun r4 => dll_iteratorRequest 5 r4.2 true
        >>= fun r5 => .ok (r.2.1, r5.2))
        = .ok (⟨[some ⟨none, some 1, some 10⟩, some ⟨some 0, none, some 20⟩], []⟩,
            .ptr pairFive)
      ∧ pairFive.size = 2
      ∧ pairFive.iteratorsArray[1]? = some ⟨pairFive.head, 1⟩
      ∧ (∀ fuel (m : Mem Nat),
          dll_iteratorDeleteCurrentNode fuel m (.ptr pairFive) 1 = .timeout)
      ∧ dll_iteratorDeleteCurrentNode 5
          (⟨[some ⟨none, some 1, some 10⟩, some ⟨some 0, none, some 20⟩], []⟩ : Mem Nat)
          (.ptr pairFive) 3
        = .ok (0, ⟨[none, some ⟨none, none, some 20⟩], [some 10]⟩,
            .ptr ⟨some 1, some 1, 1,
              [⟨some 0, 0⟩, ⟨some 0, 1⟩, ⟨some 0, 2⟩, ⟨some 1, 3⟩, ⟨some 0, 4⟩], 5⟩) :=
  ⟨by decide, rfl, rfl,
    fun fuel m => iteratorDeleteCurrentNode_stuck m (by decide) (pairFive_lookup_stuck fuel),
    by decide⟩

/-- C28, the code at a failing input: the list 10, 20 with the five iterators 0 to 4 that
five calls of `dll_iteratorRequest` leave, all on the head node. The ID 1 is registered.
Neither `dll_iteratorNext` nor `dll_iteratorPrev` with the ID 1 returns, whatever the step
budget, because the ID lookup they start with does not return: no code 0 or 2 is produced
and no target moves. With the ID 3, `dll_iteratorNext` returns 0 and moves that entry to
the second node, and `dll_iteratorPrev` returns 2. -/
theorem iterator_next_prev_lookup_diverges :
    (insert_all_back copyElem (Mem.empty : Mem Nat) (dll_init true true).2 [some 10, some 20]
        >>= fun r => dll_iteratorRequest 5 r.2.2 true
        >>= fun r1 => dll_iteratorRequest 5 r1.2 true
        >>= fun r2 => dll_iteratorRequest 5 r2.2 true
        >>= fun r3 => dll_iteratorRequest 5 r3.2 true
        >>= fun r4 => dll_iteratorRequest 5 r4.2 true
        >>= fun r5 => .ok (r.2.1, r5.2))
        = .ok (⟨[some ⟨none, some 1, some 10⟩, some ⟨some 0, none, some 20⟩], []⟩,
            .ptr pairFive)
      ∧ pairFive.size = 2
      ∧ pairFive.iteratorsArray[1]? = some ⟨pairFive.head, 1⟩
      ∧ pairFive.head ≠ pairFive.tail
      ∧ (∀ fuel (m : Mem Nat), dll_iteratorNext fuel m (.ptr pairFive) 1 = .timeout)
      ∧ (∀ fuel (m : Mem Nat), dll_iteratorPrev fuel m (.ptr pairFive) 1 = .timeout)
      ∧ dll_iteratorNext 5
          (⟨[some ⟨none, some 1, some 10⟩, some ⟨some 0, none, some 20⟩], []⟩ : Mem Nat)
          (.ptr pairFive) 3
        = .ok (0, .ptr ⟨some 0, some 1, 2,
            [⟨some 0, 0⟩, ⟨some 0, 1⟩, ⟨some 0, 2⟩, ⟨some 1, 3⟩, ⟨some 0, 4⟩], 5⟩)
      ∧ dll_iteratorPrev 5
          (⟨[some ⟨none, some 1, some 10⟩, some ⟨some 0, none, some 20⟩], []⟩ : Mem Nat)
          (.ptr pairFive) 3
        = .ok (2, .ptr pairFive) :=
  ⟨by decide, rfl, rfl, by decide,
    fun fuel m => iteratorNext_stuck m (by decide) (pairFive_lookup_stuck fuel),
    fun fuel m => iteratorPrev_stuck m (by decide) (pairFive_lookup_stuck fuel),
    by decide, by decide⟩

/-- C30, the code at failing inputs. On the list 10, 20 with the iterators 0 to 4
(`pairFive`, the state after five calls of `dll_iteratorRequest`), `dll_iteratorCopy` does
not return, whatever the step budget, (a) for the registered source 1 with `*dest == -1`,
and (b) for the registered source 3 with the registered destination 1. After
`dll_iteratorDelete` of the iterator 2 (`pairFour`, IDs 0, 1, 3, 4) it does not return
(c) for the unregistered source 2, where 2 is expected, and (d) for the registered source 0
with the unregistered destination 2, where -1 is expected. In each case the ID lookup of
that source or destination does not return. With the source 3 and `*dest == -1` on
`pairFive` the call returns 0 and registers the ID 5. -/
theorem iterator_copy_lookup_diverges :
    (insert_all_back copyElem (Mem.empty : Mem Nat) (dll_init true true).2 [some 10, some 20]
        >>= fun r => dll_iteratorRequest 5 r.2.2 true
        >>= fun r1 => dll_iteratorRequest 5 r1.2 true
        >>= fun r2 => dll_iteratorRequest 5 r2.2 true
        >>= fun r3 => dll_iteratorRequest 5 r3.2 true
        >>= fun r4 => dll_iteratorRequest 5 r4.2 true
        >>= fun r5 => .ok r5.2) = .ok (.ptr pairFive)
      ∧ pairFive.size = 2
      ∧ pairFive.iteratorsArray.map (fun it => it.id) = [0, 1, 2, 3, 4]
      ∧ (∀ fuel ok, dll_iteratorCopy fuel (.ptr pairFive) 1 (-1) ok = .timeout)
      ∧ (∀ fuel ok, dll_iteratorCopy fuel (.ptr pairFive) 3 1 ok = .timeout)
      ∧ dll_iteratorDelete 5 (.ptr pairFive) 2 true = .ok (0, .ptr pairFour)
      ∧ pairFour.iteratorsArray.map (fun it => it.id) = [0, 1, 3, 4]
      ∧ (∀ fuel dest ok, dll_iteratorCopy fuel (.ptr pairFour) 2 dest ok = .timeout)
      ∧ (∀ fuel ok, dll_iteratorCopy fuel (.ptr pairFour) 0 2 ok = .timeout)
      ∧ dll_iteratorCopy 6 (.ptr pairFive) 3 (-1) true
        = .ok (0, .ptr ⟨some 0, some 1, 2,
            [⟨some 0, 0⟩, ⟨some 0, 1⟩, ⟨some 0, 2⟩, ⟨some 0, 3⟩, ⟨some 0, 4⟩, ⟨some 0, 5⟩],
            6⟩, 5) :=
  ⟨by decide, rfl, rfl,
    fun fuel ok => iteratorCopy_stuck_src (by decide) (pairFive_lookup_stuck fuel) (-1) ok,
    fun fuel ok => iteratorCopy_stuck_dest (by decide) (pairFive_lookup_three fuel)
      (by decide) (pairFive_lookup_stuck fuel) ok,
    by decide, rfl,
    fun fuel dest ok => iteratorCopy_stuck_src (by decide) (pairFour_lookup_stuck fuel) dest ok,
    fun fuel ok => iteratorCopy_stuck_dest (by decide) (pairFour_lookup_zero fuel)
      (by decide) (pairFour_lookup_stuck fuel) ok,
    by decide⟩

/-- C31, the code at two failing inputs. On the list 10, 20 with the iterators 0 to 4
(`pairFive`, the state after five calls of `dll_iteratorRequest`), `dll_iteratorDelete` of
the registered ID 1 does not return, whatever the step budget and the outcome of the
allocation: no entry is removed and no 0 is returned. `dll_iteratorDelete` of the ID 2
returns 0 and leaves the IDs 0, 1, 3, 4 (`pairFour`); a second `dll_iteratorDelete` of the
ID 2, now unregistered, does not return either, where -1 is expected. In both cases the ID
lookup does not return. -/
theorem iterator_delete_lookup_diverges :
    (insert_all_back copyElem (Mem.empty : Mem Nat) (dll_init true true).2 [some 10, some 20]
        >>= fun r => dll_iteratorRequest 5 r.2.2 true
        >>= fun r1 => dll_iteratorRequest 5 r1.2 true
        >>= fun r2 => dll_iteratorRequest 5 r2.2 true
        >>= fun r3 => dll_iteratorRequest 5 r3.2 true
        >>= fun r4 => dll_iteratorRequest 5 r4.2 true
        >>= fun r5 => .ok r5.2) = .ok (.ptr pairFive)
      ∧ pairFive.size = 2
      ∧ pairFive.iteratorsArray.map (fun it => it.id) = [0, 1, 2, 3, 4]
      ∧ (∀ fuel ok, dll_iteratorDelete fuel (.ptr pairFive) 1 ok = .timeout)
      ∧ dll_iteratorDelete 5 (.ptr pairFive) 2 true = .ok (0, .ptr pairFour)
      ∧ pairFour.iteratorsArray.map (fun it => it.id) = [0, 1, 3, 4]
      ∧ (∀ fuel ok, dll_iteratorDelete fuel (.ptr pairFour) 2 ok = .timeout) :=
  ⟨by decide, rfl, rfl,
    fun fuel ok => iteratorDelete_stuck (by decide) (pairFive_lookup_stuck fuel) ok,
    by decide, rfl,
    fun fuel ok => iteratorDelete_stuck (by decide) (pairFour_lookup_stuck fuel) ok⟩

end DLL
